import Mathlib

/-!
# llvm-mctoll: fence insertion and pointer-arithmetic canonicalization

A shallow embedding of `FencesPass.cpp` and `PeepholeOptimizationPass.cpp`.

The IR is modelled as data: a function is a list of basic blocks, a basic block a list of
instructions, an instruction carries an identity (`id`, standing for the address of the
`Instruction` object), a result type and a kind with its operands.  An operand that is the
result of an instruction is a reference to that instruction's identity, resolved in the
enclosing function, as a `Value*` is in LLVM.  Value names (`takeName`) are labels only and are
not part of the model.  The updates of the function (insertion, erasure, redirection of uses)
address instructions by identity.

Where the C++ code has no defined result the model returns `none`: a provenance walk that
does not finish, an `IRBuilder` built on a null insertion point, `replaceAllUsesWith` of a
value by itself, an erasure of the instruction a saved iterator rests on.  The `IRBuilder`
calls follow LLVM: `CreatePointerCast` and `CreateCast` return their operand when it has the
destination type already and fold constants, otherwise they insert an instruction before the
insertion point.
-/

namespace MCToll

/-! ## Data model -/

/-- LLVM types, as far as the two passes look at them. -/
inductive Ty where
  | void
  | int (bits : Nat)
  | ptr (pointee : Ty) (addrSpace : Nat)
  | vec (n : Nat) (elem : Ty)
  | other (tag : Nat)
  deriving DecidableEq, Repr

/-- The test `isa<IntegerType>(T)`. -/
def Ty.isIntegerTy : Ty → Bool
  | .int _ => true
  | _ => false

/-- The test `Type::isIntOrIntVectorTy`. -/
def Ty.isIntOrIntVectorTy : Ty → Bool
  | .int _ => true
  | .vec _ (.int _) => true
  | _ => false

/-- The address space of a pointer (or vector of pointers) type, `Type::getPointerAddressSpace`. -/
def Ty.getPointerAddressSpace : Ty → Nat
  | .ptr _ a => a
  | .vec _ (.ptr _ a) => a
  | _ => 0

/-- The enumeration `llvm::AtomicOrdering`. -/
inductive AtomicOrdering where
  | NotAtomic
  | Unordered
  | Monotonic
  | Acquire
  | Release
  | AcquireRelease
  | SequentiallyConsistent
  deriving DecidableEq, Repr

/-- The cast opcodes of `llvm::CastInst`. -/
inductive CastOp where
  | Trunc | ZExt | SExt | FPToUI | FPToSI | UIToFP | SIToFP | FPTrunc | FPExt
  | PtrToInt | IntToPtr | BitCast | AddrSpaceCast
  deriving DecidableEq, Repr

/-- The opcodes of `llvm::BinaryOperator`. -/
inductive BinOpcode where
  | Add | FAdd | Sub | FSub | Mul | FMul | UDiv | SDiv | FDiv | URem | SRem | FRem
  | Shl | LShr | AShr | And | Or | Xor
  deriving DecidableEq, Repr

/-- Constants: integer literals, addresses of globals, and casts of constants folded by the
`IRBuilder` constant folder (kept symbolic). -/
inductive Constant where
  | int (ty : Ty) (v : Int)
  | global (sym : Nat) (ty : Ty)
  | foldedCast (c : Constant) (ty : Ty)
  deriving DecidableEq, Repr

/-- The type of a constant. -/
def Constant.ty : Constant → Ty
  | .int t _ => t
  | .global _ t => t
  | .foldedCast _ t => t

/-- An operand: the result of an instruction (by identity), a function argument, or a
constant. -/
inductive Value where
  | inst (id : Nat)
  | arg (idx : Nat) (ty : Ty)
  | const (c : Constant)
  deriving DecidableEq, Repr

/-- Instruction kinds with their operands.  `terminator` and `other` carry the answer of
`mayReadOrWriteMemory` for the opcodes that are not singled out (calls, atomics, ...). -/
inductive InstKind where
  | alloca (arraySize : Value)
  | load (ptr : Value)
  | store (val : Value) (ptr : Value)
  | fence (ordering : AtomicOrdering)
  | gep (ptr : Value) (idx : List Value)
  | cast (op : CastOp) (src : Value)
  | binop (op : BinOpcode) (lhs : Value) (rhs : Value)
  | phi (incoming : List Value)
  | terminator (mayRW : Bool) (operands : List Value)
  | other (mayRW : Bool) (operands : List Value)
  deriving DecidableEq, Repr

/-- The operand list of an instruction kind, in operand order. -/
def InstKind.operands : InstKind → List Value
  | .alloca n => [n]
  | .load p => [p]
  | .store v p => [v, p]
  | .fence _ => []
  | .gep p idx => p :: idx
  | .cast _ s => [s]
  | .binop _ l r => [l, r]
  | .phi vs => vs
  | .terminator _ vs => vs
  | .other _ vs => vs

/-- Rewrite every operand slot with `f`. -/
def InstKind.mapOperands (f : Value → Value) : InstKind → InstKind
  | .alloca n => .alloca (f n)
  | .load p => .load (f p)
  | .store v p => .store (f v) (f p)
  | .fence o => .fence o
  | .gep p idx => .gep (f p) (idx.map f)
  | .cast op s => .cast op (f s)
  | .binop op l r => .binop op (f l) (f r)
  | .phi vs => .phi (vs.map f)
  | .terminator m vs => .terminator m (vs.map f)
  | .other m vs => .other m (vs.map f)

/-- An instruction: identity, result type, kind. -/
structure Instruction where
  id : Nat
  ty : Ty
  kind : InstKind
  deriving DecidableEq, Repr

/-- The query `Instruction::mayReadOrWriteMemory`: loads, stores and fences always do; for the
opcodes not singled out the instruction carries the answer. -/
def Instruction.mayReadOrWriteMemory (I : Instruction) : Bool :=
  match I.kind with
  | .load _ => true
  | .store _ _ => true
  | .fence _ => true
  | .terminator m _ => m
  | .other m _ => m
  | _ => false

/-- The test `Instruction::isTerminator`. -/
def Instruction.isTerminator (I : Instruction) : Bool :=
  match I.kind with
  | .terminator _ _ => true
  | _ => false

/-- A basic block is its instruction list. -/
abbrev BasicBlock := List Instruction

/-- A function is its list of basic blocks. -/
structure Function where
  blocks : List BasicBlock
  deriving DecidableEq, Repr

/-- All instructions of a function in layout order. -/
def Function.insts (F : Function) : List Instruction := F.blocks.flatten

/-- Resolve an instruction identity in the function. -/
def Function.find (F : Function) (id : Nat) : Option Instruction :=
  F.insts.find? (fun I => I.id == id)

/-- The test `F.isDeclaration()`: no body. -/
def Function.isDeclaration (F : Function) : Bool := F.blocks.isEmpty

/-- An identity no instruction of the function has: the identity of the next created object. -/
def Function.freshId (F : Function) : Nat := (F.insts.map (fun I => I.id)).foldr max 0 + 1

/-- The type of a value, `Value::getType`. -/
def Function.typeOf (F : Function) : Value → Option Ty
  | .inst id => (F.find id).map (fun I => I.ty)
  | .arg _ t => some t
  | .const c => some c.ty

/-- The type `i8*`. -/
def BytePtrTy : Ty := .ptr (.int 8) 0

/-- The type `i32*`. -/
def I32PtrTy : Ty := .ptr (.int 32) 0

/-! ## FencesPass.cpp -/

/-- The downcast `dyn_cast<GetElementPtrInst>(Ptr)`, giving `getPointerOperand()`. -/
def asGEP (F : Function) : Value → Option Value
  | .inst id =>
    match F.find id with
    | some I =>
      match I.kind with
      | .gep p _ => some p
      | _ => none
    | none => none
  | _ => none

/-- The downcast `dyn_cast<CastInst>(Ptr)`, giving `getOperand(0)`. -/
def asCast (F : Function) : Value → Option Value
  | .inst id =>
    match F.find id with
    | some I =>
      match I.kind with
      | .cast _ s => some s
      | _ => none
    | none => none
  | _ => none

/-- The test `isa<AllocaInst>(Ptr)`. -/
def isAlloca (F : Function) : Value → Bool
  | .inst id =>
    match F.find id with
    | some I =>
      match I.kind with
      | .alloca _ => true
      | _ => false
    | none => false
  | _ => false

/-- One execution of the body of the `while` loop of `PlaceFencesInBlock`: the two `if`s in
sequence, the second looking at the value the first may have just assigned. -/
def provenanceStep (F : Function) (Ptr : Value) : Value :=
  let Ptr1 := match asGEP F Ptr with
    | some p => p
    | none => Ptr
  match asCast F Ptr1 with
  | some s => s
  | none => Ptr1

/-- The `while (isa<GetElementPtrInst>(Ptr) || isa<CastInst>(Ptr))` loop; `fuel` bounds the
number of times the loop condition is evaluated, `none` is "still looping". -/
def provenanceRoot (F : Function) : Nat → Value → Option Value
  | 0, _ => none
  | fuel + 1, Ptr =>
    if (asGEP F Ptr).isSome || (asCast F Ptr).isSome then
      provenanceRoot F fuel (provenanceStep F Ptr)
    else some Ptr

/-- Where the fence goes: `LI->getNextNode()` for a load, the store itself for a store. -/
inductive InsertPoint where
  | nextNode
  | self
  deriving DecidableEq, Repr

/-- The `switch (I.getOpcode())` of `PlaceFencesInBlock`: pointer operand and insertion point
of a load or store, nothing (`Ptr == nullptr`) for any other opcode. -/
def accessOf (I : Instruction) : Option (Value × InsertPoint) :=
  match I.kind with
  | .load p => some (p, .nextNode)
  | .store _ p => some (p, .self)
  | _ => none

/-- The instruction `Builder.CreateFence(AtomicOrdering::SequentiallyConsistent)` creates. -/
def seqCstFence (id : Nat) : Instruction :=
  ⟨id, .void, .fence .SequentiallyConsistent⟩

/-- The loop of `PlaceFencesInBlock` over the instructions from the current one on.  The
result lists the block from the current instruction on after the insertions, with the final
`Count`.  A fence inserted after a load is the next instruction the C++ loop visits; its
opcode takes the `default` branch, so the model steps over it.  `none`: the provenance walk
did not finish within `fuel`, or the insertion point of a load is null (the load is the last
instruction of the block) and `IRBuilder` dereferences it.  The `k`-th created fence has
identity `fresh + k`. -/
def PlaceFencesInBlock.loop (F : Function) (fuel fresh : Nat) :
    List Instruction → Nat → Option (List Instruction × Nat)
  | [], Count => some ([], Count)
  | I :: rest, Count =>
    match accessOf I with
    | none => (PlaceFencesInBlock.loop F fuel fresh rest Count).map (fun r => (I :: r.1, r.2))
    | some (Ptr, InsertPt) =>
      match provenanceRoot F fuel Ptr with
      | none => none
      | some Root =>
        if isAlloca F Root then
          (PlaceFencesInBlock.loop F fuel fresh rest Count).map (fun r => (I :: r.1, r.2))
        else
          match InsertPt, rest with
          | .self, _ =>
            (PlaceFencesInBlock.loop F fuel fresh rest (Count + 1)).map
              (fun r => (seqCstFence (fresh + Count) :: I :: r.1, r.2))
          | .nextNode, [] => none
          | .nextNode, _ :: _ =>
            (PlaceFencesInBlock.loop F fuel fresh rest (Count + 1)).map
              (fun r => (I :: seqCstFence (fresh + Count) :: r.1, r.2))

/-- The function `PlaceFencesInBlock(BB)`: the block after insertion and the returned count.
`F` is the enclosing function, in which operands are resolved. -/
def PlaceFencesInBlock (F : Function) (fuel fresh : Nat) (BB : BasicBlock) :
    Option (BasicBlock × Nat) :=
  PlaceFencesInBlock.loop F fuel fresh BB 0

/-- The loop of `OptimizeFencesAway`, the flag `HasEquivalentFence` being the state. -/
def OptimizeFencesAway.loop : Bool → List Instruction → List Instruction
  | _, [] => []
  | HasEquivalentFence, I :: rest =>
    match I.kind with
    | .fence ordering =>
      if ordering = .SequentiallyConsistent then
        if HasEquivalentFence then OptimizeFencesAway.loop true rest
        else I :: OptimizeFencesAway.loop true rest
      else I :: OptimizeFencesAway.loop false rest
    | _ =>
      if I.mayReadOrWriteMemory then I :: OptimizeFencesAway.loop false rest
      else I :: OptimizeFencesAway.loop HasEquivalentFence rest

/-- The function `OptimizeFencesAway(BB)`. -/
def OptimizeFencesAway (BB : BasicBlock) : BasicBlock :=
  OptimizeFencesAway.loop false BB

/-- The loop `for (BasicBlock &BB : F)` of `FencesPass::runOnFunction`: `done` are the blocks
already processed, the function at each step is `done ++ todo`. -/
def FencesPass.runOnBlocks (OptimizeFences : Bool) (fuel : Nat) :
    List BasicBlock → List BasicBlock → Option (List BasicBlock)
  | done, [] => some done
  | done, BB :: todo =>
    let F : Function := ⟨done ++ BB :: todo⟩
    match PlaceFencesInBlock F fuel F.freshId BB with
    | none => none
    | some (BB1, _) =>
      let BB2 := if OptimizeFences then OptimizeFencesAway BB1 else BB1
      FencesPass.runOnBlocks OptimizeFences fuel (done ++ [BB2]) todo

/-- The method `FencesPass::runOnFunction`; the diagnostic line is not modelled. -/
def FencesPass.runOnFunction (OptimizeFences : Bool) (fuel : Nat) (F : Function) :
    Option Function :=
  if F.isDeclaration then some F
  else (FencesPass.runOnBlocks OptimizeFences fuel [] F.blocks).map Function.mk

/-! ## PeepholeOptimizationPass.cpp -/

/-- The block at position `bi` of the function. -/
def Function.block (F : Function) (bi : Nat) : BasicBlock := F.blocks.getD bi []

/-- The number of uses of an instruction, `Value::getNumUses`: the operand slots of the
function that refer to it. -/
def Function.numUses (F : Function) (id : Nat) : Nat :=
  (F.insts.map (fun I => I.kind.operands.count (.inst id))).sum

/-- Redirect the operand slots of one instruction that refer to `old`. -/
def Instruction.replaceUsesOfWith (old : Nat) (New : Value) (I : Instruction) : Instruction :=
  ⟨I.id, I.ty, I.kind.mapOperands (fun v => if v = .inst old then New else v)⟩

/-- Redirect the uses of `old` in a list of instructions. -/
def rauwL (old : Nat) (New : Value) (L : List Instruction) : List Instruction :=
  L.map (Instruction.replaceUsesOfWith old New)

/-- Unlink the instruction `id` from a list of instructions. -/
def eraseL (id : Nat) (L : List Instruction) : List Instruction :=
  L.filter (fun I => I.id != id)

/-- Link `New` immediately before the instruction `ip` in a list of instructions. -/
def insertBeforeL (ip : Nat) (New : Instruction) (L : List Instruction) : List Instruction :=
  L.flatMap (fun I => if I.id = ip then [New, I] else [I])

/-- The update `Old->replaceAllUsesWith(New)`. -/
def Function.replaceAllUsesWith (F : Function) (old : Nat) (New : Value) : Function :=
  ⟨F.blocks.map (rauwL old New)⟩

/-- The update `I->eraseFromParent()`. -/
def Function.eraseFromParent (F : Function) (id : Nat) : Function :=
  ⟨F.blocks.map (eraseL id)⟩

/-- Insert `New` immediately before the instruction `ip`, in the block of `ip`. -/
def Function.insertBefore (F : Function) (ip : Nat) (New : Instruction) : Function :=
  ⟨F.blocks.map (insertBeforeL ip New)⟩

/-- The call `IRBuilder::Insert` of a builder whose insertion point is the instruction `ip`:
the created instruction is a new object and goes immediately before `ip`. -/
def IRBuilder.Insert (F : Function) (ip : Nat) (ty : Ty) (kind : InstKind) :
    Function × Value :=
  (F.insertBefore ip ⟨F.freshId, ty, kind⟩, .inst F.freshId)

/-- The opcode `CastInst::CreatePointerCast` chooses: `ptrtoint` to an integer type, otherwise
`addrspacecast` when the address spaces differ and `bitcast` when they agree. -/
def pointerCastOp (SrcTy : Option Ty) (DestTy : Ty) : CastOp :=
  if DestTy.isIntOrIntVectorTy then .PtrToInt
  else if (SrcTy.map Ty.getPointerAddressSpace).getD 0 ≠ DestTy.getPointerAddressSpace then
    .AddrSpaceCast
  else .BitCast

/-- The call `IRBuilder::CreatePointerCast(V, DestTy)`: `V` itself when it already has the
type, a folded constant when `V` is a constant, a new cast instruction otherwise. -/
def IRBuilder.CreatePointerCast (F : Function) (ip : Nat) (V : Value) (DestTy : Ty) :
    Function × Value :=
  if F.typeOf V = some DestTy then (F, V)
  else
    match V with
    | .const c => (F, .const (.foldedCast c DestTy))
    | _ => IRBuilder.Insert F ip DestTy (.cast (pointerCastOp (F.typeOf V) DestTy) V)

/-- The call `IRBuilder::CreateIntToPtr(V, DestTy)`, that is `CreateCast(IntToPtr, ...)`. -/
def IRBuilder.CreateIntToPtr (F : Function) (ip : Nat) (V : Value) (DestTy : Ty) :
    Function × Value :=
  if F.typeOf V = some DestTy then (F, V)
  else
    match V with
    | .const c => (F, .const (.foldedCast c DestTy))
    | _ => IRBuilder.Insert F ip DestTy (.cast .IntToPtr V)

/-- The call `IRBuilder::CreateGEP(ElementTy, Ptr, IdxList)` with a single index: the result
has type pointer to `ElementTy` in the address space of `Ptr`.  The constant-folding branch
of the builder needs a constant `Ptr`; both callers pass the result of an instruction. -/
def IRBuilder.CreateGEP (F : Function) (ip : Nat) (ElementTy : Ty) (Ptr : Value)
    (IdxList : List Value) : Function × Value :=
  IRBuilder.Insert F ip
    (.ptr ElementTy (((F.typeOf Ptr).map Ty.getPointerAddressSpace).getD 0))
    (.gep Ptr IdxList)

/-- The downcast `dyn_cast<Instruction>(V)`. -/
def asInstruction (F : Function) : Value → Option Instruction
  | .inst id => F.find id
  | _ => none

/-- The downcast `dyn_cast<PtrToIntInst>(V)`, with `getOperand(0)`. -/
def asPtrToInt (F : Function) (V : Value) : Option (Instruction × Value) :=
  match asInstruction F V with
  | none => none
  | some J =>
    match J.kind with
    | .cast op P => if op = .PtrToInt then some (J, P) else none
    | _ => none

/-- The value `PtrElemTy`: `getSrcTy()` when `Ptr` is an `IntToPtrInst`, null otherwise. -/
def intToPtrSrcTy (F : Function) (Ptr : Value) : Option Ty :=
  match asInstruction F Ptr with
  | none => none
  | some J =>
    match J.kind with
    | .cast op src => if op = .IntToPtr then F.typeOf src else none
    | _ => none

/-- The test `isa<Argument>(V) && isa<IntegerType>(V->getType())`. -/
def isIntegerArgument : Value → Bool
  | .arg _ t => t.isIntegerTy
  | _ => false

/-- What the nested conditions of the loop body recognise, with the values they bind. -/
inductive Shape where
  | A (BinOp P2I : Instruction) (Ptr Idx : Value)
  | B (BinOp : Instruction) (Arg Idx : Value)
  | C (P2I : Instruction) (Ptr : Value)
  deriving DecidableEq, Repr

/-- The nested conditions of the loop body of `PeepholeOptimizationPass::runOnFunction`, in
the order of the source: `I` is an `IntToPtrInst`; its operand is a `BinaryOperator` that is
an `Add`, whose left operand is a `PtrToIntInst` of an `IntToPtrInst` with integer source type
(shape A) or else an integer argument (shape B); or else the operand of `I` is a
`PtrToIntInst` (shape C). -/
def matchShape (F : Function) (I : Instruction) : Option Shape :=
  match I.kind with
  | .cast op V =>
    if op = .IntToPtr then
      match asInstruction F V with
      | none => none
      | some VI =>
        match VI.kind with
        | .binop bop Op0 Op1 =>
          if bop = .Add then
            match asPtrToInt F Op0 with
            | some (P2I, Ptr) =>
              match intToPtrSrcTy F Ptr with
              | some T => if T.isIntegerTy then some (.A VI P2I Ptr Op1) else none
              | none => none
            | none => if isIntegerArgument Op0 then some (.B VI Op0 Op1) else none
          else none
        | .cast cop P => if cop = .PtrToInt then some (.C VI P) else none
        | _ => none
    else none
  | _ => none

/-- The statements `I2P->replaceAllUsesWith(FinalPtr); I2P->eraseFromParent();`.  Replacing a
value by itself is rejected by `replaceAllUsesWith` (`none`). -/
def replaceAndErase (F : Function) (I2P : Instruction) (FinalPtr : Value) : Option Function :=
  if FinalPtr = .inst I2P.id then none
  else some ((F.replaceAllUsesWith I2P.id FinalPtr).eraseFromParent I2P.id)

/-- The statement `if (X->getNumUses() == 0) X->eraseFromParent();`. -/
def eraseIfUnused (F : Function) (id : Nat) : Function :=
  if F.numUses id = 0 then F.eraseFromParent id else F

/-- The body of the shape A branch. -/
def rewriteShapeA (F : Function) (I2P BinOp P2I : Instruction) (Ptr Idx : Value) :
    Option Function :=
  let b1 := IRBuilder.CreatePointerCast F I2P.id Ptr BytePtrTy
  let b2 := IRBuilder.CreateGEP b1.1 I2P.id (.int 8) b1.2 [Idx]
  let b3 := IRBuilder.CreatePointerCast b2.1 I2P.id b2.2 I2P.ty
  (replaceAndErase b3.1 I2P b3.2).map
    (fun G => eraseIfUnused (eraseIfUnused G BinOp.id) P2I.id)

/-- The body of the shape B branch. -/
def rewriteShapeB (F : Function) (I2P BinOp : Instruction) (Arg Idx : Value) :
    Option Function :=
  let b1 := IRBuilder.CreateIntToPtr F I2P.id Arg BytePtrTy
  let b2 := IRBuilder.CreateGEP b1.1 I2P.id (.int 8) b1.2 [Idx]
  let b3 := IRBuilder.CreatePointerCast b2.1 I2P.id b2.2 I2P.ty
  (replaceAndErase b3.1 I2P b3.2).map (fun G => eraseIfUnused G BinOp.id)

/-- The body of the shape C branch. -/
def rewriteShapeC (F : Function) (I2P P2I : Instruction) (Ptr : Value) : Option Function :=
  let b := IRBuilder.CreatePointerCast F I2P.id Ptr I2P.ty
  (replaceAndErase b.1 I2P b.2).map (fun G => eraseIfUnused G P2I.id)

/-- One execution of the loop body for the instruction `I`. -/
def PeepholeOptimizationPass.visit (F : Function) (I : Instruction) : Option Function :=
  match matchShape F I with
  | none => some F
  | some (.A BinOp P2I Ptr Idx) => rewriteShapeA F I BinOp P2I Ptr Idx
  | some (.B BinOp Arg Idx) => rewriteShapeB F I BinOp Arg Idx
  | some (.C P2I Ptr) => rewriteShapeC F I P2I Ptr

/-- Whether the block `bi` of `F` holds an instruction of identity `id`. -/
def Function.holds (F : Function) (bi id : Nat) : Bool :=
  (F.block bi).any (fun J => J.id == id)

/-- The loop `while (It != BB.end())` over block `bi`.  The list holds the identities of the
instructions from the current one to the end of the block as they were when the loop
started; the rewrites insert only before the current instruction, so what follows it in the
block is this list without the instructions erased since.  An identity no longer in the
block is stepped over.  `It` is advanced before the body runs: it rests on the first
instruction of the remainder still in the block, and if the body erases that instruction the
iterator dangles (`none`). -/
def PeepholeOptimizationPass.scanBlock (bi : Nat) : List Nat → Function → Option Function
  | [], F => some F
  | id :: rest, F =>
    match (F.block bi).find? (fun J => J.id == id) with
    | none => PeepholeOptimizationPass.scanBlock bi rest F
    | some I =>
      match PeepholeOptimizationPass.visit F I with
      | none => none
      | some G =>
        match rest.find? (fun j => F.holds bi j) with
        | none => PeepholeOptimizationPass.scanBlock bi rest G
        | some n =>
          if G.holds bi n then PeepholeOptimizationPass.scanBlock bi rest G else none

/-- The loop `for (BasicBlock &BB : F)` over the block positions. -/
def PeepholeOptimizationPass.runOnBlocks : List Nat → Function → Option Function
  | [], F => some F
  | bi :: rest, F =>
    match PeepholeOptimizationPass.scanBlock bi ((F.block bi).map (fun I => I.id)) F with
    | none => none
    | some G => PeepholeOptimizationPass.runOnBlocks rest G

/-- The method `PeepholeOptimizationPass::runOnFunction`. -/
def PeepholeOptimizationPass.runOnFunction (F : Function) : Option Function :=
  PeepholeOptimizationPass.runOnBlocks (List.range F.blocks.length) F

/-! ## Well-formed functions -/

/-- The identities of the instructions of a function, in layout order. -/
def Function.ids (F : Function) : List Nat := F.insts.map (fun I => I.id)

/-- The position of the first instruction of identity `j` in a list (its length when there is
none). -/
def pos (j : Nat) : List Instruction → Nat
  | [] => 0
  | I :: rest => if I.id = j then 0 else pos j rest + 1

/-- The identity an operand refers to, when it is the result of an instruction. -/
def Value.instId? : Value → Option Nat
  | .inst j => some j
  | _ => none

/-- The identities of the instructions an instruction uses, one entry per operand slot. -/
def Instruction.opIds (I : Instruction) : List Nat :=
  I.kind.operands.filterMap Value.instId?

/-- The test `isa<PHINode>(I)`. -/
def Instruction.isPHI (I : Instruction) : Bool :=
  match I.kind with
  | .phi _ => true
  | _ => false

/-- The list `O` puts the instructions of `F` in an order in which definitions come before
uses: it holds the instructions of `F` and no other, identities are distinct, every block
keeps its own order inside `O`, every operand that is the result of an instruction refers to
an instruction of `F`, and the operands of an instruction other than a phi precede it in
`O`.  The order in which definitions dominate uses is such an order; the blocks need not be
laid out along it. -/
def Ordered (F : Function) (O : List Instruction) : Prop :=
  O.Perm F.insts ∧ (O.map (fun I => I.id)).Nodup ∧ (∀ BB ∈ F.blocks, BB.Sublist O) ∧
    ∀ I ∈ O, ∀ j ∈ I.opIds,
      j ∈ O.map (fun I => I.id) ∧ (I.isPHI = false → pos j O < pos I.id O)

/-- Well-formed function: its instructions can be put in an order in which definitions come
before uses. -/
def WellFormed (F : Function) : Prop := ∃ O, Ordered F O

/-- The case in which the layout order itself puts definitions before uses: identities are
distinct, every instruction operand is defined, and the operands of an instruction other than
a phi are defined before it in the layout. -/
def WellFormedInLayout (F : Function) : Prop :=
  F.ids.Nodup ∧
    ∀ I ∈ F.insts, ∀ j ∈ I.opIds,
      j ∈ F.ids ∧ (I.isPHI = false → pos j F.insts < pos I.id F.insts)

instance (F : Function) : Decidable (WellFormedInLayout F) := by
  unfold WellFormedInLayout
  infer_instance

/-- A value that can be used by an instruction placed immediately before `ip` in the order
`O`: an argument, a constant, or the result of an instruction that precedes `ip`. -/
def AvailableAt (O : List Instruction) (ip : Nat) : Value → Prop
  | .inst j => pos j O < pos ip O
  | _ => True

/-- The block `bi` ends with instructions of the identities `rest`, in this order. -/
def Function.EndsWith (F : Function) (bi : Nat) (rest : List Nat) : Prop :=
  ∃ done, (F.block bi).map (fun I => I.id) = done ++ rest

/-- What a sequence of `IRBuilder` calls at the insertion point `ip` keeps, from the function
`F` ordered by `O` to the function `G` ordered by `O'`: the order, the insertion point, the
values available there, the part of every block behind an instruction other than `ip`, and
the number of blocks. -/
def BuilderStep (F : Function) (O : List Instruction) (ip : Nat) (G : Function)
    (O' : List Instruction) : Prop :=
  Ordered G O' ∧ ip ∈ O'.map (fun I => I.id) ∧
    (∀ v, AvailableAt O ip v → AvailableAt O' ip v) ∧
    (∀ bi rest, ip ∉ rest → F.EndsWith bi rest → G.EndsWith bi rest) ∧
    G.blocks.length = F.blocks.length

/-! ## The rewrites in the words of the specification -/

/-- Shape A: the instructions placed before `I2P` and the value that takes the place of
`I2P`, that is `(T*)((i8*)Ptr + Idx)` where a cast to a type the value already has is left
out.  `f` is the first fresh identity, `PtrTy` the type of `Ptr`, `T` the type of `I2P`. -/
def shapeAInserted (f : Nat) (PtrTy : Option Ty) (T : Ty) (Ptr Idx : Value) :
    List Instruction × Value :=
  if PtrTy = some BytePtrTy then
    if T = BytePtrTy then
      ([⟨f, BytePtrTy, .gep Ptr [Idx]⟩], .inst f)
    else
      ([⟨f, BytePtrTy, .gep Ptr [Idx]⟩,
        ⟨f + 1, T, .cast (pointerCastOp (some BytePtrTy) T) (.inst f)⟩], .inst (f + 1))
  else
    if T = BytePtrTy then
      ([⟨f, BytePtrTy, .cast (pointerCastOp PtrTy BytePtrTy) Ptr⟩,
        ⟨f + 1, BytePtrTy, .gep (.inst f) [Idx]⟩], .inst (f + 1))
    else
      ([⟨f, BytePtrTy, .cast (pointerCastOp PtrTy BytePtrTy) Ptr⟩,
        ⟨f + 1, BytePtrTy, .gep (.inst f) [Idx]⟩,
        ⟨f + 2, T, .cast (pointerCastOp (some BytePtrTy) T) (.inst (f + 1))⟩], .inst (f + 2))

/-- Shape B: `(T*)((i8*)inttoptr(Arg) + Idx)`, the last cast left out when `T*` is `i8*`. -/
def shapeBInserted (f : Nat) (T : Ty) (Arg Idx : Value) : List Instruction × Value :=
  if T = BytePtrTy then
    ([⟨f, BytePtrTy, .cast .IntToPtr Arg⟩,
      ⟨f + 1, BytePtrTy, .gep (.inst f) [Idx]⟩], .inst (f + 1))
  else
    ([⟨f, BytePtrTy, .cast .IntToPtr Arg⟩,
      ⟨f + 1, BytePtrTy, .gep (.inst f) [Idx]⟩,
      ⟨f + 2, T, .cast (pointerCastOp (some BytePtrTy) T) (.inst (f + 1))⟩], .inst (f + 2))

/-- Shape C: `(T*)P`: nothing when `P` has type `T*` already, a folded constant when `P` is a
constant, one cast instruction otherwise. -/
def shapeCInserted (f : Nat) (PTy : Option Ty) (T : Ty) (P : Value) :
    List Instruction × Value :=
  if PTy = some T then ([], P)
  else
    match P with
    | .const c => ([], .const (.foldedCast c T))
    | _ => ([⟨f, T, .cast (pointerCastOp PTy T) P⟩], .inst f)

/-- The test "is a cast instruction whose operand is `v`". -/
def Instruction.isCastOf (v : Value) (I : Instruction) : Bool :=
  match I.kind with
  | .cast _ s => s == v
  | _ => false

/-- The test `isa<CastInst>(I)`. -/
def Instruction.isCast (I : Instruction) : Bool :=
  match I.kind with
  | .cast _ _ => true
  | _ => false

/-- The test `isa<GetElementPtrInst>(I)`. -/
def Instruction.isGEP (I : Instruction) : Bool :=
  match I.kind with
  | .gep _ _ => true
  | _ => false

/-- The source comment of shape A: `%1 = inttoptr %arg to i8*`, `%2 = ptrtoint %1`,
`%3 = add %2, 16`, `%4 = inttoptr %3 to i32*`, with a load through `%4`. -/
def sampleShapeA : Function := ⟨[[
  ⟨1, BytePtrTy, .cast .IntToPtr (.arg 0 (.int 64))⟩,
  ⟨2, .int 64, .cast .PtrToInt (.inst 1)⟩,
  ⟨3, .int 64, .binop .Add (.inst 2) (.const (.int (.int 64) 16))⟩,
  ⟨4, I32PtrTy, .cast .IntToPtr (.inst 3)⟩,
  ⟨5, .int 32, .load (.inst 4)⟩,
  ⟨6, .void, .terminator false [.inst 5]⟩ ]]⟩

/-- Shape B with an `i8*` result: `%1 = add %arg, 8`, `%2 = inttoptr %1 to i8*`. -/
def sampleShapeB : Function := ⟨[[
  ⟨1, .int 64, .binop .Add (.arg 0 (.int 64)) (.const (.int (.int 64) 8))⟩,
  ⟨2, BytePtrTy, .cast .IntToPtr (.inst 1)⟩,
  ⟨3, .int 8, .load (.inst 2)⟩,
  ⟨4, .void, .terminator false [.inst 3]⟩ ]]⟩

/-- Shape C on a pointer that has the result type already: `%1 = ptrtoint i32* %arg`,
`%2 = inttoptr %1 to i32*`. -/
def sampleShapeC : Function := ⟨[[
  ⟨1, .int 64, .cast .PtrToInt (.arg 0 I32PtrTy)⟩,
  ⟨2, I32PtrTy, .cast .IntToPtr (.inst 1)⟩,
  ⟨3, .int 32, .load (.inst 2)⟩,
  ⟨4, .void, .terminator false [.inst 3]⟩ ]]⟩

/-- Shape C with a change of type: `%1 = ptrtoint i8* %arg`, `%2 = inttoptr %1 to i32*`. -/
def sampleShapeCCast : Function := ⟨[[
  ⟨1, .int 64, .cast .PtrToInt (.arg 0 BytePtrTy)⟩,
  ⟨2, I32PtrTy, .cast .IntToPtr (.inst 1)⟩,
  ⟨3, .int 32, .load (.inst 2)⟩,
  ⟨4, .void, .terminator false [.inst 3]⟩ ]]⟩

/-! ## Specification-level notions for the fence pass -/

/-- The provenance root in the words of the specification: `RootOf F v r` when `r` is reached
from `v` by unwrapping getelementptr and cast instructions one at a time, and `r` itself is
neither. -/
inductive RootOf (F : Function) : Value → Value → Prop where
  | root (v : Value) : asGEP F v = none → asCast F v = none → RootOf F v v
  | gep (v p r : Value) : asGEP F v = some p → RootOf F p r → RootOf F v r
  | cast (v s r : Value) : asCast F v = some s → RootOf F s r → RootOf F v r

/-- A pointer derived from a stack allocation through a chain, of any length and any
interleaving, of getelementptr and cast instructions. -/
inductive FromAlloca (F : Function) : Value → Prop where
  | alloca (v : Value) : isAlloca F v = true → FromAlloca F v
  | gep (v p : Value) : asGEP F v = some p → FromAlloca F p → FromAlloca F v
  | cast (v s : Value) : asCast F v = some s → FromAlloca F s → FromAlloca F v

/-- A load or store whose pointer operand has a provenance root that is not an alloca. -/
def NeedsFence (F : Function) (I : Instruction) : Prop :=
  ∃ p ip r, accessOf I = some (p, ip) ∧ RootOf F p r ∧ isAlloca F r = false

/-- The decision `Ptr != nullptr` and `!isa<AllocaInst>(Ptr)` after the walk, as the code
takes it with `fuel` loop tests available. -/
def needsFence (F : Function) (fuel : Nat) (I : Instruction) : Bool :=
  match accessOf I with
  | none => false
  | some (Ptr, _) =>
    match provenanceRoot F fuel Ptr with
    | none => false
    | some Root => !isAlloca F Root

/-- An access together with the fence the placement policy gives it: the fence right after a
load, right before a store, none when the access needs no fence. -/
def fencedAccess (F : Function) (fuel fenceId : Nat) (I : Instruction) : List Instruction :=
  if needsFence F fuel I then
    match I.kind with
    | .load _ => [I, seqCstFence fenceId]
    | .store _ _ => [seqCstFence fenceId, I]
    | _ => [I]
  else [I]

/-- The block after placement, in the words of the specification: every instruction in
order, each with its fence, the fences numbered from `fresh + c`. -/
def fencedFrom (F : Function) (fuel fresh : Nat) : List Instruction → Nat → List Instruction
  | [], _ => []
  | I :: rest, c =>
    fencedAccess F fuel (fresh + c) I ++
      fencedFrom F fuel fresh rest (c + if needsFence F fuel I then 1 else 0)

/-- Every block ends with a terminator (vacuous for the empty list). -/
def Terminated (BB : BasicBlock) : Prop :=
  ∀ I, BB.getLast? = some I → I.isTerminator = true

/-- Two sequentially-consistent fences with only an addition between them. -/
def sampleTwoFences : BasicBlock :=
  [ seqCstFence 1,
    ⟨2, .int 64, .binop .Add (.arg 0 (.int 64)) (.const (.int (.int 64) 8))⟩,
    seqCstFence 3,
    ⟨4, .void, .terminator false []⟩ ]

/-- Two sequentially-consistent fences with a release fence between them. -/
def sampleWeakerBetween : BasicBlock :=
  [ seqCstFence 1,
    ⟨2, .void, .fence .Release⟩,
    seqCstFence 3,
    ⟨4, .void, .terminator false []⟩ ]

/-- The test "is a fence of sequentially-consistent ordering". -/
def Instruction.isSeqCstFence (I : Instruction) : Bool :=
  match I.kind with
  | .fence o => decide (o = .SequentiallyConsistent)
  | _ => false

/-- The test "is a fence", of any ordering. -/
def Instruction.isFence (I : Instruction) : Bool :=
  match I.kind with
  | .fence _ => true
  | _ => false

/-- The value of `HasEquivalentFence` after the loop of `OptimizeFencesAway` has gone through
a list of instructions, starting from the given value. -/
def OptimizeFencesAway.flagAfter : Bool → List Instruction → Bool
  | b, [] => b
  | b, I :: rest =>
    match I.kind with
    | .fence ordering =>
      if ordering = .SequentiallyConsistent then OptimizeFencesAway.flagAfter true rest
      else OptimizeFencesAway.flagAfter false rest
    | _ =>
      if I.mayReadOrWriteMemory then OptimizeFencesAway.flagAfter false rest
      else OptimizeFencesAway.flagAfter b rest

/-- An instruction that is neither a fence nor may read or write memory. -/
def Instruction.isTransparent (I : Instruction) : Bool :=
  !I.isFence && !I.mayReadOrWriteMemory

/-! ## Sample inputs -/

/-- A block with a stack slot reached through an index and a cast, a load and a store through
it, a load and a store through an argument, and a return. -/
def sampleFenceBlock : BasicBlock :=
  [ ⟨1, BytePtrTy, .alloca (.const (.int (.int 32) 8))⟩,
    ⟨2, BytePtrTy, .gep (.inst 1) [.const (.int (.int 64) 4)]⟩,
    ⟨3, I32PtrTy, .cast .BitCast (.inst 2)⟩,
    ⟨4, .int 32, .load (.inst 3)⟩,
    ⟨5, .int 32, .load (.arg 0 I32PtrTy)⟩,
    ⟨6, .void, .store (.inst 5) (.arg 0 I32PtrTy)⟩,
    ⟨7, .void, .store (.inst 4) (.inst 3)⟩,
    ⟨8, .void, .terminator false []⟩ ]

/-- The function made of `sampleFenceBlock`. -/
def sampleFenceFn : Function := ⟨[sampleFenceBlock]⟩

/-- A block whose loads and stores all go through the stack slot. -/
def sampleLocalBlock : BasicBlock :=
  [ ⟨1, BytePtrTy, .alloca (.const (.int (.int 32) 8))⟩,
    ⟨2, BytePtrTy, .gep (.inst 1) [.const (.int (.int 64) 4)]⟩,
    ⟨3, I32PtrTy, .cast .BitCast (.inst 2)⟩,
    ⟨4, .int 32, .load (.inst 3)⟩,
    ⟨7, .void, .store (.inst 4) (.inst 3)⟩,
    ⟨8, .void, .terminator false []⟩ ]

/-- The function made of `sampleLocalBlock`. -/
def sampleLocalFn : Function := ⟨[sampleLocalBlock]⟩


/-! ## The chain of definitions behind a pointer -/

/-- One link of the chain of getelementptr / cast definitions behind a value: the pointer
operand of a getelementptr, the operand of a cast, nothing for any other value. -/
def chainNext (F : Function) (v : Value) : Option Value :=
  match asGEP F v with
  | some p => some p
  | none => asCast F v

/-- The value `n` links down the chain of definitions behind `v`, when the chain is that
long. -/
def chainAt (F : Function) (v : Value) : Nat → Option Value
  | 0 => some v
  | n + 1 => (chainAt F v n).bind (chainNext F)

/-- The chain of getelementptr / cast definitions behind `v` is acyclic: no value comes up
twice along it. -/
def AcyclicChain (F : Function) (v : Value) : Prop :=
  ∀ i j a, i < j → chainAt F v i = some a → chainAt F v j ≠ some a


/-! ## The shape guards in the words of the specification -/

/-- The pointer `Ptr` is produced by an integer-to-pointer conversion whose source type is an
integer type. -/
def FromIntegerIntToPtr (F : Function) (Ptr : Value) : Prop :=
  ∃ PI src T, asInstruction F Ptr = some PI ∧ PI.kind = .cast .IntToPtr src ∧
    F.typeOf src = some T ∧ T.isIntegerTy = true

/-- Guard of shape A: the source of the `inttoptr` is an addition whose left operand is a
`ptrtoint` of a pointer that an `inttoptr` with integer source type produces. -/
def GuardA (F : Function) (I : Instruction) : Prop :=
  ∃ V BinOp Op0 Op1 P2I Ptr, I.kind = .cast .IntToPtr V ∧ asInstruction F V = some BinOp ∧
    BinOp.kind = .binop .Add Op0 Op1 ∧ asInstruction F Op0 = some P2I ∧
    P2I.kind = .cast .PtrToInt Ptr ∧ FromIntegerIntToPtr F Ptr

/-- Guard of shape B: the source of the `inttoptr` is an addition whose left operand is a
function argument of integer type. -/
def GuardB (F : Function) (I : Instruction) : Prop :=
  ∃ V BinOp Op0 Op1, I.kind = .cast .IntToPtr V ∧ asInstruction F V = some BinOp ∧
    BinOp.kind = .binop .Add Op0 Op1 ∧ isIntegerArgument Op0 = true

/-- Guard of shape C: the source of the `inttoptr` is directly a `ptrtoint`. -/
def GuardC (F : Function) (I : Instruction) : Prop :=
  ∃ V P2I P, I.kind = .cast .IntToPtr V ∧ asInstruction F V = some P2I ∧
    P2I.kind = .cast .PtrToInt P

/-- The source comment of shape A as written: the pointer behind the `ptrtoint` is the stack
slot itself, not the result of an `inttoptr`. -/
def sampleStackTop : Function := ⟨[[
  ⟨1, BytePtrTy, .alloca (.const (.int (.int 32) 64))⟩,
  ⟨2, .int 64, .cast .PtrToInt (.inst 1)⟩,
  ⟨3, .int 64, .binop .Add (.inst 2) (.const (.int (.int 64) 16))⟩,
  ⟨4, I32PtrTy, .cast .IntToPtr (.inst 3)⟩,
  ⟨5, .int 32, .load (.inst 4)⟩,
  ⟨6, .void, .terminator false [.inst 5]⟩ ]]⟩


/-! ## Structure of a block -/

/-- What is left of an instruction when its identity is set aside: result type, opcode,
ordering and operands. -/
def Instruction.content (I : Instruction) : Ty × InstKind := (I.ty, I.kind)

/-- Two instruction lists are structurally identical: the same sequence of instruction
kinds, orderings and operands. -/
def SameStructure (L L' : List Instruction) : Prop :=
  L.map Instruction.content = L'.map Instruction.content

/-- A block with fences of its own, accesses through an argument, and a release fence. -/
def sampleMixedBlock : BasicBlock :=
  [ seqCstFence 1,
    ⟨5, .int 32, .load (.arg 0 I32PtrTy)⟩,
    seqCstFence 2,
    ⟨6, .void, .store (.inst 5) (.arg 0 I32PtrTy)⟩,
    ⟨20, .void, .fence .Release⟩,
    ⟨7, .void, .store (.inst 5) (.arg 0 I32PtrTy)⟩,
    ⟨9, .int 64, .binop .Add (.arg 1 (.int 64)) (.const (.int (.int 64) 8))⟩,
    ⟨10, .void, .store (.inst 5) (.arg 0 I32PtrTy)⟩,
    seqCstFence 3,
    seqCstFence 4,
    ⟨11, .int 32, .load (.arg 0 I32PtrTy)⟩,
    ⟨8, .void, .terminator false []⟩ ]

/-- Two functions differ in fences only: identities are distinct in both, and an instruction
other than a fence is in the one exactly when it is in the other. -/
def SameButFences (F F' : Function) : Prop :=
  F.ids.Nodup ∧ F'.ids.Nodup ∧ ∀ I : Instruction, I.isFence = false → (I ∈ F'.insts ↔ I ∈ F.insts)

/-- The function made of `sampleMixedBlock`. -/
def sampleMixedFn : Function := ⟨[sampleMixedBlock]⟩

/-- The function `sampleMixedFn` after the fence pass with `OptimizeFences` enabled. -/
def sampleMixedAfter : Function := ⟨[[
    seqCstFence 1,
    ⟨5, .int 32, .load (.arg 0 I32PtrTy)⟩,
    seqCstFence 21,
    ⟨6, .void, .store (.inst 5) (.arg 0 I32PtrTy)⟩,
    ⟨20, .void, .fence .Release⟩,
    seqCstFence 23,
    ⟨7, .void, .store (.inst 5) (.arg 0 I32PtrTy)⟩,
    ⟨9, .int 64, .binop .Add (.arg 1 (.int 64)) (.const (.int (.int 64) 8))⟩,
    seqCstFence 24,
    ⟨10, .void, .store (.inst 5) (.arg 0 I32PtrTy)⟩,
    seqCstFence 3,
    ⟨11, .int 32, .load (.arg 0 I32PtrTy)⟩,
    seqCstFence 25,
    ⟨8, .void, .terminator false []⟩ ]]⟩


/-! ## One rewrite as an update of instruction lists -/

/-- Link the instructions `news`, in this order, immediately before the instruction `ip`. -/
def insertAllL (ip : Nat) (news : List Instruction) (L : List Instruction) :
    List Instruction :=
  L.flatMap (fun X => if X.id = ip then news ++ [X] else [X])

/-- Unlink the instructions of the identities `es`. -/
def eraseAllL (es : List Nat) (L : List Instruction) : List Instruction :=
  L.filter (fun X => !es.contains X.id)

/-- What one rewrite makes of a list of instructions: `news` go before `ip`, the uses of `ip`
go to `final`, and `ip` and the instructions `es` are unlinked. -/
def stepL (ip : Nat) (news : List Instruction) (final : Value) (es : List Nat)
    (L : List Instruction) : List Instruction :=
  eraseAllL (ip :: es) (rauwL ip final (insertAllL ip news L))

/-- The instructions the rewrite of a shape places before `I`, and the value that takes the
place of `I`. -/
def Shape.inserted (F : Function) (I : Instruction) : Shape → List Instruction × Value
  | .A _ _ Ptr Idx => shapeAInserted F.freshId (F.typeOf Ptr) I.ty Ptr Idx
  | .B _ Arg Idx => shapeBInserted F.freshId I.ty Arg Idx
  | .C _ Ptr => shapeCInserted F.freshId (F.typeOf Ptr) I.ty Ptr

/-- The instructions the rewrite of a shape erases when they have no use left, in the order
of the checks. -/
def Shape.orphans : Shape → List Nat
  | .A BinOp P2I _ _ => [BinOp.id, P2I.id]
  | .B BinOp _ _ => [BinOp.id]
  | .C P2I _ => [P2I.id]


/-! ## The frame of a rewrite -/

/-- The opcode of an instruction kind with its attributes (ordering, cast and arithmetic
opcode, memory flag) and the number of its operands: the operands themselves are blanked. -/
def InstKind.opcode (k : InstKind) : InstKind :=
  k.mapOperands (fun _ => .const (.int .void 0))

/-- The instruction `I'` is the instruction `I` with, possibly, operands redirected: same
identity, same result type, same opcode. -/
def Instruction.SameButOperands (I I' : Instruction) : Prop :=
  I'.id = I.id ∧ I'.ty = I.ty ∧ I'.kind.opcode = I.kind.opcode

/-- The test `isa<IntToPtrInst>(I)`. -/
def Instruction.isIntToPtr (I : Instruction) : Bool :=
  match I.kind with
  | .cast .IntToPtr _ => true
  | _ => false

/-- The test "is an addition or a `ptrtoint`": the operands of a matched `inttoptr` that a
rewrite may orphan. -/
def Instruction.isAddOrPtrToInt (I : Instruction) : Bool :=
  match I.kind with
  | .binop .Add _ _ => true
  | .cast .PtrToInt _ => true
  | _ => false

/-- An instruction no rewrite inserts or removes: not a cast, not a getelementptr, not a
binary operator.  Loads, stores, fences, terminators, allocas and phis are of this sort. -/
def Instruction.isFixed (I : Instruction) : Bool :=
  match I.kind with
  | .cast _ _ => false
  | .gep _ _ => false
  | .binop _ _ _ => false
  | _ => true


/-! ## Definitions before uses inside a block -/

/-- In the block, every instruction operand defined in the block is defined at an earlier
position: no instruction uses itself or an instruction that follows it in the block. -/
def defsBeforeUses : List Instruction → Bool
  | [] => true
  | I :: rest =>
    I.opIds.all (fun j => !((I :: rest).map (fun J => J.id)).contains j) && defsBeforeUses rest

/-- The same for the instructions other than phis, whose operands flow in along the edges
from the predecessors. -/
def defsBeforeUsesButPhi : List Instruction → Bool
  | [] => true
  | I :: rest =>
    (I.isPHI || I.opIds.all (fun j => !((I :: rest).map (fun J => J.id)).contains j)) &&
      defsBeforeUsesButPhi rest

/-- Every instruction operand is the result of an instruction of the function other than a
fence. -/
def OperandsDefined (F : Function) : Prop :=
  ∀ I ∈ F.insts, ∀ j ∈ I.opIds, ∃ J ∈ F.insts, J.id = j ∧ J.isFence = false

/-- An entry block and a loop of two blocks: the phi at the head of the loop takes `%4` from
the block that closes the loop, and `%4` is `inttoptr (ptrtoint %2)` of the pointer `%2`
defined after the phi in the head block. -/
def samplePhiLoop : Function := ⟨[
  [ ⟨7, .void, .terminator false []⟩ ],
  [ ⟨1, BytePtrTy, .phi [.inst 4, .arg 1 BytePtrTy]⟩,
    ⟨2, BytePtrTy, .cast .IntToPtr (.arg 0 (.int 64))⟩,
    ⟨5, .void, .terminator false []⟩ ],
  [ ⟨3, .int 64, .cast .PtrToInt (.inst 2)⟩,
    ⟨4, BytePtrTy, .cast .IntToPtr (.inst 3)⟩,
    ⟨6, .void, .terminator false []⟩ ]]⟩

/-- Two blocks in which the operands defined in the same block come first, but the pointer
`%1` behind the `ptrtoint` of the first block is defined in the second block, after the
`inttoptr` `%4` that is built on it. -/
def sampleCrossBlock : Function := ⟨[
  [ ⟨2, .int 64, .cast .PtrToInt (.inst 1)⟩,
    ⟨3, .int 64, .binop .Add (.inst 2) (.const (.int (.int 64) 16))⟩,
    ⟨7, .void, .terminator false []⟩ ],
  [ ⟨4, I32PtrTy, .cast .IntToPtr (.inst 3)⟩,
    ⟨1, BytePtrTy, .cast .IntToPtr (.arg 0 (.int 64))⟩,
    ⟨5, .int 32, .load (.inst 4)⟩,
    ⟨6, .void, .terminator false [.inst 5]⟩ ]]⟩

/-- Every operand of the instructions `news`, taken in order, satisfies `avail` or is the
result of one of the instructions `earlier` or of an instruction of `news` before it. -/
def operandsFrom (avail : Value → Prop) : List Nat → List Instruction → Prop
  | _, [] => True
  | earlier, N :: rest =>
    (∀ v ∈ N.kind.operands, avail v ∨ ∃ j ∈ earlier, v = .inst j) ∧
      operandsFrom avail (N.id :: earlier) rest


/-- A stack slot whose address makes a round trip through a `zext` before the shape A
pattern: `%4 = inttoptr (zext (ptrtoint %1))` matches no shape, and `%7` is
`inttoptr (add (ptrtoint %4), 16)`. -/
def sampleAllocaRoundTrip : Function := ⟨[[
  ⟨1, BytePtrTy, .alloca (.const (.int (.int 32) 64))⟩,
  ⟨2, .int 32, .cast .PtrToInt (.inst 1)⟩,
  ⟨3, .int 64, .cast .ZExt (.inst 2)⟩,
  ⟨4, BytePtrTy, .cast .IntToPtr (.inst 3)⟩,
  ⟨5, .int 64, .cast .PtrToInt (.inst 4)⟩,
  ⟨6, .int 64, .binop .Add (.inst 5) (.const (.int (.int 64) 16))⟩,
  ⟨7, I32PtrTy, .cast .IntToPtr (.inst 6)⟩,
  ⟨8, .int 32, .load (.inst 7)⟩,
  ⟨9, .void, .terminator false [.inst 8]⟩ ]]⟩

/-- The setting of one rewrite: identities are distinct in `F` and in `G`, the instruction
`I` of `F` matches the shape `S`, every instruction operand in `G` is defined in `G`, and the
blocks of `G` are the blocks of `F` after the rewrite of `I`, in which the instructions `es`
among the orphans of the shape were erased. -/
structure RewriteStep (F G : Function) (I : Instruction) (S : Shape) (es : List Nat) : Prop where
  nodupF : F.ids.Nodup
  nodupG : G.ids.Nodup
  mem : I ∈ F.insts
  shape : matchShape F I = some S
  orphans : es ⊆ S.orphans
  defined : ∀ K ∈ G.insts, ∀ j ∈ K.opIds, j ∈ G.ids
  blocks : G.blocks = F.blocks.map (stepL I.id (S.inserted F I).1 (S.inserted F I).2 es)


/-- A stack slot behind a plain round trip: `%3 = inttoptr (ptrtoint %1)`, shape C. -/
def sampleAllocaShapeC : Function := ⟨[[
  ⟨1, BytePtrTy, .alloca (.const (.int (.int 32) 64))⟩,
  ⟨2, .int 64, .cast .PtrToInt (.inst 1)⟩,
  ⟨3, I32PtrTy, .cast .IntToPtr (.inst 2)⟩,
  ⟨4, .int 32, .load (.inst 3)⟩,
  ⟨5, .void, .terminator false [.inst 4]⟩ ]]⟩


/-! ## Types of the casts and additions -/

/-- The test `Type::isPtrOrPtrVectorTy`. -/
def Ty.isPtrOrPtrVectorTy : Ty → Bool
  | .ptr _ _ => true
  | .vec _ (.ptr _ _) => true
  | _ => false

/-- The test `Type::isVectorTy`. -/
def Ty.isVectorTy : Ty → Bool
  | .vec _ _ => true
  | _ => false

/-- The rules of the IR verifier for the two opcodes the guards of the pass go through: the
source of an `inttoptr` is an integer or a vector of integers, its result a pointer or a
vector of pointers, and both are vectors or neither is; the operands of an `add` are integers
or vectors of integers. -/
def Instruction.wellTyped (F : Function) (I : Instruction) : Bool :=
  match I.kind with
  | .cast op V =>
    if op = .IntToPtr then
      match F.typeOf V with
      | some T =>
        T.isIntOrIntVectorTy && I.ty.isPtrOrPtrVectorTy && (T.isVectorTy == I.ty.isVectorTy)
      | none => false
    else true
  | .binop op l r =>
    if op = .Add then
      match F.typeOf l, F.typeOf r with
      | some Tl, some Tr => Tl.isIntOrIntVectorTy && Tr.isIntOrIntVectorTy
      | _, _ => false
    else true
  | _ => true

/-- Every `inttoptr` and every `add` of the function has operands and result of the types the
IR verifier asks for.  The model carries the result types as data and does not enforce them,
so what the verifier guarantees of an LLVM function is stated as a property here. -/
def WellTyped (F : Function) : Prop := ∀ I ∈ F.insts, I.wellTyped F = true

instance (F : Function) : Decidable (WellTyped F) := by
  unfold WellTyped
  infer_instance


/-- The candidates still ahead of the scan: every instruction of `H` that matches a shape is
in block `bi` with its identity among `pending`, or in one of the blocks `bis`. -/
def CandidatesAhead (bis : List Nat) (bi : Nat) (pending : List Nat) (H : Function) : Prop :=
  WellTyped H ∧ ∀ J ∈ H.insts, (∃ S, matchShape H J = some S) →
    (J ∈ H.block bi ∧ J.id ∈ pending) ∨ ∃ b ∈ bis, J ∈ H.block b


/-! ## Samples and relations for the block-by-block statements -/

/-- A function of two blocks: the first holds no load and no store, the second a load and a
store through a pointer argument. -/
def sampleCleanAndAccess : Function := ⟨[
  [ seqCstFence 1,
    ⟨2, .int 64, .binop .Add (.arg 1 (.int 64)) (.const (.int (.int 64) 8))⟩,
    ⟨3, .void, .fence .Release⟩,
    ⟨4, .void, .terminator false []⟩ ],
  [ ⟨5, .int 32, .load (.arg 0 I32PtrTy)⟩,
    ⟨6, .void, .store (.inst 5) (.arg 0 I32PtrTy)⟩,
    ⟨7, .void, .terminator false []⟩ ]]⟩

/-- A function of two blocks: the first holds no load, no store and no `inttoptr` that
matches a shape (the source of `%1` is an argument), but its `ptrtoint` `%2` is the source of
the `inttoptr` `%3` of the second block, which matches shape C. -/
def sampleOrphanAcross : Function := ⟨[
  [ ⟨1, BytePtrTy, .cast .IntToPtr (.arg 0 (.int 64))⟩,
    ⟨2, .int 64, .cast .PtrToInt (.inst 1)⟩,
    ⟨6, .void, .terminator false []⟩ ],
  [ ⟨3, I32PtrTy, .cast .IntToPtr (.inst 2)⟩,
    ⟨4, .int 32, .load (.inst 3)⟩,
    ⟨5, .void, .terminator false [.inst 4]⟩ ]]⟩


/-- One rewrite, as the frame of the pass sees it.  `G` is `F` after the rewrite of an
`inttoptr` `I` of `F` that matches a shape `S` in `F`.  The instructions the rewrite creates
are casts and getelementptrs, among them an `inttoptr` only for shape B, none of them an
instruction of `F`; they stand immediately before the place of `I`.  `I` is removed, and so
are the instructions `es`, each of them the addition or the `ptrtoint` of the match.  The
uses of `I` go to the value that takes its place.  No instruction of `G` uses a removed
instruction.  Every other instruction is where it was: the blocks of `G` are the blocks of
`F`, in order, each after this update. -/
def FrameStep (F G : Function) : Prop :=
  ∃ I S es, F.ids.Nodup ∧ I ∈ F.insts ∧ matchShape F I = some S ∧
    es ⊆ S.orphans ∧ (∀ e ∈ es, ∃ J ∈ F.insts, J.id = e ∧ J.isAddOrPtrToInt = true) ∧
    (∀ N ∈ (S.inserted F I).1, (N.isCast = true ∨ N.isGEP = true) ∧ N.id ∉ F.ids ∧
      (N.isIntToPtr = true → ∃ b a i, S = .B b a i)) ∧
    G.blocks = F.blocks.map (stepL I.id (S.inserted F I).1 (S.inserted F I).2 es) ∧
    ∀ K ∈ G.insts, ∀ j ∈ K.opIds, j ≠ I.id ∧ j ∉ es


/-- An entry block and two dead blocks that refer to each other: in every block the operands
defined in the block come first, but the `inttoptr` `%4` uses the addition `%3` of the third
block, which uses the `ptrtoint` `%2` that follows `%4` in the second block. -/
def sampleDeadCross : Function := ⟨[
  [ ⟨1, BytePtrTy, .cast .IntToPtr (.arg 0 (.int 64))⟩,
    ⟨8, .void, .terminator false []⟩ ],
  [ ⟨4, I32PtrTy, .cast .IntToPtr (.inst 3)⟩,
    ⟨2, .int 64, .cast .PtrToInt (.inst 1)⟩,
    ⟨9, .void, .terminator false []⟩ ],
  [ ⟨3, .int 64, .binop .Add (.inst 2) (.const (.int (.int 64) 16))⟩,
    ⟨10, .void, .terminator false []⟩ ]]⟩

/-- A function with definitions before uses but types the IR verifier refuses: `%3` is a
`ptrtoint` of an integer and `%4` an `inttoptr` with an integer result, used as the source
of the `inttoptr` `%5` of the first block. -/
def sampleIllTyped : Function := ⟨[
  [ ⟨5, BytePtrTy, .cast .IntToPtr (.inst 4)⟩,
    ⟨6, .void, .terminator false []⟩ ],
  [ ⟨2, .int 64, .cast .PtrToInt (.arg 0 BytePtrTy)⟩,
    ⟨3, .int 64, .cast .PtrToInt (.inst 2)⟩,
    ⟨4, .int 64, .cast .IntToPtr (.inst 3)⟩,
    ⟨7, .void, .terminator false []⟩ ]]⟩


/-- No instruction of block `bi` has a part in a rewrite: none is an `inttoptr` that matches
a shape, none is the addition or the `ptrtoint` of such a match, and none uses such an
`inttoptr`. -/
def Function.Untouched (F : Function) (bi : Nat) : Prop :=
  ∀ X ∈ F.block bi, ∀ J ∈ F.insts, ∀ S ∈ matchShape F J,
    X.id ≠ J.id ∧ X.id ∉ S.orphans ∧ J.id ∉ X.opIds

instance (F : Function) (bi : Nat) : Decidable (F.Untouched bi) := by
  unfold Function.Untouched
  infer_instance


/-- A function of two blocks: the `inttoptr` `%3` of the first block matches shape C; the
second block is beside the rewrite: its getelementptr uses the `inttoptr` `%1`, which
matches no shape. -/
def sampleUntouchedBeside : Function := ⟨[
  [ ⟨1, BytePtrTy, .cast .IntToPtr (.arg 0 (.int 64))⟩,
    ⟨2, .int 64, .cast .PtrToInt (.inst 1)⟩,
    ⟨3, I32PtrTy, .cast .IntToPtr (.inst 2)⟩,
    ⟨4, .int 32, .load (.inst 3)⟩,
    ⟨5, .void, .terminator false []⟩ ],
  [ ⟨6, BytePtrTy, .gep (.inst 1) [.const (.int (.int 64) 4)]⟩,
    ⟨7, .int 64, .binop .Add (.arg 1 (.int 64)) (.const (.int (.int 64) 8))⟩,
    ⟨8, .void, .terminator false [.inst 6]⟩ ]]⟩


/-- A function of two blocks: the second holds no load, no store and no `inttoptr`, but its
getelementptr uses the `inttoptr` `%3` of the first block, which matches shape C. -/
def sampleUserAcross : Function := ⟨[
  [ ⟨1, BytePtrTy, .cast .IntToPtr (.arg 0 (.int 64))⟩,
    ⟨2, .int 64, .cast .PtrToInt (.inst 1)⟩,
    ⟨3, I32PtrTy, .cast .IntToPtr (.inst 2)⟩,
    ⟨5, .void, .terminator false []⟩ ],
  [ ⟨4, I32PtrTy, .gep (.inst 3) [.const (.int (.int 64) 4)]⟩,
    ⟨6, .void, .terminator false [.inst 4]⟩ ]]⟩


/-- A function with types the IR verifier refuses, as `sampleIllTyped`, and a third block
beside the rewrites: its getelementptr uses `%5`, which matches no shape in the function as
it is given. -/
def sampleIllTypedBeside : Function := ⟨[
  [ ⟨2, .int 64, .cast .PtrToInt (.arg 0 BytePtrTy)⟩,
    ⟨3, .int 64, .cast .PtrToInt (.inst 2)⟩,
    ⟨4, .int 64, .cast .IntToPtr (.inst 3)⟩,
    ⟨7, .void, .terminator false []⟩ ],
  [ ⟨5, BytePtrTy, .cast .IntToPtr (.inst 4)⟩,
    ⟨8, .void, .terminator false []⟩ ],
  [ ⟨6, BytePtrTy, .gep (.inst 5) [.const (.int (.int 64) 4)]⟩,
    ⟨9, .void, .terminator false [.inst 6]⟩ ]]⟩

end MCToll

namespace MCToll

/-! ## The provenance walk -/

theorem asCast_eq_none_of_asGEP {F : Function} {v p : Value} (h : asGEP F v = some p) :
    asCast F v = none := by
  unfold asGEP at h
  unfold asCast
  cases v with
  | inst id =>
    simp only at h ⊢
    cases hf : F.find id with
    | none => simp
    | some I =>
      rw [hf] at h
      simp only at h ⊢
      cases hk : I.kind <;> simp_all
  | arg _ _ => simp at h
  | const _ => simp at h

theorem asGEP_eq_none_of_asCast {F : Function} {v s : Value} (h : asCast F v = some s) :
    asGEP F v = none := by
  cases hg : asGEP F v with
  | none => rfl
  | some p => rw [asCast_eq_none_of_asGEP hg] at h; cases h

theorem provenanceRoot_succ (F : Function) (n : Nat) (v : Value) :
    provenanceRoot F (n + 1) v =
      if (asGEP F v).isSome || (asCast F v).isSome then provenanceRoot F n (provenanceStep F v)
      else some v := rfl

theorem provenanceStep_gep {F : Function} {v p : Value} (h : asGEP F v = some p)
    (hc : asCast F p = none) : provenanceStep F v = p := by
  simp [provenanceStep, h, hc]

theorem provenanceStep_gep_cast {F : Function} {v p s : Value} (h : asGEP F v = some p)
    (hc : asCast F p = some s) : provenanceStep F v = s := by
  simp [provenanceStep, h, hc]

theorem provenanceStep_cast {F : Function} {v s : Value} (h : asCast F v = some s) :
    provenanceStep F v = s := by
  simp [provenanceStep, asGEP_eq_none_of_asCast h, h]

theorem provenanceRoot_mono_succ {F : Function} :
    ∀ (n : Nat) (v r : Value), provenanceRoot F n v = some r →
      provenanceRoot F (n + 1) v = some r := by
  intro n
  induction n with
  | zero => intro v r h; simp [provenanceRoot] at h
  | succ n ih =>
    intro v r h
    rw [provenanceRoot_succ] at h ⊢
    split
    · rename_i hc
      rw [if_pos hc] at h
      exact ih _ _ h
    · rename_i hc
      rw [if_neg hc] at h
      exact h

theorem provenanceRoot_mono {F : Function} {n m : Nat} {v r : Value}
    (h : provenanceRoot F n v = some r) (hnm : n ≤ m) : provenanceRoot F m v = some r := by
  induction hnm with
  | refl => exact h
  | step _ ih => exact provenanceRoot_mono_succ _ _ _ ih

theorem provenanceRoot_of_cast {F : Function} {v s r : Value} (hc : asCast F v = some s)
    {n : Nat} (h : provenanceRoot F n v = some r) : provenanceRoot F n s = some r := by
  cases n with
  | zero => simp [provenanceRoot] at h
  | succ k =>
    rw [provenanceRoot_succ, provenanceStep_cast hc] at h
    simp only [hc, Option.isSome_some, Bool.or_true, if_true] at h
    exact provenanceRoot_mono_succ _ _ _ h

/-- The loop of the code reaches the root of the specification when given enough fuel. -/
theorem provenanceRoot_complete {F : Function} {v r : Value} (h : RootOf F v r) :
    ∃ n, provenanceRoot F n v = some r := by
  induction h with
  | root v hg hc => exact ⟨1, by simp [provenanceRoot, hg, hc]⟩
  | gep v p r hg _ ih =>
    obtain ⟨n, hn⟩ := ih
    refine ⟨n + 1, ?_⟩
    rw [provenanceRoot_succ]
    simp only [hg, Option.isSome_some, Bool.true_or, if_true]
    cases hc : asCast F p with
    | none => rw [provenanceStep_gep hg hc]; exact hn
    | some s => rw [provenanceStep_gep_cast hg hc]; exact provenanceRoot_of_cast hc hn
  | cast v s r hc _ ih =>
    obtain ⟨n, hn⟩ := ih
    refine ⟨n + 1, ?_⟩
    rw [provenanceRoot_succ, provenanceStep_cast hc]
    simp only [hc, Option.isSome_some, Bool.or_true, if_true]
    exact hn

/-- Whatever the loop of the code returns is the root of the specification. -/
theorem provenanceRoot_sound {F : Function} :
    ∀ (n : Nat) (v r : Value), provenanceRoot F n v = some r → RootOf F v r := by
  intro n
  induction n with
  | zero => intro v r h; simp [provenanceRoot] at h
  | succ n ih =>
    intro v r h
    rw [provenanceRoot_succ] at h
    cases hg : asGEP F v with
    | some p =>
      simp only [hg, Option.isSome_some, Bool.true_or, if_true] at h
      cases hc : asCast F p with
      | none =>
        rw [provenanceStep_gep hg hc] at h
        exact RootOf.gep v p r hg (ih _ _ h)
      | some s =>
        rw [provenanceStep_gep_cast hg hc] at h
        exact RootOf.gep v p r hg (RootOf.cast p s r hc (ih _ _ h))
    | none =>
      cases hc : asCast F v with
      | some s =>
        rw [provenanceStep_cast hc] at h
        simp only [hg, hc, Option.isSome_some, Bool.or_true, if_true] at h
        exact RootOf.cast v s r hc (ih _ _ h)
      | none =>
        simp only [hg, hc, Option.isSome_none, Bool.or_self] at h
        simp at h
        subst h
        exact RootOf.root v hg hc

theorem RootOf.unique {F : Function} {v r r' : Value} (h : RootOf F v r) (h' : RootOf F v r') :
    r = r' := by
  obtain ⟨n, hn⟩ := provenanceRoot_complete h
  obtain ⟨m, hm⟩ := provenanceRoot_complete h'
  have h1 := provenanceRoot_mono hn (Nat.le_max_left n m)
  have h2 := provenanceRoot_mono hm (Nat.le_max_right n m)
  rw [h1] at h2
  exact Option.some.inj h2

theorem FromAlloca.rootOf {F : Function} {v : Value} (h : FromAlloca F v) :
    ∃ r, RootOf F v r ∧ isAlloca F r = true := by
  induction h with
  | alloca v ha =>
    refine ⟨v, RootOf.root v ?_ ?_, ha⟩
    · unfold isAlloca at ha
      unfold asGEP
      cases v with
      | inst id =>
        simp only at ha ⊢
        cases hf : F.find id with
        | none => simp
        | some I => rw [hf] at ha; simp only at ha ⊢; cases hk : I.kind <;> simp_all
      | arg _ _ => rfl
      | const _ => rfl
    · unfold isAlloca at ha
      unfold asCast
      cases v with
      | inst id =>
        simp only at ha ⊢
        cases hf : F.find id with
        | none => simp
        | some I => rw [hf] at ha; simp only at ha ⊢; cases hk : I.kind <;> simp_all
      | arg _ _ => rfl
      | const _ => rfl
  | gep v p hg _ ih =>
    obtain ⟨r, hr, ha⟩ := ih
    exact ⟨r, RootOf.gep v p r hg hr, ha⟩
  | cast v s hc _ ih =>
    obtain ⟨r, hr, ha⟩ := ih
    exact ⟨r, RootOf.cast v s r hc hr, ha⟩


/-! ## Fence placement -/

theorem accessOf_nextNode {I : Instruction} {p : Value} (h : accessOf I = some (p, .nextNode)) :
    I.kind = .load p := by
  unfold accessOf at h
  cases hk : I.kind <;> rw [hk] at h <;> simp at h
  rw [h]

theorem accessOf_self {I : Instruction} {p : Value} (h : accessOf I = some (p, .self)) :
    ∃ v, I.kind = .store v p := by
  unfold accessOf at h
  cases hk : I.kind <;> rw [hk] at h <;> simp at h
  rename_i v q
  exact ⟨v, by rw [h]⟩

theorem needsFence_iff {F : Function} {fuel : Nat} {I : Instruction}
    (hfuel : ∀ p ip, accessOf I = some (p, ip) → (provenanceRoot F fuel p).isSome) :
    needsFence F fuel I = true ↔ NeedsFence F I := by
  unfold needsFence NeedsFence
  cases ha : accessOf I with
  | none => simp
  | some a =>
    obtain ⟨p, ip⟩ := a
    have hs := hfuel p ip ha
    cases hr : provenanceRoot F fuel p with
    | none => rw [hr] at hs; simp at hs
    | some r =>
      simp only [hr, Bool.not_eq_true_eq_eq_false, Bool.not_eq_eq_eq_not, Bool.not_true]
      constructor
      · intro h
        exact ⟨p, ip, r, rfl, provenanceRoot_sound _ _ _ hr, h⟩
      · rintro ⟨p', ip', r', heq, hroot, hal⟩
        simp only [Option.some.injEq, Prod.mk.injEq] at heq
        obtain ⟨rfl, rfl⟩ := heq
        have := RootOf.unique hroot (provenanceRoot_sound _ _ _ hr)
        subst this
        exact hal

theorem exists_fuel (F : Function) :
    ∀ (BB : List Instruction),
      (∀ I ∈ BB, ∀ p ip, accessOf I = some (p, ip) → ∃ r, RootOf F p r) →
      ∃ fuel0, ∀ fuel, fuel0 ≤ fuel → ∀ I ∈ BB, ∀ p ip, accessOf I = some (p, ip) →
        (provenanceRoot F fuel p).isSome := by
  intro BB
  induction BB with
  | nil => intro _; exact ⟨0, by simp⟩
  | cons J rest ih =>
    intro h
    obtain ⟨n, hn⟩ := ih (fun I hI => h I (List.mem_cons_of_mem _ hI))
    cases ha : accessOf J with
    | none =>
      refine ⟨n, fun fuel hf I hI p ip hacc => ?_⟩
      rcases List.mem_cons.1 hI with rfl | hI
      · rw [ha] at hacc; cases hacc
      · exact hn fuel hf I hI p ip hacc
    | some a =>
      obtain ⟨q, iq⟩ := a
      obtain ⟨r, hr⟩ := h J (List.mem_cons_self _ _) q iq ha
      obtain ⟨m, hm⟩ := provenanceRoot_complete hr
      refine ⟨max n m, fun fuel hf I hI p ip hacc => ?_⟩
      rcases List.mem_cons.1 hI with rfl | hI
      · rw [ha] at hacc
        simp only [Option.some.injEq, Prod.mk.injEq] at hacc
        obtain ⟨rfl, rfl⟩ := hacc
        rw [provenanceRoot_mono hm (le_trans (Nat.le_max_right n m) hf)]
        rfl
      · exact hn fuel (le_trans (Nat.le_max_left n m) hf) I hI p ip hacc

/-- With the walks finishing within `fuel` and no fenced load at the very end of the list, the
loop of the code returns the block of the specification and the number of fenced accesses. -/
theorem PlaceFencesInBlock.loop_eq (F : Function) (fuel fresh : Nat) :
    ∀ (L : List Instruction) (c : Nat),
      (∀ I ∈ L, ∀ p ip, accessOf I = some (p, ip) → (provenanceRoot F fuel p).isSome) →
      (∀ I, L.getLast? = some I → ∀ p, I.kind = .load p → needsFence F fuel I = false) →
      PlaceFencesInBlock.loop F fuel fresh L c =
        some (fencedFrom F fuel fresh L c, c + L.countP (needsFence F fuel)) := by
  intro L
  induction L with
  | nil => intro c _ _; simp [PlaceFencesInBlock.loop, fencedFrom]
  | cons I rest ih =>
    intro c hfuel hlast
    have hfuel' : ∀ J ∈ rest, ∀ p ip, accessOf J = some (p, ip) →
        (provenanceRoot F fuel p).isSome := fun J hJ => hfuel J (List.mem_cons_of_mem _ hJ)
    have hlast' : ∀ J, rest.getLast? = some J → ∀ p, J.kind = .load p →
        needsFence F fuel J = false := by
      intro J hJ
      cases rest with
      | nil => simp at hJ
      | cons a t => exact hlast J (by rw [List.getLast?_cons_cons]; exact hJ)
    rw [PlaceFencesInBlock.loop, List.countP_cons]
    cases ha : accessOf I with
    | none =>
      have hn : needsFence F fuel I = false := by simp [needsFence, ha]
      simp [ih c hfuel' hlast', hn, fencedFrom, fencedAccess]
    | some a =>
      obtain ⟨p, ip⟩ := a
      have hs := hfuel I (List.mem_cons_self _ _) p ip ha
      cases hr : provenanceRoot F fuel p with
      | none => rw [hr] at hs; simp at hs
      | some r =>
        simp only [hr]
        by_cases hal : isAlloca F r = true
        · have hn : needsFence F fuel I = false := by simp [needsFence, ha, hr, hal]
          simp [ih c hfuel' hlast', hn, hal, fencedFrom, fencedAccess]
        · have hn : needsFence F fuel I = true := by simp [needsFence, ha, hr, hal]
          rw [if_neg hal]
          cases ip with
          | self =>
            obtain ⟨v, hk⟩ := accessOf_self ha
            simp [ih (c + 1) hfuel' hlast', hn, fencedFrom, fencedAccess, hk, Nat.add_assoc]
            omega
          | nextNode =>
            have hk := accessOf_nextNode ha
            cases rest with
            | nil =>
              have := hlast I (by simp) p hk
              rw [hn] at this; cases this
            | cons a t =>
              simp [ih (c + 1) hfuel' hlast', hn, fencedFrom, fencedAccess, hk, Nat.add_assoc]
              omega

theorem fencedAccess_length (F : Function) (fuel k : Nat) (I : Instruction) :
    (fencedAccess F fuel k I).length = 1 + if needsFence F fuel I then 1 else 0 := by
  unfold fencedAccess
  by_cases h : needsFence F fuel I = true
  · simp only [h, if_true]
    have : ∃ p ip, accessOf I = some (p, ip) := by
      unfold needsFence at h
      cases ha : accessOf I with
      | none => rw [ha] at h; simp at h
      | some a => exact ⟨a.1, a.2, rfl⟩
    obtain ⟨p, ip, ha⟩ := this
    cases ip with
    | self => obtain ⟨v, hk⟩ := accessOf_self ha; simp [hk]
    | nextNode => simp [accessOf_nextNode ha]
  · simp [h]

theorem fencedFrom_length (F : Function) (fuel fresh : Nat) :
    ∀ (L : List Instruction) (c : Nat),
      (fencedFrom F fuel fresh L c).length = L.length + L.countP (needsFence F fuel) := by
  intro L
  induction L with
  | nil => intro c; simp [fencedFrom]
  | cons I rest ih =>
    intro c
    rw [fencedFrom, List.length_append, ih, fencedAccess_length, List.countP_cons,
      List.length_cons]
    by_cases h : needsFence F fuel I = true
    · simp [h]; omega
    · simp [h]; omega

theorem fencedFrom_append (F : Function) (fuel fresh : Nat) :
    ∀ (pre post : List Instruction) (c : Nat),
      fencedFrom F fuel fresh (pre ++ post) c =
        fencedFrom F fuel fresh pre c ++
          fencedFrom F fuel fresh post (c + pre.countP (needsFence F fuel)) := by
  intro pre
  induction pre with
  | nil => intro post c; simp [fencedFrom]
  | cons I rest ih =>
    intro post c
    rw [List.cons_append, fencedFrom, fencedFrom, ih, List.countP_cons, List.append_assoc]
    congr 3
    by_cases h : needsFence F fuel I = true
    · simp [h]; omega
    · simp [h]

theorem Terminated.no_fenced_load {F : Function} {fuel : Nat} {BB : BasicBlock}
    (h : Terminated BB) :
    ∀ I, BB.getLast? = some I → ∀ p, I.kind = .load p → needsFence F fuel I = false := by
  intro I hI p hk
  have := h I hI
  simp [Instruction.isTerminator, hk] at this


theorem rootOf_of_isSome {F : Function} {n : Nat} {p : Value}
    (h : (provenanceRoot F n p).isSome) : ∃ r, RootOf F p r := by
  cases hr : provenanceRoot F n p with
  | none => rw [hr] at h; simp at h
  | some r => exact ⟨r, provenanceRoot_sound _ _ _ hr⟩

theorem sampleFenceBlock_terminated : Terminated sampleFenceBlock := by
  intro I h
  simp [sampleFenceBlock] at h
  subst h
  rfl

theorem sampleFenceBlock_roots :
    ∀ I ∈ sampleFenceBlock, ∀ p ip, accessOf I = some (p, ip) →
      ∃ r, RootOf sampleFenceFn p r := by
  intro I hI p ip ha
  apply rootOf_of_isSome (n := 4)
  simp only [sampleFenceBlock, List.mem_cons, List.mem_singleton, List.not_mem_nil,
    or_false] at hI
  rcases hI with rfl | rfl | rfl | rfl | rfl | rfl | rfl | rfl <;>
    simp [accessOf] at ha <;> obtain ⟨rfl, -⟩ := ha <;> decide

/-- C1. For a terminated block whose access pointers have provenance roots, given enough
fuel `PlaceFencesInBlock` returns a block and a count such that: the count is the number of
loads and stores whose root is not an alloca; the block is longer by exactly that number; and
every instruction of the input sits in the output after the prefix with its fences, alone
when it needs no fence, directly followed by one sequentially-consistent fence when it is a
load that needs one, directly preceded by one when it is a store that needs one. -/
theorem PlaceFencesInBlock_places_fences (F : Function) (fresh : Nat) (BB : BasicBlock)
    (hterm : Terminated BB)
    (hroot : ∀ I ∈ BB, ∀ p ip, accessOf I = some (p, ip) → ∃ r, RootOf F p r) :
    ∃ fuel0, ∀ fuel, fuel0 ≤ fuel →
      (∀ I ∈ BB, (needsFence F fuel I = true ↔ NeedsFence F I)) ∧
      ∃ BB', PlaceFencesInBlock F fuel fresh BB = some (BB', BB.countP (needsFence F fuel)) ∧
        BB'.length = BB.length + BB.countP (needsFence F fuel) ∧
        ∀ pre I post, BB = pre ++ I :: post →
          ∃ pre' seg post', BB' = pre' ++ seg ++ post' ∧
            pre'.length = pre.length + pre.countP (needsFence F fuel) ∧
            post'.length = post.length + post.countP (needsFence F fuel) ∧
            (¬ NeedsFence F I → seg = [I]) ∧
            (NeedsFence F I → ∀ p, I.kind = .load p →
              seg = [I, seqCstFence (fresh + pre.countP (needsFence F fuel))]) ∧
            (NeedsFence F I → ∀ v p, I.kind = .store v p →
              seg = [seqCstFence (fresh + pre.countP (needsFence F fuel)), I]) := by
  obtain ⟨fuel0, h0⟩ := exists_fuel F BB hroot
  refine ⟨fuel0, fun fuel hf => ?_⟩
  have hfuel := h0 fuel hf
  have hiff : ∀ I ∈ BB, (needsFence F fuel I = true ↔ NeedsFence F I) :=
    fun I hI => needsFence_iff (hfuel I hI)
  refine ⟨hiff, fencedFrom F fuel fresh BB 0, ?_, ?_, ?_⟩
  · have := PlaceFencesInBlock.loop_eq F fuel fresh BB 0 hfuel hterm.no_fenced_load
    simpa [PlaceFencesInBlock] using this
  · exact fencedFrom_length F fuel fresh BB 0
  · intro pre I post hBB
    have hI : I ∈ BB := by rw [hBB]; simp
    refine ⟨fencedFrom F fuel fresh pre 0,
      fencedAccess F fuel (fresh + pre.countP (needsFence F fuel)) I,
      fencedFrom F fuel fresh post
        (pre.countP (needsFence F fuel) + if needsFence F fuel I then 1 else 0),
      ?_, fencedFrom_length _ _ _ _ _, fencedFrom_length _ _ _ _ _, ?_, ?_, ?_⟩
    · rw [hBB, fencedFrom_append, fencedFrom, List.append_assoc]
      simp
    · intro hn
      have : needsFence F fuel I = false := by
        cases h : needsFence F fuel I with
        | false => rfl
        | true => exact absurd ((hiff I hI).1 h) hn
      simp [fencedAccess, this]
    · intro hn p hk
      simp [fencedAccess, (hiff I hI).2 hn, hk]
    · intro hn v p hk
      simp [fencedAccess, (hiff I hI).2 hn, hk]

/-- Witness for C1 on `sampleFenceBlock`. -/
theorem PlaceFencesInBlock_places_fences_witness :
    Terminated sampleFenceBlock ∧
    (∀ I ∈ sampleFenceBlock, ∀ p ip, accessOf I = some (p, ip) →
      ∃ r, RootOf sampleFenceFn p r) ∧
    ∃ fuel0, ∀ fuel, fuel0 ≤ fuel →
      (∀ I ∈ sampleFenceBlock,
        (needsFence sampleFenceFn fuel I = true ↔ NeedsFence sampleFenceFn I)) ∧
      ∃ BB', PlaceFencesInBlock sampleFenceFn fuel 9 sampleFenceBlock =
          some (BB', sampleFenceBlock.countP (needsFence sampleFenceFn fuel)) ∧
        BB'.length =
          sampleFenceBlock.length + sampleFenceBlock.countP (needsFence sampleFenceFn fuel) ∧
        ∀ pre I post, sampleFenceBlock = pre ++ I :: post →
          ∃ pre' seg post', BB' = pre' ++ seg ++ post' ∧
            pre'.length = pre.length + pre.countP (needsFence sampleFenceFn fuel) ∧
            post'.length = post.length + post.countP (needsFence sampleFenceFn fuel) ∧
            (¬ NeedsFence sampleFenceFn I → seg = [I]) ∧
            (NeedsFence sampleFenceFn I → ∀ p, I.kind = .load p →
              seg = [I, seqCstFence (9 + pre.countP (needsFence sampleFenceFn fuel))]) ∧
            (NeedsFence sampleFenceFn I → ∀ v p, I.kind = .store v p →
              seg = [seqCstFence (9 + pre.countP (needsFence sampleFenceFn fuel)), I]) :=
  ⟨sampleFenceBlock_terminated, sampleFenceBlock_roots,
    PlaceFencesInBlock_places_fences sampleFenceFn 9 sampleFenceBlock
      sampleFenceBlock_terminated sampleFenceBlock_roots⟩

theorem PlaceFencesInBlock_sample :
    PlaceFencesInBlock sampleFenceFn 4 9 sampleFenceBlock =
      some ([ ⟨1, BytePtrTy, .alloca (.const (.int (.int 32) 8))⟩,
              ⟨2, BytePtrTy, .gep (.inst 1) [.const (.int (.int 64) 4)]⟩,
              ⟨3, I32PtrTy, .cast .BitCast (.inst 2)⟩,
              ⟨4, .int 32, .load (.inst 3)⟩,
              ⟨5, .int 32, .load (.arg 0 I32PtrTy)⟩,
              seqCstFence 9,
              seqCstFence 10,
              ⟨6, .void, .store (.inst 5) (.arg 0 I32PtrTy)⟩,
              ⟨7, .void, .store (.inst 4) (.inst 3)⟩,
              ⟨8, .void, .terminator false []⟩ ], 2) := by
  decide


theorem FromAlloca.not_needsFence {F : Function} {I : Instruction} {p : Value}
    {ip : InsertPoint} (ha : accessOf I = some (p, ip)) (h : FromAlloca F p) :
    ¬ NeedsFence F I := by
  rintro ⟨p', ip', r, heq, hroot, hal⟩
  rw [ha] at heq
  simp only [Option.some.injEq, Prod.mk.injEq] at heq
  obtain ⟨rfl, rfl⟩ := heq
  obtain ⟨r', hr', hal'⟩ := h.rootOf
  rw [RootOf.unique hroot hr', hal'] at hal
  cases hal

theorem needsFence_of_accessOf_none {F : Function} {fuel : Nat} {I : Instruction}
    (h : accessOf I = none) : needsFence F fuel I = false := by
  simp [needsFence, h]

theorem fencedFrom_eq_self (F : Function) (fuel fresh : Nat) :
    ∀ (L : List Instruction) (c : Nat), (∀ I ∈ L, needsFence F fuel I = false) →
      fencedFrom F fuel fresh L c = L := by
  intro L
  induction L with
  | nil => intro c _; rfl
  | cons I rest ih =>
    intro c h
    have hI := h I (List.mem_cons_self _ _)
    rw [fencedFrom, ih _ (fun J hJ => h J (List.mem_cons_of_mem _ hJ))]
    simp [fencedAccess, hI]

theorem countP_eq_zero_of_all_false {p : Instruction → Bool} :
    ∀ (L : List Instruction), (∀ I ∈ L, p I = false) → L.countP p = 0 := by
  intro L h
  rw [List.countP_eq_zero]
  intro I hI
  simp [h I hI]

/-- C2. (1) A block in which every load and store goes through a pointer derived from an
alloca by a chain of getelementptr and cast instructions is returned unchanged with count 0,
given enough fuel.  (2) In any terminated block whose access pointers have roots, an access
whose pointer is derived from an alloca gets no fence: it sits alone between the prefix with
its fences and the suffix with its fences. -/
theorem PlaceFencesInBlock_skips_alloca (F : Function) (fresh : Nat) (BB : BasicBlock) :
    ((∀ I ∈ BB, ∀ p ip, accessOf I = some (p, ip) → FromAlloca F p) →
      ∃ fuel0, ∀ fuel, fuel0 ≤ fuel → PlaceFencesInBlock F fuel fresh BB = some (BB, 0)) ∧
    (Terminated BB →
      (∀ I ∈ BB, ∀ p ip, accessOf I = some (p, ip) → ∃ r, RootOf F p r) →
      ∃ fuel0, ∀ fuel, fuel0 ≤ fuel →
        ∃ BB' n, PlaceFencesInBlock F fuel fresh BB = some (BB', n) ∧
          ∀ pre I post p ip, BB = pre ++ I :: post → accessOf I = some (p, ip) →
            FromAlloca F p →
            ∃ pre' post', BB' = pre' ++ I :: post' ∧
              pre'.length = pre.length + pre.countP (needsFence F fuel) ∧
              post'.length = post.length + post.countP (needsFence F fuel)) := by
  constructor
  · intro hall
    have hroot : ∀ I ∈ BB, ∀ p ip, accessOf I = some (p, ip) → ∃ r, RootOf F p r := by
      intro I hI p ip ha
      obtain ⟨r, hr, -⟩ := (hall I hI p ip ha).rootOf
      exact ⟨r, hr⟩
    obtain ⟨fuel0, h0⟩ := exists_fuel F BB hroot
    refine ⟨fuel0, fun fuel hf => ?_⟩
    have hfuel := h0 fuel hf
    have hno : ∀ I ∈ BB, needsFence F fuel I = false := by
      intro I hI
      cases ha : accessOf I with
      | none => exact needsFence_of_accessOf_none ha
      | some a =>
        obtain ⟨p, ip⟩ := a
        cases h : needsFence F fuel I with
        | false => rfl
        | true =>
          exact absurd ((needsFence_iff (hfuel I hI)).1 h) ((hall I hI p ip ha).not_needsFence ha)
    have := PlaceFencesInBlock.loop_eq F fuel fresh BB 0 hfuel
      (fun I hI _ _ => hno I (List.mem_of_mem_getLast? hI))
    rw [fencedFrom_eq_self F fuel fresh BB 0 hno, countP_eq_zero_of_all_false BB hno] at this
    simpa [PlaceFencesInBlock] using this
  · intro hterm hroot
    obtain ⟨fuel0, h0⟩ := exists_fuel F BB hroot
    refine ⟨fuel0, fun fuel hf => ?_⟩
    have hfuel := h0 fuel hf
    refine ⟨fencedFrom F fuel fresh BB 0, 0 + BB.countP (needsFence F fuel),
      PlaceFencesInBlock.loop_eq F fuel fresh BB 0 hfuel hterm.no_fenced_load, ?_⟩
    intro pre I post p ip hBB ha hfrom
    have hI : I ∈ BB := by rw [hBB]; simp
    have hn : needsFence F fuel I = false := by
      cases h : needsFence F fuel I with
      | false => rfl
      | true => exact absurd ((needsFence_iff (hfuel I hI)).1 h) (hfrom.not_needsFence ha)
    refine ⟨fencedFrom F fuel fresh pre 0,
      fencedFrom F fuel fresh post (pre.countP (needsFence F fuel) + 0),
      ?_, fencedFrom_length _ _ _ _ _, fencedFrom_length _ _ _ _ _⟩
    rw [hBB, fencedFrom_append, fencedFrom]
    simp [fencedAccess, hn]

theorem sampleLocalBlock_fromAlloca :
    ∀ I ∈ sampleLocalBlock, ∀ p ip, accessOf I = some (p, ip) →
      FromAlloca sampleLocalFn p := by
  intro I hI p ip ha
  have h1 : FromAlloca sampleLocalFn (.inst 1) := FromAlloca.alloca _ (by decide)
  have h2 : FromAlloca sampleLocalFn (.inst 2) := FromAlloca.gep _ (.inst 1) (by decide) h1
  have h3 : FromAlloca sampleLocalFn (.inst 3) := FromAlloca.cast _ (.inst 2) (by decide) h2
  simp only [sampleLocalBlock, List.mem_cons, List.mem_singleton, List.not_mem_nil,
    or_false] at hI
  rcases hI with rfl | rfl | rfl | rfl | rfl | rfl <;>
    simp [accessOf] at ha <;> obtain ⟨rfl, -⟩ := ha <;> exact h3

theorem sampleLocalBlock_terminated : Terminated sampleLocalBlock := by
  intro I h
  simp [sampleLocalBlock] at h
  subst h
  rfl

theorem sampleLocalBlock_roots :
    ∀ I ∈ sampleLocalBlock, ∀ p ip, accessOf I = some (p, ip) →
      ∃ r, RootOf sampleLocalFn p r := by
  intro I hI p ip ha
  obtain ⟨r, hr, -⟩ := (sampleLocalBlock_fromAlloca I hI p ip ha).rootOf
  exact ⟨r, hr⟩

/-- Witness for C2 on `sampleLocalBlock`. -/
theorem PlaceFencesInBlock_skips_alloca_witness :
    (∀ I ∈ sampleLocalBlock, ∀ p ip, accessOf I = some (p, ip) →
      FromAlloca sampleLocalFn p) ∧
    Terminated sampleLocalBlock ∧
    (∀ I ∈ sampleLocalBlock, ∀ p ip, accessOf I = some (p, ip) →
      ∃ r, RootOf sampleLocalFn p r) ∧
    (∃ fuel0, ∀ fuel, fuel0 ≤ fuel →
      PlaceFencesInBlock sampleLocalFn fuel 9 sampleLocalBlock = some (sampleLocalBlock, 0)) ∧
    (∃ fuel0, ∀ fuel, fuel0 ≤ fuel →
      ∃ BB' n, PlaceFencesInBlock sampleLocalFn fuel 9 sampleLocalBlock = some (BB', n) ∧
        ∀ pre I post p ip, sampleLocalBlock = pre ++ I :: post → accessOf I = some (p, ip) →
          FromAlloca sampleLocalFn p →
          ∃ pre' post', BB' = pre' ++ I :: post' ∧
            pre'.length = pre.length + pre.countP (needsFence sampleLocalFn fuel) ∧
            post'.length = post.length + post.countP (needsFence sampleLocalFn fuel)) :=
  ⟨sampleLocalBlock_fromAlloca, sampleLocalBlock_terminated, sampleLocalBlock_roots,
    (PlaceFencesInBlock_skips_alloca sampleLocalFn 9 sampleLocalBlock).1
      sampleLocalBlock_fromAlloca,
    (PlaceFencesInBlock_skips_alloca sampleLocalFn 9 sampleLocalBlock).2
      sampleLocalBlock_terminated sampleLocalBlock_roots⟩


/-! ## Redundant-fence elimination -/

theorem OptimizeFencesAway.loop_seqCst (b : Bool) (f : Instruction) (rest : List Instruction)
    (hf : f.isSeqCstFence = true) :
    OptimizeFencesAway.loop b (f :: rest) =
      if b then OptimizeFencesAway.loop true rest else f :: OptimizeFencesAway.loop true rest := by
  unfold Instruction.isSeqCstFence at hf
  rw [OptimizeFencesAway.loop]
  cases hk : f.kind <;> rw [hk] at hf <;> simp at hf
  simp [hf]

theorem OptimizeFencesAway.flagAfter_seqCst (b : Bool) (f : Instruction)
    (rest : List Instruction) (hf : f.isSeqCstFence = true) :
    OptimizeFencesAway.flagAfter b (f :: rest) = OptimizeFencesAway.flagAfter true rest := by
  unfold Instruction.isSeqCstFence at hf
  rw [OptimizeFencesAway.flagAfter]
  cases hk : f.kind <;> rw [hk] at hf <;> simp at hf
  simp [hf]

theorem OptimizeFencesAway.loop_transparent (b : Bool) (I : Instruction)
    (rest : List Instruction) (h : I.isTransparent = true) :
    OptimizeFencesAway.loop b (I :: rest) = I :: OptimizeFencesAway.loop b rest := by
  unfold Instruction.isTransparent Instruction.isFence at h
  rw [OptimizeFencesAway.loop]
  cases hk : I.kind <;> rw [hk] at h <;> simp_all

theorem OptimizeFencesAway.flagAfter_transparent (b : Bool) (I : Instruction)
    (rest : List Instruction) (h : I.isTransparent = true) :
    OptimizeFencesAway.flagAfter b (I :: rest) = OptimizeFencesAway.flagAfter b rest := by
  unfold Instruction.isTransparent Instruction.isFence at h
  rw [OptimizeFencesAway.flagAfter]
  cases hk : I.kind <;> rw [hk] at h <;> simp_all

/-- An instruction that is neither transparent nor a sequentially-consistent fence (a weaker
fence, or a non-fence that may read or write memory) stays and clears the flag. -/
theorem OptimizeFencesAway.loop_barrier (b : Bool) (I : Instruction)
    (rest : List Instruction) (ht : I.isTransparent = false) (hs : I.isSeqCstFence = false) :
    OptimizeFencesAway.loop b (I :: rest) = I :: OptimizeFencesAway.loop false rest := by
  unfold Instruction.isTransparent Instruction.isFence at ht
  unfold Instruction.isSeqCstFence at hs
  rw [OptimizeFencesAway.loop]
  cases hk : I.kind <;> rw [hk] at ht hs <;> simp_all

theorem OptimizeFencesAway.flagAfter_barrier (b : Bool) (I : Instruction)
    (rest : List Instruction) (ht : I.isTransparent = false) (hs : I.isSeqCstFence = false) :
    OptimizeFencesAway.flagAfter b (I :: rest) = OptimizeFencesAway.flagAfter false rest := by
  unfold Instruction.isTransparent Instruction.isFence at ht
  unfold Instruction.isSeqCstFence at hs
  rw [OptimizeFencesAway.flagAfter]
  cases hk : I.kind <;> rw [hk] at ht hs <;> simp_all

theorem isTransparent_false_of_seqCst {I : Instruction} (h : I.isSeqCstFence = true) :
    I.isTransparent = false := by
  unfold Instruction.isSeqCstFence at h
  unfold Instruction.isTransparent Instruction.isFence
  cases hk : I.kind <;> rw [hk] at h <;> simp_all

/-- The three ways the loop treats an instruction. -/
theorem Instruction.trichotomy (I : Instruction) :
    I.isSeqCstFence = true ∨ I.isTransparent = true ∨
      (I.isTransparent = false ∧ I.isSeqCstFence = false) := by
  cases h1 : I.isSeqCstFence <;> cases h2 : I.isTransparent <;> simp

theorem OptimizeFencesAway.loop_append (pre : List Instruction) :
    ∀ (b : Bool) (post : List Instruction),
      OptimizeFencesAway.loop b (pre ++ post) =
        OptimizeFencesAway.loop b pre ++
          OptimizeFencesAway.loop (OptimizeFencesAway.flagAfter b pre) post := by
  induction pre with
  | nil => intro b post; simp [OptimizeFencesAway.loop, OptimizeFencesAway.flagAfter]
  | cons I rest ih =>
    intro b post
    rw [List.cons_append]
    rcases I.trichotomy with h | h | ⟨h1, h2⟩
    · rw [loop_seqCst _ _ _ h, loop_seqCst _ _ _ h, flagAfter_seqCst _ _ _ h, ih]
      cases b <;> simp
    · rw [loop_transparent _ _ _ h, loop_transparent _ _ _ h, flagAfter_transparent _ _ _ h, ih]
      simp
    · rw [loop_barrier _ _ _ h1 h2, loop_barrier _ _ _ h1 h2, flagAfter_barrier _ _ _ h1 h2, ih]
      simp

theorem OptimizeFencesAway.loop_eq_self (L : List Instruction) :
    ∀ (b : Bool), (∀ x ∈ L, x.isSeqCstFence = false) → OptimizeFencesAway.loop b L = L := by
  induction L with
  | nil => intro b _; rfl
  | cons I rest ih =>
    intro b h
    have hI := h I (List.mem_cons_self _ _)
    have hr := fun x hx => h x (List.mem_cons_of_mem _ hx)
    rcases I.trichotomy with h1 | h1 | ⟨h1, h2⟩
    · rw [hI] at h1; cases h1
    · rw [loop_transparent _ _ _ h1, ih b hr]
    · rw [loop_barrier _ _ _ h1 h2, ih false hr]

theorem OptimizeFencesAway.flagAfter_transparent_list (L : List Instruction) :
    ∀ (b : Bool), (∀ x ∈ L, x.isTransparent = true) →
      OptimizeFencesAway.flagAfter b L = b := by
  induction L with
  | nil => intro b _; rfl
  | cons I rest ih =>
    intro b h
    rw [flagAfter_transparent _ _ _ (h I (List.mem_cons_self _ _)),
      ih b (fun x hx => h x (List.mem_cons_of_mem _ hx))]

/-- The flag is set after a prefix only if it was set before and the prefix is transparent, or
the closest preceding non-transparent instruction is a sequentially-consistent fence. -/
theorem OptimizeFencesAway.flagAfter_true (L : List Instruction) :
    ∀ (b : Bool), OptimizeFencesAway.flagAfter b L = true →
      (b = true ∧ ∀ x ∈ L, x.isTransparent = true) ∨
      ∃ a g m, L = a ++ g :: m ∧ g.isSeqCstFence = true ∧
        ∀ x ∈ m, x.isTransparent = true := by
  induction L with
  | nil => intro b h; left; exact ⟨by simpa [OptimizeFencesAway.flagAfter] using h, by simp⟩
  | cons I rest ih =>
    intro b h
    rcases I.trichotomy with h1 | h1 | ⟨h1, h2⟩
    · rw [flagAfter_seqCst _ _ _ h1] at h
      right
      rcases ih true h with ⟨-, hall⟩ | ⟨a, g, m, rfl, hg, hm⟩
      · exact ⟨[], I, rest, rfl, h1, hall⟩
      · exact ⟨I :: a, g, m, rfl, hg, hm⟩
    · rw [flagAfter_transparent _ _ _ h1] at h
      rcases ih b h with ⟨hb, hall⟩ | ⟨a, g, m, rfl, hg, hm⟩
      · left
        refine ⟨hb, fun x hx => ?_⟩
        rcases List.mem_cons.1 hx with rfl | hx
        · exact h1
        · exact hall x hx
      · right; exact ⟨I :: a, g, m, rfl, hg, hm⟩
    · rw [flagAfter_barrier _ _ _ h1 h2] at h
      rcases ih false h with ⟨hb, -⟩ | ⟨a, g, m, rfl, hg, hm⟩
      · cases hb
      · right; exact ⟨I :: a, g, m, rfl, hg, hm⟩

/-- After a list without sequentially-consistent fences that holds a non-transparent
instruction the flag is clear. -/
theorem OptimizeFencesAway.flagAfter_false (L : List Instruction) :
    ∀ (b : Bool), (∀ x ∈ L, x.isSeqCstFence = false) →
      (∃ x ∈ L, x.isTransparent = false) →
      OptimizeFencesAway.flagAfter b L = false := by
  intro b hs hx
  cases h : OptimizeFencesAway.flagAfter b L with
  | false => rfl
  | true =>
    rcases flagAfter_true L b h with ⟨-, hall⟩ | ⟨a, g, m, rfl, hg, -⟩
    · obtain ⟨x, hxL, hxt⟩ := hx
      rw [hall x hxL] at hxt; cases hxt
    · rw [hs g (by simp)] at hg; cases hg

/-- With the flag set, no sequentially-consistent fence of the output is reached from its
start through transparent instructions only. -/
theorem OptimizeFencesAway.loop_true_no_leading (L : List Instruction) :
    ∀ (mid : List Instruction) (f2 : Instruction) (b : List Instruction),
      OptimizeFencesAway.loop true L = mid ++ f2 :: b → f2.isSeqCstFence = true →
      (∀ x ∈ mid, x.isTransparent = true) → False := by
  induction L with
  | nil => intro mid f2 b h; simp [OptimizeFencesAway.loop] at h
  | cons I rest ih =>
    intro mid f2 b h hf hm
    rcases I.trichotomy with h1 | h1 | ⟨h1, h2⟩
    · rw [loop_seqCst _ _ _ h1] at h
      exact ih mid f2 b h hf hm
    · rw [loop_transparent _ _ _ h1] at h
      cases mid with
      | nil =>
        simp only [List.nil_append, List.cons.injEq] at h
        rw [h.1, isTransparent_false_of_seqCst hf] at h1; cases h1
      | cons x mid' =>
        simp only [List.cons_append, List.cons.injEq] at h
        exact ih mid' f2 b h.2 hf (fun y hy => hm y (List.mem_cons_of_mem _ hy))
    · rw [loop_barrier _ _ _ h1 h2] at h
      cases mid with
      | nil =>
        simp only [List.nil_append, List.cons.injEq] at h
        rw [← h.1, h2] at hf; cases hf
      | cons x mid' =>
        simp only [List.cons_append, List.cons.injEq] at h
        have := hm x (List.mem_cons_self _ _)
        rw [← h.1, h1] at this; cases this

theorem OptimizeFencesAway.loop_no_redundant (L : List Instruction) :
    ∀ (flag : Bool) (a : List Instruction) (f1 : Instruction) (mid : List Instruction)
      (f2 : Instruction) (b : List Instruction),
      OptimizeFencesAway.loop flag L = a ++ f1 :: (mid ++ f2 :: b) →
      f1.isSeqCstFence = true → f2.isSeqCstFence = true →
      (∀ x ∈ mid, x.isTransparent = true) → False := by
  induction L with
  | nil => intro flag a f1 mid f2 b h; simp [OptimizeFencesAway.loop] at h
  | cons I rest ih =>
    intro flag a f1 mid f2 b h hf1 hf2 hm
    rcases I.trichotomy with h1 | h1 | ⟨h1, h2⟩
    · rw [loop_seqCst _ _ _ h1] at h
      cases flag with
      | true => exact ih true a f1 mid f2 b (by simpa using h) hf1 hf2 hm
      | false =>
        simp only [Bool.false_eq_true, if_false] at h
        cases a with
        | nil =>
          simp only [List.nil_append, List.cons.injEq] at h
          exact loop_true_no_leading rest mid f2 b h.2 hf2 hm
        | cons x a' =>
          simp only [List.cons_append, List.cons.injEq] at h
          exact ih true a' f1 mid f2 b h.2 hf1 hf2 hm
    · rw [loop_transparent _ _ _ h1] at h
      cases a with
      | nil =>
        simp only [List.nil_append, List.cons.injEq] at h
        rw [h.1, isTransparent_false_of_seqCst hf1] at h1; cases h1
      | cons x a' =>
        simp only [List.cons_append, List.cons.injEq] at h
        exact ih flag a' f1 mid f2 b h.2 hf1 hf2 hm
    · rw [loop_barrier _ _ _ h1 h2] at h
      cases a with
      | nil =>
        simp only [List.nil_append, List.cons.injEq] at h
        rw [← h.1, h2] at hf1; cases hf1
      | cons x a' =>
        simp only [List.cons_append, List.cons.injEq] at h
        exact ih false a' f1 mid f2 b h.2 hf1 hf2 hm

theorem OptimizeFencesAway.loop_idem (L : List Instruction) :
    ∀ (b : Bool), OptimizeFencesAway.loop b (OptimizeFencesAway.loop b L) =
      OptimizeFencesAway.loop b L := by
  induction L with
  | nil => intro b; rfl
  | cons I rest ih =>
    intro b
    rcases I.trichotomy with h1 | h1 | ⟨h1, h2⟩
    · rw [loop_seqCst _ _ _ h1]
      cases b with
      | true => simpa using ih true
      | false =>
        simp only [Bool.false_eq_true, if_false]
        rw [loop_seqCst _ _ _ h1]
        simp [ih true]
    · rw [loop_transparent _ _ _ h1, loop_transparent _ _ _ h1, ih b]
    · rw [loop_barrier _ _ _ h1 h2, loop_barrier _ _ _ h1 h2, ih false]


theorem OptimizeFencesAway.flagAfter_false_of_no_seqCst (L : List Instruction)
    (h : ∀ x ∈ L, x.isSeqCstFence = false) : OptimizeFencesAway.flagAfter false L = false := by
  cases hfl : OptimizeFencesAway.flagAfter false L with
  | false => rfl
  | true =>
    rcases flagAfter_true L false hfl with ⟨hb, -⟩ | ⟨a, g, m, rfl, hg, -⟩
    · cases hb
    · rw [h g (by simp)] at hg; cases hg

theorem isSeqCstFence_false_of_transparent {I : Instruction} (h : I.isTransparent = true) :
    I.isSeqCstFence = false := by
  cases hs : I.isSeqCstFence with
  | false => rfl
  | true => rw [isTransparent_false_of_seqCst hs] at h; cases h

/-- C3. After `OptimizeFencesAway` no two sequentially-consistent fences are separated only
by instructions that are neither fences nor may read or write memory.  And in a block whose
only sequentially-consistent fences are `f1` and, later, `f2`, with only such instructions
between them, the later fence is erased and the earlier stays: one remains. -/
theorem OptimizeFencesAway_no_redundant_pair :
    (∀ (BB : BasicBlock) (a : List Instruction) (f1 : Instruction) (mid : List Instruction)
        (f2 : Instruction) (b : List Instruction),
        OptimizeFencesAway BB = a ++ f1 :: (mid ++ f2 :: b) →
        f1.isSeqCstFence = true → f2.isSeqCstFence = true →
        ¬ ∀ x ∈ mid, x.isTransparent = true) ∧
    (∀ (pre : List Instruction) (f1 : Instruction) (mid : List Instruction) (f2 : Instruction)
        (post : List Instruction),
        f1.isSeqCstFence = true → f2.isSeqCstFence = true →
        (∀ x ∈ pre, x.isSeqCstFence = false) → (∀ x ∈ post, x.isSeqCstFence = false) →
        (∀ x ∈ mid, x.isTransparent = true) →
        OptimizeFencesAway (pre ++ f1 :: (mid ++ f2 :: post)) = pre ++ f1 :: (mid ++ post) ∧
        (OptimizeFencesAway (pre ++ f1 :: (mid ++ f2 :: post))).countP
          Instruction.isSeqCstFence = 1) := by
  constructor
  · intro BB a f1 mid f2 b h hf1 hf2 hm
    exact OptimizeFencesAway.loop_no_redundant BB false a f1 mid f2 b h hf1 hf2 hm
  · intro pre f1 mid f2 post hf1 hf2 hpre hpost hmid
    have hmid' : ∀ x ∈ mid, x.isSeqCstFence = false :=
      fun x hx => isSeqCstFence_false_of_transparent (hmid x hx)
    have heq : OptimizeFencesAway (pre ++ f1 :: (mid ++ f2 :: post)) =
        pre ++ f1 :: (mid ++ post) := by
      unfold OptimizeFencesAway
      rw [OptimizeFencesAway.loop_append, OptimizeFencesAway.loop_eq_self pre false hpre,
        OptimizeFencesAway.flagAfter_false_of_no_seqCst pre hpre,
        OptimizeFencesAway.loop_seqCst _ _ _ hf1]
      simp only [Bool.false_eq_true, if_false]
      rw [OptimizeFencesAway.loop_append, OptimizeFencesAway.loop_eq_self mid true hmid',
        OptimizeFencesAway.flagAfter_transparent_list mid true hmid,
        OptimizeFencesAway.loop_seqCst _ _ _ hf2]
      simp only [if_true]
      rw [OptimizeFencesAway.loop_eq_self post true hpost]
    refine ⟨heq, ?_⟩
    rw [heq, List.countP_append, List.countP_cons, List.countP_append,
      countP_eq_zero_of_all_false pre hpre, countP_eq_zero_of_all_false mid hmid',
      countP_eq_zero_of_all_false post hpost]
    simp [hf1]

/-- Witness for C3 on `sampleTwoFences`. -/
theorem OptimizeFencesAway_no_redundant_pair_witness :
    OptimizeFencesAway sampleTwoFences =
      [ seqCstFence 1,
        ⟨2, .int 64, .binop .Add (.arg 0 (.int 64)) (.const (.int (.int 64) 8))⟩,
        ⟨4, .void, .terminator false []⟩ ] ∧
    (OptimizeFencesAway sampleTwoFences).countP Instruction.isSeqCstFence = 1 := by
  have h := OptimizeFencesAway_no_redundant_pair.2 [] (seqCstFence 1)
    [⟨2, .int 64, .binop .Add (.arg 0 (.int 64)) (.const (.int (.int 64) 8))⟩]
    (seqCstFence 3) [⟨4, .void, .terminator false []⟩]
    (by decide) (by decide) (by decide) (by decide) (by decide)
  exact h

/-- C4. A sequentially-consistent fence `f` of a block is either kept at its place, or it is
erased and then the closest instruction before it that is a fence or may read or write memory
exists and is a sequentially-consistent fence.  Hence in a block whose only
sequentially-consistent fences are `f1` and `f2` with a weaker fence or an instruction that
may read or write memory between them, nothing is removed. -/
theorem OptimizeFencesAway_erases_only_after_seqCst :
    (∀ (pre : List Instruction) (f : Instruction) (post : List Instruction),
        f.isSeqCstFence = true →
        OptimizeFencesAway (pre ++ f :: post) =
            OptimizeFencesAway pre ++ f :: OptimizeFencesAway.loop true post ∨
          (OptimizeFencesAway (pre ++ f :: post) =
              OptimizeFencesAway pre ++ OptimizeFencesAway.loop true post ∧
            ∃ a g m, pre = a ++ g :: m ∧ g.isSeqCstFence = true ∧
              ∀ x ∈ m, x.isTransparent = true)) ∧
    (∀ (pre : List Instruction) (f1 : Instruction) (mid : List Instruction) (f2 : Instruction)
        (post : List Instruction),
        f1.isSeqCstFence = true → f2.isSeqCstFence = true →
        (∀ x ∈ pre, x.isSeqCstFence = false) → (∀ x ∈ mid, x.isSeqCstFence = false) →
        (∀ x ∈ post, x.isSeqCstFence = false) →
        (∃ x ∈ mid, x.isFence = true ∨ x.mayReadOrWriteMemory = true) →
        OptimizeFencesAway (pre ++ f1 :: (mid ++ f2 :: post)) =
          pre ++ f1 :: (mid ++ f2 :: post)) := by
  constructor
  · intro pre f post hf
    unfold OptimizeFencesAway
    rw [OptimizeFencesAway.loop_append, OptimizeFencesAway.loop_seqCst _ _ _ hf]
    cases hfl : OptimizeFencesAway.flagAfter false pre with
    | false => left; simp
    | true =>
      right
      refine ⟨by simp, ?_⟩
      rcases OptimizeFencesAway.flagAfter_true pre false hfl with ⟨hb, -⟩ | h
      · cases hb
      · exact h
  · intro pre f1 mid f2 post hf1 hf2 hpre hmid hpost hx
    have hx' : ∃ x ∈ mid, x.isTransparent = false := by
      obtain ⟨x, hxm, hxx⟩ := hx
      refine ⟨x, hxm, ?_⟩
      unfold Instruction.isTransparent
      rcases hxx with h | h <;> simp [h]
    unfold OptimizeFencesAway
    rw [OptimizeFencesAway.loop_append, OptimizeFencesAway.loop_eq_self pre false hpre,
      OptimizeFencesAway.flagAfter_false_of_no_seqCst pre hpre,
      OptimizeFencesAway.loop_seqCst _ _ _ hf1]
    simp only [Bool.false_eq_true, if_false]
    rw [OptimizeFencesAway.loop_append, OptimizeFencesAway.loop_eq_self mid true hmid,
      OptimizeFencesAway.flagAfter_false mid true hmid hx',
      OptimizeFencesAway.loop_seqCst _ _ _ hf2]
    simp only [Bool.false_eq_true, if_false]
    rw [OptimizeFencesAway.loop_eq_self post true hpost]

/-- Witness for C4 on `sampleWeakerBetween` and, for the first part, on the second fence of
`sampleTwoFences`. -/
theorem OptimizeFencesAway_erases_only_after_seqCst_witness :
    OptimizeFencesAway sampleWeakerBetween = sampleWeakerBetween ∧
    (OptimizeFencesAway sampleTwoFences =
        OptimizeFencesAway
            [seqCstFence 1,
              ⟨2, .int 64, .binop .Add (.arg 0 (.int 64)) (.const (.int (.int 64) 8))⟩] ++
          seqCstFence 3 :: OptimizeFencesAway.loop true [⟨4, .void, .terminator false []⟩] ∨
      (OptimizeFencesAway sampleTwoFences =
          OptimizeFencesAway
              [seqCstFence 1,
                ⟨2, .int 64, .binop .Add (.arg 0 (.int 64)) (.const (.int (.int 64) 8))⟩] ++
            OptimizeFencesAway.loop true [⟨4, .void, .terminator false []⟩] ∧
        ∃ a g m,
          [seqCstFence 1,
            ⟨2, .int 64, .binop .Add (.arg 0 (.int 64)) (.const (.int (.int 64) 8))⟩] =
              a ++ g :: m ∧
          g.isSeqCstFence = true ∧ ∀ x ∈ m, x.isTransparent = true)) :=
  ⟨OptimizeFencesAway_erases_only_after_seqCst.2 [] (seqCstFence 1)
      [⟨2, .void, .fence .Release⟩] (seqCstFence 3) [⟨4, .void, .terminator false []⟩]
      (by decide) (by decide) (by decide) (by decide) (by decide) (by decide),
    OptimizeFencesAway_erases_only_after_seqCst.1
      [seqCstFence 1,
        ⟨2, .int 64, .binop .Add (.arg 0 (.int 64)) (.const (.int (.int 64) 8))⟩]
      (seqCstFence 3) [⟨4, .void, .terminator false []⟩] (by decide)⟩

/-- C5. Redundancy elimination is idempotent. -/
theorem OptimizeFencesAway_idempotent (BB : BasicBlock) :
    OptimizeFencesAway (OptimizeFencesAway BB) = OptimizeFencesAway BB :=
  OptimizeFencesAway.loop_idem BB false


/-! ## The three updates on the instruction list of a function -/

theorem Function.insts_replaceAllUsesWith (F : Function) (old : Nat) (New : Value) :
    (F.replaceAllUsesWith old New).insts = rauwL old New F.insts := by
  obtain ⟨blocks⟩ := F
  simp only [Function.replaceAllUsesWith, Function.insts]
  induction blocks with
  | nil => rfl
  | cons BB rest ih => simp [ih, rauwL]

theorem Function.insts_eraseFromParent (F : Function) (id : Nat) :
    (F.eraseFromParent id).insts = eraseL id F.insts := by
  obtain ⟨blocks⟩ := F
  simp only [Function.eraseFromParent, Function.insts]
  induction blocks with
  | nil => rfl
  | cons BB rest ih => simp [ih, eraseL]

theorem Function.insts_insertBefore (F : Function) (ip : Nat) (New : Instruction) :
    (F.insertBefore ip New).insts = insertBeforeL ip New F.insts := by
  obtain ⟨blocks⟩ := F
  simp only [Function.insertBefore, Function.insts]
  induction blocks with
  | nil => rfl
  | cons BB rest ih => simp [List.flatMap_append, ih, insertBeforeL]

theorem Function.block_replaceAllUsesWith (F : Function) (old : Nat) (New : Value) (bi : Nat) :
    (F.replaceAllUsesWith old New).block bi = rauwL old New (F.block bi) := by
  simp only [Function.replaceAllUsesWith, Function.block, List.getD_eq_getElem?_getD,
    List.getElem?_map]
  cases F.blocks[bi]? <;> simp [rauwL]

theorem Function.block_eraseFromParent (F : Function) (id : Nat) (bi : Nat) :
    (F.eraseFromParent id).block bi = eraseL id (F.block bi) := by
  simp only [Function.eraseFromParent, Function.block, List.getD_eq_getElem?_getD,
    List.getElem?_map]
  cases F.blocks[bi]? <;> simp [eraseL]

theorem Function.block_insertBefore (F : Function) (ip : Nat) (New : Instruction) (bi : Nat) :
    (F.insertBefore ip New).block bi = insertBeforeL ip New (F.block bi) := by
  simp only [Function.insertBefore, Function.block, List.getD_eq_getElem?_getD,
    List.getElem?_map]
  cases F.blocks[bi]? <;> simp [insertBeforeL]

theorem Function.blocks_length_replaceAllUsesWith (F : Function) (old : Nat) (New : Value) :
    (F.replaceAllUsesWith old New).blocks.length = F.blocks.length := by
  simp [Function.replaceAllUsesWith]

theorem Function.blocks_length_eraseFromParent (F : Function) (id : Nat) :
    (F.eraseFromParent id).blocks.length = F.blocks.length := by
  simp [Function.eraseFromParent]

theorem Function.blocks_length_insertBefore (F : Function) (ip : Nat) (New : Instruction) :
    (F.insertBefore ip New).blocks.length = F.blocks.length := by
  simp [Function.insertBefore]

theorem Function.block_subset_insts (F : Function) (bi : Nat) :
    ∀ I ∈ F.block bi, I ∈ F.insts := by
  intro I hI
  simp only [Function.block, List.getD_eq_getElem?_getD] at hI
  cases h : F.blocks[bi]? with
  | none => rw [h] at hI; simp at hI
  | some BB =>
    rw [h] at hI
    simp only [Option.getD_some] at hI
    simp only [Function.insts, List.mem_flatten]
    exact ⟨BB, List.getElem?_mem h, hI⟩


/-! ## Positions -/

theorem pos_le_length (j : Nat) (L : List Instruction) : pos j L ≤ L.length := by
  induction L with
  | nil => simp [pos]
  | cons I rest ih =>
    simp only [pos, List.length_cons]
    split <;> omega

theorem pos_lt_length_iff (j : Nat) (L : List Instruction) :
    pos j L < L.length ↔ j ∈ L.map (fun I => I.id) := by
  induction L with
  | nil => simp [pos]
  | cons I rest ih =>
    simp only [pos, List.length_cons, List.map_cons, List.mem_cons]
    by_cases h : I.id = j
    · simp [h]
    · simp only [h, if_false, Nat.add_lt_add_iff_right, ih]
      constructor
      · intro hm; exact Or.inr hm
      · rintro (hm | hm)
        · exact absurd hm.symm h
        · exact hm

theorem mem_ids_of_pos_lt {a b : Nat} {L : List Instruction} (h : pos a L < pos b L) :
    a ∈ L.map (fun I => I.id) :=
  (pos_lt_length_iff a L).1 (lt_of_lt_of_le h (pos_le_length b L))

theorem pos_rauwL (j old : Nat) (New : Value) (L : List Instruction) :
    pos j (rauwL old New L) = pos j L := by
  induction L with
  | nil => rfl
  | cons I rest ih =>
    simp only [rauwL, List.map_cons, pos] at ih ⊢
    simp only [Instruction.replaceUsesOfWith]
    rw [ih]

theorem ids_rauwL (old : Nat) (New : Value) (L : List Instruction) :
    (rauwL old New L).map (fun I => I.id) = L.map (fun I => I.id) := by
  simp [rauwL, Instruction.replaceUsesOfWith]

theorem ids_eraseL (e : Nat) (L : List Instruction) :
    (eraseL e L).map (fun I => I.id) = (L.map (fun I => I.id)).filter (fun j => j != e) := by
  induction L with
  | nil => rfl
  | cons I rest ih =>
    simp only [eraseL, List.filter_cons, List.map_cons] at ih ⊢
    by_cases h : I.id = e
    · simp [h, ih]
    · simp [h, ih]

theorem ids_insertBeforeL (ip : Nat) (New : Instruction) (L : List Instruction) :
    (insertBeforeL ip New L).map (fun I => I.id) =
      (L.map (fun I => I.id)).flatMap (fun j => if j = ip then [New.id, j] else [j]) := by
  induction L with
  | nil => rfl
  | cons I rest ih =>
    simp only [insertBeforeL, List.flatMap_cons, List.map_cons, List.map_append] at ih ⊢
    rw [ih]
    by_cases h : I.id = ip <;> simp [h]

theorem insertBeforeL_of_not_mem (ip : Nat) (New : Instruction) (L : List Instruction)
    (h : ip ∉ L.map (fun I => I.id)) : insertBeforeL ip New L = L := by
  induction L with
  | nil => rfl
  | cons I rest ih =>
    simp only [List.map_cons, List.mem_cons, not_or] at h
    simp only [insertBeforeL, List.flatMap_cons] at ih ⊢
    rw [ih h.2]
    simp [Ne.symm h.1]

theorem eraseL_of_not_mem (e : Nat) (L : List Instruction)
    (h : e ∉ L.map (fun I => I.id)) : eraseL e L = L := by
  simp only [eraseL, List.filter_eq_self]
  intro I hI
  simp only [bne_iff_ne, ne_eq]
  intro heq
  exact h (List.mem_map.2 ⟨I, hI, heq⟩)

theorem insertBeforeL_append (ip : Nat) (New : Instruction) (A B : List Instruction) :
    insertBeforeL ip New (A ++ B) = insertBeforeL ip New A ++ insertBeforeL ip New B := by
  simp [insertBeforeL]

theorem eraseL_append (e : Nat) (A B : List Instruction) :
    eraseL e (A ++ B) = eraseL e A ++ eraseL e B := by
  simp [eraseL]

theorem rauwL_append (old : Nat) (New : Value) (A B : List Instruction) :
    rauwL old New (A ++ B) = rauwL old New A ++ rauwL old New B := by
  simp [rauwL]

theorem mem_eraseL {e : Nat} {L : List Instruction} {I : Instruction} :
    I ∈ eraseL e L ↔ I ∈ L ∧ I.id ≠ e := by
  simp [eraseL]

theorem mem_insertBeforeL {ip : Nat} {New : Instruction} {L : List Instruction}
    {I : Instruction} :
    I ∈ insertBeforeL ip New L ↔ I ∈ L ∨ (I = New ∧ ip ∈ L.map (fun J => J.id)) := by
  induction L with
  | nil => simp [insertBeforeL]
  | cons J rest ih =>
    simp only [insertBeforeL, List.flatMap_cons, List.mem_append] at ih ⊢
    rw [ih]
    by_cases h : J.id = ip
    · simp only [h, if_true, List.mem_cons, List.mem_singleton, List.not_mem_nil, or_false,
        List.map_cons, true_or, and_true]
      tauto
    · simp only [h, if_false, List.mem_singleton, List.mem_cons, List.map_cons]
      have : ¬ ip = J.id := fun e => h e.symm
      simp only [this, false_or]
      tauto

theorem pos_eraseL_lt {a b e : Nat} (ha : a ≠ e) :
    ∀ (L : List Instruction), pos a L < pos b L → pos a (eraseL e L) < pos b (eraseL e L) := by
  intro L
  induction L with
  | nil => simp [pos]
  | cons I rest ih =>
    intro h
    simp only [pos] at h
    have hIb : I.id ≠ b := by
      intro hIb
      rw [if_pos hIb] at h
      omega
    rw [if_neg hIb] at h
    simp only [eraseL, List.filter_cons] at ih ⊢
    by_cases hIe : I.id = e
    · have h1 : I.id ≠ a := fun h1 => ha (h1 ▸ hIe)
      rw [if_neg h1] at h
      simp only [hIe, bne_self_eq_false, Bool.false_eq_true, if_false]
      exact ih (by omega)
    · have : (I.id != e) = true := by simp [hIe]
      simp only [this, if_true, pos, if_neg hIb]
      by_cases h1 : I.id = a
      · rw [if_pos h1]; omega
      · rw [if_neg h1] at h ⊢
        have := ih (by omega)
        omega

theorem pos_insertBeforeL_new {ip : Nat} {New : Instruction} :
    ∀ (L : List Instruction), New.id ∉ L.map (fun I => I.id) →
      ip ∈ L.map (fun I => I.id) →
      pos New.id (insertBeforeL ip New L) = pos ip L := by
  intro L
  induction L with
  | nil => simp
  | cons I rest ih =>
    intro hn hip
    simp only [List.map_cons, List.mem_cons, not_or] at hn hip
    simp only [insertBeforeL, List.flatMap_cons] at ih ⊢
    by_cases h : I.id = ip
    · simp [h, pos]
    · have hip' : ip ∈ rest.map (fun I => I.id) := by
        rcases hip with hip | hip
        · exact absurd hip.symm h
        · exact hip
      simp only [h, if_false, List.singleton_append, pos, Ne.symm hn.1]
      rw [ih hn.2 hip']

theorem pos_insertBeforeL_old {ip a : Nat} {New : Instruction} (ha : a ≠ New.id) :
    ∀ (L : List Instruction), (L.map (fun I => I.id)).Nodup → ip ∈ L.map (fun I => I.id) →
      pos a (insertBeforeL ip New L) = if pos a L < pos ip L then pos a L else pos a L + 1 := by
  intro L
  induction L with
  | nil => simp
  | cons I rest ih =>
    intro hnd hip
    simp only [List.map_cons, List.nodup_cons] at hnd
    simp only [List.map_cons, List.mem_cons] at hip
    simp only [insertBeforeL, List.flatMap_cons] at ih ⊢
    by_cases h : I.id = ip
    · have hrest : insertBeforeL ip New rest = rest :=
        insertBeforeL_of_not_mem ip New rest (h ▸ hnd.1)
      simp only [insertBeforeL] at hrest
      rw [hrest]
      simp [h, pos, Ne.symm ha]
    · have hip' : ip ∈ rest.map (fun I => I.id) := by
        rcases hip with hip | hip
        · exact absurd hip.symm h
        · exact hip
      simp only [h, if_false, List.singleton_append, pos]
      by_cases h1 : I.id = a
      · simp [h1]
      · simp only [h1, if_false, ih hnd.2 hip', Nat.add_lt_add_iff_right]
        split <;> rfl


/-! ## Operands -/

theorem mem_opIds {I : Instruction} {j : Nat} :
    j ∈ I.opIds ↔ Value.inst j ∈ I.kind.operands := by
  simp only [Instruction.opIds, List.mem_filterMap]
  constructor
  · rintro ⟨v, hv, hj⟩
    cases v <;> simp [Value.instId?] at hj
    subst hj
    exact hv
  · intro h
    exact ⟨.inst j, h, rfl⟩

theorem operands_mapOperands (f : Value → Value) (k : InstKind) :
    (k.mapOperands f).operands = k.operands.map f := by
  cases k <;> simp [InstKind.mapOperands, InstKind.operands]

theorem isPHI_replaceUsesOfWith (old : Nat) (New : Value) (I : Instruction) :
    (I.replaceUsesOfWith old New).isPHI = I.isPHI := by
  simp only [Instruction.replaceUsesOfWith, Instruction.isPHI]
  cases I.kind <;> rfl

theorem mem_opIds_replaceUsesOfWith {old : Nat} {New : Value} {I : Instruction} {j : Nat}
    (h : j ∈ (I.replaceUsesOfWith old New).opIds) :
    (j ∈ I.opIds ∧ j ≠ old) ∨ (New = .inst j ∧ old ∈ I.opIds) := by
  rw [mem_opIds] at h
  simp only [Instruction.replaceUsesOfWith, operands_mapOperands, List.mem_map] at h
  obtain ⟨v, hv, hj⟩ := h
  by_cases hvo : v = .inst old
  · rw [if_pos hvo] at hj
    right
    exact ⟨hj, mem_opIds.2 (hvo ▸ hv)⟩
  · rw [if_neg hvo] at hj
    left
    subst hj
    refine ⟨mem_opIds.2 hv, ?_⟩
    intro e
    exact hvo (by rw [e])

theorem numUses_eq_zero_iff (F : Function) (e : Nat) :
    F.numUses e = 0 ↔ ∀ I ∈ F.insts, e ∉ I.opIds := by
  simp only [Function.numUses, List.sum_eq_zero_iff, List.mem_map, forall_exists_index,
    and_imp, forall_apply_eq_imp_iff₂, List.count_eq_zero, mem_opIds]

/-! ## Identities -/

theorem Function.ids_replaceAllUsesWith (F : Function) (old : Nat) (New : Value) :
    (F.replaceAllUsesWith old New).ids = F.ids := by
  simp [Function.ids, Function.insts_replaceAllUsesWith, ids_rauwL]

theorem Function.ids_eraseFromParent (F : Function) (e : Nat) :
    (F.eraseFromParent e).ids = F.ids.filter (fun j => j != e) := by
  simp [Function.ids, Function.insts_eraseFromParent, ids_eraseL]

theorem Function.mem_ids_insertBefore {F : Function} {ip : Nat} {New : Instruction} {j : Nat} :
    j ∈ (F.insertBefore ip New).ids ↔ j ∈ F.ids ∨ (j = New.id ∧ ip ∈ F.ids) := by
  simp only [Function.ids, Function.insts_insertBefore, List.mem_map, mem_insertBeforeL]
  constructor
  · rintro ⟨I, hI | ⟨rfl, hip⟩, rfl⟩
    · exact Or.inl ⟨I, hI, rfl⟩
    · exact Or.inr ⟨rfl, hip⟩
  · rintro (⟨I, hI, rfl⟩ | ⟨rfl, hip⟩)
    · exact ⟨I, Or.inl hI, rfl⟩
    · exact ⟨New, Or.inr ⟨rfl, hip⟩, rfl⟩

theorem nodup_ids_insertBeforeL {ip : Nat} {New : Instruction} :
    ∀ (L : List Instruction), (L.map (fun I => I.id)).Nodup →
      New.id ∉ L.map (fun I => I.id) →
      ((insertBeforeL ip New L).map (fun I => I.id)).Nodup := by
  intro L
  induction L with
  | nil => intro _ _; simp [insertBeforeL]
  | cons I rest ih =>
    intro hnd hn
    simp only [List.map_cons, List.nodup_cons] at hnd
    simp only [List.map_cons, List.mem_cons, not_or] at hn
    by_cases h : I.id = ip
    · have hrest : insertBeforeL ip New rest = rest :=
        insertBeforeL_of_not_mem ip New rest (h ▸ hnd.1)
      have : insertBeforeL ip New (I :: rest) = New :: I :: rest := by
        simp only [insertBeforeL, List.flatMap_cons] at hrest ⊢
        rw [hrest]
        simp [h]
      rw [this]
      simp only [List.map_cons, List.nodup_cons, List.mem_cons, not_or]
      exact ⟨⟨hn.1, hn.2⟩, hnd.1, hnd.2⟩
    · have : insertBeforeL ip New (I :: rest) = I :: insertBeforeL ip New rest := by
        simp [insertBeforeL, h]
      rw [this]
      simp only [List.map_cons, List.nodup_cons]
      refine ⟨?_, ih hnd.2 hn.2⟩
      intro hmem
      rw [List.mem_map] at hmem
      obtain ⟨J, hJ, hJid⟩ := hmem
      rcases mem_insertBeforeL.1 hJ with hJ | ⟨rfl, -⟩
      · exact hnd.1 (List.mem_map.2 ⟨J, hJ, hJid⟩)
      · exact hn.1 hJid

theorem Function.lt_freshId {F : Function} {j : Nat} (h : j ∈ F.ids) : j < F.freshId := by
  simp only [Function.freshId, Function.ids] at h ⊢
  generalize F.insts.map (fun I => I.id) = l at h
  induction l with
  | nil => simp at h
  | cons a rest ih =>
    simp only [List.foldr_cons]
    rcases List.mem_cons.1 h with rfl | h
    · omega
    · have := ih h
      omega

theorem Function.freshId_not_mem (F : Function) : F.freshId ∉ F.ids :=
  fun h => Nat.lt_irrefl _ (Function.lt_freshId h)

theorem Function.mem_insts_of_find {F : Function} {id : Nat} {I : Instruction}
    (h : F.find id = some I) : I ∈ F.insts ∧ I.id = id := by
  unfold Function.find at h
  exact ⟨List.mem_of_find?_eq_some h, by simpa using List.find?_some h⟩

theorem Function.find_of_mem {F : Function} (hnd : F.ids.Nodup) {I : Instruction}
    (hI : I ∈ F.insts) : F.find I.id = some I := by
  unfold Function.find Function.ids at *
  generalize F.insts = L at hnd hI
  induction L with
  | nil => simp at hI
  | cons J rest ih =>
    simp only [List.map_cons, List.nodup_cons] at hnd
    rcases List.mem_cons.1 hI with rfl | hI
    · simp
    · have : J.id ≠ I.id := by
        intro e
        exact hnd.1 (e ▸ List.mem_map.2 ⟨I, hI, rfl⟩)
      have hb : (J.id == I.id) = false := by simpa using this
      rw [List.find?_cons, hb]
      exact ih hnd.2 hI

theorem Function.mem_ids_of_mem {F : Function} {I : Instruction} (h : I ∈ F.insts) :
    I.id ∈ F.ids := List.mem_map.2 ⟨I, h, rfl⟩

/-! ## Orders under the three updates -/

theorem Ordered.nodup {F : Function} {O : List Instruction} (hw : Ordered F O) :
    F.ids.Nodup := by
  have h := (List.Perm.map (fun I : Instruction => I.id) hw.1).nodup_iff
  exact h.1 hw.2.1

theorem Ordered.mem_iff {F : Function} {O : List Instruction} (hw : Ordered F O)
    {I : Instruction} : I ∈ O ↔ I ∈ F.insts :=
  hw.1.mem_iff

theorem Ordered.mem_ids_iff {F : Function} {O : List Instruction} (hw : Ordered F O)
    {j : Nat} : j ∈ O.map (fun I => I.id) ↔ j ∈ F.ids :=
  (List.Perm.map (fun I : Instruction => I.id) hw.1).mem_iff

theorem WellFormedInLayout.wellFormed {F : Function} (h : WellFormedInLayout F) :
    WellFormed F :=
  ⟨F.insts, List.Perm.refl _, h.1, fun _ hBB => List.sublist_flatten_of_mem hBB, h.2⟩

theorem insertBeforeL_sublist (ip : Nat) (New : Instruction) {L O : List Instruction}
    (h : L.Sublist O) : (insertBeforeL ip New L).Sublist (insertBeforeL ip New O) := by
  induction h with
  | slnil => exact List.Sublist.refl _
  | cons a _ ih =>
    simp only [insertBeforeL, List.flatMap_cons] at ih ⊢
    exact List.Sublist.trans ih (List.sublist_append_right _ _)
  | cons₂ a _ ih =>
    simp only [insertBeforeL, List.flatMap_cons] at ih ⊢
    exact List.Sublist.append (List.Sublist.refl _) ih

theorem rauwL_no_use {old : Nat} {New : Value} (h : New ≠ .inst old)
    (L : List Instruction) : ∀ I ∈ rauwL old New L, old ∉ I.opIds := by
  intro I' hI' hmem
  rw [rauwL, List.mem_map] at hI'
  obtain ⟨I, -, rfl⟩ := hI'
  rcases mem_opIds_replaceUsesOfWith hmem with ⟨-, hne⟩ | ⟨hNew, -⟩
  · exact hne rfl
  · exact h hNew

theorem numUses_replaceAllUsesWith {F : Function} {old : Nat} {New : Value}
    (h : New ≠ .inst old) : ∀ I ∈ (F.replaceAllUsesWith old New).insts, old ∉ I.opIds := by
  rw [Function.insts_replaceAllUsesWith]
  exact rauwL_no_use h _

theorem Ordered.erase_wf {F : Function} {O : List Instruction} (hw : Ordered F O) {e : Nat}
    (hu : ∀ I ∈ O, e ∉ I.opIds) : Ordered (F.eraseFromParent e) (eraseL e O) := by
  obtain ⟨hperm, hnd, hsub, hop⟩ := hw
  refine ⟨?_, ?_, ?_, ?_⟩
  · rw [Function.insts_eraseFromParent]
    exact hperm.filter _
  · rw [ids_eraseL]
    exact hnd.filter _
  · intro BB hBB
    simp only [Function.eraseFromParent, List.mem_map] at hBB
    obtain ⟨B, hB, rfl⟩ := hBB
    exact (hsub B hB).filter _
  · intro I hI j hj
    rw [mem_eraseL] at hI
    obtain ⟨hmem, hdef⟩ := hop I hI.1 j hj
    have hje : j ≠ e := fun h => hu I hI.1 (h ▸ hj)
    refine ⟨?_, fun hphi => pos_eraseL_lt hje _ (hdef hphi)⟩
    rw [ids_eraseL, List.mem_filter]
    exact ⟨hmem, by simpa using hje⟩

theorem Ordered.rauw_wf {F : Function} {O : List Instruction} (hw : Ordered F O) {old : Nat}
    {New : Value} (hav : AvailableAt O old New) :
    Ordered (F.replaceAllUsesWith old New) (rauwL old New O) := by
  obtain ⟨hperm, hnd, hsub, hop⟩ := hw
  refine ⟨?_, ?_, ?_, ?_⟩
  · rw [Function.insts_replaceAllUsesWith]
    exact hperm.map _
  · rw [ids_rauwL]
    exact hnd
  · intro BB hBB
    simp only [Function.replaceAllUsesWith, List.mem_map] at hBB
    obtain ⟨B, hB, rfl⟩ := hBB
    exact (hsub B hB).map _
  · intro I' hI' j hj
    rw [rauwL, List.mem_map] at hI'
    obtain ⟨I, hI, rfl⟩ := hI'
    rw [ids_rauwL, pos_rauwL, pos_rauwL, isPHI_replaceUsesOfWith]
    have hid : (I.replaceUsesOfWith old New).id = I.id := rfl
    rw [hid]
    rcases mem_opIds_replaceUsesOfWith hj with ⟨hj', -⟩ | ⟨hNew, hold'⟩
    · exact hop I hI j hj'
    · subst hNew
      simp only [AvailableAt] at hav
      refine ⟨mem_ids_of_pos_lt hav, fun hphi => ?_⟩
      exact lt_trans hav ((hop I hI old hold').2 hphi)

theorem Ordered.insert_wf {F : Function} {O : List Instruction} (hw : Ordered F O) {ip : Nat}
    {New : Instruction} (hip : ip ∈ O.map (fun I => I.id))
    (hnew : New.id ∉ O.map (fun I => I.id))
    (hops : ∀ j ∈ New.opIds, pos j O < pos ip O) :
    Ordered (F.insertBefore ip New) (insertBeforeL ip New O) := by
  obtain ⟨hperm, hnd, hsub, hop⟩ := hw
  refine ⟨?_, ?_, ?_, ?_⟩
  · rw [Function.insts_insertBefore]
    exact hperm.flatMap_right _
  · exact nodup_ids_insertBeforeL _ hnd hnew
  · intro BB hBB
    simp only [Function.insertBefore, List.mem_map] at hBB
    obtain ⟨B, hB, rfl⟩ := hBB
    exact insertBeforeL_sublist ip New (hsub B hB)
  · intro I hI j hj
    rw [mem_insertBeforeL] at hI
    have hmem_new : ∀ k, k ∈ O.map (fun I => I.id) →
        k ∈ (insertBeforeL ip New O).map (fun I => I.id) := by
      intro k hk
      obtain ⟨K, hK, rfl⟩ := List.mem_map.1 hk
      exact List.mem_map.2 ⟨K, mem_insertBeforeL.2 (Or.inl hK), rfl⟩
    rcases hI with hI | ⟨rfl, -⟩
    · obtain ⟨hmem, hdef⟩ := hop I hI j hj
      have hjn : j ≠ New.id := fun e => hnew (e ▸ hmem)
      have hIn : I.id ≠ New.id := fun e => hnew (e ▸ List.mem_map.2 ⟨I, hI, rfl⟩)
      refine ⟨hmem_new j hmem, fun hphi => ?_⟩
      rw [pos_insertBeforeL_old hjn _ hnd hip, pos_insertBeforeL_old hIn _ hnd hip]
      have := hdef hphi
      split <;> split <;> omega
    · have hlt := hops j hj
      have hmem : j ∈ O.map (fun I => I.id) := mem_ids_of_pos_lt hlt
      have hjn : j ≠ I.id := fun e => hnew (e ▸ hmem)
      refine ⟨hmem_new j hmem, fun _ => ?_⟩
      rw [pos_insertBeforeL_old hjn _ hnd hip, pos_insertBeforeL_new _ hnew hip, if_pos hlt]
      exact hlt

/-! ## Block suffixes under the three updates -/

theorem Function.EndsWith.rauw_ends {F : Function} {bi : Nat} {rest : List Nat}
    (h : F.EndsWith bi rest) (old : Nat) (New : Value) :
    (F.replaceAllUsesWith old New).EndsWith bi rest := by
  obtain ⟨done, hd⟩ := h
  exact ⟨done, by rw [Function.block_replaceAllUsesWith, ids_rauwL, hd]⟩

theorem Function.EndsWith.erase_ends {F : Function} {bi : Nat} {rest : List Nat}
    (h : F.EndsWith bi rest) {e : Nat} (he : e ∉ rest) :
    (F.eraseFromParent e).EndsWith bi rest := by
  obtain ⟨done, hd⟩ := h
  refine ⟨done.filter (fun j => j != e), ?_⟩
  rw [Function.block_eraseFromParent, ids_eraseL, hd, List.filter_append]
  congr 1
  rw [List.filter_eq_self]
  intro j hj
  have : j ≠ e := fun e' => he (e' ▸ hj)
  simpa using this

theorem Function.EndsWith.insert_ends {F : Function} {bi : Nat} {rest : List Nat}
    (h : F.EndsWith bi rest) {ip : Nat} (hip : ip ∉ rest) (New : Instruction) :
    (F.insertBefore ip New).EndsWith bi rest := by
  obtain ⟨done, hd⟩ := h
  refine ⟨done.flatMap (fun j => if j = ip then [New.id, j] else [j]), ?_⟩
  rw [Function.block_insertBefore, ids_insertBeforeL, hd, List.flatMap_append]
  congr 1
  clear hd
  induction rest with
  | nil => rfl
  | cons a t ih =>
    simp only [List.mem_cons, not_or] at hip
    rw [List.flatMap_cons, ih hip.2, if_neg (Ne.symm hip.1)]
    rfl

/-! ## The builder calls -/

theorem BuilderStep.refl {F : Function} {O : List Instruction} {ip : Nat}
    (hw : Ordered F O) (hip : ip ∈ O.map (fun I => I.id)) : BuilderStep F O ip F O :=
  ⟨hw, hip, fun _ h => h, fun _ _ _ h => h, rfl⟩

theorem AvailableAt.opIds {O : List Instruction} {ip : Nat} {I : Instruction}
    (h : ∀ v ∈ I.kind.operands, AvailableAt O ip v) :
    ∀ j ∈ I.opIds, pos j O < pos ip O := by
  intro j hj
  exact h (.inst j) (mem_opIds.1 hj)

theorem IRBuilder.Insert_ok {F : Function} {O : List Instruction} {ip : Nat}
    (hw : Ordered F O) (hip : ip ∈ O.map (fun I => I.id))
    (ty : Ty) (kind : InstKind) (hops : ∀ v ∈ kind.operands, AvailableAt O ip v) :
    ∃ O', BuilderStep F O ip (IRBuilder.Insert F ip ty kind).1 O' ∧
      AvailableAt O' ip (IRBuilder.Insert F ip ty kind).2 := by
  simp only [IRBuilder.Insert]
  have hfresh : F.freshId ∉ O.map (fun I => I.id) :=
    fun h => F.freshId_not_mem (hw.mem_ids_iff.1 h)
  have hipn : ip ≠ F.freshId := fun e => hfresh (e ▸ hip)
  have hposip : pos ip (insertBeforeL ip ⟨F.freshId, ty, kind⟩ O) = pos ip O + 1 := by
    rw [@pos_insertBeforeL_old ip ip ⟨F.freshId, ty, kind⟩ hipn _ hw.2.1 hip]
    simp
  refine ⟨insertBeforeL ip ⟨F.freshId, ty, kind⟩ O, ⟨?_, ?_, ?_, ?_, ?_⟩, ?_⟩
  · exact hw.insert_wf hip hfresh (AvailableAt.opIds (I := ⟨F.freshId, ty, kind⟩) hops)
  · obtain ⟨K, hK, hKid⟩ := List.mem_map.1 hip
    exact List.mem_map.2 ⟨K, mem_insertBeforeL.2 (Or.inl hK), hKid⟩
  · intro v hv
    cases v with
    | inst j =>
      simp only [AvailableAt] at hv ⊢
      have hj : j ≠ F.freshId := fun e => hfresh (e ▸ mem_ids_of_pos_lt hv)
      rw [hposip, @pos_insertBeforeL_old ip j ⟨F.freshId, ty, kind⟩ hj _ hw.2.1 hip,
        if_pos hv]
      omega
    | arg _ _ => trivial
    | const _ => trivial
  · intro bi rest hr he
    exact he.insert_ends hr _
  · exact Function.blocks_length_insertBefore _ _ _
  · simp only [AvailableAt]
    rw [hposip, @pos_insertBeforeL_new ip ⟨F.freshId, ty, kind⟩ _ hfresh hip]
    omega

theorem IRBuilder.CreatePointerCast_ok {F : Function} {O : List Instruction} {ip : Nat}
    (hw : Ordered F O) (hip : ip ∈ O.map (fun I => I.id)) {V : Value}
    (hV : AvailableAt O ip V) (DestTy : Ty) :
    ∃ O', BuilderStep F O ip (IRBuilder.CreatePointerCast F ip V DestTy).1 O' ∧
      AvailableAt O' ip (IRBuilder.CreatePointerCast F ip V DestTy).2 := by
  unfold IRBuilder.CreatePointerCast
  split
  · exact ⟨O, BuilderStep.refl hw hip, hV⟩
  · split
    · exact ⟨O, BuilderStep.refl hw hip, trivial⟩
    · apply IRBuilder.Insert_ok hw hip
      intro v hv
      simp only [InstKind.operands, List.mem_singleton] at hv
      exact hv ▸ hV

theorem IRBuilder.CreateIntToPtr_ok {F : Function} {O : List Instruction} {ip : Nat}
    (hw : Ordered F O) (hip : ip ∈ O.map (fun I => I.id)) {V : Value}
    (hV : AvailableAt O ip V) (DestTy : Ty) :
    ∃ O', BuilderStep F O ip (IRBuilder.CreateIntToPtr F ip V DestTy).1 O' ∧
      AvailableAt O' ip (IRBuilder.CreateIntToPtr F ip V DestTy).2 := by
  unfold IRBuilder.CreateIntToPtr
  split
  · exact ⟨O, BuilderStep.refl hw hip, hV⟩
  · split
    · exact ⟨O, BuilderStep.refl hw hip, trivial⟩
    · apply IRBuilder.Insert_ok hw hip
      intro v hv
      simp only [InstKind.operands, List.mem_singleton] at hv
      exact hv ▸ hV

theorem IRBuilder.CreateGEP_ok {F : Function} {O : List Instruction} {ip : Nat}
    (hw : Ordered F O) (hip : ip ∈ O.map (fun I => I.id)) (ElementTy : Ty)
    {Ptr Idx : Value} (hP : AvailableAt O ip Ptr) (hI : AvailableAt O ip Idx) :
    ∃ O', BuilderStep F O ip (IRBuilder.CreateGEP F ip ElementTy Ptr [Idx]).1 O' ∧
      AvailableAt O' ip (IRBuilder.CreateGEP F ip ElementTy Ptr [Idx]).2 := by
  unfold IRBuilder.CreateGEP
  apply IRBuilder.Insert_ok hw hip
  intro v hv
  simp only [InstKind.operands, List.mem_cons, List.mem_singleton, List.not_mem_nil,
    or_false] at hv
  rcases hv with rfl | rfl
  · exact hP
  · exact hI

/-! ## Redirecting and erasing -/

theorem replaceAndErase_ok {F : Function} {O : List Instruction} {I2P : Instruction}
    {FinalPtr : Value} (hw : Ordered F O) (hav : AvailableAt O I2P.id FinalPtr) :
    ∃ G O', replaceAndErase F I2P FinalPtr = some G ∧ Ordered G O' ∧
      G.blocks.length = F.blocks.length ∧
      ∀ bi rest, I2P.id ∉ rest → F.EndsWith bi rest → G.EndsWith bi rest := by
  have hne : FinalPtr ≠ .inst I2P.id := by
    intro e
    rw [e] at hav
    exact Nat.lt_irrefl _ hav
  refine ⟨(F.replaceAllUsesWith I2P.id FinalPtr).eraseFromParent I2P.id,
    eraseL I2P.id (rauwL I2P.id FinalPtr O), by simp [replaceAndErase, hne], ?_, ?_, ?_⟩
  · exact (hw.rauw_wf hav).erase_wf (rauwL_no_use hne O)
  · rw [Function.blocks_length_eraseFromParent, Function.blocks_length_replaceAllUsesWith]
  · intro bi rest hr he
    exact (he.rauw_ends _ _).erase_ends hr

theorem eraseIfUnused_ok {F : Function} {O : List Instruction} (hw : Ordered F O) (e : Nat) :
    ∃ O', Ordered (eraseIfUnused F e) O' ∧
      (eraseIfUnused F e).blocks.length = F.blocks.length ∧
      ∀ bi rest, e ∉ rest → F.EndsWith bi rest → (eraseIfUnused F e).EndsWith bi rest := by
  unfold eraseIfUnused
  split
  · rename_i h
    refine ⟨eraseL e O, hw.erase_wf ?_, Function.blocks_length_eraseFromParent _ _,
      fun bi rest hr he => he.erase_ends hr⟩
    intro I hI
    exact (numUses_eq_zero_iff F e).1 h I (hw.mem_iff.1 hI)
  · exact ⟨O, hw, rfl, fun _ _ _ he => he⟩

/-! ## The shape guards -/

theorem asInstruction_eq_some {F : Function} {V : Value} {J : Instruction} :
    asInstruction F V = some J ↔ ∃ id, V = .inst id ∧ F.find id = some J := by
  cases V <;> simp [asInstruction]

theorem asPtrToInt_eq_some {F : Function} {V : Value} {P2I : Instruction} {Ptr : Value} :
    asPtrToInt F V = some (P2I, Ptr) ↔
      asInstruction F V = some P2I ∧ P2I.kind = .cast .PtrToInt Ptr := by
  unfold asPtrToInt
  cases hV : asInstruction F V with
  | none => simp
  | some J =>
    simp only [Option.some.injEq]
    constructor
    · intro h
      cases hk : J.kind <;> rw [hk] at h <;> simp only at h <;> try (cases h)
      rename_i op P
      by_cases hop : op = .PtrToInt
      · subst hop
        simp only [if_true, Option.some.injEq, Prod.mk.injEq] at h
        obtain ⟨rfl, rfl⟩ := h
        exact ⟨rfl, hk⟩
      · simp [hop] at h
    · rintro ⟨rfl, h⟩
      simp [h]

theorem matchShape_eq_some {F : Function} {I : Instruction} {S : Shape}
    (h : matchShape F I = some S) :
    ∃ V VI, I.kind = .cast .IntToPtr V ∧ asInstruction F V = some VI ∧
      ((∃ Op0 Idx P2I Ptr T, S = .A VI P2I Ptr Idx ∧ VI.kind = .binop .Add Op0 Idx ∧
          asPtrToInt F Op0 = some (P2I, Ptr) ∧ intToPtrSrcTy F Ptr = some T ∧
          T.isIntegerTy = true) ∨
        (∃ Arg Idx, S = .B VI Arg Idx ∧ VI.kind = .binop .Add Arg Idx ∧
          asPtrToInt F Arg = none ∧ isIntegerArgument Arg = true) ∨
        (∃ Ptr, S = .C VI Ptr ∧ VI.kind = .cast .PtrToInt Ptr)) := by
  unfold matchShape at h
  cases hk : I.kind <;> rw [hk] at h <;> simp only at h <;> try (cases h)
  rename_i op V
  by_cases hop : op = .IntToPtr
  · subst hop
    simp only [if_true] at h
    cases hV : asInstruction F V with
    | none => rw [hV] at h; cases h
    | some VI =>
      rw [hV] at h
      simp only at h
      refine ⟨V, VI, rfl, hV, ?_⟩
      cases hVk : VI.kind <;> rw [hVk] at h <;> simp only at h <;> try (cases h)
      · rename_i cop P
        by_cases hcop : cop = .PtrToInt
        · subst hcop
          simp only [if_true, Option.some.injEq] at h
          exact Or.inr (Or.inr ⟨P, h.symm, rfl⟩)
        · simp [hcop] at h
      · rename_i bop Op0 Op1
        by_cases hbop : bop = .Add
        · subst hbop
          simp only [if_true] at h
          cases hp : asPtrToInt F Op0 with
          | none =>
            rw [hp] at h
            simp only at h
            by_cases ha : isIntegerArgument Op0 = true
            · simp only [ha, if_true, Option.some.injEq] at h
              exact Or.inr (Or.inl ⟨Op0, Op1, h.symm, rfl, hp, ha⟩)
            · simp [ha] at h
          | some pr =>
            obtain ⟨P2I, Ptr⟩ := pr
            rw [hp] at h
            simp only at h
            cases hT : intToPtrSrcTy F Ptr with
            | none => rw [hT] at h; cases h
            | some T =>
              rw [hT] at h
              simp only at h
              by_cases hTi : T.isIntegerTy = true
              · simp only [hTi, if_true, Option.some.injEq] at h
                exact Or.inl ⟨Op0, Op1, P2I, Ptr, T, h.symm, rfl, hp, hT, hTi⟩
              · simp [hTi] at h
        · simp [hbop] at h
  · simp [hop] at h


/-! ## One execution of the loop body keeps the function well formed -/

theorem Ordered.operand_available {F : Function} {O : List Instruction} (hw : Ordered F O)
    {J : Instruction} (hJ : J ∈ F.insts) (hphi : J.isPHI = false) {v : Value}
    (hv : v ∈ J.kind.operands) {ip : Nat} (hle : pos J.id O ≤ pos ip O) :
    AvailableAt O ip v := by
  cases v with
  | inst j =>
    exact lt_of_lt_of_le ((hw.2.2.2 J (hw.mem_iff.2 hJ) j (mem_opIds.2 hv)).2 hphi) hle
  | arg _ _ => trivial
  | const _ => trivial

theorem Ordered.asInstruction_pos {F : Function} {O : List Instruction} (hw : Ordered F O)
    {J : Instruction} (hJ : J ∈ F.insts) (hphi : J.isPHI = false) {V : Value}
    (hV : V ∈ J.kind.operands) {VI : Instruction} (h : asInstruction F V = some VI) :
    VI ∈ F.insts ∧ pos VI.id O < pos J.id O := by
  obtain ⟨id, rfl, hf⟩ := asInstruction_eq_some.1 h
  obtain ⟨hmem, hid⟩ := Function.mem_insts_of_find hf
  refine ⟨hmem, ?_⟩
  rw [hid]
  exact (hw.2.2.2 J (hw.mem_iff.2 hJ) id (mem_opIds.2 hV)).2 hphi

theorem not_mem_of_pos_le {O : List Instruction} {ip e : Nat} {rest : List Nat}
    (hrest : ∀ r ∈ rest, pos ip O < pos r O) (he : pos e O ≤ pos ip O) : e ∉ rest := by
  intro hmem
  have := hrest e hmem
  omega

theorem rewriteShapeA_ok {F : Function} {O : List Instruction} {I2P BinOp P2I : Instruction}
    {Ptr Idx : Value} (hw : Ordered F O) (hI : I2P ∈ F.insts)
    (hP : AvailableAt O I2P.id Ptr) (hX : AvailableAt O I2P.id Idx) :
    ∃ G O', rewriteShapeA F I2P BinOp P2I Ptr Idx = some G ∧ Ordered G O' ∧
      G.blocks.length = F.blocks.length ∧
      ∀ bi rest, I2P.id ∉ rest → BinOp.id ∉ rest → P2I.id ∉ rest →
        F.EndsWith bi rest → G.EndsWith bi rest := by
  have hip : I2P.id ∈ O.map (fun I => I.id) := List.mem_map.2 ⟨I2P, hw.mem_iff.2 hI, rfl⟩
  obtain ⟨O1, s1, a1⟩ := IRBuilder.CreatePointerCast_ok hw hip hP BytePtrTy
  obtain ⟨O2, s2, a2⟩ := IRBuilder.CreateGEP_ok s1.1 s1.2.1 (.int 8) a1 (s1.2.2.1 _ hX)
  obtain ⟨O3, s3, a3⟩ := IRBuilder.CreatePointerCast_ok s2.1 s2.2.1 a2 I2P.ty
  obtain ⟨G, O4, hG, hwG, hlen, hend⟩ := replaceAndErase_ok s3.1 a3
  obtain ⟨O5, hw5, hlen5, hend5⟩ := eraseIfUnused_ok hwG BinOp.id
  obtain ⟨O6, hw6, hlen6, hend6⟩ := eraseIfUnused_ok hw5 P2I.id
  refine ⟨eraseIfUnused (eraseIfUnused G BinOp.id) P2I.id, O6, ?_, hw6, ?_, ?_⟩
  · simp only [rewriteShapeA, hG, Option.map_some']
  · rw [hlen6, hlen5, hlen, s3.2.2.2.2, s2.2.2.2.2, s1.2.2.2.2]
  · intro bi rest h1 h2 h3 he
    exact hend6 bi rest h3 (hend5 bi rest h2 (hend bi rest h1
      (s3.2.2.2.1 bi rest h1 (s2.2.2.2.1 bi rest h1 (s1.2.2.2.1 bi rest h1 he)))))

theorem rewriteShapeB_ok {F : Function} {O : List Instruction} {I2P BinOp : Instruction}
    {Arg Idx : Value} (hw : Ordered F O) (hI : I2P ∈ F.insts)
    (hP : AvailableAt O I2P.id Arg) (hX : AvailableAt O I2P.id Idx) :
    ∃ G O', rewriteShapeB F I2P BinOp Arg Idx = some G ∧ Ordered G O' ∧
      G.blocks.length = F.blocks.length ∧
      ∀ bi rest, I2P.id ∉ rest → BinOp.id ∉ rest →
        F.EndsWith bi rest → G.EndsWith bi rest := by
  have hip : I2P.id ∈ O.map (fun I => I.id) := List.mem_map.2 ⟨I2P, hw.mem_iff.2 hI, rfl⟩
  obtain ⟨O1, s1, a1⟩ := IRBuilder.CreateIntToPtr_ok hw hip hP BytePtrTy
  obtain ⟨O2, s2, a2⟩ := IRBuilder.CreateGEP_ok s1.1 s1.2.1 (.int 8) a1 (s1.2.2.1 _ hX)
  obtain ⟨O3, s3, a3⟩ := IRBuilder.CreatePointerCast_ok s2.1 s2.2.1 a2 I2P.ty
  obtain ⟨G, O4, hG, hwG, hlen, hend⟩ := replaceAndErase_ok s3.1 a3
  obtain ⟨O5, hw5, hlen5, hend5⟩ := eraseIfUnused_ok hwG BinOp.id
  refine ⟨eraseIfUnused G BinOp.id, O5, ?_, hw5, ?_, ?_⟩
  · simp only [rewriteShapeB, hG, Option.map_some']
  · rw [hlen5, hlen, s3.2.2.2.2, s2.2.2.2.2, s1.2.2.2.2]
  · intro bi rest h1 h2 he
    exact hend5 bi rest h2 (hend bi rest h1
      (s3.2.2.2.1 bi rest h1 (s2.2.2.2.1 bi rest h1 (s1.2.2.2.1 bi rest h1 he))))

theorem rewriteShapeC_ok {F : Function} {O : List Instruction} {I2P P2I : Instruction}
    {Ptr : Value} (hw : Ordered F O) (hI : I2P ∈ F.insts)
    (hP : AvailableAt O I2P.id Ptr) :
    ∃ G O', rewriteShapeC F I2P P2I Ptr = some G ∧ Ordered G O' ∧
      G.blocks.length = F.blocks.length ∧
      ∀ bi rest, I2P.id ∉ rest → P2I.id ∉ rest →
        F.EndsWith bi rest → G.EndsWith bi rest := by
  have hip : I2P.id ∈ O.map (fun I => I.id) := List.mem_map.2 ⟨I2P, hw.mem_iff.2 hI, rfl⟩
  obtain ⟨O1, s1, a1⟩ := IRBuilder.CreatePointerCast_ok hw hip hP I2P.ty
  obtain ⟨G, O4, hG, hwG, hlen, hend⟩ := replaceAndErase_ok s1.1 a1
  obtain ⟨O5, hw5, hlen5, hend5⟩ := eraseIfUnused_ok hwG P2I.id
  refine ⟨eraseIfUnused G P2I.id, O5, ?_, hw5, ?_, ?_⟩
  · simp only [rewriteShapeC, hG, Option.map_some']
  · rw [hlen5, hlen, s1.2.2.2.2]
  · intro bi rest h1 h2 he
    exact hend5 bi rest h2 (hend bi rest h1 (s1.2.2.2.1 bi rest h1 he))

theorem isPHI_of_cast {I : Instruction} {op : CastOp} {V : Value} (h : I.kind = .cast op V) :
    I.isPHI = false := by
  simp [Instruction.isPHI, h]

theorem isPHI_of_binop {I : Instruction} {op : BinOpcode} {a b : Value}
    (h : I.kind = .binop op a b) : I.isPHI = false := by
  simp [Instruction.isPHI, h]

theorem PeepholeOptimizationPass.visit_ok {F : Function} {O : List Instruction}
    {I : Instruction} (hw : Ordered F O) (hI : I ∈ F.insts) :
    ∃ G O', PeepholeOptimizationPass.visit F I = some G ∧ Ordered G O' ∧
      G.blocks.length = F.blocks.length ∧
      ∀ bi rest, (∀ r ∈ rest, pos I.id O < pos r O) →
        F.EndsWith bi rest → G.EndsWith bi rest := by
  unfold PeepholeOptimizationPass.visit
  cases hm : matchShape F I with
  | none => exact ⟨F, O, rfl, hw, rfl, fun _ _ _ he => he⟩
  | some S =>
    obtain ⟨V, VI, hk, hV, hS⟩ := matchShape_eq_some hm
    have hVop : V ∈ I.kind.operands := by simp [hk, InstKind.operands]
    obtain ⟨hVI, hVIpos⟩ := hw.asInstruction_pos hI (isPHI_of_cast hk) hVop hV
    rcases hS with ⟨Op0, Idx, P2I, Ptr, T, rfl, hVk, hp, -, -⟩ |
      ⟨Arg, Idx, rfl, hVk, -, -⟩ | ⟨Ptr, rfl, hVk⟩
    · obtain ⟨hP2I, hP2Ik⟩ := asPtrToInt_eq_some.1 hp
      have hOp0 : Op0 ∈ VI.kind.operands := by simp [hVk, InstKind.operands]
      have hIdx : Idx ∈ VI.kind.operands := by simp [hVk, InstKind.operands]
      obtain ⟨hP2Imem, hP2Ipos⟩ := hw.asInstruction_pos hVI (isPHI_of_binop hVk) hOp0 hP2I
      have hPtr : Ptr ∈ P2I.kind.operands := by simp [hP2Ik, InstKind.operands]
      have hP2Ile : pos P2I.id O ≤ pos I.id O := by omega
      obtain ⟨G, O', hG, hwG, hlen, hend⟩ := @rewriteShapeA_ok F O I VI P2I Ptr Idx hw hI
        (hw.operand_available hP2Imem (isPHI_of_cast hP2Ik) hPtr hP2Ile)
        (hw.operand_available hVI (isPHI_of_binop hVk) hIdx (le_of_lt hVIpos))
      refine ⟨G, O', hG, hwG, hlen, fun bi rest hrest he => ?_⟩
      exact hend bi rest (not_mem_of_pos_le hrest (le_refl _))
        (not_mem_of_pos_le hrest (le_of_lt hVIpos)) (not_mem_of_pos_le hrest hP2Ile) he
    · have hArg : Arg ∈ VI.kind.operands := by simp [hVk, InstKind.operands]
      have hIdx : Idx ∈ VI.kind.operands := by simp [hVk, InstKind.operands]
      obtain ⟨G, O', hG, hwG, hlen, hend⟩ := @rewriteShapeB_ok F O I VI Arg Idx hw hI
        (hw.operand_available hVI (isPHI_of_binop hVk) hArg (le_of_lt hVIpos))
        (hw.operand_available hVI (isPHI_of_binop hVk) hIdx (le_of_lt hVIpos))
      refine ⟨G, O', hG, hwG, hlen, fun bi rest hrest he => ?_⟩
      exact hend bi rest (not_mem_of_pos_le hrest (le_refl _))
        (not_mem_of_pos_le hrest (le_of_lt hVIpos)) he
    · have hPtr : Ptr ∈ VI.kind.operands := by simp [hVk, InstKind.operands]
      obtain ⟨G, O', hG, hwG, hlen, hend⟩ := @rewriteShapeC_ok F O I VI Ptr hw hI
        (hw.operand_available hVI (isPHI_of_cast hVk) hPtr (le_of_lt hVIpos))
      refine ⟨G, O', hG, hwG, hlen, fun bi rest hrest he => ?_⟩
      exact hend bi rest (not_mem_of_pos_le hrest (le_refl _))
        (not_mem_of_pos_le hrest (le_of_lt hVIpos)) he

/-! ## The scan of a block and of the function -/

theorem pos_lt_of_pair_sublist {a r : Nat} :
    ∀ (O : List Instruction), [a, r].Sublist (O.map (fun I => I.id)) →
      (O.map (fun I => I.id)).Nodup → pos a O < pos r O := by
  intro O
  induction O with
  | nil => intro h; simp at h
  | cons X t ih =>
    intro h hnd
    simp only [List.map_cons, List.nodup_cons] at hnd
    simp only [List.map_cons] at h
    cases h with
    | cons _ h' =>
      have ha : a ∈ t.map (fun I => I.id) := h'.subset (by simp)
      have hr : r ∈ t.map (fun I => I.id) := h'.subset (by simp)
      have hXa : X.id ≠ a := fun e => hnd.1 (e ▸ ha)
      have hXr : X.id ≠ r := fun e => hnd.1 (e ▸ hr)
      simp only [pos, hXa, hXr, if_false, Nat.add_lt_add_iff_right]
      exact ih h' hnd.2
    | cons₂ _ h' =>
      have hr : r ∈ t.map (fun I => I.id) := h'.subset (by simp)
      have hXr : X.id ≠ r := fun e => hnd.1 (e ▸ hr)
      simp [pos, hXr]

theorem Function.block_mem_blocks {F : Function} {bi : Nat} (h : F.block bi ≠ []) :
    F.block bi ∈ F.blocks := by
  simp only [Function.block, List.getD_eq_getElem?_getD] at h ⊢
  cases hb : F.blocks[bi]? with
  | none => rw [hb] at h; simp at h
  | some BB =>
    simp only [Option.getD_some]
    exact List.getElem?_mem hb

theorem Function.EndsWith.pos_lt {F : Function} {O : List Instruction} (hw : Ordered F O)
    {bi : Nat} {a : Nat} {rest : List Nat} (h : F.EndsWith bi (a :: rest)) :
    ∀ r ∈ rest, pos a O < pos r O := by
  obtain ⟨done, hd⟩ := h
  have hne : F.block bi ≠ [] := by
    intro e
    rw [e] at hd
    simp at hd
  have hsub : ((F.block bi).map (fun I => I.id)).Sublist (O.map (fun I => I.id)) :=
    (hw.2.2.1 _ (Function.block_mem_blocks hne)).map _
  intro r hr
  apply pos_lt_of_pair_sublist O _ hw.2.1
  refine List.Sublist.trans ?_ hsub
  rw [hd]
  refine List.Sublist.trans ?_ (List.sublist_append_right _ _)
  exact List.Sublist.cons₂ a (List.singleton_sublist.2 hr)

theorem Function.holds_iff {F : Function} {bi n : Nat} :
    F.holds bi n = true ↔ n ∈ (F.block bi).map (fun I => I.id) := by
  simp [Function.holds, List.any_eq_true, List.mem_map]

theorem Function.EndsWith.find {F : Function} {bi : Nat} {a : Nat} {rest : List Nat}
    (h : F.EndsWith bi (a :: rest)) :
    ∃ I, (F.block bi).find? (fun J => J.id == a) = some I ∧ I ∈ F.block bi ∧ I.id = a := by
  obtain ⟨done, hd⟩ := h
  have hmem : a ∈ (F.block bi).map (fun I => I.id) := by rw [hd]; simp
  obtain ⟨J, hJ, hJa⟩ := List.mem_map.1 hmem
  cases hf : (F.block bi).find? (fun J => J.id == a) with
  | none =>
    rw [List.find?_eq_none] at hf
    exact absurd (by simpa using hJa) (hf J hJ)
  | some I =>
    exact ⟨I, rfl, List.mem_of_find?_eq_some hf, by simpa using List.find?_some hf⟩

theorem Function.EndsWith.tail {F : Function} {bi : Nat} {a : Nat} {rest : List Nat}
    (h : F.EndsWith bi (a :: rest)) : F.EndsWith bi rest := by
  obtain ⟨done, hd⟩ := h
  exact ⟨done ++ [a], by rw [hd]; simp⟩

theorem PeepholeOptimizationPass.scanBlock_ok (bi : Nat) :
    ∀ (pending : List Nat) (F : Function), WellFormed F → F.EndsWith bi pending →
      ∃ G, PeepholeOptimizationPass.scanBlock bi pending F = some G ∧ WellFormed G ∧
        G.blocks.length = F.blocks.length := by
  intro pending
  induction pending with
  | nil => intro F hw _; exact ⟨F, rfl, hw, rfl⟩
  | cons a rest ih =>
    intro F hw he
    obtain ⟨O, hO⟩ := hw
    obtain ⟨I, hfind, hIb, hIa⟩ := he.find
    have hI : I ∈ F.insts := F.block_subset_insts bi I hIb
    obtain ⟨G, O', hG, hwG, hlen, hend⟩ := PeepholeOptimizationPass.visit_ok hO hI
    have heG : G.EndsWith bi rest := hend bi rest (hIa ▸ he.pos_lt hO) he.tail
    obtain ⟨H, hH, hwH, hlenH⟩ := ih G ⟨O', hwG⟩ heG
    refine ⟨H, ?_, hwH, hlenH.trans hlen⟩
    rw [PeepholeOptimizationPass.scanBlock, hfind]
    simp only [hG]
    cases hn : rest.find? (fun j => F.holds bi j) with
    | none => exact hH
    | some n =>
      have hnr : n ∈ rest := List.mem_of_find?_eq_some hn
      have : G.holds bi n = true := by
        rw [Function.holds_iff]
        obtain ⟨done, hd⟩ := heG
        rw [hd]
        exact List.mem_append_right _ hnr
      simp only [this, if_true]
      exact hH

theorem PeepholeOptimizationPass.runOnBlocks_ok :
    ∀ (bis : List Nat) (F : Function), WellFormed F →
      ∃ G, PeepholeOptimizationPass.runOnBlocks bis F = some G ∧ WellFormed G ∧
        G.blocks.length = F.blocks.length := by
  intro bis
  induction bis with
  | nil => intro F hw; exact ⟨F, rfl, hw, rfl⟩
  | cons bi rest ih =>
    intro F hw
    obtain ⟨G, hG, hwG, hlen⟩ := PeepholeOptimizationPass.scanBlock_ok bi
      ((F.block bi).map (fun I => I.id)) F hw ⟨[], (List.nil_append _).symm⟩
    obtain ⟨H, hH, hwH, hlenH⟩ := ih G hwG
    refine ⟨H, ?_, hwH, hlenH.trans hlen⟩
    rw [PeepholeOptimizationPass.runOnBlocks, hG]
    exact hH

/-! ## Insertion seen in the block of the insertion point -/

theorem insertBeforeL_split {X New : Instruction} {pre post : List Instruction}
    (hpre : X.id ∉ pre.map (fun I => I.id)) (hpost : X.id ∉ post.map (fun I => I.id)) :
    insertBeforeL X.id New (pre ++ X :: post) = pre ++ New :: X :: post := by
  rw [insertBeforeL_append, insertBeforeL_of_not_mem _ _ _ hpre]
  have : insertBeforeL X.id New (X :: post) = New :: X :: insertBeforeL X.id New post := by
    simp [insertBeforeL]
  rw [this, insertBeforeL_of_not_mem _ _ _ hpost]

theorem map_insertBeforeL_of_not_mem {ip : Nat} {New : Instruction} :
    ∀ (Bs : List BasicBlock), ip ∉ Bs.flatten.map (fun I => I.id) →
      Bs.map (insertBeforeL ip New) = Bs := by
  intro Bs
  induction Bs with
  | nil => intro _; rfl
  | cons B rest ih =>
    intro h
    simp only [List.flatten_cons, List.map_append, List.mem_append, not_or] at h
    rw [List.map_cons, insertBeforeL_of_not_mem _ _ _ h.1, ih h.2]

theorem Function.ids_mk_split (Bs1 Bs2 : List BasicBlock) (pre post : List Instruction)
    (X : Instruction) :
    (Function.mk (Bs1 ++ (pre ++ X :: post) :: Bs2)).ids =
      Bs1.flatten.map (fun I => I.id) ++ (pre.map (fun I => I.id) ++
        X.id :: (post.map (fun I => I.id) ++ Bs2.flatten.map (fun I => I.id))) := by
  simp [Function.ids, Function.insts]

theorem Function.insertBefore_split {Bs1 Bs2 : List BasicBlock} {pre post : List Instruction}
    {X : Instruction} (New : Instruction)
    (hnd : (Function.mk (Bs1 ++ (pre ++ X :: post) :: Bs2)).ids.Nodup) :
    (Function.mk (Bs1 ++ (pre ++ X :: post) :: Bs2)).insertBefore X.id New =
      Function.mk (Bs1 ++ (pre ++ New :: X :: post) :: Bs2) := by
  rw [Function.ids_mk_split] at hnd
  have h1 := List.nodup_append.1 hnd
  have h2 := List.nodup_append.1 h1.2.1
  have h3 := List.nodup_cons.1 h2.2.1
  have hB1 : X.id ∉ Bs1.flatten.map (fun I => I.id) :=
    fun hm => h1.2.2 hm (List.mem_append_right _ (List.mem_cons_self _ _))
  have hpre : X.id ∉ pre.map (fun I => I.id) :=
    fun hm => h2.2.2 hm (List.mem_cons_self _ _)
  have hpost : X.id ∉ post.map (fun I => I.id) :=
    fun hm => h3.1 (List.mem_append_left _ hm)
  have hB2 : X.id ∉ Bs2.flatten.map (fun I => I.id) :=
    fun hm => h3.1 (List.mem_append_right _ hm)
  simp only [Function.insertBefore, List.map_append, List.map_cons,
    map_insertBeforeL_of_not_mem Bs1 hB1, map_insertBeforeL_of_not_mem Bs2 hB2,
    insertBeforeL_split hpre hpost]

theorem foldr_max_eq {l : List Nat} {m : Nat} (hle : ∀ j ∈ l, j ≤ m) (hm : m ∈ l) :
    l.foldr max 0 = m := by
  induction l with
  | nil => simp at hm
  | cons a t ih =>
    simp only [List.foldr_cons]
    have ha := hle a (List.mem_cons_self _ _)
    have ht : ∀ j ∈ t, j ≤ m := fun j hj => hle j (List.mem_cons_of_mem _ hj)
    rcases List.mem_cons.1 hm with rfl | hmt
    · have : t.foldr max 0 ≤ m := by
        clear ih hm hle ha
        induction t with
        | nil => simp
        | cons b u ihu =>
          simp only [List.foldr_cons]
          have := ht b (List.mem_cons_self _ _)
          have := ihu (fun j hj => ht j (List.mem_cons_of_mem _ hj))
          omega
      omega
    · rw [ih ht hmt]
      omega

theorem Function.freshId_eq {F : Function} {m : Nat} (hle : ∀ j ∈ F.ids, j ≤ m)
    (hm : m ∈ F.ids) : F.freshId = m + 1 := by
  simp only [Function.freshId]
  rw [show F.insts.map (fun I => I.id) = F.ids from rfl, foldr_max_eq hle hm]

/-- The call `IRBuilder::Insert` before `X`, seen in the block of `X`: the new instruction
lands right before `X`, identities stay distinct, and the next fresh identity is the
successor. -/
theorem IRBuilder.Insert_split {Bs1 Bs2 : List BasicBlock} {pre post : List Instruction}
    {X : Instruction} (ty : Ty) (kind : InstKind)
    (hnd : (Function.mk (Bs1 ++ (pre ++ X :: post) :: Bs2)).ids.Nodup) :
    IRBuilder.Insert (Function.mk (Bs1 ++ (pre ++ X :: post) :: Bs2)) X.id ty kind =
        (Function.mk (Bs1 ++ ((pre ++
            [⟨(Function.mk (Bs1 ++ (pre ++ X :: post) :: Bs2)).freshId, ty, kind⟩]) ++
              X :: post) :: Bs2),
          .inst (Function.mk (Bs1 ++ (pre ++ X :: post) :: Bs2)).freshId) ∧
      (Function.mk (Bs1 ++ ((pre ++
          [⟨(Function.mk (Bs1 ++ (pre ++ X :: post) :: Bs2)).freshId, ty, kind⟩]) ++
            X :: post) :: Bs2)).ids.Nodup ∧
      (Function.mk (Bs1 ++ ((pre ++
          [⟨(Function.mk (Bs1 ++ (pre ++ X :: post) :: Bs2)).freshId, ty, kind⟩]) ++
            X :: post) :: Bs2)).freshId =
        (Function.mk (Bs1 ++ (pre ++ X :: post) :: Bs2)).freshId + 1 ∧
      (Function.mk (Bs1 ++ ((pre ++
          [⟨(Function.mk (Bs1 ++ (pre ++ X :: post) :: Bs2)).freshId, ty, kind⟩]) ++
            X :: post) :: Bs2)).find
          (Function.mk (Bs1 ++ (pre ++ X :: post) :: Bs2)).freshId =
        some ⟨(Function.mk (Bs1 ++ (pre ++ X :: post) :: Bs2)).freshId, ty, kind⟩ := by
  generalize hF : Function.mk (Bs1 ++ (pre ++ X :: post) :: Bs2) = F at hnd ⊢
  have hins : F.insertBefore X.id ⟨F.freshId, ty, kind⟩ =
      Function.mk (Bs1 ++ ((pre ++ [⟨F.freshId, ty, kind⟩]) ++ X :: post) :: Bs2) := by
    subst hF
    rw [Function.insertBefore_split _ hnd]
    simp
  have hX : X.id ∈ F.ids := by
    subst hF
    rw [Function.ids_mk_split]
    simp
  rw [← hins]
  have hnd' : (F.insertBefore X.id ⟨F.freshId, ty, kind⟩).ids.Nodup := by
    simp only [Function.ids, Function.insts_insertBefore]
    exact nodup_ids_insertBeforeL _ hnd F.freshId_not_mem
  have hmem : (⟨F.freshId, ty, kind⟩ : Instruction) ∈
      (F.insertBefore X.id ⟨F.freshId, ty, kind⟩).insts := by
    rw [Function.insts_insertBefore, mem_insertBeforeL]
    exact Or.inr ⟨rfl, hX⟩
  refine ⟨rfl, hnd', ?_, ?_⟩
  · apply Function.freshId_eq
    · intro j hj
      rcases Function.mem_ids_insertBefore.1 hj with hj | ⟨rfl, -⟩
      · exact le_of_lt (Function.lt_freshId hj)
      · exact le_refl _
    · exact Function.mem_ids_insertBefore.2 (Or.inr ⟨rfl, hX⟩)
  · exact Function.find_of_mem hnd' hmem


theorem intToPtrSrcTy_inst {F : Function} {Ptr : Value} {T : Ty}
    (h : intToPtrSrcTy F Ptr = some T) : ∃ pid, Ptr = .inst pid := by
  unfold intToPtrSrcTy at h
  cases Ptr with
  | inst pid => exact ⟨pid, rfl⟩
  | arg _ _ => simp [asInstruction] at h
  | const _ => simp [asInstruction] at h

theorem replaceAndErase_inst {F : Function} {I2P : Instruction} {n : Nat}
    (h : I2P.id < n) :
    replaceAndErase F I2P (.inst n) =
      some ((F.replaceAllUsesWith I2P.id (.inst n)).eraseFromParent I2P.id) := by
  have : Value.inst n ≠ Value.inst I2P.id := by
    intro e
    simp only [Value.inst.injEq] at e
    omega
  simp [replaceAndErase, this]

theorem Function.mem_ids_mk_split (Bs1 Bs2 : List BasicBlock) (pre post : List Instruction)
    (X : Instruction) : X.id ∈ (Function.mk (Bs1 ++ (pre ++ X :: post) :: Bs2)).ids := by
  rw [Function.ids_mk_split]
  simp

theorem visit_shapeC_eq {Bs1 Bs2 : List BasicBlock} {pre post : List Instruction}
    {I2P P2I : Instruction} {Ptr : Value}
    (hnd : (Function.mk (Bs1 ++ (pre ++ I2P :: post) :: Bs2)).ids.Nodup)
    (hm : matchShape (Function.mk (Bs1 ++ (pre ++ I2P :: post) :: Bs2)) I2P =
      some (.C P2I Ptr))
    (hP : Ptr ≠ .inst I2P.id) :
    PeepholeOptimizationPass.visit (Function.mk (Bs1 ++ (pre ++ I2P :: post) :: Bs2)) I2P =
      some (eraseIfUnused
        (((Function.mk (Bs1 ++ ((pre ++
            (shapeCInserted (Function.mk (Bs1 ++ (pre ++ I2P :: post) :: Bs2)).freshId
              ((Function.mk (Bs1 ++ (pre ++ I2P :: post) :: Bs2)).typeOf Ptr)
              I2P.ty Ptr).1) ++ I2P :: post) :: Bs2)).replaceAllUsesWith I2P.id
            (shapeCInserted (Function.mk (Bs1 ++ (pre ++ I2P :: post) :: Bs2)).freshId
              ((Function.mk (Bs1 ++ (pre ++ I2P :: post) :: Bs2)).typeOf Ptr)
              I2P.ty Ptr).2).eraseFromParent I2P.id) P2I.id) := by
  have hlt := Function.lt_freshId (Function.mem_ids_mk_split Bs1 Bs2 pre post I2P)
  obtain ⟨e1, -, -, -⟩ := IRBuilder.Insert_split I2P.ty
    (.cast (pointerCastOp ((Function.mk (Bs1 ++ (pre ++ I2P :: post) :: Bs2)).typeOf Ptr)
      I2P.ty) Ptr) hnd
  unfold PeepholeOptimizationPass.visit
  rw [hm]
  simp only [rewriteShapeC, IRBuilder.CreatePointerCast, shapeCInserted]
  by_cases h : (Function.mk (Bs1 ++ (pre ++ I2P :: post) :: Bs2)).typeOf Ptr = some I2P.ty
  · simp [h, replaceAndErase, hP]
  · simp only [h, if_false]
    cases Ptr with
    | const c => simp [replaceAndErase]
    | inst pid => simp only [e1, replaceAndErase_inst hlt, Option.map_some']
    | arg i t => simp only [e1, replaceAndErase_inst hlt, Option.map_some']

theorem isIntegerArgument_typeOf {F : Function} {Arg : Value}
    (h : isIntegerArgument Arg = true) :
    F.typeOf Arg ≠ some BytePtrTy ∧ ∀ c, Arg ≠ .const c := by
  cases Arg with
  | inst _ => simp [isIntegerArgument] at h
  | const _ => simp [isIntegerArgument] at h
  | arg i t =>
    cases t <;> simp [isIntegerArgument, Ty.isIntegerTy] at h
    simp [Function.typeOf, BytePtrTy]

theorem gepTy_eq {F : Function} {V : Value} (h : F.typeOf V = some BytePtrTy) :
    Ty.ptr (.int 8) (((F.typeOf V).map Ty.getPointerAddressSpace).getD 0) = BytePtrTy := by
  simp [h, BytePtrTy, Ty.getPointerAddressSpace]

theorem typeOf_inst_of_find {F : Function} {n : Nat} {J : Instruction}
    (h : F.find n = some J) : F.typeOf (.inst n) = some J.ty := by
  simp [Function.typeOf, h]

theorem visit_shapeB_eq {Bs1 Bs2 : List BasicBlock} {pre post : List Instruction}
    {I2P BinOp : Instruction} {Arg Idx : Value}
    (hnd : (Function.mk (Bs1 ++ (pre ++ I2P :: post) :: Bs2)).ids.Nodup)
    (hm : matchShape (Function.mk (Bs1 ++ (pre ++ I2P :: post) :: Bs2)) I2P =
      some (.B BinOp Arg Idx)) :
    PeepholeOptimizationPass.visit (Function.mk (Bs1 ++ (pre ++ I2P :: post) :: Bs2)) I2P =
      some (eraseIfUnused
        (((Function.mk (Bs1 ++ ((pre ++
            (shapeBInserted (Function.mk (Bs1 ++ (pre ++ I2P :: post) :: Bs2)).freshId
              I2P.ty Arg Idx).1) ++ I2P :: post) :: Bs2)).replaceAllUsesWith I2P.id
            (shapeBInserted (Function.mk (Bs1 ++ (pre ++ I2P :: post) :: Bs2)).freshId
              I2P.ty Arg Idx).2).eraseFromParent I2P.id) BinOp.id) := by
  have hlt := Function.lt_freshId (Function.mem_ids_mk_split Bs1 Bs2 pre post I2P)
  obtain ⟨V, VI, -, -, hS⟩ := matchShape_eq_some hm
  have harg : isIntegerArgument Arg = true := by
    rcases hS with ⟨_, _, _, _, _, h, -⟩ | ⟨_, _, h, -, -, ha⟩ | ⟨_, h, -⟩
    · cases h
    · simp only [Shape.B.injEq] at h
      obtain ⟨-, rfl, -⟩ := h
      exact ha
    · cases h
  obtain ⟨hty, hconst⟩ := isIntegerArgument_typeOf
    (F := Function.mk (Bs1 ++ (pre ++ I2P :: post) :: Bs2)) harg
  generalize hf : (Function.mk (Bs1 ++ (pre ++ I2P :: post) :: Bs2)).freshId = f at hlt ⊢
  obtain ⟨e1, hnd1, hf1, hfind1⟩ := IRBuilder.Insert_split BytePtrTy (.cast .IntToPtr Arg) hnd
  rw [hf] at e1 hnd1 hf1 hfind1
  have c1 : IRBuilder.CreateIntToPtr (Function.mk (Bs1 ++ (pre ++ I2P :: post) :: Bs2))
      I2P.id Arg BytePtrTy =
      (Function.mk (Bs1 ++ ((pre ++ [⟨f, BytePtrTy, .cast .IntToPtr Arg⟩]) ++ I2P :: post) ::
        Bs2), .inst f) := by
    unfold IRBuilder.CreateIntToPtr
    rw [if_neg hty]
    cases Arg with
    | const c => exact absurd rfl (hconst c)
    | inst _ => exact e1
    | arg _ _ => exact e1
  obtain ⟨e2, hnd2, hf2, hfind2⟩ := IRBuilder.Insert_split BytePtrTy (.gep (.inst f) [Idx]) hnd1
  rw [hf1] at e2 hnd2 hf2 hfind2
  have c2 : IRBuilder.CreateGEP
      (Function.mk (Bs1 ++ ((pre ++ [⟨f, BytePtrTy, .cast .IntToPtr Arg⟩]) ++ I2P :: post) ::
        Bs2)) I2P.id (.int 8) (.inst f) [Idx] =
      (Function.mk (Bs1 ++ (((pre ++ [⟨f, BytePtrTy, .cast .IntToPtr Arg⟩]) ++
        [⟨f + 1, BytePtrTy, .gep (.inst f) [Idx]⟩]) ++ I2P :: post) :: Bs2),
        .inst (f + 1)) := by
    unfold IRBuilder.CreateGEP
    rw [gepTy_eq (typeOf_inst_of_find hfind1)]
    exact e2
  unfold PeepholeOptimizationPass.visit
  rw [hm]
  simp only [rewriteShapeB, c1, c2, shapeBInserted]
  by_cases h2 : I2P.ty = BytePtrTy
  · have c3 : IRBuilder.CreatePointerCast
        (Function.mk (Bs1 ++ (((pre ++ [⟨f, BytePtrTy, .cast .IntToPtr Arg⟩]) ++
          [⟨f + 1, BytePtrTy, .gep (.inst f) [Idx]⟩]) ++ I2P :: post) :: Bs2))
        I2P.id (.inst (f + 1)) I2P.ty =
        (Function.mk (Bs1 ++ (((pre ++ [⟨f, BytePtrTy, .cast .IntToPtr Arg⟩]) ++
          [⟨f + 1, BytePtrTy, .gep (.inst f) [Idx]⟩]) ++ I2P :: post) :: Bs2),
          .inst (f + 1)) := by
      unfold IRBuilder.CreatePointerCast
      rw [typeOf_inst_of_find hfind2, if_pos (by rw [h2])]
    rw [c3]
    simp only [h2, if_true, replaceAndErase_inst (Nat.lt_succ_of_lt hlt), Option.map_some',
      List.append_assoc, List.singleton_append, List.cons_append, List.nil_append]
  · obtain ⟨e3, -, -, -⟩ := IRBuilder.Insert_split I2P.ty
      (.cast (pointerCastOp (some BytePtrTy) I2P.ty) (.inst (f + 1))) hnd2
    rw [hf2] at e3
    have c3 : IRBuilder.CreatePointerCast
        (Function.mk (Bs1 ++ (((pre ++ [⟨f, BytePtrTy, .cast .IntToPtr Arg⟩]) ++
          [⟨f + 1, BytePtrTy, .gep (.inst f) [Idx]⟩]) ++ I2P :: post) :: Bs2))
        I2P.id (.inst (f + 1)) I2P.ty =
        (Function.mk (Bs1 ++ ((((pre ++ [⟨f, BytePtrTy, .cast .IntToPtr Arg⟩]) ++
          [⟨f + 1, BytePtrTy, .gep (.inst f) [Idx]⟩]) ++
          [⟨f + 1 + 1, I2P.ty, .cast (pointerCastOp (some BytePtrTy) I2P.ty)
            (.inst (f + 1))⟩]) ++ I2P :: post) :: Bs2), .inst (f + 1 + 1)) := by
      unfold IRBuilder.CreatePointerCast
      rw [typeOf_inst_of_find hfind2, if_neg (fun e => h2 (Option.some.inj e).symm)]
      exact e3
    rw [c3]
    simp only [h2, if_false, replaceAndErase_inst (show I2P.id < f + 1 + 1 by omega),
      Option.map_some', List.append_assoc, List.singleton_append, List.cons_append,
      List.nil_append]


theorem visit_shapeA_eq {Bs1 Bs2 : List BasicBlock} {pre post : List Instruction}
    {I2P BinOp P2I : Instruction} {Ptr Idx : Value}
    (hnd : (Function.mk (Bs1 ++ (pre ++ I2P :: post) :: Bs2)).ids.Nodup)
    (hm : matchShape (Function.mk (Bs1 ++ (pre ++ I2P :: post) :: Bs2)) I2P =
      some (.A BinOp P2I Ptr Idx)) :
    PeepholeOptimizationPass.visit (Function.mk (Bs1 ++ (pre ++ I2P :: post) :: Bs2)) I2P =
      some (eraseIfUnused (eraseIfUnused
        (((Function.mk (Bs1 ++ ((pre ++
            (shapeAInserted (Function.mk (Bs1 ++ (pre ++ I2P :: post) :: Bs2)).freshId
              ((Function.mk (Bs1 ++ (pre ++ I2P :: post) :: Bs2)).typeOf Ptr)
              I2P.ty Ptr Idx).1) ++ I2P :: post) :: Bs2)).replaceAllUsesWith I2P.id
            (shapeAInserted (Function.mk (Bs1 ++ (pre ++ I2P :: post) :: Bs2)).freshId
              ((Function.mk (Bs1 ++ (pre ++ I2P :: post) :: Bs2)).typeOf Ptr)
              I2P.ty Ptr Idx).2).eraseFromParent I2P.id) BinOp.id) P2I.id) := by
  have hlt := Function.lt_freshId (Function.mem_ids_mk_split Bs1 Bs2 pre post I2P)
  obtain ⟨V, VI, -, -, hS⟩ := matchShape_eq_some hm
  have hinst : ∃ pid, Ptr = .inst pid := by
    rcases hS with ⟨_, _, _, _, T, h, -, -, hT, -⟩ | ⟨_, _, h, -⟩ | ⟨_, h, -⟩
    · simp only [Shape.A.injEq] at h
      obtain ⟨-, -, rfl, -⟩ := h
      exact intToPtrSrcTy_inst hT
    · cases h
    · cases h
  obtain ⟨pid, rfl⟩ := hinst
  generalize hf : (Function.mk (Bs1 ++ (pre ++ I2P :: post) :: Bs2)).freshId = f at hlt ⊢
  generalize hPT : (Function.mk (Bs1 ++ (pre ++ I2P :: post) :: Bs2)).typeOf (.inst pid) = PT
  unfold PeepholeOptimizationPass.visit
  rw [hm]
  simp only [rewriteShapeA, shapeAInserted]
  by_cases h1 : PT = some BytePtrTy
  · -- the pointer is a byte pointer already: no first cast
    have c1 : IRBuilder.CreatePointerCast (Function.mk (Bs1 ++ (pre ++ I2P :: post) :: Bs2))
        I2P.id (.inst pid) BytePtrTy =
        (Function.mk (Bs1 ++ (pre ++ I2P :: post) :: Bs2), .inst pid) := by
      unfold IRBuilder.CreatePointerCast
      rw [hPT, if_pos h1]
    obtain ⟨e2, hnd2, hf2, hfind2⟩ :=
      IRBuilder.Insert_split BytePtrTy (.gep (.inst pid) [Idx]) hnd
    rw [hf] at e2 hnd2 hf2 hfind2
    have c2 : IRBuilder.CreateGEP (Function.mk (Bs1 ++ (pre ++ I2P :: post) :: Bs2))
        I2P.id (.int 8) (.inst pid) [Idx] =
        (Function.mk (Bs1 ++ ((pre ++ [⟨f, BytePtrTy, .gep (.inst pid) [Idx]⟩]) ++
          I2P :: post) :: Bs2), .inst f) := by
      unfold IRBuilder.CreateGEP
      rw [gepTy_eq (hPT.trans h1)]
      exact e2
    simp only [c1, c2, h1, if_true]
    by_cases h2 : I2P.ty = BytePtrTy
    · have c3 : IRBuilder.CreatePointerCast
          (Function.mk (Bs1 ++ ((pre ++ [⟨f, BytePtrTy, .gep (.inst pid) [Idx]⟩]) ++
            I2P :: post) :: Bs2)) I2P.id (.inst f) I2P.ty =
          (Function.mk (Bs1 ++ ((pre ++ [⟨f, BytePtrTy, .gep (.inst pid) [Idx]⟩]) ++
            I2P :: post) :: Bs2), .inst f) := by
        unfold IRBuilder.CreatePointerCast
        rw [typeOf_inst_of_find hfind2, if_pos (by rw [h2])]
      rw [c3]
      simp only [h2, if_true, replaceAndErase_inst hlt, Option.map_some']
    · obtain ⟨e3, -, -, -⟩ := IRBuilder.Insert_split I2P.ty
        (.cast (pointerCastOp (some BytePtrTy) I2P.ty) (.inst f)) hnd2
      rw [hf2] at e3
      have c3 : IRBuilder.CreatePointerCast
          (Function.mk (Bs1 ++ ((pre ++ [⟨f, BytePtrTy, .gep (.inst pid) [Idx]⟩]) ++
            I2P :: post) :: Bs2)) I2P.id (.inst f) I2P.ty =
          (Function.mk (Bs1 ++ (((pre ++ [⟨f, BytePtrTy, .gep (.inst pid) [Idx]⟩]) ++
            [⟨f + 1, I2P.ty, .cast (pointerCastOp (some BytePtrTy) I2P.ty) (.inst f)⟩]) ++
            I2P :: post) :: Bs2), .inst (f + 1)) := by
        unfold IRBuilder.CreatePointerCast
        rw [typeOf_inst_of_find hfind2, if_neg (fun e => h2 (Option.some.inj e).symm)]
        exact e3
      rw [c3]
      simp only [h2, if_false, replaceAndErase_inst (Nat.lt_succ_of_lt hlt), Option.map_some',
        List.append_assoc, List.singleton_append, List.cons_append, List.nil_append]
  · -- a first cast to the byte pointer type is needed
    obtain ⟨e1, hnd1, hf1, hfind1⟩ := IRBuilder.Insert_split BytePtrTy
      (.cast (pointerCastOp PT BytePtrTy) (.inst pid)) hnd
    rw [hf] at e1 hnd1 hf1 hfind1
    have c1 : IRBuilder.CreatePointerCast (Function.mk (Bs1 ++ (pre ++ I2P :: post) :: Bs2))
        I2P.id (.inst pid) BytePtrTy =
        (Function.mk (Bs1 ++ ((pre ++
          [⟨f, BytePtrTy, .cast (pointerCastOp PT BytePtrTy) (.inst pid)⟩]) ++
          I2P :: post) :: Bs2), .inst f) := by
      unfold IRBuilder.CreatePointerCast
      rw [hPT, if_neg h1]
      exact e1
    obtain ⟨e2, hnd2, hf2, hfind2⟩ :=
      IRBuilder.Insert_split BytePtrTy (.gep (.inst f) [Idx]) hnd1
    rw [hf1] at e2 hnd2 hf2 hfind2
    have c2 : IRBuilder.CreateGEP
        (Function.mk (Bs1 ++ ((pre ++
          [⟨f, BytePtrTy, .cast (pointerCastOp PT BytePtrTy) (.inst pid)⟩]) ++
          I2P :: post) :: Bs2)) I2P.id (.int 8) (.inst f) [Idx] =
        (Function.mk (Bs1 ++ (((pre ++
          [⟨f, BytePtrTy, .cast (pointerCastOp PT BytePtrTy) (.inst pid)⟩]) ++
          [⟨f + 1, BytePtrTy, .gep (.inst f) [Idx]⟩]) ++ I2P :: post) :: Bs2),
          .inst (f + 1)) := by
      unfold IRBuilder.CreateGEP
      rw [gepTy_eq (typeOf_inst_of_find hfind1)]
      exact e2
    simp only [c1, c2, h1, if_false]
    by_cases h2 : I2P.ty = BytePtrTy
    · have c3 : IRBuilder.CreatePointerCast
          (Function.mk (Bs1 ++ (((pre ++
            [⟨f, BytePtrTy, .cast (pointerCastOp PT BytePtrTy) (.inst pid)⟩]) ++
            [⟨f + 1, BytePtrTy, .gep (.inst f) [Idx]⟩]) ++ I2P :: post) :: Bs2))
          I2P.id (.inst (f + 1)) I2P.ty =
          (Function.mk (Bs1 ++ (((pre ++
            [⟨f, BytePtrTy, .cast (pointerCastOp PT BytePtrTy) (.inst pid)⟩]) ++
            [⟨f + 1, BytePtrTy, .gep (.inst f) [Idx]⟩]) ++ I2P :: post) :: Bs2),
            .inst (f + 1)) := by
        unfold IRBuilder.CreatePointerCast
        rw [typeOf_inst_of_find hfind2, if_pos (by rw [h2])]
      rw [c3]
      simp only [h2, if_true, replaceAndErase_inst (Nat.lt_succ_of_lt hlt), Option.map_some',
        List.append_assoc, List.singleton_append, List.cons_append, List.nil_append]
    · obtain ⟨e3, -, -, -⟩ := IRBuilder.Insert_split I2P.ty
        (.cast (pointerCastOp (some BytePtrTy) I2P.ty) (.inst (f + 1))) hnd2
      rw [hf2] at e3
      have c3 : IRBuilder.CreatePointerCast
          (Function.mk (Bs1 ++ (((pre ++
            [⟨f, BytePtrTy, .cast (pointerCastOp PT BytePtrTy) (.inst pid)⟩]) ++
            [⟨f + 1, BytePtrTy, .gep (.inst f) [Idx]⟩]) ++ I2P :: post) :: Bs2))
          I2P.id (.inst (f + 1)) I2P.ty =
          (Function.mk (Bs1 ++ ((((pre ++
            [⟨f, BytePtrTy, .cast (pointerCastOp PT BytePtrTy) (.inst pid)⟩]) ++
            [⟨f + 1, BytePtrTy, .gep (.inst f) [Idx]⟩]) ++
            [⟨f + 1 + 1, I2P.ty, .cast (pointerCastOp (some BytePtrTy) I2P.ty)
              (.inst (f + 1))⟩]) ++ I2P :: post) :: Bs2), .inst (f + 1 + 1)) := by
        unfold IRBuilder.CreatePointerCast
        rw [typeOf_inst_of_find hfind2, if_neg (fun e => h2 (Option.some.inj e).symm)]
        exact e3
      rw [c3]
      simp only [h2, if_false, replaceAndErase_inst (show I2P.id < f + 1 + 1 by omega),
        Option.map_some', List.append_assoc, List.singleton_append, List.cons_append,
        List.nil_append]


/-! ## The claims on the canonicalization pass -/

/-- C6, with the casts the builder leaves out.  When the scan reaches an inttoptr `I2P` that
satisfies the guard of shape A, with `BinOp`, `P2I`, `Ptr`, `Idx` as bound by the guard, in a
function whose instruction identities are distinct, the loop body: places immediately before
`I2P` the instructions `shapeAInserted` lists (a cast of `Ptr` to `i8*` unless `Ptr` has that
type, a getelementptr over `i8` indexed by `Idx`, a cast to the type of `I2P` unless that is
`i8*`); redirects every use of `I2P` to the last of them; erases `I2P`; then erases `BinOp`
and after it `P2I`, each exactly when it has no use left. -/
theorem PeepholeOptimizationPass_shapeA (F : Function) (Bs1 Bs2 : List BasicBlock)
    (pre post : List Instruction) (I2P BinOp P2I : Instruction) (Ptr Idx : Value)
    (hF : F.blocks = Bs1 ++ (pre ++ I2P :: post) :: Bs2) (hnd : F.ids.Nodup)
    (hm : matchShape F I2P = some (.A BinOp P2I Ptr Idx)) :
    PeepholeOptimizationPass.visit F I2P =
      some (eraseIfUnused (eraseIfUnused
        (((Function.mk (Bs1 ++ ((pre ++
            (shapeAInserted F.freshId (F.typeOf Ptr) I2P.ty Ptr Idx).1) ++
              I2P :: post) :: Bs2)).replaceAllUsesWith I2P.id
            (shapeAInserted F.freshId (F.typeOf Ptr) I2P.ty Ptr Idx).2).eraseFromParent
          I2P.id) BinOp.id) P2I.id) := by
  obtain ⟨blocks⟩ := F
  simp only at hF
  subst hF
  exact visit_shapeA_eq hnd hm

/-- Witness for C6 on `sampleShapeA`. -/
theorem PeepholeOptimizationPass_shapeA_witness :
    PeepholeOptimizationPass.visit sampleShapeA ⟨4, I32PtrTy, .cast .IntToPtr (.inst 3)⟩ =
      some (eraseIfUnused (eraseIfUnused
        (((Function.mk ([] ++ (([⟨1, BytePtrTy, .cast .IntToPtr (.arg 0 (.int 64))⟩,
              ⟨2, .int 64, .cast .PtrToInt (.inst 1)⟩,
              ⟨3, .int 64, .binop .Add (.inst 2) (.const (.int (.int 64) 16))⟩] ++
            (shapeAInserted sampleShapeA.freshId (sampleShapeA.typeOf (.inst 1)) I32PtrTy
              (.inst 1) (.const (.int (.int 64) 16))).1) ++
              ⟨4, I32PtrTy, .cast .IntToPtr (.inst 3)⟩ ::
                [⟨5, .int 32, .load (.inst 4)⟩,
                  ⟨6, .void, .terminator false [.inst 5]⟩]) :: [])).replaceAllUsesWith 4
            (shapeAInserted sampleShapeA.freshId (sampleShapeA.typeOf (.inst 1)) I32PtrTy
              (.inst 1) (.const (.int (.int 64) 16))).2).eraseFromParent 4) 3) 2) :=
  PeepholeOptimizationPass_shapeA sampleShapeA [] []
    [⟨1, BytePtrTy, .cast .IntToPtr (.arg 0 (.int 64))⟩,
      ⟨2, .int 64, .cast .PtrToInt (.inst 1)⟩,
      ⟨3, .int 64, .binop .Add (.inst 2) (.const (.int (.int 64) 16))⟩]
    [⟨5, .int 32, .load (.inst 4)⟩, ⟨6, .void, .terminator false [.inst 5]⟩]
    ⟨4, I32PtrTy, .cast .IntToPtr (.inst 3)⟩
    ⟨3, .int 64, .binop .Add (.inst 2) (.const (.int (.int 64) 16))⟩
    ⟨2, .int 64, .cast .PtrToInt (.inst 1)⟩ (.inst 1) (.const (.int (.int 64) 16))
    rfl (by decide) (by decide)

/-- Counterexample to C6 as stated: on the pattern of the source comment, where `Ptr` is an
`i8*` already, the pass inserts a getelementptr and one cast only; no cast of `Ptr` is
inserted. -/
theorem PeepholeOptimizationPass_shapeA_counterexample :
    matchShape sampleShapeA ⟨4, I32PtrTy, .cast .IntToPtr (.inst 3)⟩ =
      some (.A ⟨3, .int 64, .binop .Add (.inst 2) (.const (.int (.int 64) 16))⟩
        ⟨2, .int 64, .cast .PtrToInt (.inst 1)⟩ (.inst 1) (.const (.int (.int 64) 16))) ∧
    PeepholeOptimizationPass.runOnFunction sampleShapeA =
      some ⟨[[ ⟨1, BytePtrTy, .cast .IntToPtr (.arg 0 (.int 64))⟩,
               ⟨7, BytePtrTy, .gep (.inst 1) [.const (.int (.int 64) 16)]⟩,
               ⟨8, I32PtrTy, .cast .BitCast (.inst 7)⟩,
               ⟨5, .int 32, .load (.inst 8)⟩,
               ⟨6, .void, .terminator false [.inst 5]⟩ ]]⟩ ∧
    ((PeepholeOptimizationPass.runOnFunction sampleShapeA).map
      (fun G => G.insts.any (Instruction.isCastOf (.inst 1)))) = some false := by
  decide

/-- C7, with the cast the builder leaves out.  When the scan reaches an inttoptr `I2P` that
satisfies the guard of shape B, the loop body places immediately before `I2P` an inttoptr of
the argument to `i8*`, a getelementptr from it indexed by `Idx` and, unless the type of `I2P`
is `i8*`, a cast to that type; redirects every use of `I2P` to the last of them; erases
`I2P`; then erases `BinOp` exactly when it has no use left. -/
theorem PeepholeOptimizationPass_shapeB (F : Function) (Bs1 Bs2 : List BasicBlock)
    (pre post : List Instruction) (I2P BinOp : Instruction) (Arg Idx : Value)
    (hF : F.blocks = Bs1 ++ (pre ++ I2P :: post) :: Bs2) (hnd : F.ids.Nodup)
    (hm : matchShape F I2P = some (.B BinOp Arg Idx)) :
    PeepholeOptimizationPass.visit F I2P =
      some (eraseIfUnused
        (((Function.mk (Bs1 ++ ((pre ++ (shapeBInserted F.freshId I2P.ty Arg Idx).1) ++
              I2P :: post) :: Bs2)).replaceAllUsesWith I2P.id
            (shapeBInserted F.freshId I2P.ty Arg Idx).2).eraseFromParent I2P.id)
        BinOp.id) := by
  obtain ⟨blocks⟩ := F
  simp only at hF
  subst hF
  exact visit_shapeB_eq hnd hm

/-- Witness for C7 on `sampleShapeB`. -/
theorem PeepholeOptimizationPass_shapeB_witness :
    PeepholeOptimizationPass.visit sampleShapeB ⟨2, BytePtrTy, .cast .IntToPtr (.inst 1)⟩ =
      some (eraseIfUnused
        (((Function.mk ([] ++ (([⟨1, .int 64, .binop .Add (.arg 0 (.int 64))
                (.const (.int (.int 64) 8))⟩] ++
            (shapeBInserted sampleShapeB.freshId BytePtrTy (.arg 0 (.int 64))
              (.const (.int (.int 64) 8))).1) ++
              ⟨2, BytePtrTy, .cast .IntToPtr (.inst 1)⟩ ::
                [⟨3, .int 8, .load (.inst 2)⟩,
                  ⟨4, .void, .terminator false [.inst 3]⟩]) :: [])).replaceAllUsesWith 2
            (shapeBInserted sampleShapeB.freshId BytePtrTy (.arg 0 (.int 64))
              (.const (.int (.int 64) 8))).2).eraseFromParent 2) 1) :=
  PeepholeOptimizationPass_shapeB sampleShapeB [] []
    [⟨1, .int 64, .binop .Add (.arg 0 (.int 64)) (.const (.int (.int 64) 8))⟩]
    [⟨3, .int 8, .load (.inst 2)⟩, ⟨4, .void, .terminator false [.inst 3]⟩]
    ⟨2, BytePtrTy, .cast .IntToPtr (.inst 1)⟩
    ⟨1, .int 64, .binop .Add (.arg 0 (.int 64)) (.const (.int (.int 64) 8))⟩
    (.arg 0 (.int 64)) (.const (.int (.int 64) 8))
    rfl (by decide) (by decide)

/-- Counterexample to C7 as stated: when the result type of `I2P` is `i8*` the pass inserts
the inttoptr and the getelementptr only; no cast of the getelementptr result is inserted and
the uses of `I2P` go to the getelementptr. -/
theorem PeepholeOptimizationPass_shapeB_counterexample :
    matchShape sampleShapeB ⟨2, BytePtrTy, .cast .IntToPtr (.inst 1)⟩ =
      some (.B ⟨1, .int 64, .binop .Add (.arg 0 (.int 64)) (.const (.int (.int 64) 8))⟩
        (.arg 0 (.int 64)) (.const (.int (.int 64) 8))) ∧
    PeepholeOptimizationPass.runOnFunction sampleShapeB =
      some ⟨[[ ⟨5, BytePtrTy, .cast .IntToPtr (.arg 0 (.int 64))⟩,
               ⟨6, BytePtrTy, .gep (.inst 5) [.const (.int (.int 64) 8)]⟩,
               ⟨3, .int 8, .load (.inst 6)⟩,
               ⟨4, .void, .terminator false [.inst 3]⟩ ]]⟩ ∧
    ((PeepholeOptimizationPass.runOnFunction sampleShapeB).map
      (fun G => G.insts.any (Instruction.isCastOf (.inst 6)))) = some false := by
  decide

theorem shapeCInserted_no_gep (f : Nat) (PTy : Option Ty) (T : Ty) (P : Value) :
    ∀ J ∈ (shapeCInserted f PTy T P).1, J.isGEP = false := by
  intro J hJ
  unfold shapeCInserted at hJ
  split at hJ
  · simp at hJ
  · split at hJ
    · simp at hJ
    · simp only [List.mem_singleton] at hJ
      subst hJ
      rfl

/-- C8, with the cases in which no cast is created.  When the scan reaches an inttoptr `I2P`
whose operand is a ptrtoint `P2I` of a value `P` other than `I2P` itself, the loop body
places immediately before `I2P` what `shapeCInserted` lists (nothing when `P` has the type of
`I2P` or is a constant, one cast of `P` to that type otherwise), never a getelementptr;
redirects every use of `I2P` to `P`, to the folded constant or to the cast respectively;
erases `I2P`; then erases `P2I` exactly when it has no use left. -/
theorem PeepholeOptimizationPass_shapeC (F : Function) (Bs1 Bs2 : List BasicBlock)
    (pre post : List Instruction) (I2P P2I : Instruction) (P : Value)
    (hF : F.blocks = Bs1 ++ (pre ++ I2P :: post) :: Bs2) (hnd : F.ids.Nodup)
    (hm : matchShape F I2P = some (.C P2I P)) (hP : P ≠ .inst I2P.id) :
    PeepholeOptimizationPass.visit F I2P =
        some (eraseIfUnused
          (((Function.mk (Bs1 ++ ((pre ++
              (shapeCInserted F.freshId (F.typeOf P) I2P.ty P).1) ++
                I2P :: post) :: Bs2)).replaceAllUsesWith I2P.id
              (shapeCInserted F.freshId (F.typeOf P) I2P.ty P).2).eraseFromParent I2P.id)
          P2I.id) ∧
      (shapeCInserted F.freshId (F.typeOf P) I2P.ty P).1.length ≤ 1 ∧
      ∀ J ∈ (shapeCInserted F.freshId (F.typeOf P) I2P.ty P).1, J.isGEP = false := by
  refine ⟨?_, ?_, shapeCInserted_no_gep _ _ _ _⟩
  · obtain ⟨blocks⟩ := F
    simp only at hF
    subst hF
    exact visit_shapeC_eq hnd hm hP
  · unfold shapeCInserted
    split
    · simp
    · split <;> simp

/-- Witness for C8 on `sampleShapeCCast`. -/
theorem PeepholeOptimizationPass_shapeC_witness :
    PeepholeOptimizationPass.visit sampleShapeCCast ⟨2, I32PtrTy, .cast .IntToPtr (.inst 1)⟩ =
        some (eraseIfUnused
          (((Function.mk ([] ++ (([⟨1, .int 64, .cast .PtrToInt (.arg 0 BytePtrTy)⟩] ++
              (shapeCInserted sampleShapeCCast.freshId
                (sampleShapeCCast.typeOf (.arg 0 BytePtrTy)) I32PtrTy
                (.arg 0 BytePtrTy)).1) ++
                ⟨2, I32PtrTy, .cast .IntToPtr (.inst 1)⟩ ::
                  [⟨3, .int 32, .load (.inst 2)⟩,
                    ⟨4, .void, .terminator false [.inst 3]⟩]) :: [])).replaceAllUsesWith 2
              (shapeCInserted sampleShapeCCast.freshId
                (sampleShapeCCast.typeOf (.arg 0 BytePtrTy)) I32PtrTy
                (.arg 0 BytePtrTy)).2).eraseFromParent 2) 1) ∧
      (shapeCInserted sampleShapeCCast.freshId
        (sampleShapeCCast.typeOf (.arg 0 BytePtrTy)) I32PtrTy
        (.arg 0 BytePtrTy)).1.length ≤ 1 ∧
      ∀ J ∈ (shapeCInserted sampleShapeCCast.freshId
        (sampleShapeCCast.typeOf (.arg 0 BytePtrTy)) I32PtrTy (.arg 0 BytePtrTy)).1,
        J.isGEP = false :=
  PeepholeOptimizationPass_shapeC sampleShapeCCast [] []
    [⟨1, .int 64, .cast .PtrToInt (.arg 0 BytePtrTy)⟩]
    [⟨3, .int 32, .load (.inst 2)⟩, ⟨4, .void, .terminator false [.inst 3]⟩]
    ⟨2, I32PtrTy, .cast .IntToPtr (.inst 1)⟩
    ⟨1, .int 64, .cast .PtrToInt (.arg 0 BytePtrTy)⟩ (.arg 0 BytePtrTy)
    rfl (by decide) (by decide) (by decide)

/-- Counterexample to C8 as stated: when `P` has the result type of `I2P` already, no cast
is placed before `I2P`; the pair is removed and the uses of `I2P` go to `P` itself. -/
theorem PeepholeOptimizationPass_shapeC_counterexample :
    matchShape sampleShapeC ⟨2, I32PtrTy, .cast .IntToPtr (.inst 1)⟩ =
      some (.C ⟨1, .int 64, .cast .PtrToInt (.arg 0 I32PtrTy)⟩ (.arg 0 I32PtrTy)) ∧
    PeepholeOptimizationPass.runOnFunction sampleShapeC =
      some ⟨[[ ⟨3, .int 32, .load (.arg 0 I32PtrTy)⟩,
               ⟨4, .void, .terminator false [.inst 3]⟩ ]]⟩ ∧
    ((PeepholeOptimizationPass.runOnFunction sampleShapeC).map
      (fun G => G.insts.any Instruction.isCast)) = some false := by
  decide


/-! ## Erasures and dangling operands -/

/-- C9. (1) When the loop body erases the matched inttoptr, its uses have all been
redirected: it has no use.  (2) The add and the ptrtoint are erased only when they have no
use.  (3) On a well-formed function the pass returns a function (no rewrite replaces a value
by itself, no erasure takes the instruction the saved iterator rests on), the result is
well formed, and every operand of its instructions that is the result of an instruction
refers to an instruction of the result. -/
theorem PeepholeOptimizationPass_erases_only_unused :
    (∀ (F : Function) (I2P : Instruction) (FinalPtr : Value) (G : Function),
        replaceAndErase F I2P FinalPtr = some G →
        (F.replaceAllUsesWith I2P.id FinalPtr).numUses I2P.id = 0 ∧
          G = (F.replaceAllUsesWith I2P.id FinalPtr).eraseFromParent I2P.id) ∧
    (∀ (F : Function) (id : Nat), eraseIfUnused F id ≠ F → F.numUses id = 0) ∧
    (∀ F : Function, WellFormed F →
        ∃ G, PeepholeOptimizationPass.runOnFunction F = some G ∧ WellFormed G ∧
          ∀ I ∈ G.insts, ∀ j, Value.inst j ∈ I.kind.operands →
            ∃ J ∈ G.insts, J.id = j) := by
  refine ⟨?_, ?_, ?_⟩
  · intro F I2P FinalPtr G h
    unfold replaceAndErase at h
    split at h
    · cases h
    · rename_i hne
      simp only [Option.some.injEq] at h
      exact ⟨(numUses_eq_zero_iff _ _).2 (numUses_replaceAllUsesWith hne), h.symm⟩
  · intro F id h
    unfold eraseIfUnused at h
    by_contra hne
    rw [if_neg hne] at h
    exact h rfl
  · intro F hw
    obtain ⟨G, hG, hwG, -⟩ :=
      PeepholeOptimizationPass.runOnBlocks_ok (List.range F.blocks.length) F hw
    refine ⟨G, hG, hwG, ?_⟩
    obtain ⟨O, hO⟩ := hwG
    intro I hI j hj
    have := (hO.2.2.2 I (hO.mem_iff.2 hI) j (mem_opIds.2 hj)).1
    obtain ⟨J, hJ, hJid⟩ := List.mem_map.1 this
    exact ⟨J, hO.mem_iff.1 hJ, hJid⟩

/-- Witness for C9 on `sampleShapeA`. -/
theorem PeepholeOptimizationPass_erases_only_unused_witness :
    WellFormed sampleShapeA ∧
    ∃ G, PeepholeOptimizationPass.runOnFunction sampleShapeA = some G ∧ WellFormed G ∧
      ∀ I ∈ G.insts, ∀ j, Value.inst j ∈ I.kind.operands → ∃ J ∈ G.insts, J.id = j :=
  ⟨WellFormedInLayout.wellFormed (by decide),
    PeepholeOptimizationPass_erases_only_unused.2.2 sampleShapeA
      (WellFormedInLayout.wellFormed (by decide))⟩

/-! ## Blocks without accesses and without recognised idioms -/

theorem PlaceFencesInBlock.loop_no_access (F : Function) (fuel fresh : Nat) :
    ∀ (L : List Instruction) (c : Nat), (∀ I ∈ L, accessOf I = none) →
      PlaceFencesInBlock.loop F fuel fresh L c = some (L, c) := by
  intro L
  induction L with
  | nil => intro c _; rfl
  | cons I rest ih =>
    intro c h
    rw [PlaceFencesInBlock.loop, h I (List.mem_cons_self _ _)]
    simp [ih c (fun J hJ => h J (List.mem_cons_of_mem _ hJ))]

theorem FencesPass.runOnBlocks_no_access (OptimizeFences : Bool) (fuel : Nat) :
    ∀ (todo done : List BasicBlock), (∀ BB ∈ todo, ∀ I ∈ BB, accessOf I = none) →
      FencesPass.runOnBlocks OptimizeFences fuel done todo =
        some (done ++
          todo.map (fun BB => if OptimizeFences then OptimizeFencesAway BB else BB)) := by
  intro todo
  induction todo with
  | nil => intro done _; simp [FencesPass.runOnBlocks]
  | cons BB rest ih =>
    intro done h
    rw [FencesPass.runOnBlocks]
    simp only [PlaceFencesInBlock,
      PlaceFencesInBlock.loop_no_access _ _ _ BB 0 (h BB (List.mem_cons_self _ _))]
    rw [ih _ (fun B hB => h B (List.mem_cons_of_mem _ hB))]
    simp

theorem OptimizeFencesAway.loop_eq_self_of_no_redundant (L : List Instruction) :
    ∀ (b : Bool),
      (b = true → ∀ mid f2 rest, L = mid ++ f2 :: rest → f2.isSeqCstFence = true →
        ¬ ∀ x ∈ mid, x.isTransparent = true) →
      (∀ a f1 mid f2 rest, L = a ++ f1 :: (mid ++ f2 :: rest) → f1.isSeqCstFence = true →
        f2.isSeqCstFence = true → ¬ ∀ x ∈ mid, x.isTransparent = true) →
      OptimizeFencesAway.loop b L = L := by
  induction L with
  | nil => intro b _ _; rfl
  | cons I t ih =>
    intro b hlead hred
    have hred' : ∀ a f1 mid f2 rest, t = a ++ f1 :: (mid ++ f2 :: rest) →
        f1.isSeqCstFence = true → f2.isSeqCstFence = true →
        ¬ ∀ x ∈ mid, x.isTransparent = true := by
      intro a f1 mid f2 rest h h1 h2
      exact hred (I :: a) f1 mid f2 rest (by rw [h]; rfl) h1 h2
    rcases I.trichotomy with h1 | h1 | ⟨h1, h2⟩
    · have hb : b = false := by
        cases b with
        | false => rfl
        | true => exact absurd (by simp) (hlead rfl [] I t rfl h1)
      subst hb
      rw [loop_seqCst _ _ _ h1]
      simp only [Bool.false_eq_true, if_false, List.cons.injEq, true_and]
      apply ih true _ hred'
      intro _ mid f2 rest h hf2
      exact hred [] I mid f2 rest (by rw [h]; rfl) h1 hf2
    · rw [loop_transparent _ _ _ h1]
      simp only [List.cons.injEq, true_and]
      apply ih b _ hred'
      intro hb mid f2 rest h hf2 hall
      refine hlead hb (I :: mid) f2 rest (by rw [h]; rfl) hf2 ?_
      intro x hx
      rcases List.mem_cons.1 hx with rfl | hx
      · exact h1
      · exact hall x hx
    · rw [loop_barrier _ _ _ h1 h2]
      simp only [List.cons.injEq, true_and]
      exact ih false (fun hb => by cases hb) hred'

theorem PeepholeOptimizationPass.visit_noop {F : Function} {I : Instruction}
    (h : matchShape F I = none) : PeepholeOptimizationPass.visit F I = some F := by
  simp [PeepholeOptimizationPass.visit, h]

theorem PeepholeOptimizationPass.scanBlock_noop {F : Function} (bi : Nat)
    (h : ∀ I ∈ F.insts, matchShape F I = none) :
    ∀ (pending : List Nat), PeepholeOptimizationPass.scanBlock bi pending F = some F := by
  intro pending
  induction pending with
  | nil => rfl
  | cons a rest ih =>
    rw [PeepholeOptimizationPass.scanBlock]
    cases hf : (F.block bi).find? (fun J => J.id == a) with
    | none => exact ih
    | some I =>
      have hI : I ∈ F.insts := F.block_subset_insts bi I (List.mem_of_find?_eq_some hf)
      simp only [PeepholeOptimizationPass.visit_noop (h I hI)]
      cases hn : rest.find? (fun j => F.holds bi j) with
      | none => exact ih
      | some n =>
        have : F.holds bi n = true := List.find?_some hn
        simp only [this, if_true]
        exact ih

theorem PeepholeOptimizationPass.runOnBlocks_noop {F : Function}
    (h : ∀ I ∈ F.insts, matchShape F I = none) :
    ∀ (bis : List Nat), PeepholeOptimizationPass.runOnBlocks bis F = some F := by
  intro bis
  induction bis with
  | nil => rfl
  | cons bi rest ih =>
    rw [PeepholeOptimizationPass.runOnBlocks, PeepholeOptimizationPass.scanBlock_noop bi h]
    exact ih

/-! ## What redundant-fence elimination leaves in place -/

theorem OptimizeFencesAway.loop_sublist (L : List Instruction) :
    ∀ (b : Bool), (OptimizeFencesAway.loop b L).Sublist L := by
  induction L with
  | nil => intro b; simp [OptimizeFencesAway.loop]
  | cons I rest ih =>
    intro b
    rcases I.trichotomy with h | h | ⟨h1, h2⟩
    · rw [loop_seqCst _ _ _ h]
      cases b with
      | true => simpa using (ih true).cons I
      | false => simpa using (ih true).cons₂ I
    · rw [loop_transparent _ _ _ h]; exact (ih b).cons₂ I
    · rw [loop_barrier _ _ _ h1 h2]; exact (ih false).cons₂ I

theorem OptimizeFencesAway.loop_filter (L : List Instruction) :
    ∀ (b : Bool),
      (OptimizeFencesAway.loop b L).filter (fun I => !I.isSeqCstFence) =
        L.filter (fun I => !I.isSeqCstFence) := by
  induction L with
  | nil => intro b; simp [OptimizeFencesAway.loop]
  | cons I rest ih =>
    intro b
    rcases I.trichotomy with h | h | ⟨h1, h2⟩
    · rw [loop_seqCst _ _ _ h]
      cases b with
      | true => simp [ih true, h]
      | false => simp [ih true, h]
    · rw [loop_transparent _ _ _ h]
      simp [ih b, isSeqCstFence_false_of_transparent h]
    · rw [loop_barrier _ _ _ h1 h2]
      simp [ih false, h2]

/-- C12. The output of `OptimizeFencesAway` is the input with some instructions left out, in
the same order, and what is left out are sequentially-consistent fences only: the
instructions that are not sequentially-consistent fences (the fences of weaker ordering and
the non-fences) are the same list before and after. -/
theorem OptimizeFencesAway_only_deletes_seqCst (BB : BasicBlock) :
    (OptimizeFencesAway BB).Sublist BB ∧
      (OptimizeFencesAway BB).filter (fun I => !I.isSeqCstFence) =
        BB.filter (fun I => !I.isSeqCstFence) :=
  ⟨OptimizeFencesAway.loop_sublist BB false, OptimizeFencesAway.loop_filter BB false⟩


/-! ## Totality of the provenance walk -/

theorem chainNext_eq_none {F : Function} {v : Value} (h : chainNext F v = none) :
    asGEP F v = none ∧ asCast F v = none := by
  unfold chainNext at h
  cases hg : asGEP F v with
  | none => rw [hg] at h; exact ⟨rfl, h⟩
  | some p => rw [hg] at h; cases h

theorem chainNext_some_mem {F : Function} {v w : Value} (h : chainNext F v = some w) :
    ∃ id, v = .inst id ∧ id ∈ F.ids := by
  have : (asGEP F v).isSome ∨ (asCast F v).isSome := by
    unfold chainNext at h
    cases hg : asGEP F v with
    | none => rw [hg] at h; right; simpa using congrArg Option.isSome h
    | some p => left; rfl
  cases v with
  | inst id =>
    refine ⟨id, rfl, ?_⟩
    cases hf : F.find id with
    | none => simp [asGEP, asCast, hf] at this
    | some I =>
      have hm := List.mem_of_find?_eq_some hf
      have hi := List.find?_some hf
      simp only [beq_iff_eq] at hi
      exact List.mem_map.2 ⟨I, hm, hi⟩
  | arg i t => simp [asGEP, asCast] at this
  | const c => simp [asGEP, asCast] at this

theorem chainAt_rootOf {F : Function} {v r : Value} (n : Nat)
    (hn : chainAt F v n = some r) (hr : chainNext F r = none) :
    ∀ k, k ≤ n → ∀ a, chainAt F v (n - k) = some a → RootOf F a r := by
  intro k
  induction k with
  | zero =>
    intro _ a ha
    rw [Nat.sub_zero, hn] at ha
    cases ha
    exact RootOf.root _ (chainNext_eq_none hr).1 (chainNext_eq_none hr).2
  | succ k ih =>
    intro hk a ha
    have hstep : chainAt F v (n - k) = (chainAt F v (n - (k + 1))).bind (chainNext F) := by
      have : n - k = (n - (k + 1)) + 1 := by omega
      rw [this]; rfl
    rw [ha] at hstep
    simp only [Option.some_bind] at hstep
    cases hx : chainNext F a with
    | none =>
      -- the chain ends at `a`, before index `n`: impossible, as `chainAt (n - k)` is defined
      have hsome : ∀ m, n - k ≤ m → chainAt F v m = none := by
        intro m hm
        induction m with
        | zero =>
          have : n - k = 0 := by omega
          rw [this] at hstep; rw [hstep, hx]
        | succ m ihm =>
          by_cases hmk : n - k = m + 1
          · rw [← hmk, hstep, hx]
          · have := ihm (by omega)
            show (chainAt F v m).bind (chainNext F) = none
            rw [this]; rfl
      have := hsome n (Nat.sub_le _ _)
      rw [hn] at this; cases this
    | some b =>
      rw [hx] at hstep
      have hb := ih (by omega) b hstep
      unfold chainNext at hx
      cases hg : asGEP F a with
      | none =>
        rw [hg] at hx
        exact RootOf.cast _ _ _ hx hb
      | some p =>
        rw [hg] at hx
        cases hx
        exact RootOf.gep _ _ _ hg hb

/-- An acyclic chain ends: some value along it is neither a getelementptr nor a cast. -/
theorem AcyclicChain.ends {F : Function} {v : Value} (h : AcyclicChain F v) :
    ∃ n r, chainAt F v n = some r ∧ chainNext F r = none := by
  by_contra hcon
  push_neg at hcon
  have hall : ∀ n, ∃ a, chainAt F v n = some a ∧ ∃ id, a = .inst id ∧ id ∈ F.ids := by
    intro n
    induction n with
    | zero =>
      have h0 : chainAt F v 0 = some v := rfl
      have := hcon 0 v h0
      cases hx : chainNext F v with
      | none => exact absurd hx this
      | some w => exact ⟨v, h0, chainNext_some_mem hx⟩
    | succ n ih =>
      obtain ⟨a, ha, -⟩ := ih
      cases hx : chainNext F a with
      | none => exact absurd hx (hcon n a ha)
      | some w =>
        have hw : chainAt F v (n + 1) = some w := by
          show (chainAt F v n).bind (chainNext F) = some w
          rw [ha]; exact hx
        cases hy : chainNext F w with
        | none => exact absurd hy (hcon (n + 1) w hw)
        | some z => exact ⟨w, hw, chainNext_some_mem hy⟩
  let l : List (Option Value) := (List.range (F.ids.length + 1)).map (chainAt F v)
  have hnd : l.Nodup := by
    refine (List.nodup_range _).map_on ?_
    intro i _ j _ hij
    by_contra hne
    obtain ⟨a, ha, -⟩ := hall i
    rcases Nat.lt_or_gt_of_ne hne with hlt | hgt
    · exact h i j a hlt ha (by rw [← hij]; exact ha)
    · obtain ⟨b, hb, -⟩ := hall j
      exact h j i b hgt hb (by rw [hij]; exact hb)
  have hsub : l ⊆ F.ids.map (fun id => some (Value.inst id)) := by
    intro x hx
    obtain ⟨i, -, rfl⟩ := List.mem_map.1 hx
    obtain ⟨a, ha, id, rfl, hid⟩ := hall i
    rw [ha]
    exact List.mem_map.2 ⟨id, hid, rfl⟩
  have hle := (List.subperm_of_subset hnd hsub).length_le
  simp [l] at hle

/-- C16. When the chain of getelementptr / cast definitions behind a pointer operand is
acyclic, the walk of `PlaceFencesInBlock` terminates: from some number of loop tests on it
returns a value, the same for every larger number, and that value is neither a getelementptr
instruction nor a cast instruction. -/
theorem provenanceRoot_total (F : Function) (Ptr : Value) (h : AcyclicChain F Ptr) :
    ∃ fuel0 r, (∀ fuel, fuel0 ≤ fuel → provenanceRoot F fuel Ptr = some r) ∧
      asGEP F r = none ∧ asCast F r = none := by
  obtain ⟨n, r, hn, hr⟩ := h.ends
  have hroot : RootOf F Ptr r := by
    have := chainAt_rootOf n hn hr n (le_refl n) Ptr
    rw [Nat.sub_self] at this
    exact this rfl
  obtain ⟨m, hm⟩ := provenanceRoot_complete hroot
  exact ⟨m, r, fun fuel hf => provenanceRoot_mono hm hf,
    (chainNext_eq_none hr).1, (chainNext_eq_none hr).2⟩

/-- Witness for C16: the pointer `%3` of `sampleFenceFn`, a cast of a getelementptr of an
alloca. -/
theorem provenanceRoot_total_witness :
    AcyclicChain sampleFenceFn (.inst 3) ∧
    ∃ fuel0 r, (∀ fuel, fuel0 ≤ fuel → provenanceRoot sampleFenceFn fuel (.inst 3) = some r) ∧
      asGEP sampleFenceFn r = none ∧ asCast sampleFenceFn r = none :=
  have hw : AcyclicChain sampleFenceFn (.inst 3) := by
    intro i j a hij hi hj
    have h3 : ∀ k, 3 ≤ k → chainAt sampleFenceFn (.inst 3) k = none := by
      intro k hk
      induction k with
      | zero => omega
      | succ k ih =>
        by_cases h2 : k = 2
        · subst h2; decide
        · show (chainAt sampleFenceFn (.inst 3) k).bind _ = none
          rw [ih (by omega)]; rfl
    have hj3 : j < 3 := by
      by_contra hc
      rw [h3 j (by omega)] at hj; cases hj
    have c0 : chainAt sampleFenceFn (.inst 3) 0 = some (.inst 3) := by decide
    have c1 : chainAt sampleFenceFn (.inst 3) 1 = some (.inst 2) := by decide
    have c2 : chainAt sampleFenceFn (.inst 3) 2 = some (.inst 1) := by decide
    have hcases : (i = 0 ∧ j = 1) ∨ (i = 0 ∧ j = 2) ∨ (i = 1 ∧ j = 2) := by omega
    rcases hcases with ⟨rfl, rfl⟩ | ⟨rfl, rfl⟩ | ⟨rfl, rfl⟩
    · rw [c0] at hi; rw [c1] at hj; cases hi; cases hj
    · rw [c0] at hi; rw [c2] at hj; cases hi; cases hj
    · rw [c1] at hi; rw [c2] at hj; cases hi; cases hj
  ⟨hw, provenanceRoot_total sampleFenceFn (.inst 3) hw⟩


/-! ## The shape guards -/

theorem intToPtrSrcTy_eq_some {F : Function} {Ptr : Value} {T : Ty} :
    intToPtrSrcTy F Ptr = some T ↔
      ∃ PI src, asInstruction F Ptr = some PI ∧ PI.kind = .cast .IntToPtr src ∧
        F.typeOf src = some T := by
  unfold intToPtrSrcTy
  cases hi : asInstruction F Ptr with
  | none => simp
  | some J =>
    simp only [Option.some.injEq]
    constructor
    · intro h
      cases hk : J.kind <;> rw [hk] at h <;> simp only at h <;> try (cases h)
      rename_i op src
      by_cases hop : op = .IntToPtr
      · subst hop
        simp only [if_true] at h
        exact ⟨J, src, rfl, hk, h⟩
      · simp [hop] at h
    · rintro ⟨PI, src, rfl, hk, hty⟩
      simp [hk, hty]

theorem asPtrToInt_eq_none_of_arg {F : Function} {v : Value}
    (h : isIntegerArgument v = true) : asPtrToInt F v = none := by
  cases v with
  | arg i t => rfl
  | inst j => simp [isIntegerArgument] at h
  | const c => simp [isIntegerArgument] at h

theorem asPtrToInt_of_kind {F : Function} {v : Value} {J : Instruction} {P : Value}
    (h : asInstruction F v = some J) (hk : J.kind = .cast .PtrToInt P) :
    asPtrToInt F v = some (J, P) := by
  simp [asPtrToInt, h, hk]

theorem matchShape_A_iff {F : Function} {I : Instruction} :
    GuardA F I ↔ ∃ b p q i, matchShape F I = some (.A b p q i) := by
  constructor
  · rintro ⟨V, BinOp, Op0, Op1, P2I, Ptr, hI, hV, hB, hO, hP, PI, src, T, hPI, hk, hty, hT⟩
    have h1 : intToPtrSrcTy F Ptr = some T := intToPtrSrcTy_eq_some.2 ⟨PI, src, hPI, hk, hty⟩
    refine ⟨BinOp, P2I, Ptr, Op1, ?_⟩
    simp [matchShape, hI, hV, hB, asPtrToInt_of_kind hO hP, h1, hT]
  · rintro ⟨b, p, q, i, h⟩
    obtain ⟨V, VI, hI, hV, hcases⟩ := matchShape_eq_some h
    rcases hcases with ⟨Op0, Idx, P2I, Ptr, T, -, hk, hp, hT, hTi⟩ | ⟨Arg, Idx, hS, -⟩ |
      ⟨Ptr, hS, -⟩
    · obtain ⟨hO, hPk⟩ := asPtrToInt_eq_some.1 hp
      obtain ⟨PI, src, hPI, hkP, hty⟩ := intToPtrSrcTy_eq_some.1 hT
      exact ⟨V, VI, Op0, Idx, P2I, Ptr, hI, hV, hk, hO, hPk, PI, src, T, hPI, hkP, hty, hTi⟩
    · cases hS
    · cases hS

theorem matchShape_B_iff {F : Function} {I : Instruction} :
    GuardB F I ↔ ∃ b a i, matchShape F I = some (.B b a i) := by
  constructor
  · rintro ⟨V, BinOp, Op0, Op1, hI, hV, hB, hA⟩
    refine ⟨BinOp, Op0, Op1, ?_⟩
    simp [matchShape, hI, hV, hB, asPtrToInt_eq_none_of_arg hA, hA]
  · rintro ⟨b, a, i, h⟩
    obtain ⟨V, VI, hI, hV, hcases⟩ := matchShape_eq_some h
    rcases hcases with ⟨Op0, Idx, P2I, Ptr, T, hS, -⟩ | ⟨Arg, Idx, -, hk, -, hA⟩ |
      ⟨Ptr, hS, -⟩
    · cases hS
    · exact ⟨V, VI, Arg, Idx, hI, hV, hk, hA⟩
    · cases hS

theorem matchShape_C_iff {F : Function} {I : Instruction} :
    GuardC F I ↔ ∃ p q, matchShape F I = some (.C p q) := by
  constructor
  · rintro ⟨V, P2I, P, hI, hV, hP⟩
    refine ⟨P2I, P, ?_⟩
    simp [matchShape, hI, hV, hP]
  · rintro ⟨p, q, h⟩
    obtain ⟨V, VI, hI, hV, hcases⟩ := matchShape_eq_some h
    rcases hcases with ⟨Op0, Idx, P2I, Ptr, T, hS, -⟩ | ⟨Arg, Idx, hS, -⟩ | ⟨Ptr, -, hk⟩
    · cases hS
    · cases hS
    · exact ⟨V, VI, Ptr, hI, hV, hk⟩

/-- C13. For every instruction `I` of every function: no two of the guards of shape A, B and
C hold together; the loop body takes the branch of shape A, B or C exactly when the guard of
that shape holds, so it applies at most one rewrite to `I`; and when `I` is an `inttoptr` of an
addition whose left operand is a `ptrtoint` of a pointer that no `inttoptr` with integer
source type produces, no guard is met and the loop body leaves the function as it is. -/
theorem PeepholeOptimizationPass_guards_exclusive (F : Function) (I : Instruction) :
    ¬ (GuardA F I ∧ GuardB F I) ∧ ¬ (GuardA F I ∧ GuardC F I) ∧ ¬ (GuardB F I ∧ GuardC F I) ∧
    (GuardA F I ↔ ∃ b p q i, matchShape F I = some (.A b p q i) ∧
      PeepholeOptimizationPass.visit F I = rewriteShapeA F I b p q i) ∧
    (GuardB F I ↔ ∃ b a i, matchShape F I = some (.B b a i) ∧
      PeepholeOptimizationPass.visit F I = rewriteShapeB F I b a i) ∧
    (GuardC F I ↔ ∃ p q, matchShape F I = some (.C p q) ∧
      PeepholeOptimizationPass.visit F I = rewriteShapeC F I p q) ∧
    (¬ GuardA F I → ¬ GuardB F I → ¬ GuardC F I →
      PeepholeOptimizationPass.visit F I = some F) ∧
    (∀ V BinOp Op0 Op1 P2I Ptr, I.kind = .cast .IntToPtr V → asInstruction F V = some BinOp →
      BinOp.kind = .binop .Add Op0 Op1 → asInstruction F Op0 = some P2I →
      P2I.kind = .cast .PtrToInt Ptr → ¬ FromIntegerIntToPtr F Ptr →
      ¬ GuardA F I ∧ ¬ GuardB F I ∧ ¬ GuardC F I ∧
        PeepholeOptimizationPass.visit F I = some F) := by
  have hAB : ¬ (GuardA F I ∧ GuardB F I) := by
    rintro ⟨hA, hB⟩
    obtain ⟨b, p, q, i, h1⟩ := matchShape_A_iff.1 hA
    obtain ⟨b', a, i', h2⟩ := matchShape_B_iff.1 hB
    rw [h1] at h2; cases h2
  have hAC : ¬ (GuardA F I ∧ GuardC F I) := by
    rintro ⟨hA, hC⟩
    obtain ⟨b, p, q, i, h1⟩ := matchShape_A_iff.1 hA
    obtain ⟨p', q', h2⟩ := matchShape_C_iff.1 hC
    rw [h1] at h2; cases h2
  have hBC : ¬ (GuardB F I ∧ GuardC F I) := by
    rintro ⟨hB, hC⟩
    obtain ⟨b, a, i, h1⟩ := matchShape_B_iff.1 hB
    obtain ⟨p', q', h2⟩ := matchShape_C_iff.1 hC
    rw [h1] at h2; cases h2
  have hnone : ¬ GuardA F I → ¬ GuardB F I → ¬ GuardC F I →
      PeepholeOptimizationPass.visit F I = some F := by
    intro hA hB hC
    cases hm : matchShape F I with
    | none => simp [PeepholeOptimizationPass.visit, hm]
    | some S =>
      cases S with
      | A b p q i => exact absurd (matchShape_A_iff.2 ⟨b, p, q, i, hm⟩) hA
      | B b a i => exact absurd (matchShape_B_iff.2 ⟨b, a, i, hm⟩) hB
      | C p q => exact absurd (matchShape_C_iff.2 ⟨p, q, hm⟩) hC
  refine ⟨hAB, hAC, hBC, ?_, ?_, ?_, hnone, ?_⟩
  · constructor
    · intro hA
      obtain ⟨b, p, q, i, h⟩ := matchShape_A_iff.1 hA
      exact ⟨b, p, q, i, h, by simp [PeepholeOptimizationPass.visit, h]⟩
    · rintro ⟨b, p, q, i, h, -⟩
      exact matchShape_A_iff.2 ⟨b, p, q, i, h⟩
  · constructor
    · intro hB
      obtain ⟨b, a, i, h⟩ := matchShape_B_iff.1 hB
      exact ⟨b, a, i, h, by simp [PeepholeOptimizationPass.visit, h]⟩
    · rintro ⟨b, a, i, h, -⟩
      exact matchShape_B_iff.2 ⟨b, a, i, h⟩
  · constructor
    · intro hC
      obtain ⟨p, q, h⟩ := matchShape_C_iff.1 hC
      exact ⟨p, q, h, by simp [PeepholeOptimizationPass.visit, h]⟩
    · rintro ⟨p, q, h, -⟩
      exact matchShape_C_iff.2 ⟨p, q, h⟩
  · intro V BinOp Op0 Op1 P2I Ptr hI hV hB hO hP hnot
    have hA : ¬ GuardA F I := by
      rintro ⟨V', BinOp', Op0', Op1', P2I', Ptr', hI', hV', hB', hO', hP', hfrom⟩
      rw [hI] at hI'; cases hI'
      rw [hV] at hV'; cases hV'
      rw [hB] at hB'; cases hB'
      rw [hO] at hO'; cases hO'
      rw [hP] at hP'; cases hP'
      exact hnot hfrom
    have hB' : ¬ GuardB F I := by
      rintro ⟨V', BinOp', Op0', Op1', hI', hV', hB', hA'⟩
      rw [hI] at hI'; cases hI'
      rw [hV] at hV'; cases hV'
      rw [hB] at hB'; cases hB'
      have := asPtrToInt_eq_none_of_arg (F := F) hA'
      rw [asPtrToInt_of_kind hO hP] at this; cases this
    have hC : ¬ GuardC F I := by
      rintro ⟨V', P2I', P', hI', hV', hP'⟩
      rw [hI] at hI'; cases hI'
      rw [hV] at hV'; cases hV'
      rw [hB] at hP'; cases hP'
    exact ⟨hA, hB', hC, hnone hA hB' hC⟩

theorem sampleStackTop_not_fromIntToPtr : ¬ FromIntegerIntToPtr sampleStackTop (.inst 1) := by
  rintro ⟨PI, src, T, hPI, hk, -⟩
  have : asInstruction sampleStackTop (.inst 1) =
      some ⟨1, BytePtrTy, .alloca (.const (.int (.int 32) 64))⟩ := by decide
  rw [this] at hPI
  cases hPI
  cases hk

/-- Witness for C13: the `inttoptr` of the stack-top pattern of the source comment, whose
pointer is an alloca, meets no guard and is left as it is. -/
theorem PeepholeOptimizationPass_guards_exclusive_witness :
    ¬ FromIntegerIntToPtr sampleStackTop (.inst 1) ∧
    ¬ GuardA sampleStackTop ⟨4, I32PtrTy, .cast .IntToPtr (.inst 3)⟩ ∧
    ¬ GuardB sampleStackTop ⟨4, I32PtrTy, .cast .IntToPtr (.inst 3)⟩ ∧
    ¬ GuardC sampleStackTop ⟨4, I32PtrTy, .cast .IntToPtr (.inst 3)⟩ ∧
    PeepholeOptimizationPass.visit sampleStackTop ⟨4, I32PtrTy, .cast .IntToPtr (.inst 3)⟩ =
      some sampleStackTop :=
  ⟨sampleStackTop_not_fromIntToPtr,
    (PeepholeOptimizationPass_guards_exclusive sampleStackTop
      ⟨4, I32PtrTy, .cast .IntToPtr (.inst 3)⟩).2.2.2.2.2.2.2
      (.inst 3) ⟨3, .int 64, .binop .Add (.inst 2) (.const (.int (.int 64) 16))⟩
      (.inst 2) (.const (.int (.int 64) 16)) ⟨2, .int 64, .cast .PtrToInt (.inst 1)⟩ (.inst 1)
      rfl (by decide) rfl (by decide) rfl sampleStackTop_not_fromIntToPtr⟩


/-! ## Placement followed by redundancy elimination -/

/-- An instruction of the output of the loop is an instruction of the input, and the output
is the output for what precedes it followed by the output for the rest. -/
theorem OptimizeFencesAway.loop_split (L : List Instruction) :
    ∀ (b : Bool) (A' : List Instruction) (I : Instruction) (B' : List Instruction),
      OptimizeFencesAway.loop b L = A' ++ I :: B' →
      ∃ A B, L = A ++ I :: B ∧ OptimizeFencesAway.loop b A = A' ∧
        OptimizeFencesAway.loop (OptimizeFencesAway.flagAfter b A) (I :: B) = I :: B' := by
  induction L with
  | nil => intro b A' I B' h; simp [OptimizeFencesAway.loop] at h
  | cons X rest ih =>
    intro b A' I B' h
    have hcons : ∀ b2, OptimizeFencesAway.loop b (X :: rest) = X :: OptimizeFencesAway.loop b2 rest →
        OptimizeFencesAway.flagAfter b [X] = b2 →
        ∃ A B, X :: rest = A ++ I :: B ∧ OptimizeFencesAway.loop b A = A' ∧
          OptimizeFencesAway.loop (OptimizeFencesAway.flagAfter b A) (I :: B) = I :: B' := by
      intro b2 hX hfl
      rw [hX] at h
      cases A' with
      | nil =>
        simp only [List.nil_append, List.cons.injEq] at h
        obtain ⟨rfl, h2⟩ := h
        refine ⟨[], rest, rfl, rfl, ?_⟩
        show OptimizeFencesAway.loop b (X :: rest) = _
        rw [hX, h2]
      | cons Y A'' =>
        simp only [List.cons_append, List.cons.injEq] at h
        obtain ⟨rfl, h2⟩ := h
        obtain ⟨A, B, hAB, hA, hB⟩ := ih b2 A'' I B' h2
        refine ⟨X :: A, B, by rw [hAB]; rfl, ?_, ?_⟩
        · have := loop_append [X] b A
          simp only [List.singleton_append] at this
          rw [this, hfl, hA]
          have h1 := loop_append [X] b rest
          simp only [List.singleton_append] at h1
          rw [hX, hfl] at h1
          have h3 : (X :: OptimizeFencesAway.loop b2 rest).take 1 =
              (OptimizeFencesAway.loop b [X] ++ OptimizeFencesAway.loop b2 rest).take 1 := by
            rw [h1]
          have hlen : (OptimizeFencesAway.loop b [X]).length = 1 := by
            have := congrArg List.length h1
            simp at this
            omega
          match hl : OptimizeFencesAway.loop b [X], hlen with
          | [Z], _ =>
            rw [hl] at h1
            simp only [List.singleton_append, List.cons.injEq] at h1
            rw [h1.1]; rfl
        · have : OptimizeFencesAway.flagAfter b (X :: A) = OptimizeFencesAway.flagAfter b2 A := by
            rw [← hfl]
            rcases X.trichotomy with h1 | h1 | ⟨h1, h2⟩
            · rw [flagAfter_seqCst _ _ _ h1, flagAfter_seqCst _ _ _ h1]; rfl
            · rw [flagAfter_transparent _ _ _ h1, flagAfter_transparent _ _ _ h1]; rfl
            · rw [flagAfter_barrier _ _ _ h1 h2, flagAfter_barrier _ _ _ h1 h2]; rfl
          rw [this, hB]
    rcases X.trichotomy with h1 | h1 | ⟨h1, h2⟩
    · cases b with
      | false =>
        exact hcons true (by rw [loop_seqCst _ _ _ h1]; rfl)
          (by rw [flagAfter_seqCst _ _ _ h1]; rfl)
      | true =>
        rw [loop_seqCst _ _ _ h1] at h
        simp only [if_true] at h
        obtain ⟨A, B, hAB, hA, hB⟩ := ih true A' I B' h
        refine ⟨X :: A, B, by rw [hAB]; rfl, ?_, ?_⟩
        · rw [loop_seqCst _ _ _ h1]; simpa using hA
        · rw [flagAfter_seqCst _ _ _ h1]; exact hB
    · exact hcons b (loop_transparent _ _ _ h1) (by rw [flagAfter_transparent _ _ _ h1]; rfl)
    · exact hcons false (loop_barrier _ _ _ h1 h2) (by rw [flagAfter_barrier _ _ _ h1 h2]; rfl)

theorem needsFence_accessOf {F : Function} {fuel : Nat} {I : Instruction}
    (h : needsFence F fuel I = true) :
    (∃ p, I.kind = .load p) ∨ (∃ v p, I.kind = .store v p) := by
  unfold needsFence accessOf at h
  cases hk : I.kind <;> rw [hk] at h <;> simp at h
  · exact Or.inl ⟨_, rfl⟩
  · exact Or.inr ⟨_, _, rfl⟩

/-- The three outcomes of the placement policy on one instruction. -/
theorem fencedAccess_cases (F : Function) (fuel k : Nat) (I : Instruction) :
    (needsFence F fuel I = false ∧ fencedAccess F fuel k I = [I]) ∨
    (needsFence F fuel I = true ∧ (∃ p, I.kind = .load p) ∧
      fencedAccess F fuel k I = [I, seqCstFence k]) ∨
    (needsFence F fuel I = true ∧ (∃ v p, I.kind = .store v p) ∧
      fencedAccess F fuel k I = [seqCstFence k, I]) := by
  by_cases h : needsFence F fuel I = true
  · right
    rcases needsFence_accessOf h with ⟨p, hk⟩ | ⟨v, p, hk⟩
    · left; exact ⟨h, ⟨p, hk⟩, by simp [fencedAccess, h, hk]⟩
    · right; exact ⟨h, ⟨v, p, hk⟩, by simp [fencedAccess, h, hk]⟩
  · left
    simp only [Bool.not_eq_true] at h
    exact ⟨h, by simp [fencedAccess, h]⟩

theorem isFence_seqCstFence (k : Nat) : (seqCstFence k).isFence = true := rfl

theorem isSeqCstFence_seqCstFence (k : Nat) : (seqCstFence k).isSeqCstFence = true := rfl

theorem needsFence_seqCstFence (F : Function) (fuel k : Nat) :
    needsFence F fuel (seqCstFence k) = false := rfl

/-- An instruction of the placed block that is not a fence is an instruction of the input; what
precedes it is the placed prefix, with the fence of the instruction when it is a fenced
store, and what follows it is the placed suffix, after the fence of the instruction when it
is a fenced load. -/
theorem fencedFrom_split (F : Function) (fuel fresh : Nat) (L : List Instruction) :
    ∀ (c : Nat) (A : List Instruction) (I : Instruction) (B : List Instruction),
      fencedFrom F fuel fresh L c = A ++ I :: B → I.isFence = false →
      ∃ pre post c1 c2, L = pre ++ I :: post ∧
        ((needsFence F fuel I = false ∧ A = fencedFrom F fuel fresh pre c ∧
            B = fencedFrom F fuel fresh post c2) ∨
         (needsFence F fuel I = true ∧ (∃ p, I.kind = .load p) ∧
            A = fencedFrom F fuel fresh pre c ∧
            B = seqCstFence c1 :: fencedFrom F fuel fresh post c2) ∨
         (needsFence F fuel I = true ∧ (∃ v p, I.kind = .store v p) ∧
            A = fencedFrom F fuel fresh pre c ++ [seqCstFence c1] ∧
            B = fencedFrom F fuel fresh post c2)) := by
  induction L with
  | nil => intro c A I B h; simp [fencedFrom] at h
  | cons X rest ih =>
    intro c A I B h hI
    rw [fencedFrom] at h
    have hrec : ∀ (A2 : List Instruction) (hd : List Instruction),
        fencedAccess F fuel (fresh + c) X = hd → A = hd ++ A2 →
        fencedFrom F fuel fresh rest (c + if needsFence F fuel X then 1 else 0) = A2 ++ I :: B →
        ∃ pre post c1 c2, X :: rest = pre ++ I :: post ∧
        ((needsFence F fuel I = false ∧ A = fencedFrom F fuel fresh pre c ∧
            B = fencedFrom F fuel fresh post c2) ∨
         (needsFence F fuel I = true ∧ (∃ p, I.kind = .load p) ∧
            A = fencedFrom F fuel fresh pre c ∧
            B = seqCstFence c1 :: fencedFrom F fuel fresh post c2) ∨
         (needsFence F fuel I = true ∧ (∃ v p, I.kind = .store v p) ∧
            A = fencedFrom F fuel fresh pre c ++ [seqCstFence c1] ∧
            B = fencedFrom F fuel fresh post c2)) := by
      intro A2 hd hhd hA h2
      obtain ⟨pre, post, c1, c2, hL, hcases⟩ := ih _ A2 I B h2 hI
      refine ⟨X :: pre, post, c1, c2, by rw [hL]; rfl, ?_⟩
      have hpre : ∀ T, A2 = fencedFrom F fuel fresh pre
          (c + if needsFence F fuel X then 1 else 0) ++ T →
          A = fencedFrom F fuel fresh (X :: pre) c ++ T := by
        intro T hT
        rw [hA, hT, fencedFrom, hhd, List.append_assoc]
      rcases hcases with ⟨hn, hA2, hB⟩ | ⟨hn, hk, hA2, hB⟩ | ⟨hn, hk, hA2, hB⟩
      · exact Or.inl ⟨hn, by simpa using hpre [] (by simpa using hA2), hB⟩
      · exact Or.inr (Or.inl ⟨hn, hk, by simpa using hpre [] (by simpa using hA2), hB⟩)
      · exact Or.inr (Or.inr ⟨hn, hk, hpre _ hA2, hB⟩)
    rcases fencedAccess_cases F fuel (fresh + c) X with ⟨hn, hfa⟩ | ⟨hn, hk, hfa⟩ | ⟨hn, hk, hfa⟩
    · rw [hfa] at h
      cases A with
      | nil =>
        simp only [List.singleton_append, List.nil_append, List.cons.injEq] at h
        obtain ⟨rfl, hB⟩ := h
        exact ⟨[], rest, 0, _, rfl, Or.inl ⟨hn, by simp [fencedFrom], hB.symm⟩⟩
      | cons Y A2 =>
        simp only [List.singleton_append, List.cons_append, List.cons.injEq] at h
        obtain ⟨rfl, h2⟩ := h
        exact hrec A2 [X] hfa rfl h2
    · rw [hfa] at h
      cases A with
      | nil =>
        simp only [List.cons_append, List.nil_append, List.cons.injEq] at h
        obtain ⟨rfl, hB⟩ := h
        exact ⟨[], rest, fresh + c, _, rfl,
          Or.inr (Or.inl ⟨hn, hk, by simp [fencedFrom], hB.symm⟩)⟩
      | cons Y A2 =>
        cases A2 with
        | nil =>
          simp only [List.cons_append, List.nil_append, List.cons.injEq] at h
          obtain ⟨-, rfl, -⟩ := h
          simp [isFence_seqCstFence] at hI
        | cons Z A3 =>
          simp only [List.cons_append, List.nil_append, List.cons.injEq] at h
          obtain ⟨rfl, rfl, h2⟩ := h
          exact hrec A3 [X, seqCstFence (fresh + c)] hfa rfl h2
    · rw [hfa] at h
      cases A with
      | nil =>
        simp only [List.cons_append, List.nil_append, List.cons.injEq] at h
        obtain ⟨rfl, -⟩ := h
        simp [isFence_seqCstFence] at hI
      | cons Y A2 =>
        cases A2 with
        | nil =>
          simp only [List.cons_append, List.nil_append, List.cons.injEq] at h
          obtain ⟨rfl, rfl, hB⟩ := h
          exact ⟨[], rest, fresh + c, _, rfl,
            Or.inr (Or.inr ⟨hn, hk, by simp [fencedFrom], hB.symm⟩)⟩
        | cons Z A3 =>
          simp only [List.cons_append, List.nil_append, List.cons.injEq] at h
          obtain ⟨rfl, rfl, h2⟩ := h
          exact hrec A3 [seqCstFence (fresh + c), X] hfa rfl h2

/-- When the flag is set after a list, the output for that list is transparent throughout
(and the flag was set before), or it ends with a sequentially-consistent fence followed by
transparent instructions only. -/
theorem OptimizeFencesAway.loop_ends_with_fence (L : List Instruction) :
    ∀ (b : Bool), OptimizeFencesAway.flagAfter b L = true →
      (b = true ∧ ∀ x ∈ OptimizeFencesAway.loop b L, x.isTransparent = true) ∨
      ∃ A1 g mid, OptimizeFencesAway.loop b L = A1 ++ g :: mid ∧ g.isSeqCstFence = true ∧
        ∀ x ∈ mid, x.isTransparent = true := by
  induction L with
  | nil =>
    intro b h
    left
    exact ⟨by simpa [OptimizeFencesAway.flagAfter] using h, by simp [OptimizeFencesAway.loop]⟩
  | cons X rest ih =>
    intro b h
    rcases X.trichotomy with h1 | h1 | ⟨h1, h2⟩
    · rw [flagAfter_seqCst _ _ _ h1] at h
      rw [loop_seqCst _ _ _ h1]
      cases b with
      | true =>
        simp only [if_true]
        rcases ih true h with ⟨-, hall⟩ | hr
        · exact Or.inl ⟨trivial, hall⟩
        · exact Or.inr hr
      | false =>
        simp only [Bool.false_eq_true, if_false]
        right
        rcases ih true h with ⟨-, hall⟩ | ⟨A1, g, mid, he, hg, hm⟩
        · exact ⟨[], X, _, rfl, h1, hall⟩
        · exact ⟨X :: A1, g, mid, by rw [he]; rfl, hg, hm⟩
    · rw [flagAfter_transparent _ _ _ h1] at h
      rw [loop_transparent _ _ _ h1]
      rcases ih b h with ⟨hb, hall⟩ | ⟨A1, g, mid, he, hg, hm⟩
      · left
        refine ⟨hb, fun x hx => ?_⟩
        rcases List.mem_cons.1 hx with rfl | hx
        · exact h1
        · exact hall x hx
      · exact Or.inr ⟨X :: A1, g, mid, by rw [he]; rfl, hg, hm⟩
    · rw [flagAfter_barrier _ _ _ h1 h2] at h
      rw [loop_barrier _ _ _ h1 h2]
      rcases ih false h with ⟨hb, -⟩ | ⟨A1, g, mid, he, hg, hm⟩
      · cases hb
      · exact Or.inr ⟨X :: A1, g, mid, by rw [he]; rfl, hg, hm⟩

theorem isTransparent_false_of_load {I : Instruction} {p : Value} (h : I.kind = .load p) :
    I.isTransparent = false ∧ I.isSeqCstFence = false ∧ I.isFence = false := by
  simp [Instruction.isTransparent, Instruction.isSeqCstFence, Instruction.isFence,
    Instruction.mayReadOrWriteMemory, h]

theorem isTransparent_false_of_store {I : Instruction} {v p : Value}
    (h : I.kind = .store v p) :
    I.isTransparent = false ∧ I.isSeqCstFence = false ∧ I.isFence = false := by
  simp [Instruction.isTransparent, Instruction.isSeqCstFence, Instruction.isFence,
    Instruction.mayReadOrWriteMemory, h]

/-- In the optimised placed block a fenced load is directly followed by a
sequentially-consistent fence. -/
theorem fenced_load_kept (F : Function) (fuel fresh : Nat) (BB : List Instruction) (c : Nat)
    (b : Bool) (A' : List Instruction) (I : Instruction) (B' : List Instruction) (p : Value)
    (h : OptimizeFencesAway.loop b (fencedFrom F fuel fresh BB c) = A' ++ I :: B')
    (hk : I.kind = .load p) (hn : needsFence F fuel I = true) :
    ∃ f B2, B' = f :: B2 ∧ f.isSeqCstFence = true := by
  obtain ⟨ht, hs, hf⟩ := isTransparent_false_of_load hk
  obtain ⟨A, B, hL, -, hB⟩ := OptimizeFencesAway.loop_split _ b A' I B' h
  obtain ⟨pre, post, c1, c2, -, hcases⟩ := fencedFrom_split F fuel fresh BB c A I B hL hf
  rcases hcases with ⟨hn', -⟩ | ⟨-, -, -, hBe⟩ | ⟨-, ⟨v, q, hk'⟩, -⟩
  · rw [hn] at hn'; cases hn'
  · rw [hBe, OptimizeFencesAway.loop_barrier _ _ _ ht hs,
      OptimizeFencesAway.loop_seqCst _ _ _ (isSeqCstFence_seqCstFence c1)] at hB
    simp only [Bool.false_eq_true, if_false, List.cons.injEq, true_and] at hB
    exact ⟨_, _, hB.symm, isSeqCstFence_seqCstFence c1⟩
  · rw [hk] at hk'; cases hk'

/-- In the optimised placed block a fenced store is preceded by a sequentially-consistent
fence with only transparent instructions between the two. -/
theorem fenced_store_kept (F : Function) (fuel fresh : Nat) (BB : List Instruction) (c : Nat)
    (A' : List Instruction) (I : Instruction) (B' : List Instruction) (v p : Value)
    (h : OptimizeFencesAway.loop false (fencedFrom F fuel fresh BB c) = A' ++ I :: B')
    (hk : I.kind = .store v p) (hn : needsFence F fuel I = true) :
    ∃ A1 g mid, A' = A1 ++ g :: mid ∧ g.isSeqCstFence = true ∧
      ∀ x ∈ mid, x.isTransparent = true := by
  obtain ⟨ht, hs, hf⟩ := isTransparent_false_of_store hk
  obtain ⟨A, B, hL, hA, -⟩ := OptimizeFencesAway.loop_split _ false A' I B' h
  obtain ⟨pre, post, c1, c2, -, hcases⟩ := fencedFrom_split F fuel fresh BB c A I B hL hf
  rcases hcases with ⟨hn', -⟩ | ⟨-, ⟨q, hk'⟩, -⟩ | ⟨-, -, hAe, -⟩
  · rw [hn] at hn'; cases hn'
  · rw [hk] at hk'; cases hk'
  · rw [hAe, OptimizeFencesAway.loop_append,
      OptimizeFencesAway.loop_seqCst _ _ _ (isSeqCstFence_seqCstFence c1)] at hA
    cases hfl : OptimizeFencesAway.flagAfter false (fencedFrom F fuel fresh pre c) with
    | false =>
      rw [hfl] at hA
      simp only [Bool.false_eq_true, if_false] at hA
      exact ⟨_, seqCstFence c1, [], by rw [← hA]; rfl, isSeqCstFence_seqCstFence c1, by simp⟩
    | true =>
      rw [hfl] at hA
      simp only [if_true, OptimizeFencesAway.loop, List.append_nil] at hA
      rcases OptimizeFencesAway.loop_ends_with_fence _ false hfl with ⟨hb, -⟩ | hr
      · cases hb
      · rw [hA] at hr; exact hr

theorem mem_of_optimized (F : Function) (fuel fresh : Nat) (BB : List Instruction) (c : Nat)
    (b : Bool) (A' : List Instruction) (I : Instruction) (B' : List Instruction)
    (h : OptimizeFencesAway.loop b (fencedFrom F fuel fresh BB c) = A' ++ I :: B')
    (hf : I.isFence = false) : I ∈ BB := by
  obtain ⟨A, B, hL, -, -⟩ := OptimizeFencesAway.loop_split _ b A' I B' h
  obtain ⟨pre, post, c1, c2, hBB, -⟩ := fencedFrom_split F fuel fresh BB c A I B hL hf
  rw [hBB]; simp

/-- C17. For a terminated block whose access pointers have provenance roots, given enough
fuel `PlaceFencesInBlock` returns a block, and in what `OptimizeFencesAway` makes of it every
load whose provenance root is not an alloca is directly followed by a sequentially-consistent
fence, and every store whose provenance root is not an alloca comes after a
sequentially-consistent fence with, between that fence and the store, only instructions that
are neither fences nor may read or write memory. -/
theorem OptimizeFencesAway_keeps_placement (F : Function) (fresh : Nat) (BB : BasicBlock)
    (hterm : Terminated BB)
    (hroot : ∀ I ∈ BB, ∀ p ip, accessOf I = some (p, ip) → ∃ r, RootOf F p r) :
    ∃ fuel0, ∀ fuel, fuel0 ≤ fuel →
      ∃ BB1 n, PlaceFencesInBlock F fuel fresh BB = some (BB1, n) ∧
        (∀ A I B p, OptimizeFencesAway BB1 = A ++ I :: B → I.kind = .load p →
          NeedsFence F I → ∃ f B2, B = f :: B2 ∧ f.isSeqCstFence = true) ∧
        (∀ A I B v p, OptimizeFencesAway BB1 = A ++ I :: B → I.kind = .store v p →
          NeedsFence F I →
          ∃ A1 g mid, A = A1 ++ g :: mid ∧ g.isSeqCstFence = true ∧
            ∀ x ∈ mid, x.isTransparent = true) := by
  obtain ⟨fuel0, h0⟩ := exists_fuel F BB hroot
  refine ⟨fuel0, fun fuel hf => ?_⟩
  have hfuel := h0 fuel hf
  refine ⟨fencedFrom F fuel fresh BB 0, 0 + BB.countP (needsFence F fuel), ?_, ?_, ?_⟩
  · exact PlaceFencesInBlock.loop_eq F fuel fresh BB 0 hfuel hterm.no_fenced_load
  · intro A I B p h hk hn
    have hI : I ∈ BB :=
      mem_of_optimized F fuel fresh BB 0 false A I B h (isTransparent_false_of_load hk).2.2
    exact fenced_load_kept F fuel fresh BB 0 false A I B p h hk
      ((needsFence_iff (hfuel I hI)).2 hn)
  · intro A I B v p h hk hn
    have hI : I ∈ BB :=
      mem_of_optimized F fuel fresh BB 0 false A I B h (isTransparent_false_of_store hk).2.2
    exact fenced_store_kept F fuel fresh BB 0 A I B v p h hk
      ((needsFence_iff (hfuel I hI)).2 hn)

/-- Witness for C17 on `sampleFenceBlock`. -/
theorem OptimizeFencesAway_keeps_placement_witness :
    Terminated sampleFenceBlock ∧
    (∀ I ∈ sampleFenceBlock, ∀ p ip, accessOf I = some (p, ip) →
      ∃ r, RootOf sampleFenceFn p r) ∧
    ∃ fuel0, ∀ fuel, fuel0 ≤ fuel →
      ∃ BB1 n, PlaceFencesInBlock sampleFenceFn fuel 9 sampleFenceBlock = some (BB1, n) ∧
        (∀ A I B p, OptimizeFencesAway BB1 = A ++ I :: B → I.kind = .load p →
          NeedsFence sampleFenceFn I → ∃ f B2, B = f :: B2 ∧ f.isSeqCstFence = true) ∧
        (∀ A I B v p, OptimizeFencesAway BB1 = A ++ I :: B → I.kind = .store v p →
          NeedsFence sampleFenceFn I →
          ∃ A1 g mid, A = A1 ++ g :: mid ∧ g.isSeqCstFence = true ∧
            ∀ x ∈ mid, x.isTransparent = true) :=
  ⟨sampleFenceBlock_terminated, sampleFenceBlock_roots,
    OptimizeFencesAway_keeps_placement sampleFenceFn 9 sampleFenceBlock
      sampleFenceBlock_terminated sampleFenceBlock_roots⟩


/-! ## The fence pass run twice -/

theorem isSeqCstFence_congr {I J : Instruction} (h : I.content = J.content) :
    I.isSeqCstFence = J.isSeqCstFence := by
  have hk : I.kind = J.kind := congrArg Prod.snd h
  simp [Instruction.isSeqCstFence, hk]

theorem isTransparent_congr {I J : Instruction} (h : I.content = J.content) :
    I.isTransparent = J.isTransparent := by
  have hk : I.kind = J.kind := congrArg Prod.snd h
  simp [Instruction.isTransparent, Instruction.isFence, Instruction.mayReadOrWriteMemory, hk]

theorem OptimizeFencesAway.loop_congr (L : List Instruction) :
    ∀ (L' : List Instruction) (b : Bool), SameStructure L L' →
      SameStructure (OptimizeFencesAway.loop b L) (OptimizeFencesAway.loop b L') := by
  unfold SameStructure
  induction L with
  | nil =>
    intro L' b h
    cases L' with
    | nil => rfl
    | cons Y r => simp at h
  | cons X rest ih =>
    intro L' b h
    cases L' with
    | nil => simp at h
    | cons Y r =>
      simp only [List.map_cons, List.cons.injEq] at h
      obtain ⟨hXY, hr⟩ := h
      have hs := isSeqCstFence_congr hXY
      have ht := isTransparent_congr hXY
      rcases X.trichotomy with h1 | h1 | ⟨h1, h2⟩
      · rw [loop_seqCst _ _ _ h1, loop_seqCst _ _ _ (hs ▸ h1)]
        cases b with
        | true => simpa using ih r true hr
        | false => simpa [hXY] using ih r true hr
      · rw [loop_transparent _ _ _ h1, loop_transparent _ _ _ (ht ▸ h1)]
        simpa [hXY] using ih r b hr
      · rw [loop_barrier _ _ _ h1 h2, loop_barrier _ _ _ (ht ▸ h1) (hs ▸ h2)]
        simpa [hXY] using ih r false hr

theorem fencedAccess_of_not {F : Function} {fuel : Nat} {I : Instruction}
    (hn : needsFence F fuel I = false) (k : Nat) : fencedAccess F fuel k I = [I] := by
  simp [fencedAccess, hn]

theorem fencedAccess_load {F : Function} {fuel : Nat} {I : Instruction} {p : Value}
    (hn : needsFence F fuel I = true) (hk : I.kind = .load p) (k : Nat) :
    fencedAccess F fuel k I = [I, seqCstFence k] := by
  simp [fencedAccess, hn, hk]

theorem fencedAccess_store {F : Function} {fuel : Nat} {I : Instruction} {v p : Value}
    (hn : needsFence F fuel I = true) (hk : I.kind = .store v p) (k : Nat) :
    fencedAccess F fuel k I = [seqCstFence k, I] := by
  simp [fencedAccess, hn, hk]

theorem fencedFrom_cons_fence (F : Function) (fuel fresh k c : Nat) (X : List Instruction) :
    fencedFrom F fuel fresh (seqCstFence k :: X) c =
      seqCstFence k :: fencedFrom F fuel fresh X c := by
  rw [fencedFrom, fencedAccess_of_not (needsFence_seqCstFence F fuel k)]
  simp [needsFence_seqCstFence]

theorem content_seqCstFence (k k' : Nat) :
    (seqCstFence k).content = (seqCstFence k').content := rfl

/-- Placing fences in a placed block and optimising gives the structure of the optimised
placed block: the fences placed the second time stand next to those placed the first
time. -/
theorem OptimizeFencesAway.loop_fencedFrom_fencedFrom (F : Function) (fuel fresh fresh2 : Nat)
    (L : List Instruction) :
    ∀ (b : Bool) (c c2 : Nat),
      SameStructure
        (OptimizeFencesAway.loop b
          (fencedFrom F fuel fresh2 (fencedFrom F fuel fresh L c) c2))
        (OptimizeFencesAway.loop b (fencedFrom F fuel fresh L c)) := by
  unfold SameStructure
  induction L with
  | nil => intro b c c2; simp [fencedFrom, OptimizeFencesAway.loop]
  | cons X rest ih =>
    intro b c c2
    rw [fencedFrom]
    rcases fencedAccess_cases F fuel (fresh + c) X with ⟨hn, hfa⟩ | ⟨hn, ⟨p, hk⟩, hfa⟩ |
      ⟨hn, ⟨v, p, hk⟩, hfa⟩
    · rw [hfa, List.singleton_append, fencedFrom, fencedAccess_of_not hn,
        List.singleton_append]
      rcases X.trichotomy with h1 | h1 | ⟨h1, h2⟩
      · rw [loop_seqCst _ _ _ h1, loop_seqCst _ _ _ h1]
        cases b with
        | true => simpa using ih true _ _
        | false => simpa using ih true _ _
      · rw [loop_transparent _ _ _ h1, loop_transparent _ _ _ h1]
        simpa using ih b _ _
      · rw [loop_barrier _ _ _ h1 h2, loop_barrier _ _ _ h1 h2]
        simpa using ih false _ _
    · obtain ⟨ht, hs, -⟩ := isTransparent_false_of_load hk
      have hX := fun b rest => loop_barrier b X rest ht hs
      have hF := fun b k rest => loop_seqCst b (seqCstFence k) rest (isSeqCstFence_seqCstFence k)
      rw [hfa]
      simp only [List.cons_append, List.nil_append]
      rw [fencedFrom, fencedAccess_load hn hk, fencedFrom_cons_fence]
      simp only [List.cons_append, List.nil_append, hX, hF, Bool.false_eq_true, if_false,
        if_true, List.map_cons, List.cons.injEq, true_and,
        content_seqCstFence (fresh2 + c2) (fresh + c)]
      exact ih true _ _
    · obtain ⟨ht, hs, -⟩ := isTransparent_false_of_store hk
      have hX := fun b rest => loop_barrier b X rest ht hs
      have hF := fun b k rest => loop_seqCst b (seqCstFence k) rest (isSeqCstFence_seqCstFence k)
      rw [hfa]
      simp only [List.cons_append, List.nil_append]
      rw [fencedFrom_cons_fence, fencedFrom, fencedAccess_store hn hk]
      cases b with
      | true =>
        simp only [List.cons_append, List.nil_append, hX, hF, Bool.false_eq_true, if_false,
          if_true, List.map_cons, List.cons.injEq, true_and]
        exact ih false _ _
      | false =>
        simp only [List.cons_append, List.nil_append, hX, hF, Bool.false_eq_true, if_false,
          if_true, List.map_cons, List.cons.injEq, true_and]
        exact ih false _ _

theorem needsFence_barrier {F : Function} {fuel : Nat} {I : Instruction}
    (h : needsFence F fuel I = true) : I.isTransparent = false ∧ I.isSeqCstFence = false := by
  rcases needsFence_accessOf h with ⟨p, hk⟩ | ⟨v, p, hk⟩
  · exact ⟨(isTransparent_false_of_load hk).1, (isTransparent_false_of_load hk).2.1⟩
  · exact ⟨(isTransparent_false_of_store hk).1, (isTransparent_false_of_store hk).2.1⟩

theorem needsFence_false_of_seqCst {F : Function} {fuel : Nat} {I : Instruction}
    (h : I.isSeqCstFence = true) : needsFence F fuel I = false := by
  cases hn : needsFence F fuel I with
  | false => rfl
  | true => rw [(needsFence_barrier hn).2] at h; cases h

theorem needsFence_false_of_transparent {F : Function} {fuel : Nat} {I : Instruction}
    (h : I.isTransparent = true) : needsFence F fuel I = false := by
  cases hn : needsFence F fuel I with
  | false => rfl
  | true => rw [(needsFence_barrier hn).1] at h; cases h

/-- Placing fences in an optimised block and optimising gives the structure of placing
fences in the block itself and optimising: a fence the first optimisation erased would be
erased by the second. -/
theorem OptimizeFencesAway.loop_fencedFrom_loop (F : Function) (fuel fresh : Nat)
    (L : List Instruction) :
    ∀ (b b' : Bool) (c c' : Nat), (b' = true → b = true) →
      SameStructure
        (OptimizeFencesAway.loop b (fencedFrom F fuel fresh (OptimizeFencesAway.loop b' L) c))
        (OptimizeFencesAway.loop b (fencedFrom F fuel fresh L c')) := by
  unfold SameStructure
  induction L with
  | nil => intro b b' c c' _; simp [fencedFrom, OptimizeFencesAway.loop]
  | cons X rest ih =>
    intro b b' c c' hb
    have hF := fun b k rest => loop_seqCst b (seqCstFence k) rest (isSeqCstFence_seqCstFence k)
    rcases X.trichotomy with h1 | h1 | ⟨h1, h2⟩
    · have hn : needsFence F fuel X = false := needsFence_false_of_seqCst h1
      have hX := fun b rest => loop_seqCst b X rest h1
      cases b' with
      | true =>
        have hbt : b = true := hb rfl
        subst hbt
        simp only [hX, if_true, fencedFrom, fencedAccess_of_not hn, List.singleton_append]
        exact ih true true _ _ (fun _ => rfl)
      | false =>
        cases b with
        | true =>
          simp only [hX, if_true, Bool.false_eq_true, if_false, fencedFrom,
            fencedAccess_of_not hn, List.singleton_append]
          exact ih true true _ _ (fun _ => rfl)
        | false =>
          simp only [hX, Bool.false_eq_true, if_false, fencedFrom,
            fencedAccess_of_not hn, List.singleton_append, List.map_cons, List.cons.injEq,
            true_and]
          exact ih true true _ _ (fun _ => rfl)
    · have hn : needsFence F fuel X = false := needsFence_false_of_transparent h1
      have hX := fun b rest => loop_transparent b X rest h1
      simp only [hX, fencedFrom, fencedAccess_of_not hn, List.singleton_append, List.map_cons,
        List.cons.injEq, true_and]
      exact ih b b' _ _ hb
    · have hX := fun b rest => loop_barrier b X rest h1 h2
      rcases fencedAccess_cases F fuel 0 X with ⟨hn, -⟩ | ⟨hn, ⟨p, hk⟩, -⟩ |
        ⟨hn, ⟨v, p, hk⟩, -⟩
      · simp only [hX, fencedFrom, fencedAccess_of_not hn, List.singleton_append, List.map_cons,
          List.cons.injEq, true_and]
        exact ih false false _ _ (fun h => h)
      · simp only [hX, hF, fencedFrom, fencedAccess_load hn hk, List.cons_append,
          List.nil_append, Bool.false_eq_true, if_false, List.map_cons, List.cons.injEq,
          true_and, content_seqCstFence (fresh + c) (fresh + c')]
        exact ih true false _ _ (fun h => by cases h)
      · cases b with
        | true =>
          simp only [hX, hF, fencedFrom, fencedAccess_store hn hk, List.cons_append,
            List.nil_append, if_true, List.map_cons, List.cons.injEq, true_and]
          exact ih false false _ _ (fun h => h)
        | false =>
          simp only [hX, hF, fencedFrom, fencedAccess_store hn hk, List.cons_append,
            List.nil_append, Bool.false_eq_true, if_false, List.map_cons, List.cons.injEq,
            true_and, content_seqCstFence (fresh + c) (fresh + c')]
          exact ih false false _ _ (fun h => h)

/-! ### The walk in a function that differs in fences only -/

theorem SameButFences.find_iff {F F' : Function} (h : SameButFences F F') {id : Nat}
    {I : Instruction} (hI : I.isFence = false) :
    F'.find id = some I ↔ F.find id = some I := by
  constructor
  · intro hf
    obtain ⟨hm, rfl⟩ := Function.mem_insts_of_find hf
    exact Function.find_of_mem h.1 ((h.2.2 I hI).1 hm)
  · intro hf
    obtain ⟨hm, rfl⟩ := Function.mem_insts_of_find hf
    exact Function.find_of_mem h.2.1 ((h.2.2 I hI).2 hm)

theorem asGEP_eq_some {F : Function} {v p : Value} :
    asGEP F v = some p ↔
      ∃ id I idx, v = .inst id ∧ F.find id = some I ∧ I.kind = .gep p idx := by
  cases v with
  | inst id =>
    simp only [asGEP, Value.inst.injEq, exists_and_left, exists_eq_left']
    cases hf : F.find id with
    | none => simp
    | some I => cases hk : I.kind <;> simp [hk]
  | arg i t => simp [asGEP]
  | const c => simp [asGEP]

theorem asCast_eq_some {F : Function} {v s : Value} :
    asCast F v = some s ↔
      ∃ id I op, v = .inst id ∧ F.find id = some I ∧ I.kind = .cast op s := by
  cases v with
  | inst id =>
    simp only [asCast, Value.inst.injEq, exists_and_left, exists_eq_left']
    cases hf : F.find id with
    | none => simp
    | some I => cases hk : I.kind <;> simp [hk]
  | arg i t => simp [asCast]
  | const c => simp [asCast]

theorem isAlloca_eq_true {F : Function} {v : Value} :
    isAlloca F v = true ↔
      ∃ id I n, v = .inst id ∧ F.find id = some I ∧ I.kind = .alloca n := by
  cases v with
  | inst id =>
    simp only [isAlloca, Value.inst.injEq, exists_and_left, exists_eq_left']
    cases hf : F.find id with
    | none => simp
    | some I => cases hk : I.kind <;> simp [hk]
  | arg i t => simp [isAlloca]
  | const c => simp [isAlloca]

theorem isFence_false_of_kind {I : Instruction}
    (h : ∀ o, I.kind ≠ .fence o) : I.isFence = false := by
  unfold Instruction.isFence
  cases hk : I.kind <;> simp
  exact h _ hk

theorem SameButFences.asGEP_eq {F F' : Function} (h : SameButFences F F') (v : Value) :
    asGEP F' v = asGEP F v := by
  apply Option.ext
  intro p
  simp only [Option.mem_def, asGEP_eq_some]
  constructor
  · rintro ⟨id, I, idx, rfl, hf, hk⟩
    exact ⟨id, I, idx, rfl,
      (h.find_iff (isFence_false_of_kind (fun o e => by rw [hk] at e; cases e))).1 hf, hk⟩
  · rintro ⟨id, I, idx, rfl, hf, hk⟩
    exact ⟨id, I, idx, rfl,
      (h.find_iff (isFence_false_of_kind (fun o e => by rw [hk] at e; cases e))).2 hf, hk⟩

theorem SameButFences.asCast_eq {F F' : Function} (h : SameButFences F F') (v : Value) :
    asCast F' v = asCast F v := by
  apply Option.ext
  intro p
  simp only [Option.mem_def, asCast_eq_some]
  constructor
  · rintro ⟨id, I, op, rfl, hf, hk⟩
    exact ⟨id, I, op, rfl,
      (h.find_iff (isFence_false_of_kind (fun o e => by rw [hk] at e; cases e))).1 hf, hk⟩
  · rintro ⟨id, I, op, rfl, hf, hk⟩
    exact ⟨id, I, op, rfl,
      (h.find_iff (isFence_false_of_kind (fun o e => by rw [hk] at e; cases e))).2 hf, hk⟩

theorem SameButFences.isAlloca_eq {F F' : Function} (h : SameButFences F F') (v : Value) :
    isAlloca F' v = isAlloca F v := by
  rw [Bool.eq_iff_iff]
  simp only [isAlloca_eq_true]
  constructor
  · rintro ⟨id, I, n, rfl, hf, hk⟩
    exact ⟨id, I, n, rfl,
      (h.find_iff (isFence_false_of_kind (fun o e => by rw [hk] at e; cases e))).1 hf, hk⟩
  · rintro ⟨id, I, n, rfl, hf, hk⟩
    exact ⟨id, I, n, rfl,
      (h.find_iff (isFence_false_of_kind (fun o e => by rw [hk] at e; cases e))).2 hf, hk⟩

theorem SameButFences.provenanceRoot_eq {F F' : Function} (h : SameButFences F F') :
    ∀ (fuel : Nat) (v : Value), provenanceRoot F' fuel v = provenanceRoot F fuel v := by
  intro fuel
  induction fuel with
  | zero => intro v; rfl
  | succ n ih =>
    intro v
    have hs : provenanceStep F' v = provenanceStep F v := by
      simp only [provenanceStep, h.asGEP_eq, h.asCast_eq]
    simp only [provenanceRoot, h.asGEP_eq, h.asCast_eq, hs, ih]

theorem SameButFences.needsFence_eq {F F' : Function} (h : SameButFences F F') (fuel : Nat)
    (I : Instruction) : needsFence F' fuel I = needsFence F fuel I := by
  simp only [needsFence, h.provenanceRoot_eq, h.isAlloca_eq]

theorem SameButFences.fencedFrom_eq {F F' : Function} (h : SameButFences F F')
    (fuel fresh : Nat) :
    ∀ (L : List Instruction) (c : Nat),
      fencedFrom F' fuel fresh L c = fencedFrom F fuel fresh L c := by
  intro L
  induction L with
  | nil => intro c; rfl
  | cons X rest ih =>
    intro c
    simp only [fencedFrom, fencedAccess, h.needsFence_eq, ih]

theorem mem_fencedFrom (F : Function) (fuel fresh : Nat) :
    ∀ (L : List Instruction) (c : Nat) (I : Instruction),
      I ∈ fencedFrom F fuel fresh L c → I ∈ L ∨ ∃ k, I = seqCstFence k := by
  intro L
  induction L with
  | nil => intro c I h; simp [fencedFrom] at h
  | cons X rest ih =>
    intro c I h
    rw [fencedFrom, List.mem_append] at h
    rcases h with h | h
    · rcases fencedAccess_cases F fuel (fresh + c) X with ⟨-, hfa⟩ | ⟨-, -, hfa⟩ | ⟨-, -, hfa⟩ <;>
        rw [hfa] at h <;> simp at h
      · exact Or.inl (by simp [h])
      · rcases h with h | h
        · exact Or.inl (by simp [h])
        · exact Or.inr ⟨_, h⟩
      · rcases h with h | h
        · exact Or.inr ⟨_, h⟩
        · exact Or.inl (by simp [h])
    · rcases ih _ I h with h | h
      · exact Or.inl (List.mem_cons_of_mem _ h)
      · exact Or.inr h

/-- C18. For a terminated block `BB` whose access pointers have provenance roots, given
enough fuel: `PlaceFencesInBlock` returns a block `BB1`; on `R = OptimizeFencesAway BB1`,
in a function `F'` that differs from the function of the first run in fences only,
`PlaceFencesInBlock` returns a block `BB2`; and `OptimizeFencesAway BB2` has the structure of
`R`: the same sequence of result types, opcodes, orderings and operands. -/
theorem FencesPass_idempotent_structure (F F' : Function) (fresh fresh2 : Nat)
    (BB : BasicBlock) (hterm : Terminated BB)
    (hroot : ∀ I ∈ BB, ∀ p ip, accessOf I = some (p, ip) → ∃ r, RootOf F p r)
    (hsame : SameButFences F F') :
    ∃ fuel0, ∀ fuel, fuel0 ≤ fuel →
      ∃ BB1 n, PlaceFencesInBlock F fuel fresh BB = some (BB1, n) ∧
        ∃ BB2 m, PlaceFencesInBlock F' fuel fresh2 (OptimizeFencesAway BB1) = some (BB2, m) ∧
          SameStructure (OptimizeFencesAway BB2) (OptimizeFencesAway BB1) := by
  obtain ⟨fuel0, h0⟩ := exists_fuel F BB hroot
  refine ⟨fuel0, fun fuel hf => ?_⟩
  have hfuel := h0 fuel hf
  refine ⟨fencedFrom F fuel fresh BB 0, 0 + BB.countP (needsFence F fuel),
    PlaceFencesInBlock.loop_eq F fuel fresh BB 0 hfuel hterm.no_fenced_load, ?_⟩
  have hfuel2 : ∀ I ∈ OptimizeFencesAway (fencedFrom F fuel fresh BB 0), ∀ p ip,
      accessOf I = some (p, ip) → (provenanceRoot F' fuel p).isSome := by
    intro I hI p ip ha
    rw [hsame.provenanceRoot_eq]
    have hI1 := (OptimizeFencesAway.loop_sublist _ false).subset hI
    rcases mem_fencedFrom F fuel fresh BB 0 I hI1 with hI2 | ⟨k, rfl⟩
    · exact hfuel I hI2 p ip ha
    · simp [accessOf, seqCstFence] at ha
  have hlast2 : ∀ I, (OptimizeFencesAway (fencedFrom F fuel fresh BB 0)).getLast? = some I →
      ∀ p, I.kind = .load p → needsFence F' fuel I = false := by
    intro I hI p hk
    rw [hsame.needsFence_eq]
    cases hn : needsFence F fuel I with
    | false => rfl
    | true =>
      obtain ⟨A, hA⟩ := List.getLast?_eq_some_iff.1 hI
      obtain ⟨f, B2, hB, -⟩ :=
        fenced_load_kept F fuel fresh BB 0 false A I [] p hA hk hn
      cases hB
  refine ⟨_, _, PlaceFencesInBlock.loop_eq F' fuel fresh2 _ 0 hfuel2 hlast2, ?_⟩
  rw [hsame.fencedFrom_eq]
  unfold SameStructure OptimizeFencesAway
  have h1 := OptimizeFencesAway.loop_fencedFrom_loop F fuel fresh2
    (fencedFrom F fuel fresh BB 0) false false 0 0 (fun h => h)
  have h2 := OptimizeFencesAway.loop_fencedFrom_fencedFrom F fuel fresh fresh2 BB false 0 0
  unfold SameStructure at h1 h2
  rw [h1, h2]

theorem roots_of_walks {F : Function} {BB : List Instruction} (n : Nat)
    (h : ∀ I ∈ BB, ((accessOf I).map (fun a => (provenanceRoot F n a.1).isSome)).getD true = true) :
    ∀ I ∈ BB, ∀ p ip, accessOf I = some (p, ip) → ∃ r, RootOf F p r := by
  intro I hI p ip ha
  have := h I hI
  rw [ha] at this
  exact rootOf_of_isSome (n := n) (by simpa using this)

theorem sampleMixedBlock_terminated : Terminated sampleMixedBlock := by
  intro I h
  simp [sampleMixedBlock] at h
  subst h
  rfl

theorem sampleMixed_sameButFences : SameButFences sampleMixedFn sampleMixedAfter := by
  refine ⟨by decide, by decide, fun I hI => ⟨fun h => ?_, fun h => ?_⟩⟩
  · have d : ∀ J ∈ sampleMixedAfter.insts, J.isFence = false → J ∈ sampleMixedFn.insts := by
      decide
    exact d I h hI
  · have d : ∀ J ∈ sampleMixedFn.insts, J.isFence = false → J ∈ sampleMixedAfter.insts := by
      decide
    exact d I h hI

/-- Witness for C18: `sampleMixedBlock` in `sampleMixedFn`, the second run in the function
the first run leaves. -/
theorem FencesPass_idempotent_structure_witness :
    FencesPass.runOnFunction true 1 sampleMixedFn = some sampleMixedAfter ∧
    Terminated sampleMixedBlock ∧
    (∀ I ∈ sampleMixedBlock, ∀ p ip, accessOf I = some (p, ip) →
      ∃ r, RootOf sampleMixedFn p r) ∧
    SameButFences sampleMixedFn sampleMixedAfter ∧
    ∃ fuel0, ∀ fuel, fuel0 ≤ fuel →
      ∃ BB1 n, PlaceFencesInBlock sampleMixedFn fuel 21 sampleMixedBlock = some (BB1, n) ∧
        ∃ BB2 m, PlaceFencesInBlock sampleMixedAfter fuel 26 (OptimizeFencesAway BB1) =
            some (BB2, m) ∧
          SameStructure (OptimizeFencesAway BB2) (OptimizeFencesAway BB1) :=
  ⟨by decide, sampleMixedBlock_terminated, roots_of_walks 1 (by decide),
    sampleMixed_sameButFences,
    FencesPass_idempotent_structure sampleMixedFn sampleMixedAfter 21 26 sampleMixedBlock
      sampleMixedBlock_terminated (roots_of_walks 1 (by decide)) sampleMixed_sameButFences⟩


/-! ## One rewrite as an update of instruction lists -/

theorem Function.exists_split {F : Function} {I : Instruction} (h : I ∈ F.insts) :
    ∃ Bs1 pre post Bs2, F.blocks = Bs1 ++ (pre ++ I :: post) :: Bs2 := by
  simp only [Function.insts, List.mem_flatten] at h
  obtain ⟨BB, hBB, hI⟩ := h
  obtain ⟨Bs1, Bs2, hB⟩ := List.append_of_mem hBB
  obtain ⟨pre, post, hp⟩ := List.append_of_mem hI
  exact ⟨Bs1, pre, post, Bs2, by rw [hB, hp]⟩

theorem insertAllL_of_not_mem (ip : Nat) (news : List Instruction) :
    ∀ (L : List Instruction), ip ∉ L.map (fun I => I.id) → insertAllL ip news L = L := by
  intro L
  induction L with
  | nil => intro _; rfl
  | cons X rest ih =>
    intro h
    simp only [List.map_cons, List.mem_cons, not_or] at h
    have := ih h.2
    simp only [insertAllL, List.flatMap_cons] at this ⊢
    rw [this, if_neg (Ne.symm h.1)]
    rfl

theorem insertAllL_append (ip : Nat) (news : List Instruction) (A B : List Instruction) :
    insertAllL ip news (A ++ B) = insertAllL ip news A ++ insertAllL ip news B := by
  simp [insertAllL, List.flatMap_append]

theorem eraseAllL_append (es : List Nat) (A B : List Instruction) :
    eraseAllL es (A ++ B) = eraseAllL es A ++ eraseAllL es B := by
  simp [eraseAllL]

theorem stepL_append (ip : Nat) (news : List Instruction) (final : Value) (es : List Nat)
    (A B : List Instruction) :
    stepL ip news final es (A ++ B) = stepL ip news final es A ++ stepL ip news final es B := by
  simp [stepL, insertAllL_append, rauwL_append, eraseAllL_append]

theorem stepL_flatten (ip : Nat) (news : List Instruction) (final : Value) (es : List Nat) :
    ∀ (Bs : List (List Instruction)),
      (Bs.map (stepL ip news final es)).flatten = stepL ip news final es Bs.flatten := by
  intro Bs
  induction Bs with
  | nil => rfl
  | cons B rest ih => rw [List.map_cons, List.flatten_cons, List.flatten_cons, stepL_append, ih]

theorem insertAllL_split {X : Instruction} (news : List Instruction)
    {pre post : List Instruction}
    (hpre : X.id ∉ pre.map (fun I => I.id)) (hpost : X.id ∉ post.map (fun I => I.id)) :
    insertAllL X.id news (pre ++ X :: post) = (pre ++ news) ++ X :: post := by
  rw [insertAllL_append, insertAllL_of_not_mem _ _ _ hpre]
  have : insertAllL X.id news (X :: post) = news ++ X :: insertAllL X.id news post := by
    simp [insertAllL]
  rw [this, insertAllL_of_not_mem _ _ _ hpost, List.append_assoc]

theorem map_insertAllL_of_not_mem {ip : Nat} {news : List Instruction} :
    ∀ (Bs : List BasicBlock), ip ∉ Bs.flatten.map (fun I => I.id) →
      Bs.map (insertAllL ip news) = Bs := by
  intro Bs
  induction Bs with
  | nil => intro _; rfl
  | cons B rest ih =>
    intro h
    simp only [List.flatten_cons, List.map_append, List.mem_append, not_or] at h
    rw [List.map_cons, insertAllL_of_not_mem _ _ _ h.1, ih h.2]

theorem Function.insertAll_split {Bs1 Bs2 : List BasicBlock} {pre post : List Instruction}
    {X : Instruction} (news : List Instruction)
    (hnd : (Function.mk (Bs1 ++ (pre ++ X :: post) :: Bs2)).ids.Nodup) :
    (Bs1 ++ (pre ++ X :: post) :: Bs2).map (insertAllL X.id news) =
      Bs1 ++ ((pre ++ news) ++ X :: post) :: Bs2 := by
  rw [Function.ids_mk_split] at hnd
  have h1 := List.nodup_append.1 hnd
  have h2 := List.nodup_append.1 h1.2.1
  have h3 := List.nodup_cons.1 h2.2.1
  have hB1 : X.id ∉ Bs1.flatten.map (fun I => I.id) :=
    fun hm => h1.2.2 hm (List.mem_append_right _ (List.mem_cons_self _ _))
  have hpre : X.id ∉ pre.map (fun I => I.id) :=
    fun hm => h2.2.2 hm (List.mem_cons_self _ _)
  have hpost : X.id ∉ post.map (fun I => I.id) :=
    fun hm => h3.1 (List.mem_append_left _ hm)
  have hB2 : X.id ∉ Bs2.flatten.map (fun I => I.id) :=
    fun hm => h3.1 (List.mem_append_right _ hm)
  simp only [List.map_append, List.map_cons,
    map_insertAllL_of_not_mem Bs1 hB1, map_insertAllL_of_not_mem Bs2 hB2,
    insertAllL_split news hpre hpost]

theorem eraseL_eq_eraseAllL (e : Nat) (L : List Instruction) : eraseL e L = eraseAllL [e] L := by
  simp only [eraseL, eraseAllL]
  congr 1
  funext X
  simp [bne, beq_iff_eq]
  by_cases h : X.id = e <;> simp [h]

theorem eraseAllL_eraseAllL (es1 es2 : List Nat) (L : List Instruction) :
    eraseAllL es2 (eraseAllL es1 L) = eraseAllL (es1 ++ es2) L := by
  simp only [eraseAllL, List.filter_filter]
  congr 1
  funext X
  simp only [List.contains_eq_any_beq, List.any_append, Bool.not_or]
  exact Bool.and_comm _ _

theorem eraseAllL_nil (L : List Instruction) : eraseAllL [] L = L := by
  simp [eraseAllL]

/-- Redirecting the uses of `ip` and erasing it, after the insertion of `news` before it. -/
theorem Function.rauw_erase_eq_stepL (Bs : List BasicBlock) (ip : Nat)
    (news : List Instruction) (final : Value) :
    ((Function.mk (Bs.map (insertAllL ip news))).replaceAllUsesWith ip final).eraseFromParent ip =
      Function.mk (Bs.map (stepL ip news final [])) := by
  simp only [Function.replaceAllUsesWith, Function.eraseFromParent, List.map_map]
  congr 1
  apply List.map_congr_left
  intro L _
  simp only [Function.comp, stepL, eraseL_eq_eraseAllL]

theorem eraseIfUnused_stepL (Bs : List BasicBlock) (ip : Nat) (news : List Instruction)
    (final : Value) (es : List Nat) (e : Nat) :
    (eraseIfUnused (Function.mk (Bs.map (stepL ip news final es))) e =
        Function.mk (Bs.map (stepL ip news final (es ++ [e]))) ∧
      (Function.mk (Bs.map (stepL ip news final es))).numUses e = 0) ∨
    eraseIfUnused (Function.mk (Bs.map (stepL ip news final es))) e =
      Function.mk (Bs.map (stepL ip news final es)) := by
  unfold eraseIfUnused
  split
  · rename_i h
    left
    refine ⟨?_, h⟩
    simp only [Function.eraseFromParent, List.map_map]
    congr 1
    apply List.map_congr_left
    intro L _
    simp only [Function.comp, stepL, eraseL_eq_eraseAllL, eraseAllL_eraseAllL,
      List.cons_append]
  · right; rfl

theorem Shape.C_ptr_ne {F : Function} {O : List Instruction} (hw : Ordered F O)
    {I P2I : Instruction} {P : Value} (hI : I ∈ F.insts)
    (hm : matchShape F I = some (.C P2I P)) : P ≠ .inst I.id := by
  obtain ⟨V, VI, hk, hV, hS⟩ := matchShape_eq_some hm
  rcases hS with ⟨_, _, _, _, _, h, -⟩ | ⟨_, _, h, -⟩ | ⟨Ptr, h, hVk⟩
  · cases h
  · cases h
  · simp only [Shape.C.injEq] at h
    obtain ⟨rfl, rfl⟩ := h
    have hVop : V ∈ I.kind.operands := by simp [hk, InstKind.operands]
    obtain ⟨hVI, hVIpos⟩ := hw.asInstruction_pos hI (isPHI_of_cast hk) hVop hV
    intro e
    subst e
    have hPop : Value.inst I.id ∈ P2I.kind.operands := by simp [hVk, InstKind.operands]
    have := (hw.2.2.2 P2I (hw.mem_iff.2 hVI) I.id (mem_opIds.2 hPop)).2 (isPHI_of_cast hVk)
    omega

/-- One execution of the loop body on an instruction that matches a shape, as an update of
every block: the instructions of the shape go before `I`, the uses of `I` go to the value of
the shape, `I` is erased, and so are some of the orphans of the shape. -/
theorem PeepholeOptimizationPass.visit_stepL {F : Function} {O : List Instruction}
    (hw : Ordered F O) {I : Instruction} (hI : I ∈ F.insts) {S : Shape}
    (hm : matchShape F I = some S) :
    ∃ es, es ⊆ S.orphans ∧
      PeepholeOptimizationPass.visit F I =
        some (Function.mk (F.blocks.map
          (stepL I.id (S.inserted F I).1 (S.inserted F I).2 es))) := by
  obtain ⟨Bs1, pre, post, Bs2, hsplit⟩ := Function.exists_split hI
  obtain ⟨blocks⟩ := F
  simp only at hsplit
  subst hsplit
  have hnd := hw.nodup
  cases S with
  | A BinOp P2I Ptr Idx =>
    rw [visit_shapeA_eq hnd hm, ← Function.insertAll_split _ hnd,
      Function.rauw_erase_eq_stepL]
    simp only [Shape.inserted, Shape.orphans]
    rcases eraseIfUnused_stepL (Bs1 ++ (pre ++ I :: post) :: Bs2) I.id
      (shapeAInserted (Function.mk (Bs1 ++ (pre ++ I :: post) :: Bs2)).freshId
        ((Function.mk (Bs1 ++ (pre ++ I :: post) :: Bs2)).typeOf Ptr) I.ty Ptr Idx).1
      (shapeAInserted (Function.mk (Bs1 ++ (pre ++ I :: post) :: Bs2)).freshId
        ((Function.mk (Bs1 ++ (pre ++ I :: post) :: Bs2)).typeOf Ptr) I.ty Ptr Idx).2
      [] BinOp.id with ⟨h1, -⟩ | h1 <;> rw [h1]
    · rcases eraseIfUnused_stepL (Bs1 ++ (pre ++ I :: post) :: Bs2) I.id
        (shapeAInserted (Function.mk (Bs1 ++ (pre ++ I :: post) :: Bs2)).freshId
          ((Function.mk (Bs1 ++ (pre ++ I :: post) :: Bs2)).typeOf Ptr) I.ty Ptr Idx).1
        (shapeAInserted (Function.mk (Bs1 ++ (pre ++ I :: post) :: Bs2)).freshId
          ((Function.mk (Bs1 ++ (pre ++ I :: post) :: Bs2)).typeOf Ptr) I.ty Ptr Idx).2
        ([] ++ [BinOp.id]) P2I.id with ⟨h2, -⟩ | h2 <;> rw [h2]
      · exact ⟨[BinOp.id, P2I.id], by simp, rfl⟩
      · exact ⟨[BinOp.id], by simp, rfl⟩
    · rcases eraseIfUnused_stepL (Bs1 ++ (pre ++ I :: post) :: Bs2) I.id
        (shapeAInserted (Function.mk (Bs1 ++ (pre ++ I :: post) :: Bs2)).freshId
          ((Function.mk (Bs1 ++ (pre ++ I :: post) :: Bs2)).typeOf Ptr) I.ty Ptr Idx).1
        (shapeAInserted (Function.mk (Bs1 ++ (pre ++ I :: post) :: Bs2)).freshId
          ((Function.mk (Bs1 ++ (pre ++ I :: post) :: Bs2)).typeOf Ptr) I.ty Ptr Idx).2
        [] P2I.id with ⟨h2, -⟩ | h2 <;> rw [h2]
      · exact ⟨[P2I.id], by simp, rfl⟩
      · exact ⟨[], by simp, rfl⟩
  | B BinOp Arg Idx =>
    rw [visit_shapeB_eq hnd hm, ← Function.insertAll_split _ hnd,
      Function.rauw_erase_eq_stepL]
    simp only [Shape.inserted, Shape.orphans]
    rcases eraseIfUnused_stepL (Bs1 ++ (pre ++ I :: post) :: Bs2) I.id
      (shapeBInserted (Function.mk (Bs1 ++ (pre ++ I :: post) :: Bs2)).freshId
        I.ty Arg Idx).1
      (shapeBInserted (Function.mk (Bs1 ++ (pre ++ I :: post) :: Bs2)).freshId
        I.ty Arg Idx).2
      [] BinOp.id with ⟨h1, -⟩ | h1 <;> rw [h1]
    · exact ⟨[BinOp.id], by simp, rfl⟩
    · exact ⟨[], by simp, rfl⟩
  | C P2I Ptr =>
    rw [visit_shapeC_eq hnd hm (Shape.C_ptr_ne hw hI hm), ← Function.insertAll_split _ hnd,
      Function.rauw_erase_eq_stepL]
    simp only [Shape.inserted, Shape.orphans]
    rcases eraseIfUnused_stepL (Bs1 ++ (pre ++ I :: post) :: Bs2) I.id
      (shapeCInserted (Function.mk (Bs1 ++ (pre ++ I :: post) :: Bs2)).freshId
        ((Function.mk (Bs1 ++ (pre ++ I :: post) :: Bs2)).typeOf Ptr) I.ty Ptr).1
      (shapeCInserted (Function.mk (Bs1 ++ (pre ++ I :: post) :: Bs2)).freshId
        ((Function.mk (Bs1 ++ (pre ++ I :: post) :: Bs2)).typeOf Ptr) I.ty Ptr).2
      [] P2I.id with ⟨h1, -⟩ | h1 <;> rw [h1]
    · exact ⟨[P2I.id], by simp, rfl⟩
    · exact ⟨[], by simp, rfl⟩


/-! ## Membership after a rewrite -/

theorem mem_insertAllL {ip : Nat} {news : List Instruction} {K : Instruction} :
    ∀ {L : List Instruction},
      K ∈ insertAllL ip news L ↔ K ∈ L ∨ (K ∈ news ∧ ip ∈ L.map (fun I => I.id)) := by
  intro L
  simp only [insertAllL, List.mem_flatMap, List.mem_map]
  constructor
  · rintro ⟨X, hX, hK⟩
    split at hK
    · rename_i h
      rcases List.mem_append.1 hK with hK | hK
      · exact Or.inr ⟨hK, X, hX, h⟩
      · simp only [List.mem_singleton] at hK
        exact Or.inl (hK ▸ hX)
    · simp only [List.mem_singleton] at hK
      exact Or.inl (hK ▸ hX)
  · rintro (hK | ⟨hK, X, hX, h⟩)
    · refine ⟨K, hK, ?_⟩
      split <;> simp
    · exact ⟨X, hX, by simp [h, hK]⟩

theorem mem_eraseAllL {es : List Nat} {K : Instruction} {L : List Instruction} :
    K ∈ eraseAllL es L ↔ K ∈ L ∧ K.id ∉ es := by
  simp [eraseAllL, List.mem_filter]

theorem mem_stepL {ip : Nat} {news : List Instruction} {final : Value} {es : List Nat}
    {K : Instruction} {L : List Instruction} :
    K ∈ stepL ip news final es L ↔
      K.id ≠ ip ∧ K.id ∉ es ∧
        ∃ K0, (K0 ∈ L ∨ (K0 ∈ news ∧ ip ∈ L.map (fun I => I.id))) ∧
          K0.replaceUsesOfWith ip final = K := by
  simp only [stepL, mem_eraseAllL, rauwL, List.mem_map, mem_insertAllL, List.mem_cons, not_or]
  constructor
  · rintro ⟨⟨K0, h0, rfl⟩, h1, h2⟩
    exact ⟨h1, h2, K0, h0, rfl⟩
  · rintro ⟨h1, h2, K0, h0, rfl⟩
    exact ⟨⟨K0, h0, rfl⟩, h1, h2⟩

theorem stepL_nil (ip : Nat) (news : List Instruction) (final : Value) (es : List Nat) :
    stepL ip news final es [] = [] := rfl

theorem Function.block_map_stepL (F : Function) (ip : Nat) (news : List Instruction)
    (final : Value) (es : List Nat) (bi : Nat) :
    (Function.mk (F.blocks.map (stepL ip news final es))).block bi =
      stepL ip news final es (F.block bi) := by
  simp only [Function.block, List.getD_eq_getElem?_getD, List.getElem?_map]
  cases F.blocks[bi]? <;> simp [stepL_nil]

theorem Function.insts_map_stepL (F : Function) (ip : Nat) (news : List Instruction)
    (final : Value) (es : List Nat) :
    (Function.mk (F.blocks.map (stepL ip news final es))).insts =
      stepL ip news final es F.insts :=
  stepL_flatten ip news final es F.blocks

/-! ## The instructions a rewrite creates -/

theorem pointerCastOp_ne_intToPtr (s : Option Ty) (d : Ty) : pointerCastOp s d ≠ .IntToPtr := by
  unfold pointerCastOp
  split
  · simp
  · split <;> simp

theorem isIntToPtr_pointerCast (n : Nat) (T : Ty) (s : Option Ty) (d : Ty) (v : Value) :
    Instruction.isIntToPtr ⟨n, T, .cast (pointerCastOp s d) v⟩ = false := by
  have := pointerCastOp_ne_intToPtr s d
  simp only [Instruction.isIntToPtr]
  split
  · rename_i h
    simp only [InstKind.cast.injEq] at h
    exact absurd h.1 this
  · rfl

theorem shapeAInserted_facts (f : Nat) (PtrTy : Option Ty) (T : Ty) (Ptr Idx : Value) :
    (∀ N ∈ (shapeAInserted f PtrTy T Ptr Idx).1,
      f ≤ N.id ∧ (N.isCast = true ∨ N.isGEP = true) ∧ N.isIntToPtr = false) ∧
    ((shapeAInserted f PtrTy T Ptr Idx).1.map (fun I => I.id)).Nodup := by
  unfold shapeAInserted
  constructor
  · intro N hN
    split at hN <;> split at hN <;>
      simp only [List.mem_cons, List.mem_singleton, List.not_mem_nil, or_false] at hN
    all_goals
      rcases hN with rfl | rfl | rfl <;>
        (simp [Instruction.isCast, Instruction.isGEP, isIntToPtr_pointerCast]
         try simp [Instruction.isIntToPtr])
  · split <;> split <;> simp

theorem shapeBInserted_facts (f : Nat) (T : Ty) (Arg Idx : Value) :
    (∀ N ∈ (shapeBInserted f T Arg Idx).1,
      f ≤ N.id ∧ (N.isCast = true ∨ N.isGEP = true) ∧
        (N.isIntToPtr = true → N.kind = .cast .IntToPtr Arg)) ∧
    ((shapeBInserted f T Arg Idx).1.map (fun I => I.id)).Nodup := by
  unfold shapeBInserted
  constructor
  · intro N hN
    split at hN <;>
      simp only [List.mem_cons, List.mem_singleton, List.not_mem_nil, or_false] at hN
    all_goals
      rcases hN with rfl | rfl | rfl <;>
        (simp [Instruction.isCast, Instruction.isGEP, isIntToPtr_pointerCast]
         try simp [Instruction.isIntToPtr])
  · split <;> simp

theorem shapeCInserted_facts (f : Nat) (PTy : Option Ty) (T : Ty) (P : Value) :
    (∀ N ∈ (shapeCInserted f PTy T P).1,
      f ≤ N.id ∧ (N.isCast = true ∨ N.isGEP = true) ∧ N.isIntToPtr = false) ∧
    ((shapeCInserted f PTy T P).1.map (fun I => I.id)).Nodup := by
  unfold shapeCInserted
  constructor
  · intro N hN
    split at hN
    · simp at hN
    · split at hN
      · simp at hN
      · simp only [List.mem_singleton] at hN
        subst hN
        simp [Instruction.isCast, isIntToPtr_pointerCast]
  · split
    · simp
    · split <;> simp

/-- The instructions a rewrite creates have fresh, distinct identities and are casts or
getelementptrs. -/
theorem Shape.inserted_facts (F : Function) (I : Instruction) (S : Shape) :
    (∀ N ∈ (S.inserted F I).1,
      F.freshId ≤ N.id ∧ (N.isCast = true ∨ N.isGEP = true)) ∧
    ((S.inserted F I).1.map (fun I => I.id)).Nodup := by
  cases S with
  | A b p q i =>
    exact ⟨fun N hN => ⟨((shapeAInserted_facts _ _ _ _ _).1 N hN).1,
      ((shapeAInserted_facts _ _ _ _ _).1 N hN).2.1⟩, (shapeAInserted_facts _ _ _ _ _).2⟩
  | B b a i =>
    exact ⟨fun N hN => ⟨((shapeBInserted_facts _ _ _ _).1 N hN).1,
      ((shapeBInserted_facts _ _ _ _).1 N hN).2.1⟩, (shapeBInserted_facts _ _ _ _).2⟩
  | C p q =>
    exact ⟨fun N hN => ⟨((shapeCInserted_facts _ _ _ _).1 N hN).1,
      ((shapeCInserted_facts _ _ _ _).1 N hN).2.1⟩, (shapeCInserted_facts _ _ _ _).2⟩

theorem Shape.inserted_not_mem {F : Function} {I : Instruction} {S : Shape} {N : Instruction}
    (hN : N ∈ (S.inserted F I).1) : N.id ∉ F.ids :=
  fun h => absurd (Function.lt_freshId h) (by
    have := ((Shape.inserted_facts F I S).1 N hN).1
    omega)

/-! ## The frame of a rewrite -/

theorem InstKind.opcode_mapOperands (k : InstKind) (f : Value → Value) :
    (k.mapOperands f).opcode = k.opcode := by
  cases k <;> simp [InstKind.opcode, InstKind.mapOperands, List.map_map, Function.comp_def]

theorem Instruction.SameButOperands.self (I : Instruction) : I.SameButOperands I :=
  ⟨rfl, rfl, rfl⟩

theorem Instruction.SameButOperands.redirect {I I' : Instruction} (h : I.SameButOperands I')
    (old : Nat) (New : Value) : I.SameButOperands (I'.replaceUsesOfWith old New) :=
  ⟨h.1, h.2.1, by
    show (I'.kind.mapOperands _).opcode = I.kind.opcode
    rw [InstKind.opcode_mapOperands, h.2.2]⟩

theorem isIntToPtr_eq_opcode (I : Instruction) :
    I.isIntToPtr = (match I.kind.opcode with
      | .cast .IntToPtr _ => true
      | _ => false) := by
  unfold Instruction.isIntToPtr InstKind.opcode
  cases hk : I.kind <;> simp [InstKind.mapOperands]
  rename_i op src
  cases op <;> rfl

theorem isAddOrPtrToInt_eq_opcode (I : Instruction) :
    I.isAddOrPtrToInt = (match I.kind.opcode with
      | .binop .Add _ _ => true
      | .cast .PtrToInt _ => true
      | _ => false) := by
  unfold Instruction.isAddOrPtrToInt InstKind.opcode
  cases hk : I.kind <;> simp [InstKind.mapOperands]
  · rename_i op src
    cases op <;> rfl
  · rename_i op l r
    cases op <;> rfl

theorem isFixed_eq_opcode (I : Instruction) :
    I.isFixed = (match I.kind.opcode with
      | .cast _ _ => false
      | .gep _ _ => false
      | .binop _ _ _ => false
      | _ => true) := by
  unfold Instruction.isFixed InstKind.opcode
  cases hk : I.kind <;> simp [InstKind.mapOperands]

theorem Instruction.SameButOperands.isIntToPtr_eq {I I' : Instruction}
    (h : I.SameButOperands I') : I'.isIntToPtr = I.isIntToPtr := by
  rw [isIntToPtr_eq_opcode, isIntToPtr_eq_opcode, h.2.2]

theorem Instruction.SameButOperands.isAddOrPtrToInt_eq {I I' : Instruction}
    (h : I.SameButOperands I') : I'.isAddOrPtrToInt = I.isAddOrPtrToInt := by
  rw [isAddOrPtrToInt_eq_opcode, isAddOrPtrToInt_eq_opcode, h.2.2]

theorem Instruction.SameButOperands.isFixed_eq {I I' : Instruction}
    (h : I.SameButOperands I') : I'.isFixed = I.isFixed := by
  rw [isFixed_eq_opcode, isFixed_eq_opcode, h.2.2]

theorem isCast_replaceUsesOfWith (old : Nat) (New : Value) (I : Instruction) :
    (I.replaceUsesOfWith old New).isCast = I.isCast := by
  unfold Instruction.isCast Instruction.replaceUsesOfWith
  cases hk : I.kind <;> simp [InstKind.mapOperands]

theorem isGEP_replaceUsesOfWith (old : Nat) (New : Value) (I : Instruction) :
    (I.replaceUsesOfWith old New).isGEP = I.isGEP := by
  unfold Instruction.isGEP Instruction.replaceUsesOfWith
  cases hk : I.kind <;> simp [InstKind.mapOperands]

theorem eraseAllL_rauwL (es : List Nat) (old : Nat) (New : Value) (L : List Instruction) :
    eraseAllL es (rauwL old New L) = rauwL old New (eraseAllL es L) := by
  simp only [eraseAllL, rauwL, List.filter_map]
  rfl

/-! ## Invariants of the scan -/

/-- A property that every execution of the loop body keeps holds after the scan of a
block. -/
theorem PeepholeOptimizationPass.scanBlock_inv (Q : Function → Prop)
    (hstep : ∀ H O I G, Ordered H O → I ∈ H.insts →
      PeepholeOptimizationPass.visit H I = some G → Q H → Q G) (bi : Nat) :
    ∀ (pending : List Nat) (F : Function), WellFormed F → F.EndsWith bi pending → Q F →
      ∃ G, PeepholeOptimizationPass.scanBlock bi pending F = some G ∧ WellFormed G ∧ Q G ∧
        G.blocks.length = F.blocks.length := by
  intro pending
  induction pending with
  | nil => intro F hw _ hQ; exact ⟨F, rfl, hw, hQ, rfl⟩
  | cons a rest ih =>
    intro F hw he hQ
    obtain ⟨O, hO⟩ := hw
    obtain ⟨I, hfind, hIb, hIa⟩ := he.find
    have hI : I ∈ F.insts := F.block_subset_insts bi I hIb
    obtain ⟨G, O', hG, hwG, hlen, hend⟩ := PeepholeOptimizationPass.visit_ok hO hI
    have heG : G.EndsWith bi rest := hend bi rest (hIa ▸ he.pos_lt hO) he.tail
    obtain ⟨H, hH, hwH, hQH, hlenH⟩ := ih G ⟨O', hwG⟩ heG (hstep F O I G hO hI hG hQ)
    refine ⟨H, ?_, hwH, hQH, hlenH.trans hlen⟩
    rw [PeepholeOptimizationPass.scanBlock, hfind]
    simp only [hG]
    cases hn : rest.find? (fun j => F.holds bi j) with
    | none => exact hH
    | some n =>
      have hnr : n ∈ rest := List.mem_of_find?_eq_some hn
      have : G.holds bi n = true := by
        rw [Function.holds_iff]
        obtain ⟨done, hd⟩ := heG
        rw [hd]
        exact List.mem_append_right _ hnr
      simp only [this, if_true]
      exact hH

theorem PeepholeOptimizationPass.runOnBlocks_inv (Q : Function → Prop)
    (hstep : ∀ H O I G, Ordered H O → I ∈ H.insts →
      PeepholeOptimizationPass.visit H I = some G → Q H → Q G) :
    ∀ (bis : List Nat) (F : Function), WellFormed F → Q F →
      ∃ G, PeepholeOptimizationPass.runOnBlocks bis F = some G ∧ WellFormed G ∧ Q G ∧
        G.blocks.length = F.blocks.length := by
  intro bis
  induction bis with
  | nil => intro F hw hQ; exact ⟨F, rfl, hw, hQ, rfl⟩
  | cons bi rest ih =>
    intro F hw hQ
    obtain ⟨G, hG, hwG, hQG, hlen⟩ := PeepholeOptimizationPass.scanBlock_inv Q hstep bi
      ((F.block bi).map (fun I => I.id)) F hw ⟨[], (List.nil_append _).symm⟩ hQ
    obtain ⟨H, hH, hwH, hQH, hlenH⟩ := ih G hwG hQG
    refine ⟨H, ?_, hwH, hQH, hlenH.trans hlen⟩
    rw [PeepholeOptimizationPass.runOnBlocks, hG]
    exact hH

theorem find_of_asInstruction {F : Function} {V : Value} {J : Instruction}
    (h : asInstruction F V = some J) : F.find J.id = some J ∧ V = .inst J.id := by
  obtain ⟨id, rfl, hf⟩ := asInstruction_eq_some.1 h
  obtain ⟨-, hid⟩ := Function.mem_insts_of_find hf
  rw [hid]
  exact ⟨hf, rfl⟩

/-- The orphans of a matched shape are an addition and a `ptrtoint` of the function. -/
theorem Shape.orphans_facts {F : Function} {I : Instruction} {S : Shape}
    (hm : matchShape F I = some S) :
    ∀ e ∈ S.orphans, ∃ J, F.find e = some J ∧ J.isAddOrPtrToInt = true := by
  obtain ⟨V, VI, hk, hV, hS⟩ := matchShape_eq_some hm
  have hVI := (find_of_asInstruction hV).1
  rcases hS with ⟨Op0, Idx, P2I, Ptr, T, rfl, hVk, hp, -, -⟩ |
    ⟨Arg, Idx, rfl, hVk, -, -⟩ | ⟨Ptr, rfl, hVk⟩
  · obtain ⟨hP2I, hP2Ik⟩ := asPtrToInt_eq_some.1 hp
    intro e he
    simp only [Shape.orphans, List.mem_cons, List.mem_singleton, List.not_mem_nil,
      or_false] at he
    rcases he with rfl | rfl
    · exact ⟨VI, hVI, by simp [Instruction.isAddOrPtrToInt, hVk]⟩
    · exact ⟨P2I, (find_of_asInstruction hP2I).1, by simp [Instruction.isAddOrPtrToInt, hP2Ik]⟩
  · intro e he
    simp only [Shape.orphans, List.mem_singleton] at he
    subst he
    exact ⟨VI, hVI, by simp [Instruction.isAddOrPtrToInt, hVk]⟩
  · intro e he
    simp only [Shape.orphans, List.mem_singleton] at he
    subst he
    exact ⟨VI, hVI, by simp [Instruction.isAddOrPtrToInt, hVk]⟩

theorem eq_of_mem_of_id_eq {F : Function} (hnd : F.ids.Nodup) {X Y : Instruction}
    (hX : X ∈ F.insts) (hY : Y ∈ F.insts) (h : X.id = Y.id) : X = Y :=
  List.inj_on_of_nodup_map hnd hX hY h

/-! ## Definitions before uses: the fence pass -/

theorem defsBeforeUses_cons {I : Instruction} {rest : List Instruction} :
    defsBeforeUses (I :: rest) = true ↔
      (∀ j ∈ I.opIds, j ∉ (I :: rest).map (fun J => J.id)) ∧ defsBeforeUses rest = true := by
  simp [defsBeforeUses, List.all_eq_true]

theorem defsBeforeUsesButPhi_cons {I : Instruction} {rest : List Instruction} :
    defsBeforeUsesButPhi (I :: rest) = true ↔
      (I.isPHI = false → ∀ j ∈ I.opIds, j ∉ (I :: rest).map (fun J => J.id)) ∧
        defsBeforeUsesButPhi rest = true := by
  cases h : I.isPHI <;> simp [defsBeforeUsesButPhi, List.all_eq_true, h]

theorem defsBeforeUses_sublist {L' L : List Instruction} (h : L'.Sublist L) :
    defsBeforeUses L = true → defsBeforeUses L' = true := by
  induction h with
  | slnil => intro h; exact h
  | cons X _ ih => intro hd; exact ih (defsBeforeUses_cons.1 hd).2
  | cons₂ X hsub ih =>
    intro hd
    obtain ⟨h1, h2⟩ := defsBeforeUses_cons.1 hd
    refine defsBeforeUses_cons.2 ⟨fun j hj hmem => h1 j hj ?_, ih h2⟩
    exact ((hsub.cons₂ X).map _).subset hmem

theorem ids_fencedFrom (F : Function) (fuel fresh : Nat) :
    ∀ (L : List Instruction) (c : Nat) (j : Nat),
      j ∈ (fencedFrom F fuel fresh L c).map (fun J => J.id) →
      j ∈ L.map (fun J => J.id) ∨ fresh ≤ j := by
  intro L
  induction L with
  | nil => intro c j h; simp [fencedFrom] at h
  | cons X rest ih =>
    intro c j h
    rw [fencedFrom, List.map_append, List.mem_append] at h
    rcases h with h | h
    · rcases fencedAccess_cases F fuel (fresh + c) X with ⟨-, hfa⟩ | ⟨-, -, hfa⟩ | ⟨-, -, hfa⟩ <;>
        rw [hfa] at h <;> simp [seqCstFence] at h
      · exact Or.inl (by simp [h])
      · rcases h with h | h
        · exact Or.inl (by simp [h])
        · exact Or.inr (by omega)
      · rcases h with h | h
        · exact Or.inr (by omega)
        · exact Or.inl (by simp [h])
    · rcases ih _ j h with h | h
      · exact Or.inl (by simp [h])
      · exact Or.inr h

theorem opIds_seqCstFence (k : Nat) : (seqCstFence k).opIds = [] := rfl

theorem defsBeforeUses_fencedFrom (F : Function) (fuel fresh : Nat) :
    ∀ (L : List Instruction) (c : Nat), (∀ I ∈ L, ∀ j ∈ I.opIds, j < fresh) →
      defsBeforeUses L = true → defsBeforeUses (fencedFrom F fuel fresh L c) = true := by
  intro L
  induction L with
  | nil => intro c _ _; rfl
  | cons X rest ih =>
    intro c hlt hd
    obtain ⟨h1, h2⟩ := defsBeforeUses_cons.1 hd
    have ih' := ih (c + if needsFence F fuel X then 1 else 0)
      (fun I hI => hlt I (List.mem_cons_of_mem _ hI)) h2
    have hX : ∀ j ∈ X.opIds, j ∉ (fencedFrom F fuel fresh rest
        (c + if needsFence F fuel X then 1 else 0)).map (fun J => J.id) := by
      intro j hj hmem
      rcases ids_fencedFrom F fuel fresh rest _ j hmem with h | h
      · exact h1 j hj (List.mem_cons_of_mem _ h)
      · have := hlt X (List.mem_cons_self _ _) j hj
        omega
    have hXid : ∀ j ∈ X.opIds, j ≠ X.id := fun j hj e => h1 j hj (by simp [e])
    have hXf : ∀ j ∈ X.opIds, j ≠ fresh + c := by
      intro j hj e
      have := hlt X (List.mem_cons_self _ _) j hj
      omega
    rw [fencedFrom]
    rcases fencedAccess_cases F fuel (fresh + c) X with ⟨-, hfa⟩ | ⟨-, -, hfa⟩ | ⟨-, -, hfa⟩ <;>
      rw [hfa] <;> simp only [List.singleton_append, List.cons_append, List.nil_append]
    · rw [defsBeforeUses_cons]
      refine ⟨?_, ih'⟩
      intro j hj hmem
      simp only [List.map_cons, List.mem_cons] at hmem
      rcases hmem with e | hmem
      · exact hXid j hj e
      · exact hX j hj hmem
    · rw [defsBeforeUses_cons, defsBeforeUses_cons]
      refine ⟨?_, ?_, ih'⟩
      · intro j hj hmem
        simp only [List.map_cons, List.mem_cons] at hmem
        rcases hmem with e | e | hmem
        · exact hXid j hj e
        · exact hXf j hj e
        · exact hX j hj hmem
      · intro j hj
        simp [opIds_seqCstFence] at hj
    · rw [defsBeforeUses_cons, defsBeforeUses_cons]
      refine ⟨?_, ?_, ih'⟩
      · intro j hj
        simp [opIds_seqCstFence] at hj
      · intro j hj hmem
        simp only [List.map_cons, List.mem_cons] at hmem
        rcases hmem with e | hmem
        · exact hXid j hj e
        · exact hX j hj hmem

/-- When the loop of `PlaceFencesInBlock` returns, it returns the block of the
specification. -/
theorem PlaceFencesInBlock.loop_some_eq (F : Function) (fuel fresh : Nat) :
    ∀ (L : List Instruction) (c : Nat) (r : List Instruction × Nat),
      PlaceFencesInBlock.loop F fuel fresh L c = some r →
      r.1 = fencedFrom F fuel fresh L c := by
  intro L
  induction L with
  | nil => intro c r h; simp [PlaceFencesInBlock.loop] at h; subst h; rfl
  | cons I rest ih =>
    intro c r h
    rw [PlaceFencesInBlock.loop] at h
    cases ha : accessOf I with
    | none =>
      have hn : needsFence F fuel I = false := by simp [needsFence, ha]
      rw [ha] at h
      simp only [Option.map_eq_some'] at h
      obtain ⟨r', hr', rfl⟩ := h
      simp [fencedFrom, fencedAccess, hn, ih c r' hr']
    | some a =>
      obtain ⟨p, ip⟩ := a
      rw [ha] at h
      simp only at h
      cases hr : provenanceRoot F fuel p with
      | none => rw [hr] at h; cases h
      | some root =>
        rw [hr] at h
        simp only at h
        by_cases hal : isAlloca F root = true
        · have hn : needsFence F fuel I = false := by simp [needsFence, ha, hr, hal]
          rw [if_pos hal] at h
          simp only [Option.map_eq_some'] at h
          obtain ⟨r', hr', rfl⟩ := h
          simp [fencedFrom, fencedAccess, hn, ih c r' hr']
        · have hn : needsFence F fuel I = true := by simp [needsFence, ha, hr, hal]
          rw [if_neg hal] at h
          cases ip with
          | self =>
            obtain ⟨v, hk⟩ := accessOf_self ha
            simp only [Option.map_eq_some'] at h
            obtain ⟨r', hr', rfl⟩ := h
            simp [fencedFrom, fencedAccess, hn, hk, ih (c + 1) r' hr']
          | nextNode =>
            have hk := accessOf_nextNode ha
            cases rest with
            | nil => simp at h
            | cons a t =>
              simp only [Option.map_eq_some'] at h
              obtain ⟨r', hr', rfl⟩ := h
              simp [fencedFrom, fencedAccess, hn, hk, ih (c + 1) r' hr']

theorem mem_fencedFrom_of_mem (F : Function) (fuel fresh : Nat) :
    ∀ (L : List Instruction) (c : Nat) (I : Instruction),
      I ∈ L → I ∈ fencedFrom F fuel fresh L c := by
  intro L
  induction L with
  | nil => intro c I h; simp at h
  | cons X rest ih =>
    intro c I h
    rw [fencedFrom, List.mem_append]
    rcases List.mem_cons.1 h with rfl | h
    · left
      rcases fencedAccess_cases F fuel (fresh + c) I with ⟨-, hfa⟩ | ⟨-, -, hfa⟩ | ⟨-, -, hfa⟩ <;>
        (rw [hfa]; simp)
    · exact Or.inr (ih _ I h)

theorem isSeqCstFence_false_of_isFence {I : Instruction} (h : I.isFence = false) :
    I.isSeqCstFence = false := by
  unfold Instruction.isFence at h
  unfold Instruction.isSeqCstFence
  cases hk : I.kind <;> simp_all

theorem mem_loop_of_not_fence {b : Bool} {L : List Instruction} {I : Instruction}
    (hI : I ∈ L) (hf : I.isFence = false) : I ∈ OptimizeFencesAway.loop b L := by
  have h1 : I ∈ L.filter (fun I => !I.isSeqCstFence) :=
    List.mem_filter.2 ⟨hI, by simp [isSeqCstFence_false_of_isFence hf]⟩
  rw [← OptimizeFencesAway.loop_filter L b] at h1
  exact (List.mem_filter.1 h1).1

/-- One block of the fence pass: what the operands refer to stays, and the block keeps its
definitions before its uses. -/
theorem FencesPass.block_ok (OptimizeFences : Bool) (fuel : Nat)
    (done todo : List BasicBlock) (BB : BasicBlock) (r : BasicBlock × Nat)
    (hdef : OperandsDefined ⟨done ++ BB :: todo⟩)
    (hr : PlaceFencesInBlock ⟨done ++ BB :: todo⟩ fuel
      (Function.mk (done ++ BB :: todo)).freshId BB = some r) :
    OperandsDefined
        ⟨(done ++ [if OptimizeFences then OptimizeFencesAway r.1 else r.1]) ++ todo⟩ ∧
      (defsBeforeUses BB = true →
        defsBeforeUses (if OptimizeFences then OptimizeFencesAway r.1 else r.1) = true) := by
  have hr1 := PlaceFencesInBlock.loop_some_eq _ _ _ _ _ _ hr
  generalize hF : Function.mk (done ++ BB :: todo) = F at hdef hr hr1
  have hFi : ∀ I, I ∈ F.insts ↔ I ∈ done.flatten ∨ I ∈ BB ∨ I ∈ todo.flatten := by
    intro I
    subst hF
    simp [Function.insts]
  have hsub : ∀ I, I ∈ (if OptimizeFences then OptimizeFencesAway r.1 else r.1) →
      I ∈ BB ∨ ∃ k, I = seqCstFence k := by
    intro I hI
    have : I ∈ r.1 := by
      split at hI
      · exact (OptimizeFencesAway.loop_sublist _ false).subset hI
      · exact hI
    rw [hr1] at this
    exact mem_fencedFrom _ _ _ _ _ _ this
  have hkeep : ∀ J, J ∈ BB → J.isFence = false →
      J ∈ (if OptimizeFences then OptimizeFencesAway r.1 else r.1) := by
    intro J hJ hf
    have : J ∈ r.1 := by rw [hr1]; exact mem_fencedFrom_of_mem _ _ _ _ _ _ hJ
    split
    · exact mem_loop_of_not_fence this hf
    · exact this
  constructor
  · intro I hI j hj
    have hI' : I ∈ done.flatten ∨
        I ∈ (if OptimizeFences then OptimizeFencesAway r.1 else r.1) ∨ I ∈ todo.flatten := by
      simpa [Function.insts] using hI
    have hIF : I ∈ F.insts := by
      rcases hI' with h | h | h
      · exact (hFi I).2 (Or.inl h)
      · rcases hsub I h with h | ⟨k, rfl⟩
        · exact (hFi I).2 (Or.inr (Or.inl h))
        · simp [opIds_seqCstFence] at hj
      · exact (hFi I).2 (Or.inr (Or.inr h))
    obtain ⟨J, hJ, hJid, hJf⟩ := hdef I hIF j hj
    refine ⟨J, ?_, hJid, hJf⟩
    have : J ∈ done.flatten ∨
        J ∈ (if OptimizeFences then OptimizeFencesAway r.1 else r.1) ∨ J ∈ todo.flatten := by
      rcases (hFi J).1 hJ with h | h | h
      · exact Or.inl h
      · exact Or.inr (Or.inl (hkeep J h hJf))
      · exact Or.inr (Or.inr h)
    simpa [Function.insts] using this
  · intro hd
    have hlt : ∀ I ∈ BB, ∀ j ∈ I.opIds, j < F.freshId := by
      intro I hI j hj
      obtain ⟨J, hJ, hJid, -⟩ := hdef I ((hFi I).2 (Or.inr (Or.inl hI))) j hj
      exact hJid ▸ Function.lt_freshId (Function.mem_ids_of_mem hJ)
    have h1 : defsBeforeUses r.1 = true := by
      rw [hr1]
      exact defsBeforeUses_fencedFrom _ _ _ _ _ hlt hd
    split
    · exact defsBeforeUses_sublist (OptimizeFencesAway.loop_sublist _ false) h1
    · exact h1

theorem FencesPass.runOnBlocks_defs (OptimizeFences : Bool) (fuel : Nat) :
    ∀ (todo done Bs : List BasicBlock), OperandsDefined ⟨done ++ todo⟩ →
      FencesPass.runOnBlocks OptimizeFences fuel done todo = some Bs →
      ∃ todo2, Bs = done ++ todo2 ∧
        List.Forall₂ (fun BB BB' => defsBeforeUses BB = true → defsBeforeUses BB' = true)
          todo todo2 := by
  intro todo
  induction todo with
  | nil =>
    intro done Bs _ h
    simp only [FencesPass.runOnBlocks, Option.some.injEq] at h
    exact ⟨[], by simp [h], List.Forall₂.nil⟩
  | cons BB rest ih =>
    intro done Bs hdef h
    rw [FencesPass.runOnBlocks] at h
    simp only at h
    cases hp : PlaceFencesInBlock ⟨done ++ BB :: rest⟩ fuel
        (Function.mk (done ++ BB :: rest)).freshId BB with
    | none => rw [hp] at h; cases h
    | some r =>
      rw [hp] at h
      simp only at h
      obtain ⟨hdef', hd⟩ := FencesPass.block_ok OptimizeFences fuel done rest BB r hdef hp
      obtain ⟨t2, hBs, hall⟩ := ih _ Bs hdef' h
      exact ⟨_ :: t2, by rw [hBs]; simp, List.Forall₂.cons hd hall⟩

/-! ## Definitions before uses: the canonicalization pass -/

theorem WellFormedInLayout.ordered {F : Function} (h : WellFormedInLayout F) :
    Ordered F F.insts :=
  ⟨List.Perm.refl _, h.1, fun _ hBB => List.sublist_flatten_of_mem hBB, h.2⟩

/-- In a function ordered by `O` every block has the definitions of the operands of its
instructions other than phis before their uses. -/
theorem Ordered.defsBeforeUsesButPhi {F : Function} {O : List Instruction}
    (hw : Ordered F O) : ∀ BB ∈ F.blocks, defsBeforeUsesButPhi BB = true := by
  intro BB hBB
  have hsub := hw.2.2.1 BB hBB
  clear hBB
  induction BB with
  | nil => rfl
  | cons I rest ih =>
    rw [defsBeforeUsesButPhi_cons]
    refine ⟨fun hphi j hj hmem => ?_, ih ((List.sublist_cons_self I rest).trans hsub)⟩
    have hIO : I ∈ O := hsub.subset (List.mem_cons_self _ _)
    have hlt := (hw.2.2.2 I hIO j hj).2 hphi
    simp only [List.map_cons, List.mem_cons] at hmem
    rcases hmem with e | hmem
    · rw [e] at hlt; exact Nat.lt_irrefl _ hlt
    · have hpair : [I.id, j].Sublist (O.map (fun J => J.id)) := by
        refine List.Sublist.trans ?_ (hsub.map _)
        exact List.Sublist.cons₂ _ (List.singleton_sublist.2 hmem)
      have := pos_lt_of_pair_sublist O hpair hw.2.1
      omega

/-- The values a matched shape binds are available before the matched instruction. -/
theorem Shape.available {F : Function} {O : List Instruction} (hw : Ordered F O)
    {I : Instruction} (hI : I ∈ F.insts) {S : Shape} (hm : matchShape F I = some S) :
    match S with
    | .A _ _ Ptr Idx => AvailableAt O I.id Ptr ∧ AvailableAt O I.id Idx
    | .B _ Arg Idx => AvailableAt O I.id Arg ∧ AvailableAt O I.id Idx
    | .C _ P => AvailableAt O I.id P := by
  obtain ⟨V, VI, hk, hV, hS⟩ := matchShape_eq_some hm
  have hVop : V ∈ I.kind.operands := by simp [hk, InstKind.operands]
  obtain ⟨hVI, hVIpos⟩ := hw.asInstruction_pos hI (isPHI_of_cast hk) hVop hV
  rcases hS with ⟨Op0, Idx, P2I, Ptr, T, rfl, hVk, hp, -, -⟩ |
    ⟨Arg, Idx, rfl, hVk, -, -⟩ | ⟨Ptr, rfl, hVk⟩
  · obtain ⟨hP2I, hP2Ik⟩ := asPtrToInt_eq_some.1 hp
    have hOp0 : Op0 ∈ VI.kind.operands := by simp [hVk, InstKind.operands]
    have hIdx : Idx ∈ VI.kind.operands := by simp [hVk, InstKind.operands]
    obtain ⟨hP2Imem, hP2Ipos⟩ := hw.asInstruction_pos hVI (isPHI_of_binop hVk) hOp0 hP2I
    have hPtr : Ptr ∈ P2I.kind.operands := by simp [hP2Ik, InstKind.operands]
    exact ⟨hw.operand_available hP2Imem (isPHI_of_cast hP2Ik) hPtr (by omega),
      hw.operand_available hVI (isPHI_of_binop hVk) hIdx (le_of_lt hVIpos)⟩
  · have hArg : Arg ∈ VI.kind.operands := by simp [hVk, InstKind.operands]
    have hIdx : Idx ∈ VI.kind.operands := by simp [hVk, InstKind.operands]
    exact ⟨hw.operand_available hVI (isPHI_of_binop hVk) hArg (le_of_lt hVIpos),
      hw.operand_available hVI (isPHI_of_binop hVk) hIdx (le_of_lt hVIpos)⟩
  · have hPtr : Ptr ∈ VI.kind.operands := by simp [hVk, InstKind.operands]
    exact hw.operand_available hVI (isPHI_of_cast hVk) hPtr (le_of_lt hVIpos)

theorem operandsFrom_split {avail : Value → Prop} :
    ∀ (pre : List Instruction) (earlier : List Nat) (N : Instruction)
      (post : List Instruction),
      operandsFrom avail earlier (pre ++ N :: post) →
      ∀ v ∈ N.kind.operands,
        avail v ∨ ∃ j, (j ∈ earlier ∨ j ∈ pre.map (fun J => J.id)) ∧ v = .inst j := by
  intro pre
  induction pre with
  | nil =>
    intro earlier N post h v hv
    rcases h.1 v hv with h1 | ⟨j, hj, rfl⟩
    · exact Or.inl h1
    · exact Or.inr ⟨j, Or.inl hj, rfl⟩
  | cons X rest ih =>
    intro earlier N post h v hv
    rcases ih (X.id :: earlier) N post h.2 v hv with h1 | ⟨j, hj, rfl⟩
    · exact Or.inl h1
    · refine Or.inr ⟨j, ?_, rfl⟩
      rcases hj with hj | hj
      · rcases List.mem_cons.1 hj with rfl | hj
        · exact Or.inr (by simp)
        · exact Or.inl hj
      · exact Or.inr (by simp [hj])

/-- The operands of the instructions a rewrite creates: values available before the matched
instruction, or instructions the rewrite created before. -/
theorem Shape.inserted_operandsFrom {F : Function} {O : List Instruction} (hw : Ordered F O)
    {I : Instruction} (hI : I ∈ F.insts) {S : Shape} (hm : matchShape F I = some S) :
    operandsFrom (AvailableAt O I.id) [] (S.inserted F I).1 := by
  have hav := Shape.available hw hI hm
  cases S with
  | A b p Ptr Idx =>
    simp only at hav
    simp only [Shape.inserted, shapeAInserted]
    split <;> split <;>
      simp [operandsFrom, InstKind.operands, hav.1, hav.2]
  | B b Arg Idx =>
    simp only at hav
    simp only [Shape.inserted, shapeBInserted]
    split <;> simp [operandsFrom, InstKind.operands, hav.1, hav.2]
  | C p P =>
    simp only at hav
    simp only [Shape.inserted, shapeCInserted]
    split
    · simp [operandsFrom]
    · split <;> simp [operandsFrom, InstKind.operands, hav]

/-- C15, for well-formed functions and the operands of instructions other than phis.  The
fence pass, on a function whose operands are defined, keeps in every block the definitions
before the uses.  The canonicalization pass makes of a well-formed function a well-formed
function, in whose blocks every operand of an instruction other than a phi that is defined in
the same block is defined at an earlier position.  And every operand of an instruction that a
shape A, B or C rewrite inserts is a value available before the matched `inttoptr` or the
result of an instruction the rewrite inserted before it. -/
theorem passes_keep_defs_before_uses :
    (∀ (OptimizeFences : Bool) (fuel : Nat) (F G : Function), OperandsDefined F →
      FencesPass.runOnFunction OptimizeFences fuel F = some G →
      List.Forall₂ (fun BB BB' => defsBeforeUses BB = true → defsBeforeUses BB' = true)
        F.blocks G.blocks) ∧
    (∀ F : Function, WellFormed F →
      ∃ G, PeepholeOptimizationPass.runOnFunction F = some G ∧ WellFormed G ∧
        ∀ BB ∈ G.blocks, defsBeforeUsesButPhi BB = true) ∧
    (∀ (F : Function) (O : List Instruction) (I : Instruction) (S : Shape), Ordered F O →
      I ∈ F.insts → matchShape F I = some S →
      ∀ pre N post, (S.inserted F I).1 = pre ++ N :: post →
        ∀ v ∈ N.kind.operands, AvailableAt O I.id v ∨ ∃ N' ∈ pre, v = .inst N'.id) := by
  refine ⟨?_, ?_, ?_⟩
  · intro OptimizeFences fuel F G hdef h
    unfold FencesPass.runOnFunction at h
    split at h
    · rename_i hdecl
      simp only [Option.some.injEq] at h
      subst h
      have : F.blocks = [] := by simpa [Function.isDeclaration] using hdecl
      rw [this]
      exact List.Forall₂.nil
    · simp only [Option.map_eq_some'] at h
      obtain ⟨Bs, hBs, rfl⟩ := h
      obtain ⟨t2, ht2, hall⟩ := FencesPass.runOnBlocks_defs OptimizeFences fuel F.blocks [] Bs
        (by simpa using hdef) hBs
      simp only [List.nil_append] at ht2
      subst ht2
      exact hall
  · intro F hw
    obtain ⟨G, hG, hwG, -⟩ := PeepholeOptimizationPass.runOnBlocks_ok
      (List.range F.blocks.length) F hw
    obtain ⟨O, hO⟩ := hwG
    exact ⟨G, hG, ⟨O, hO⟩, hO.defsBeforeUsesButPhi⟩
  · intro F O I S hw hI hm pre N post hsplit v hv
    have h := Shape.inserted_operandsFrom hw hI hm
    rw [hsplit] at h
    rcases operandsFrom_split pre [] N post h v hv with h1 | ⟨j, hj, rfl⟩
    · exact Or.inl h1
    · right
      rcases hj with hj | hj
      · simp at hj
      · obtain ⟨N', hN', rfl⟩ := List.mem_map.1 hj
        exact ⟨N', hN', rfl⟩

theorem sampleMixedFn_operandsDefined : OperandsDefined sampleMixedFn := by
  unfold OperandsDefined
  decide

/-- Witness for C15: the fence pass on `sampleMixedFn`, the canonicalization pass on
`sampleShapeA`, and the instructions the shape A rewrite inserts there. -/
theorem passes_keep_defs_before_uses_witness :
    (OperandsDefined sampleMixedFn ∧
      FencesPass.runOnFunction true 1 sampleMixedFn = some sampleMixedAfter ∧
      List.Forall₂ (fun BB BB' => defsBeforeUses BB = true → defsBeforeUses BB' = true)
        sampleMixedFn.blocks sampleMixedAfter.blocks) ∧
    (WellFormed sampleShapeA ∧
      ∃ G, PeepholeOptimizationPass.runOnFunction sampleShapeA = some G ∧ WellFormed G ∧
        ∀ BB ∈ G.blocks, defsBeforeUsesButPhi BB = true) ∧
    (Ordered sampleShapeA sampleShapeA.insts ∧
      (⟨4, I32PtrTy, .cast .IntToPtr (.inst 3)⟩ : Instruction) ∈ sampleShapeA.insts ∧
      matchShape sampleShapeA ⟨4, I32PtrTy, .cast .IntToPtr (.inst 3)⟩ =
        some (.A ⟨3, .int 64, .binop .Add (.inst 2) (.const (.int (.int 64) 16))⟩
          ⟨2, .int 64, .cast .PtrToInt (.inst 1)⟩ (.inst 1) (.const (.int (.int 64) 16))) ∧
      ∀ pre N post,
        (Shape.inserted sampleShapeA ⟨4, I32PtrTy, .cast .IntToPtr (.inst 3)⟩
          (.A ⟨3, .int 64, .binop .Add (.inst 2) (.const (.int (.int 64) 16))⟩
            ⟨2, .int 64, .cast .PtrToInt (.inst 1)⟩ (.inst 1)
            (.const (.int (.int 64) 16)))).1 = pre ++ N :: post →
        ∀ v ∈ N.kind.operands,
          AvailableAt sampleShapeA.insts 4 v ∨ ∃ N' ∈ pre, v = .inst N'.id) :=
  ⟨⟨sampleMixedFn_operandsDefined, by decide,
      passes_keep_defs_before_uses.1 true 1 sampleMixedFn sampleMixedAfter
        sampleMixedFn_operandsDefined (by decide)⟩,
    ⟨WellFormedInLayout.wellFormed (by decide),
      passes_keep_defs_before_uses.2.1 sampleShapeA
        (WellFormedInLayout.wellFormed (by decide))⟩,
    ⟨WellFormedInLayout.ordered (by decide), by decide, by decide,
      passes_keep_defs_before_uses.2.2 sampleShapeA sampleShapeA.insts
        ⟨4, I32PtrTy, .cast .IntToPtr (.inst 3)⟩ _
        (WellFormedInLayout.ordered (by decide)) (by decide) (by decide)⟩⟩

/-- The statement of C15 as written fails.  In `samplePhiLoop`, a well-formed function, every
block has the definitions of its operands before their uses; the canonicalization pass
replaces `%4` by `%2` (shape C, same type), and the phi at the head of the loop then uses
`%2`, defined after it in that block.  In `sampleCrossBlock` every block has the definitions
of its operands before their uses; after the pass the getelementptr inserted at the head of
the second block uses `%1`, defined after it in that block. -/
theorem passes_keep_defs_before_uses_counterexample :
    (WellFormedInLayout samplePhiLoop ∧
      (∀ BB ∈ samplePhiLoop.blocks, defsBeforeUses BB = true) ∧
      PeepholeOptimizationPass.runOnFunction samplePhiLoop = some ⟨[
        [ ⟨7, .void, .terminator false []⟩ ],
        [ ⟨1, BytePtrTy, .phi [.inst 2, .arg 1 BytePtrTy]⟩,
          ⟨2, BytePtrTy, .cast .IntToPtr (.arg 0 (.int 64))⟩,
          ⟨5, .void, .terminator false []⟩ ],
        [ ⟨6, .void, .terminator false []⟩ ]]⟩ ∧
      (PeepholeOptimizationPass.runOnFunction samplePhiLoop).map
        (fun G => defsBeforeUses (G.block 1)) = some false) ∧
    ((∀ BB ∈ sampleCrossBlock.blocks, defsBeforeUses BB = true) ∧
      (PeepholeOptimizationPass.runOnFunction sampleCrossBlock).map
        (fun G => defsBeforeUsesButPhi (G.block 1)) = some false) := by
  decide


/-! ## Provenance roots across a rewrite -/

theorem FromAlloca.inst {F : Function} {v : Value} (h : FromAlloca F v) :
    ∃ j, v = .inst j := by
  cases h with
  | alloca _ h => obtain ⟨id, _, _, rfl, -⟩ := isAlloca_eq_true.1 h; exact ⟨id, rfl⟩
  | gep _ p h _ => obtain ⟨id, _, _, rfl, -⟩ := asGEP_eq_some.1 h; exact ⟨id, rfl⟩
  | cast _ s h _ => obtain ⟨id, _, _, rfl, -⟩ := asCast_eq_some.1 h; exact ⟨id, rfl⟩

/-- A value that is the result of a binary operator is not derived from an alloca. -/
theorem FromAlloca.not_binop {F : Function} {j : Nat} {K : Instruction} {op : BinOpcode}
    {l r : Value} (hf : F.find j = some K) (hk : K.kind = .binop op l r) :
    ¬ FromAlloca F (.inst j) := by
  intro h
  cases h with
  | alloca _ h =>
    obtain ⟨id, K', _, e, hf', hk'⟩ := isAlloca_eq_true.1 h
    cases e; rw [hf] at hf'; cases hf'; rw [hk] at hk'; cases hk'
  | gep _ p h _ =>
    obtain ⟨id, K', _, e, hf', hk'⟩ := asGEP_eq_some.1 h
    cases e; rw [hf] at hf'; cases hf'; rw [hk] at hk'; cases hk'
  | cast _ s h _ =>
    obtain ⟨id, K', _, e, hf', hk'⟩ := asCast_eq_some.1 h
    cases e; rw [hf] at hf'; cases hf'; rw [hk] at hk'; cases hk'

/-- What is behind a cast that is derived from an alloca is derived from an alloca. -/
theorem FromAlloca.of_cast {F : Function} {j : Nat} {K : Instruction} {op : CastOp}
    {s : Value} (hf : F.find j = some K) (hk : K.kind = .cast op s)
    (h : FromAlloca F (.inst j)) : FromAlloca F s := by
  cases h with
  | alloca _ h =>
    obtain ⟨id, K', _, e, hf', hk'⟩ := isAlloca_eq_true.1 h
    cases e; rw [hf] at hf'; cases hf'; rw [hk] at hk'; cases hk'
  | gep _ p h _ =>
    obtain ⟨id, K', _, e, hf', hk'⟩ := asGEP_eq_some.1 h
    cases e; rw [hf] at hf'; cases hf'; rw [hk] at hk'; cases hk'
  | cast _ s' h hs =>
    obtain ⟨id, K', _, e, hf', hk'⟩ := asCast_eq_some.1 h
    cases e; rw [hf] at hf'; cases hf'; rw [hk] at hk'; cases hk'
    exact hs

theorem RewriteStep.of_visit {F : Function} {O : List Instruction} (hw : Ordered F O)
    {I : Instruction} (hI : I ∈ F.insts) {S : Shape} (hm : matchShape F I = some S)
    {G : Function} (hG : PeepholeOptimizationPass.visit F I = some G) :
    ∃ es, RewriteStep F G I S es := by
  obtain ⟨es, hes, hv⟩ := PeepholeOptimizationPass.visit_stepL hw hI hm
  obtain ⟨G', O', hG', hwG, -, -⟩ := PeepholeOptimizationPass.visit_ok hw hI
  rw [hG] at hG' hv
  cases hG'
  refine ⟨es, hw.nodup, hwG.nodup, hI, hm, hes, ?_, ?_⟩
  · intro K hK j hj
    exact hwG.mem_ids_iff.1 (hwG.2.2.2 K (hwG.mem_iff.2 hK) j hj).1
  · cases hv; rfl

theorem RewriteStep.insts {F G : Function} {I : Instruction} {S : Shape} {es : List Nat}
    (h : RewriteStep F G I S es) :
    G.insts = stepL I.id (S.inserted F I).1 (S.inserted F I).2 es F.insts := by
  unfold Function.insts
  rw [h.blocks]
  exact stepL_flatten _ _ _ _ _

theorem RewriteStep.orphan_mem {F G : Function} {I : Instruction} {S : Shape} {es : List Nat}
    (h : RewriteStep F G I S es) {e : Nat} (he : e ∈ es) :
    ∃ J ∈ F.insts, J.id = e ∧ J.isAddOrPtrToInt = true := by
  obtain ⟨J, hJ, hk⟩ := Shape.orphans_facts h.shape e (h.orphans he)
  obtain ⟨hm, hid⟩ := Function.mem_insts_of_find hJ
  exact ⟨J, hm, hid, hk⟩

/-- An instruction of `G` with the identity of an instruction of `F` is that instruction
with the uses of `I` redirected. -/
theorem RewriteStep.image_of_mem {F G : Function} {I : Instruction} {S : Shape}
    {es : List Nat} (h : RewriteStep F G I S es) {K : Instruction} (hK : K ∈ F.insts)
    (hid : K.id ∈ G.ids) : K.replaceUsesOfWith I.id (S.inserted F I).2 ∈ G.insts := by
  obtain ⟨K', hK', hK'id⟩ := List.mem_map.1 hid
  have hK'' := hK'
  rw [h.insts, mem_stepL] at hK''
  obtain ⟨-, -, K0, hK0, rfl⟩ := hK''
  rcases hK0 with hK0 | ⟨hK0, -⟩
  · have : K0 = K := eq_of_mem_of_id_eq h.nodupF hK0 hK hK'id
    rw [← this]
    exact hK'
  · exact absurd (hK'id ▸ Function.mem_ids_of_mem hK) (Shape.inserted_not_mem hK0)

theorem RewriteStep.find_image {F G : Function} {I : Instruction} {S : Shape}
    {es : List Nat} (h : RewriteStep F G I S es) {j : Nat} {K : Instruction}
    (hf : F.find j = some K) (hid : j ∈ G.ids) :
    G.find j = some (K.replaceUsesOfWith I.id (S.inserted F I).2) := by
  obtain ⟨hK, rfl⟩ := Function.mem_insts_of_find hf
  exact Function.find_of_mem h.nodupG (h.image_of_mem hK hid)

/-- An instruction of `F` other than `I` and the erased orphans is still there. -/
theorem RewriteStep.kept {F G : Function} {I : Instruction} {S : Shape} {es : List Nat}
    (h : RewriteStep F G I S es) {K : Instruction} (hK : K ∈ F.insts) (h1 : K.id ≠ I.id)
    (h2 : K.id ∉ es) : K.id ∈ G.ids := by
  have : K.replaceUsesOfWith I.id (S.inserted F I).2 ∈ G.insts := by
    rw [h.insts, mem_stepL]
    exact ⟨h1, h2, K, Or.inl hK, rfl⟩
  exact List.mem_map.2 ⟨_, this, rfl⟩

/-- The instructions the rewrite creates are in `G`, with the uses of `I` redirected. -/
theorem RewriteStep.new_mem {F G : Function} {I : Instruction} {S : Shape} {es : List Nat}
    (h : RewriteStep F G I S es) {N : Instruction} (hN : N ∈ (S.inserted F I).1) :
    N.replaceUsesOfWith I.id (S.inserted F I).2 ∈ G.insts := by
  rw [h.insts, mem_stepL]
  refine ⟨?_, ?_, N, Or.inr ⟨hN, Function.mem_ids_of_mem h.mem⟩, rfl⟩
  · intro e
    exact Shape.inserted_not_mem hN (e ▸ Function.mem_ids_of_mem h.mem)
  · intro he
    obtain ⟨J, hJ, hJid, -⟩ := h.orphan_mem he
    exact Shape.inserted_not_mem hN (hJid ▸ Function.mem_ids_of_mem hJ)

theorem RewriteStep.operand_defined {F G : Function} {I : Instruction} {S : Shape}
    {es : List Nat} (h : RewriteStep F G I S es) {K : Instruction} (hK : K ∈ G.insts)
    {j : Nat} (hj : Value.inst j ∈ K.kind.operands) : j ∈ G.ids :=
  h.defined K hK j (mem_opIds.2 hj)

theorem replaceUsesOfWith_kind (old : Nat) (New : Value) (K : Instruction) :
    (K.replaceUsesOfWith old New).kind =
      K.kind.mapOperands (fun v => if v = .inst old then New else v) := rfl

theorem RewriteStep.find_self {F G : Function} {I : Instruction} {S : Shape} {es : List Nat}
    (h : RewriteStep F G I S es) : F.find I.id = some I :=
  Function.find_of_mem h.nodupF h.mem

/-- The identity of an instruction that is not a cast is not the identity of `I`. -/
theorem RewriteStep.ne_of_not_cast {F G : Function} {I : Instruction} {S : Shape}
    {es : List Nat} (h : RewriteStep F G I S es) {j : Nat} {K : Instruction}
    (hf : F.find j = some K) (hk : K.isCast = false) : j ≠ I.id := by
  intro e
  subst e
  rw [h.find_self] at hf
  cases hf
  obtain ⟨V, VI, hkI, -, -⟩ := matchShape_eq_some h.shape
  simp [Instruction.isCast, hkI] at hk

/-- Across one rewrite, a value derived from an alloca stays derived from an alloca, once
the uses of `I` are redirected; for shape C, what is behind the `ptrtoint` stays so too. -/
theorem RewriteStep.fromAlloca {F G : Function} {I : Instruction} {S : Shape} {es : List Nat}
    (h : RewriteStep F G I S es) {O : List Instruction} (hw : Ordered F O) :
    ∀ v, FromAlloca F v →
      ((∀ j, v = .inst j → j ∈ G.ids ∨ j = I.id) →
        FromAlloca G (if v = .inst I.id then (S.inserted F I).2 else v)) ∧
      (∀ P2I P, S = .C P2I P → v = .inst P2I.id → FromAlloca G P) := by
  obtain ⟨V, VI, hkI, hV, hS⟩ := matchShape_eq_some h.shape
  obtain ⟨hVIf, hVe⟩ := find_of_asInstruction hV
  have hcond : ∀ (K' : Instruction), K' ∈ G.insts → ∀ p, (if p = .inst I.id then
      (S.inserted F I).2 else p) ∈ K'.kind.operands →
      ∀ j, p = .inst j → j ∈ G.ids ∨ j = I.id := by
    intro K' hK' p hp j hj
    subst hj
    by_cases e : j = I.id
    · exact Or.inr e
    · rw [if_neg (by simpa using e)] at hp
      exact Or.inl (h.operand_defined hK' hp)
  intro v hv
  induction hv with
  | alloca v hal =>
    obtain ⟨j, K, n, rfl, hf, hk⟩ := isAlloca_eq_true.1 hal
    have hja : j ≠ I.id := h.ne_of_not_cast hf (by simp [Instruction.isCast, hk])
    constructor
    · intro hc
      rcases hc j rfl with hG | e
      · rw [if_neg (by simpa using hja)]
        exact FromAlloca.alloca _ (isAlloca_eq_true.2 ⟨j, _, _, rfl, h.find_image hf hG, by
          rw [replaceUsesOfWith_kind, hk]; rfl⟩)
      · exact absurd e hja
    · intro P2I P hSC e
      subst hSC
      rcases hS with ⟨_, _, _, _, _, hx, -⟩ | ⟨_, _, hx, -⟩ | ⟨Ptr, hx, hVk⟩
      · cases hx
      · cases hx
      · simp only [Shape.C.injEq] at hx
        obtain ⟨rfl, rfl⟩ := hx
        simp only [Value.inst.injEq] at e
        subst e
        rw [hVIf] at hf
        cases hf
        rw [hk] at hVk
        cases hVk
  | gep v p hg hp ih =>
    obtain ⟨j, K, idx, rfl, hf, hk⟩ := asGEP_eq_some.1 hg
    have hja : j ≠ I.id := h.ne_of_not_cast hf (by simp [Instruction.isCast, hk])
    constructor
    · intro hc
      rcases hc j rfl with hG | e
      · rw [if_neg (by simpa using hja)]
        have hfG := h.find_image hf hG
        have hK' := (Function.mem_insts_of_find hfG).1
        have hk' : (K.replaceUsesOfWith I.id (S.inserted F I).2).kind =
            .gep (if p = .inst I.id then (S.inserted F I).2 else p)
              (idx.map (fun v => if v = .inst I.id then (S.inserted F I).2 else v)) := by
          rw [replaceUsesOfWith_kind, hk]; rfl
        refine FromAlloca.gep _ _ (asGEP_eq_some.2 ⟨j, _, _, rfl, hfG, hk'⟩) (ih.1 ?_)
        exact hcond _ hK' p (by rw [hk']; simp [InstKind.operands])
      · exact absurd e hja
    · intro P2I P hSC e
      subst hSC
      rcases hS with ⟨_, _, _, _, _, hx, -⟩ | ⟨_, _, hx, -⟩ | ⟨Ptr, hx, hVk⟩
      · cases hx
      · cases hx
      · simp only [Shape.C.injEq] at hx
        obtain ⟨rfl, rfl⟩ := hx
        simp only [Value.inst.injEq] at e
        subst e
        rw [hVIf] at hf
        cases hf
        rw [hk] at hVk
        cases hVk
  | cast v s hc hs ih =>
    obtain ⟨j, K, op, rfl, hf, hk⟩ := asCast_eq_some.1 hc
    constructor
    · intro hcnd
      by_cases hja : j = I.id
      · subst hja
        rw [if_pos rfl]
        rw [h.find_self] at hf
        cases hf
        rw [hkI] at hk
        cases hk
        rcases hS with ⟨Op0, Idx, P2I, Ptr, T, rfl, hVk, -⟩ | ⟨Arg, Idx, rfl, hVk, -⟩ |
          ⟨Ptr, rfl, hVk⟩
        · rw [hVe] at hs
          exact absurd hs (FromAlloca.not_binop hVIf hVk)
        · rw [hVe] at hs
          exact absurd hs (FromAlloca.not_binop hVIf hVk)
        · have hP : FromAlloca G Ptr := ih.2 VI Ptr rfl hVe
          obtain ⟨pj, rfl⟩ := hP.inst
          simp only [Shape.inserted, shapeCInserted]
          split
          · exact hP
          · rename_i hty
            have hN := @RewriteStep.new_mem F G I (.C VI (.inst pj)) es h
              ⟨F.freshId, I.ty, .cast (pointerCastOp (F.typeOf (.inst pj)) I.ty) (.inst pj)⟩
              (by simp [Shape.inserted, shapeCInserted, hty])
            have hne : Value.inst pj ≠ .inst I.id := Shape.C_ptr_ne hw h.mem h.shape
            have hfN := Function.find_of_mem h.nodupG hN
            refine FromAlloca.cast _ (.inst pj) (asCast_eq_some.2 ⟨F.freshId, _,
              pointerCastOp (F.typeOf (.inst pj)) I.ty, rfl, hfN, ?_⟩) hP
            rw [replaceUsesOfWith_kind]
            simp [InstKind.mapOperands, hne]
      · rcases hcnd j rfl with hG | e
        · rw [if_neg (by simpa using hja)]
          have hfG := h.find_image hf hG
          have hK' := (Function.mem_insts_of_find hfG).1
          have hk' : (K.replaceUsesOfWith I.id (S.inserted F I).2).kind =
              .cast op (if s = .inst I.id then (S.inserted F I).2 else s) := by
            rw [replaceUsesOfWith_kind, hk]; rfl
          refine FromAlloca.cast _ _ (asCast_eq_some.2 ⟨j, _, _, rfl, hfG, hk'⟩) (ih.1 ?_)
          exact hcond _ hK' s (by rw [hk']; simp [InstKind.operands])
        · exact absurd e hja
    · intro P2I P hSC e
      subst hSC
      rcases hS with ⟨_, _, _, _, _, hx, -⟩ | ⟨_, _, hx, -⟩ | ⟨Ptr, hx, hVk⟩
      · cases hx
      · cases hx
      · simp only [Shape.C.injEq] at hx
        obtain ⟨rfl, rfl⟩ := hx
        simp only [Value.inst.injEq] at e
        subst e
        rw [hVIf] at hf
        cases hf
        rw [hk] at hVk
        cases hVk
        have hne : s ≠ .inst I.id := Shape.C_ptr_ne hw h.mem h.shape
        have := ih.1 (by
          intro j' hj'
          subst hj'
          left
          obtain ⟨j2, K2, hK2⟩ : ∃ j2 K2, Value.inst j' = .inst j2 ∧ F.find j2 = some K2 := by
            cases hs with
            | alloca _ hh => obtain ⟨a, b, _, e1, e2, -⟩ := isAlloca_eq_true.1 hh; exact ⟨a, b, e1, e2⟩
            | gep _ _ hh _ => obtain ⟨a, b, _, e1, e2, -⟩ := asGEP_eq_some.1 hh; exact ⟨a, b, e1, e2⟩
            | cast _ _ hh _ => obtain ⟨a, b, _, e1, e2, -⟩ := asCast_eq_some.1 hh; exact ⟨a, b, e1, e2⟩
          obtain ⟨e1, hf2⟩ := hK2
          cases e1
          obtain ⟨hm2, hid2⟩ := Function.mem_insts_of_find hf2
          rw [← hid2]
          refine h.kept hm2 (by rw [hid2]; simpa using hne) ?_
          intro hmem
          have := h.orphans hmem
          simp only [Shape.orphans, List.mem_singleton] at this
          have hpos := (hw.2.2.2 K (hw.mem_iff.2 (Function.mem_insts_of_find hVIf).1) j'
            (mem_opIds.2 (by simp [hk, InstKind.operands]))).2 (isPHI_of_cast hk)
          rw [hid2] at this
          rw [this] at hpos
          exact Nat.lt_irrefl _ hpos)
        rw [if_neg hne] at this
        exact this

theorem FromAlloca.of_rootOf {F : Function} {v r : Value} (h : RootOf F v r)
    (hr : isAlloca F r = true) : FromAlloca F v := by
  induction h with
  | root v _ _ => exact FromAlloca.alloca v hr
  | gep v p r hg _ ih => exact FromAlloca.gep v p hg (ih hr)
  | cast v s r hc _ ih => exact FromAlloca.cast v s hc (ih hr)

theorem isCast_false_of_accessOf {J : Instruction} {p : Value} {ip : InsertPoint}
    (h : accessOf J = some (p, ip)) : J.isCast = false ∧ J.isAddOrPtrToInt = false := by
  unfold accessOf at h
  cases hk : J.kind <;> rw [hk] at h <;>
    simp [Instruction.isCast, Instruction.isAddOrPtrToInt, hk] at h ⊢

theorem accessOf_replaceUsesOfWith {J : Instruction} {p : Value} {ip : InsertPoint}
    (h : accessOf J = some (p, ip)) (old : Nat) (New : Value) :
    accessOf (J.replaceUsesOfWith old New) =
        some (if p = .inst old then New else p, ip) ∧
      (if p = .inst old then New else p) ∈ (J.replaceUsesOfWith old New).kind.operands := by
  unfold accessOf at h ⊢
  rw [replaceUsesOfWith_kind]
  cases hk : J.kind <;> rw [hk] at h <;>
    simp [InstKind.mapOperands, InstKind.operands] at h ⊢
  · obtain ⟨rfl, rfl⟩ := h; simp
  · obtain ⟨rfl, rfl⟩ := h; simp

/-- One execution of the loop body: an access whose pointer is derived from an alloca is
still there, and its pointer is still derived from an alloca. -/
theorem PeepholeOptimizationPass.visit_fromAlloca {H : Function} {O : List Instruction}
    (hw : Ordered H O) {I : Instruction} (hI : I ∈ H.insts) {G : Function}
    (hG : PeepholeOptimizationPass.visit H I = some G) {J : Instruction} (hJ : J ∈ H.insts)
    {p : Value} {ip : InsertPoint} (ha : accessOf J = some (p, ip)) (hp : FromAlloca H p) :
    ∃ J' p', J' ∈ G.insts ∧ J'.id = J.id ∧ accessOf J' = some (p', ip) ∧ FromAlloca G p' := by
  cases hm : matchShape H I with
  | none =>
    rw [PeepholeOptimizationPass.visit_noop hm] at hG
    cases hG
    exact ⟨J, p, hJ, rfl, ha, hp⟩
  | some S =>
    obtain ⟨es, h⟩ := RewriteStep.of_visit hw hI hm hG
    obtain ⟨hc, ho⟩ := isCast_false_of_accessOf ha
    have h1 : J.id ≠ I.id := h.ne_of_not_cast (Function.find_of_mem h.nodupF hJ) hc
    have h2 : J.id ∉ es := by
      intro he
      obtain ⟨X, hX, hXid, hXk⟩ := h.orphan_mem he
      have := eq_of_mem_of_id_eq h.nodupF hX hJ hXid
      rw [this, ho] at hXk
      cases hXk
    have hJ' := h.image_of_mem hJ (h.kept hJ h1 h2)
    obtain ⟨ha', hop⟩ := accessOf_replaceUsesOfWith ha I.id (S.inserted H I).2
    refine ⟨_, _, hJ', rfl, ha', (h.fromAlloca hw p hp).1 ?_⟩
    intro j hj
    subst hj
    by_cases e : j = I.id
    · exact Or.inr e
    · rw [if_neg (by simpa using e)] at hop
      exact Or.inl (h.operand_defined hJ' hop)

/-- C11, in the direction that holds.  For a well-formed function the canonicalization pass
returns a function in which every load and store of the input is still present, and when the
provenance root of its pointer operand was an alloca before the pass, the provenance root of
its pointer operand is an alloca after the pass: an access the fence pass would not fence
before the pass it would not fence after it. -/
theorem PeepholeOptimizationPass_keeps_alloca_roots (F : Function) (hw : WellFormed F) :
    ∃ G, PeepholeOptimizationPass.runOnFunction F = some G ∧
      ∀ I ∈ F.insts, ∀ p ip r, accessOf I = some (p, ip) → RootOf F p r →
        isAlloca F r = true →
        ∃ I' p' r', I' ∈ G.insts ∧ I'.id = I.id ∧ accessOf I' = some (p', ip) ∧
          RootOf G p' r' ∧ isAlloca G r' = true ∧ ¬ NeedsFence G I' := by
  obtain ⟨G, hG, -, hQ, -⟩ := PeepholeOptimizationPass.runOnBlocks_inv
    (fun H => ∀ I ∈ F.insts, ∀ p ip, accessOf I = some (p, ip) → FromAlloca F p →
      ∃ I' p', I' ∈ H.insts ∧ I'.id = I.id ∧ accessOf I' = some (p', ip) ∧ FromAlloca H p')
    (fun H O I G hO hI hG hQ J hJ p ip ha hp => by
      obtain ⟨J1, p1, hJ1, hid1, ha1, hp1⟩ := hQ J hJ p ip ha hp
      obtain ⟨J2, p2, hJ2, hid2, ha2, hp2⟩ :=
        PeepholeOptimizationPass.visit_fromAlloca hO hI hG hJ1 ha1 hp1
      exact ⟨J2, p2, hJ2, hid2.trans hid1, ha2, hp2⟩)
    (List.range F.blocks.length) F hw
    (fun I hI p ip ha hp => ⟨I, p, hI, rfl, ha, hp⟩)
  refine ⟨G, hG, fun I hI p ip r ha hroot hal => ?_⟩
  obtain ⟨I', p', hI', hid, ha', hp'⟩ := hQ I hI p ip ha (FromAlloca.of_rootOf hroot hal)
  obtain ⟨r', hr', hal'⟩ := hp'.rootOf
  exact ⟨I', p', r', hI', hid, ha', hr', hal', FromAlloca.not_needsFence ha' hp'⟩

/-- Witness for C11 on `sampleAllocaShapeC`. -/
theorem PeepholeOptimizationPass_keeps_alloca_roots_witness :
    WellFormed sampleAllocaShapeC ∧
    ∃ G, PeepholeOptimizationPass.runOnFunction sampleAllocaShapeC = some G ∧
      ∀ I ∈ sampleAllocaShapeC.insts, ∀ p ip r, accessOf I = some (p, ip) →
        RootOf sampleAllocaShapeC p r → isAlloca sampleAllocaShapeC r = true →
        ∃ I' p' r', I' ∈ G.insts ∧ I'.id = I.id ∧ accessOf I' = some (p', ip) ∧
          RootOf G p' r' ∧ isAlloca G r' = true ∧ ¬ NeedsFence G I' :=
  ⟨WellFormedInLayout.wellFormed (by decide),
    PeepholeOptimizationPass_keeps_alloca_roots sampleAllocaShapeC
      (WellFormedInLayout.wellFormed (by decide))⟩

/-- The statement of C11 as written fails on `sampleAllocaRoundTrip`, a well-formed function:
before the pass the walk from the pointer `%7` of the load `%8` stops at the addition `%6`,
not an alloca, so the fence pass fences the load; after the pass the load goes through
`bitcast (getelementptr %4, 16)` and the walk reaches the alloca `%1`, so it would not. -/
theorem PeepholeOptimizationPass_keeps_alloca_roots_counterexample :
    WellFormedInLayout sampleAllocaRoundTrip ∧
    sampleAllocaRoundTrip.find 8 = some ⟨8, .int 32, .load (.inst 7)⟩ ∧
    provenanceRoot sampleAllocaRoundTrip 9 (.inst 7) = some (.inst 6) ∧
    isAlloca sampleAllocaRoundTrip (.inst 6) = false ∧
    needsFence sampleAllocaRoundTrip 9 ⟨8, .int 32, .load (.inst 7)⟩ = true ∧
    (PeepholeOptimizationPass.runOnFunction sampleAllocaRoundTrip).map
      (fun G => (G.find 8, provenanceRoot G 9 (.inst 11), isAlloca G (.inst 1),
        needsFence G 9 ⟨8, .int 32, .load (.inst 11)⟩)) =
      some (some ⟨8, .int 32, .load (.inst 11)⟩, some (.inst 1), true, false) := by
  decide


theorem Ty.not_int_of_ptr {T : Ty} (h : T.isPtrOrPtrVectorTy = true) :
    T.isIntOrIntVectorTy = false := by
  cases T with
  | vec n e => cases e <;> simp_all [Ty.isPtrOrPtrVectorTy, Ty.isIntOrIntVectorTy]
  | _ => simp_all [Ty.isPtrOrPtrVectorTy, Ty.isIntOrIntVectorTy]

theorem Ty.isIntegerTy_of_not_vector {T : Ty} (h : T.isIntOrIntVectorTy = true)
    (hv : T.isVectorTy = false) : T.isIntegerTy = true := by
  cases T <;> simp_all [Ty.isIntOrIntVectorTy, Ty.isVectorTy, Ty.isIntegerTy]

theorem Ty.not_vector_of_integer {T : Ty} (h : T.isIntegerTy = true) :
    T.isVectorTy = false ∧ T.isIntOrIntVectorTy = true := by
  cases T <;> simp_all [Ty.isIntOrIntVectorTy, Ty.isVectorTy, Ty.isIntegerTy]

theorem wellTyped_intToPtr {F : Function} {I : Instruction} {V : Value}
    (hk : I.kind = .cast .IntToPtr V) :
    I.wellTyped F = true ↔
      ∃ T, F.typeOf V = some T ∧ T.isIntOrIntVectorTy = true ∧
        I.ty.isPtrOrPtrVectorTy = true ∧ T.isVectorTy = I.ty.isVectorTy := by
  unfold Instruction.wellTyped
  rw [hk]
  simp only [if_true]
  cases h : F.typeOf V <;> simp [and_assoc]

theorem wellTyped_add {F : Function} {I : Instruction} {l r : Value}
    (hk : I.kind = .binop .Add l r) :
    I.wellTyped F = true ↔
      ∃ Tl Tr, F.typeOf l = some Tl ∧ F.typeOf r = some Tr ∧
        Tl.isIntOrIntVectorTy = true ∧ Tr.isIntOrIntVectorTy = true := by
  unfold Instruction.wellTyped
  rw [hk]
  simp only [if_true]
  cases h1 : F.typeOf l <;> cases h2 : F.typeOf r <;> simp

theorem wellTyped_of_not_intToPtr_add {F : Function} {I : Instruction}
    (h1 : I.isIntToPtr = false) (h2 : ∀ l r, I.kind ≠ .binop .Add l r) :
    I.wellTyped F = true := by
  unfold Instruction.wellTyped
  cases hk : I.kind with
  | cast op V =>
    by_cases e : op = .IntToPtr
    · subst e; simp [Instruction.isIntToPtr, hk] at h1
    · simp [e]
  | binop op l r =>
    by_cases e : op = .Add
    · subst e; exact absurd hk (h2 l r)
    · simp [e]
  | _ => rfl

theorem matchShape_of_C {F : Function} {J VI : Instruction} {V P : Value}
    (hk : J.kind = .cast .IntToPtr V) (hV : asInstruction F V = some VI)
    (hVk : VI.kind = .cast .PtrToInt P) : matchShape F J = some (.C VI P) := by
  simp [matchShape, hk, hV, hVk]

theorem matchShape_of_B {F : Function} {J VI : Instruction} {V Arg Idx : Value}
    (hk : J.kind = .cast .IntToPtr V) (hV : asInstruction F V = some VI)
    (hVk : VI.kind = .binop .Add Arg Idx) (ha : isIntegerArgument Arg = true) :
    matchShape F J = some (.B VI Arg Idx) := by
  simp [matchShape, hk, hV, hVk, asPtrToInt_eq_none_of_arg ha, ha]

theorem matchShape_of_A {F : Function} {J VI P2I : Instruction} {V Op0 Idx Ptr : Value} {T : Ty}
    (hk : J.kind = .cast .IntToPtr V) (hV : asInstruction F V = some VI)
    (hVk : VI.kind = .binop .Add Op0 Idx) (hp : asPtrToInt F Op0 = some (P2I, Ptr))
    (hs : intToPtrSrcTy F Ptr = some T) (hT : T.isIntegerTy = true) :
    matchShape F J = some (.A VI P2I Ptr Idx) := by
  simp [matchShape, hk, hV, hVk, hp, hs, hT]

theorem replaceUsesOfWith_cast_inv {old : Nat} {New : Value} {K : Instruction} {op : CastOp}
    {v' : Value} (h : (K.replaceUsesOfWith old New).kind = .cast op v') :
    ∃ v, K.kind = .cast op v ∧ v' = if v = .inst old then New else v := by
  rw [replaceUsesOfWith_kind] at h
  cases hk : K.kind <;> rw [hk] at h <;> simp [InstKind.mapOperands] at h
  obtain ⟨rfl, rfl⟩ := h
  exact ⟨_, rfl, rfl⟩

theorem replaceUsesOfWith_binop_inv {old : Nat} {New : Value} {K : Instruction}
    {op : BinOpcode} {l' r' : Value}
    (h : (K.replaceUsesOfWith old New).kind = .binop op l' r') :
    ∃ l r, K.kind = .binop op l r ∧ (l' = if l = .inst old then New else l) ∧
      (r' = if r = .inst old then New else r) := by
  rw [replaceUsesOfWith_kind] at h
  cases hk : K.kind <;> rw [hk] at h <;> simp [InstKind.mapOperands] at h
  obtain ⟨rfl, rfl, rfl⟩ := h
  exact ⟨_, _, rfl, rfl, rfl⟩

theorem Function.exists_find_of_mem_ids {F : Function} (hnd : F.ids.Nodup) {j : Nat}
    (h : j ∈ F.ids) : ∃ K, F.find j = some K ∧ K ∈ F.insts ∧ K.id = j := by
  obtain ⟨K, hK, rfl⟩ := List.mem_map.1 h
  exact ⟨K, Function.find_of_mem hnd hK, hK, rfl⟩

/-- Every instruction after one rewrite is an instruction of before that stays, or one of the
inserted instructions, with the uses of the matched `inttoptr` redirected. -/
theorem RewriteStep.mem_cases {F G : Function} {I : Instruction} {S : Shape} {es : List Nat}
    (h : RewriteStep F G I S es) {K' : Instruction} (hK' : K' ∈ G.insts) :
    ∃ K0, K0.replaceUsesOfWith I.id (S.inserted F I).2 = K' ∧
      ((K0 ∈ F.insts ∧ K0.id ≠ I.id) ∨ K0 ∈ (S.inserted F I).1) := by
  rw [h.insts, mem_stepL] at hK'
  obtain ⟨hne, -, K0, hK0, rfl⟩ := hK'
  refine ⟨K0, rfl, ?_⟩
  rcases hK0 with hK0 | ⟨hK0, -⟩
  · exact Or.inl ⟨hK0, hne⟩
  · exact Or.inr hK0

/-- An identity defined before the rewrite and found after it names the same instruction,
with the uses of the matched `inttoptr` redirected. -/
theorem RewriteStep.find_old {F G : Function} {I : Instruction} {S : Shape} {es : List Nat}
    (h : RewriteStep F G I S es) {j : Nat} (hj : j ∈ F.ids) {K' : Instruction}
    (hf : G.find j = some K') :
    ∃ K, F.find j = some K ∧ K ∈ F.insts ∧
      K' = K.replaceUsesOfWith I.id (S.inserted F I).2 := by
  obtain ⟨K, hK, hKm, -⟩ := Function.exists_find_of_mem_ids h.nodupF hj
  obtain ⟨hm', hid'⟩ := Function.mem_insts_of_find hf
  have hjG : j ∈ G.ids := hid' ▸ Function.mem_ids_of_mem hm'
  have := h.find_image hK hjG
  rw [hf] at this
  cases this
  exact ⟨K, hK, hKm, rfl⟩

/-- The type of a value defined on both sides of a rewrite is the same on both sides. -/
theorem RewriteStep.typeOf_eq {F G : Function} {I : Instruction} {S : Shape} {es : List Nat}
    (h : RewriteStep F G I S es) {v : Value} {T : Ty} (hF : F.typeOf v = some T)
    (hG : ∀ j, v = .inst j → j ∈ G.ids) : G.typeOf v = some T := by
  cases v with
  | inst j =>
    simp only [Function.typeOf, Option.map_eq_some'] at hF ⊢
    obtain ⟨K, hK, hT⟩ := hF
    exact ⟨_, h.find_image hK (hG j rfl), hT⟩
  | arg _ _ => exact hF
  | const _ => exact hF

theorem RewriteStep.typeOf_reflect {F G : Function} {I : Instruction} {S : Shape}
    {es : List Nat} (h : RewriteStep F G I S es) {v : Value} {T : Ty}
    (hG : G.typeOf v = some T) (hF : ∀ j, v = .inst j → j ∈ F.ids) : F.typeOf v = some T := by
  cases v with
  | inst j =>
    simp only [Function.typeOf, Option.map_eq_some'] at hG ⊢
    obtain ⟨K', hK', hT⟩ := hG
    obtain ⟨K, hK, -, rfl⟩ := h.find_old (hF j rfl) hK'
    exact ⟨K, hK, hT⟩
  | arg _ _ => exact hG
  | const _ => exact hG

/-- The matched instruction is an `inttoptr`; in a well-typed function its result is a
pointer and no integer. -/
theorem RewriteStep.self_typed {F G : Function} {I : Instruction} {S : Shape} {es : List Nat}
    (h : RewriteStep F G I S es) (ht : WellTyped F) :
    ∃ V T, I.kind = .cast .IntToPtr V ∧ F.typeOf V = some T ∧
      T.isIntOrIntVectorTy = true ∧ I.ty.isPtrOrPtrVectorTy = true ∧
      T.isVectorTy = I.ty.isVectorTy ∧ F.typeOf (.inst I.id) = some I.ty := by
  obtain ⟨V, VI, hkI, -, -⟩ := matchShape_eq_some h.shape
  obtain ⟨T, h1, h2, h3, h4⟩ := (wellTyped_intToPtr hkI).1 (ht I h.mem)
  refine ⟨V, T, hkI, h1, h2, h3, h4, ?_⟩
  simp [Function.typeOf, h.find_self]

/-- A value of integer type is not the matched `inttoptr`. -/
theorem RewriteStep.ne_of_int {F G : Function} {I : Instruction} {S : Shape} {es : List Nat}
    (h : RewriteStep F G I S es) (ht : WellTyped F) {v : Value} {T : Ty}
    (hv : F.typeOf v = some T) (hT : T.isIntOrIntVectorTy = true) : v ≠ .inst I.id := by
  obtain ⟨-, -, -, -, -, hp, -, hty⟩ := h.self_typed ht
  rintro rfl
  rw [hty] at hv
  cases hv
  rw [Ty.not_int_of_ptr hp] at hT
  cases hT

theorem isIntToPtr_iff {K : Instruction} :
    K.isIntToPtr = true ↔ ∃ V, K.kind = .cast .IntToPtr V := by
  unfold Instruction.isIntToPtr
  cases hk : K.kind with
  | cast op V => cases op <;> simp
  | _ => simp

/-- The only `inttoptr` a rewrite inserts is the one of shape B: it converts the integer
argument to `i8*`, and it is not the value that takes the place of the matched instruction. -/
theorem Shape.inserted_intToPtr {F : Function} {I : Instruction} {S : Shape}
    (hm : matchShape F I = some S) :
    ∀ N ∈ (S.inserted F I).1, N.isIntToPtr = true →
      (∃ i t, N.kind = .cast .IntToPtr (.arg i t) ∧ t.isIntegerTy = true) ∧
        N.ty = BytePtrTy ∧ (S.inserted F I).2 ≠ .inst N.id := by
  obtain ⟨V, VI, hk, hV, hS⟩ := matchShape_eq_some hm
  rcases hS with ⟨Op0, Idx, P2I, Ptr, T, rfl, -, -, -, -⟩ |
    ⟨Arg, Idx, rfl, hVk, -, harg⟩ | ⟨Ptr, rfl, -⟩
  · intro N hN hi
    have := ((shapeAInserted_facts _ _ _ _ _).1 N hN).2.2
    rw [hi] at this; cases this
  · intro N hN hi
    cases Arg with
    | inst j => simp [isIntegerArgument] at harg
    | const c => simp [isIntegerArgument] at harg
    | arg i t =>
      simp only [isIntegerArgument] at harg
      simp only [Shape.inserted, shapeBInserted] at hN ⊢
      split_ifs at hN ⊢ with hT
      · simp only [List.mem_cons, List.mem_singleton, List.not_mem_nil, or_false] at hN
        rcases hN with rfl | rfl
        · exact ⟨⟨i, t, rfl, harg⟩, rfl, by simp⟩
        · simp [Instruction.isIntToPtr] at hi
      · simp only [List.mem_cons, List.mem_singleton, List.not_mem_nil, or_false] at hN
        rcases hN with rfl | rfl | rfl
        · exact ⟨⟨i, t, rfl, harg⟩, rfl, by simp⟩
        · simp [Instruction.isIntToPtr] at hi
        · exact absurd (isIntToPtr_iff.1 hi) (by
            rintro ⟨V, hV⟩
            simp only [InstKind.cast.injEq] at hV
            exact pointerCastOp_ne_intToPtr _ _ hV.1)
  · intro N hN hi
    have := ((shapeCInserted_facts _ _ _ _).1 N hN).2.2
    rw [hi] at this; cases this

theorem isIntToPtr_replaceUsesOfWith (old : Nat) (New : Value) (K : Instruction) :
    (K.replaceUsesOfWith old New).isIntToPtr = K.isIntToPtr := by
  unfold Instruction.isIntToPtr
  rw [replaceUsesOfWith_kind]
  cases hk : K.kind with
  | cast op V => cases op <;> simp [InstKind.mapOperands]
  | _ => simp [InstKind.mapOperands]

/-- One rewrite keeps the function well typed. -/
theorem RewriteStep.keeps_types {F G : Function} {I : Instruction} {S : Shape} {es : List Nat}
    (h : RewriteStep F G I S es) (ht : WellTyped F) : WellTyped G := by
  intro K' hK'
  have hdef : ∀ j, Value.inst j ∈ K'.kind.operands → j ∈ G.ids :=
    fun j hj => h.operand_defined hK' hj
  obtain ⟨K0, rfl, hK0 | hK0⟩ := h.mem_cases hK'
  · obtain ⟨hK0m, -⟩ := hK0
    have htK := ht K0 hK0m
    by_cases hi : ∃ V, K0.kind = .cast .IntToPtr V
    · obtain ⟨V, hk⟩ := hi
      obtain ⟨T, h1, h2, h3, h4⟩ := (wellTyped_intToPtr hk).1 htK
      have hV := h.ne_of_int ht h1 h2
      have hk' : (K0.replaceUsesOfWith I.id (S.inserted F I).2).kind = .cast .IntToPtr V := by
        rw [replaceUsesOfWith_kind, hk]; simp [InstKind.mapOperands, hV]
      rw [hk'] at hdef
      exact (wellTyped_intToPtr hk').2 ⟨T, h.typeOf_eq h1 (fun j e => hdef j (by
        simp [InstKind.operands, e])), h2, h3, h4⟩
    · by_cases ha : ∃ l r, K0.kind = .binop .Add l r
      · obtain ⟨l, r, hk⟩ := ha
        obtain ⟨Tl, Tr, h1, h2, h3, h4⟩ := (wellTyped_add hk).1 htK
        have hl := h.ne_of_int ht h1 h3
        have hr := h.ne_of_int ht h2 h4
        have hk' : (K0.replaceUsesOfWith I.id (S.inserted F I).2).kind = .binop .Add l r := by
          rw [replaceUsesOfWith_kind, hk]; simp [InstKind.mapOperands, hl, hr]
        rw [hk'] at hdef
        exact (wellTyped_add hk').2 ⟨Tl, Tr,
          h.typeOf_eq h1 (fun j e => hdef j (by simp [InstKind.operands, e])),
          h.typeOf_eq h2 (fun j e => hdef j (by simp [InstKind.operands, e])), h3, h4⟩
      · apply wellTyped_of_not_intToPtr_add
        · rw [isIntToPtr_replaceUsesOfWith]
          cases hb : K0.isIntToPtr with
          | false => rfl
          | true => exact absurd (isIntToPtr_iff.1 hb) hi
        · intro l r hk'
          obtain ⟨l0, r0, hk0, -, -⟩ := replaceUsesOfWith_binop_inv hk'
          exact ha ⟨l0, r0, hk0⟩
  · cases hb : K0.isIntToPtr with
    | false =>
      apply wellTyped_of_not_intToPtr_add
      · rw [isIntToPtr_replaceUsesOfWith, hb]
      · intro l r hk'
        obtain ⟨l0, r0, hk0, -, -⟩ := replaceUsesOfWith_binop_inv hk'
        rcases ((Shape.inserted_facts F I S).1 K0 hK0).2 with hc | hg
        · simp [Instruction.isCast, hk0] at hc
        · simp [Instruction.isGEP, hk0] at hg
    | true =>
      obtain ⟨⟨i, t, hk, hT⟩, hty, -⟩ := Shape.inserted_intToPtr h.shape K0 hK0 hb
      have hk' : (K0.replaceUsesOfWith I.id (S.inserted F I).2).kind =
          .cast .IntToPtr (.arg i t) := by
        rw [replaceUsesOfWith_kind, hk]; simp [InstKind.mapOperands]
      refine (wellTyped_intToPtr hk').2 ⟨t, rfl, (Ty.not_vector_of_integer hT).2, ?_, ?_⟩
      · show K0.ty.isPtrOrPtrVectorTy = true
        rw [hty]; rfl
      · show t.isVectorTy = K0.ty.isVectorTy
        rw [hty, (Ty.not_vector_of_integer hT).1]; rfl

/-- When the value that takes the place of the matched instruction is an instruction of
before, it has the type of the matched instruction (shape C without a cast). -/
theorem Shape.inserted_final_old {F : Function} {I : Instruction} {S : Shape} {x : Nat}
    (hfin : (S.inserted F I).2 = .inst x) (hx : x ∈ F.ids) :
    F.typeOf (.inst x) = some I.ty := by
  have hlt := Function.lt_freshId hx
  cases S with
  | A BinOp P2I Ptr Idx =>
    simp only [Shape.inserted, shapeAInserted] at hfin
    split_ifs at hfin <;> simp only [Value.inst.injEq] at hfin <;> omega
  | B BinOp Arg Idx =>
    simp only [Shape.inserted, shapeBInserted] at hfin
    split_ifs at hfin <;> simp only [Value.inst.injEq] at hfin <;> omega
  | C P2I P =>
    simp only [Shape.inserted, shapeCInserted] at hfin
    split_ifs at hfin with hty
    · simp only at hfin
      rw [← hfin]
      exact hty
    · cases P with
      | const c => simp at hfin
      | inst j => simp only [Value.inst.injEq] at hfin; omega
      | arg i t => simp only [Value.inst.injEq] at hfin; omega

/-- An instruction that stays and matches a shape after one rewrite matched a shape before
it, with the same addition and `ptrtoint`, in a well-typed function: a rewrite makes no
instruction a candidate. -/
theorem RewriteStep.matchShape_reflect {F G : Function} {I : Instruction} {S : Shape}
    {es : List Nat} (h : RewriteStep F G I S es) {O : List Instruction} (hw : Ordered F O)
    (ht : WellTyped F) {J : Instruction} (hJ : J ∈ F.insts) {S' : Shape}
    (hm : matchShape G (J.replaceUsesOfWith I.id (S.inserted F I).2) = some S') :
    ∃ S0, matchShape F J = some S0 ∧ S0.orphans = S'.orphans := by
  have opF : ∀ K ∈ F.insts, ∀ j, Value.inst j ∈ K.kind.operands → j ∈ F.ids :=
    fun K hK j hj => hw.mem_ids_iff.1 (hw.2.2.2 K (hw.mem_iff.2 hK) j (mem_opIds.2 hj)).1
  obtain ⟨V', VI', hk', hV', hS'⟩ := matchShape_eq_some hm
  obtain ⟨V, hk, rfl⟩ := replaceUsesOfWith_cast_inv hk'
  obtain ⟨T, hT1, hT2, -, -⟩ := (wellTyped_intToPtr hk).1 (ht J hJ)
  have hVne := h.ne_of_int ht hT1 hT2
  rw [if_neg hVne] at hV'
  obtain ⟨v, rfl, hfv'⟩ := asInstruction_eq_some.1 hV'
  have hvF : v ∈ F.ids := opF J hJ v (by rw [hk]; simp [InstKind.operands])
  obtain ⟨VI, hfv, hVIm, rfl⟩ := h.find_old hvF hfv'
  have hVF : asInstruction F (.inst v) = some VI := hfv
  rcases hS' with ⟨Op0', Idx', P2I', Ptr', T', rfl, hVk', hp', hs', hT'⟩ |
    ⟨Arg', Idx', rfl, hVk', -, harg'⟩ | ⟨Ptr', rfl, hVk'⟩
  · obtain ⟨Op0, Idx, hVk, rfl, rfl⟩ := replaceUsesOfWith_binop_inv hVk'
    obtain ⟨Tl, Tr, hl1, hr1, hl2, hr2⟩ := (wellTyped_add hVk).1 (ht VI hVIm)
    have hOne := h.ne_of_int ht hl1 hl2
    rw [if_neg hOne] at hp'
    obtain ⟨hP', hPk'⟩ := asPtrToInt_eq_some.1 hp'
    obtain ⟨p, rfl, hfp'⟩ := asInstruction_eq_some.1 hP'
    have hpF : p ∈ F.ids := opF VI hVIm p (by rw [hVk]; simp [InstKind.operands])
    obtain ⟨P2I, hfp, hP2Im, rfl⟩ := h.find_old hpF hfp'
    obtain ⟨Ptr, hPk, rfl⟩ := replaceUsesOfWith_cast_inv hPk'
    have hpt : asPtrToInt F (.inst p) = some (P2I, Ptr) := asPtrToInt_of_kind hfp hPk
    obtain ⟨X', src', hX', hXk', hsT'⟩ := intToPtrSrcTy_eq_some.1 hs'
    obtain ⟨x, hfin, hfx'⟩ := asInstruction_eq_some.1 hX'
    obtain ⟨hX'm, hX'id⟩ := Function.mem_insts_of_find hfx'
    by_cases hPtr : Ptr = .inst I.id
    · subst hPtr
      obtain ⟨VI0, TI, hIk, hIT, hIint, hIptr, hIvec, hIty⟩ := h.self_typed ht
      have hsF : intToPtrSrcTy F (.inst I.id) = some TI :=
        intToPtrSrcTy_eq_some.2 ⟨I, VI0, h.find_self, hIk, hIT⟩
      suffices hnv : TI.isVectorTy = false from
        ⟨_, matchShape_of_A hk hVF hVk hpt hsF (Ty.isIntegerTy_of_not_vector hIint hnv), rfl⟩
      rw [if_pos rfl] at hfin
      obtain ⟨X0, hX0eq, hX0 | hX0⟩ := h.mem_cases hX'm
      · obtain ⟨hX0m, -⟩ := hX0
        subst hX0eq
        obtain ⟨src, hX0k, rfl⟩ := replaceUsesOfWith_cast_inv hXk'
        obtain ⟨Tx, hx1, hx2, hx3, hx4⟩ := (wellTyped_intToPtr hX0k).1 (ht X0 hX0m)
        have hsne := h.ne_of_int ht hx1 hx2
        rw [if_neg hsne] at hsT'
        have hsF' : F.typeOf src = some T' := h.typeOf_reflect hsT'
          (fun j e => opF X0 hX0m j (by rw [hX0k]; simp [InstKind.operands, e]))
        rw [hx1] at hsF'
        cases hsF'
        have hxid : X0.id = x := hX'id
        have hxF : x ∈ F.ids := hxid ▸ Function.mem_ids_of_mem hX0m
        have hty := Shape.inserted_final_old hfin hxF
        have hfx : F.find x = some X0 := hxid ▸ Function.find_of_mem h.nodupF hX0m
        simp only [Function.typeOf, hfx, Option.map_some', Option.some.injEq] at hty
        rw [hIvec, ← hty, ← hx4]
        exact (Ty.not_vector_of_integer hT').1
      · subst hX0eq
        have hi : X0.isIntToPtr = true := by
          rw [← isIntToPtr_replaceUsesOfWith I.id (S.inserted F I).2 X0]
          exact isIntToPtr_iff.2 ⟨_, hXk'⟩
        have hxid : X0.id = x := hX'id
        exact absurd (hxid ▸ hfin) (Shape.inserted_intToPtr h.shape X0 hX0 hi).2.2
    · rw [if_neg hPtr] at hfin
      subst hfin
      have hxF : x ∈ F.ids := opF P2I hP2Im x (by rw [hPk]; simp [InstKind.operands])
      obtain ⟨X, hfx, hXm, rfl⟩ := h.find_old hxF hfx'
      obtain ⟨src, hXk, rfl⟩ := replaceUsesOfWith_cast_inv hXk'
      obtain ⟨Tx, hx1, hx2, -, -⟩ := (wellTyped_intToPtr hXk).1 (ht X hXm)
      have hsne := h.ne_of_int ht hx1 hx2
      rw [if_neg hsne] at hsT'
      have hsF' : F.typeOf src = some T' := h.typeOf_reflect hsT'
        (fun j e => opF X hXm j (by rw [hXk]; simp [InstKind.operands, e]))
      have hsF : intToPtrSrcTy F (.inst x) = some T' :=
        intToPtrSrcTy_eq_some.2 ⟨X, src, hfx, hXk, hsF'⟩
      exact ⟨_, matchShape_of_A hk hVF hVk hpt hsF hT', rfl⟩
  · obtain ⟨Op0, Idx, hVk, hA, -⟩ := replaceUsesOfWith_binop_inv hVk'
    obtain ⟨Tl, Tr, hl1, hr1, hl2, hr2⟩ := (wellTyped_add hVk).1 (ht VI hVIm)
    have hOne := h.ne_of_int ht hl1 hl2
    rw [if_neg hOne] at hA
    subst hA
    exact ⟨_, matchShape_of_B hk hVF hVk harg', rfl⟩
  · obtain ⟨Ptr, hVk, -⟩ := replaceUsesOfWith_cast_inv hVk'
    exact ⟨_, matchShape_of_C hk hVF hVk, rfl⟩

/-- An inserted instruction matches no shape. -/
theorem RewriteStep.matchShape_new {F G : Function} {I : Instruction} {S : Shape}
    {es : List Nat} (h : RewriteStep F G I S es) {N : Instruction}
    (hN : N ∈ (S.inserted F I).1) :
    matchShape G (N.replaceUsesOfWith I.id (S.inserted F I).2) = none := by
  cases hb : N.isIntToPtr with
  | false =>
    cases hm : matchShape G (N.replaceUsesOfWith I.id (S.inserted F I).2) with
    | none => rfl
    | some S' =>
      obtain ⟨V', VI', hk', -, -⟩ := matchShape_eq_some hm
      have := isIntToPtr_iff.2 ⟨V', hk'⟩
      rw [isIntToPtr_replaceUsesOfWith, hb] at this
      cases this
  | true =>
    obtain ⟨⟨i, t, hk, -⟩, -, -⟩ := Shape.inserted_intToPtr h.shape N hN hb
    simp [matchShape, replaceUsesOfWith_kind, hk, InstKind.mapOperands, asInstruction]

/-- The scan of one block with an invariant that follows the identities still to visit. -/
theorem PeepholeOptimizationPass.scanBlock_pending (Q : List Nat → Function → Prop)
    (bi : Nat)
    (hstep : ∀ H O I G rest, Ordered H O → I ∈ H.block bi →
      PeepholeOptimizationPass.visit H I = some G → Q (I.id :: rest) H → Q rest G) :
    ∀ (pending : List Nat) (F : Function), WellFormed F → F.EndsWith bi pending →
      Q pending F →
      ∃ G, PeepholeOptimizationPass.scanBlock bi pending F = some G ∧ WellFormed G ∧
        Q [] G ∧ G.blocks.length = F.blocks.length := by
  intro pending
  induction pending with
  | nil => intro F hw _ hQ; exact ⟨F, rfl, hw, hQ, rfl⟩
  | cons a rest ih =>
    intro F hw he hQ
    obtain ⟨O, hO⟩ := hw
    obtain ⟨I, hfind, hIb, hIa⟩ := he.find
    have hI : I ∈ F.insts := F.block_subset_insts bi I hIb
    obtain ⟨G, O', hG, hwG, hlen, hend⟩ := PeepholeOptimizationPass.visit_ok hO hI
    have heG : G.EndsWith bi rest := hend bi rest (hIa ▸ he.pos_lt hO) he.tail
    subst hIa
    obtain ⟨H, hH, hwH, hQH, hlenH⟩ := ih G ⟨O', hwG⟩ heG (hstep F O I G rest hO hIb hG hQ)
    refine ⟨H, ?_, hwH, hQH, hlenH.trans hlen⟩
    rw [PeepholeOptimizationPass.scanBlock, hfind]
    simp only [hG]
    cases hn : rest.find? (fun j => F.holds bi j) with
    | none => exact hH
    | some n =>
      have hnr : n ∈ rest := List.mem_of_find?_eq_some hn
      have : G.holds bi n = true := by
        rw [Function.holds_iff]
        obtain ⟨done, hd⟩ := heG
        rw [hd]
        exact List.mem_append_right _ hnr
      simp only [this, if_true]
      exact hH

theorem RewriteStep.block {F G : Function} {I : Instruction} {S : Shape} {es : List Nat}
    (h : RewriteStep F G I S es) (b : Nat) :
    G.block b = stepL I.id (S.inserted F I).1 (S.inserted F I).2 es (F.block b) := by
  rw [← Function.block_map_stepL, ← h.blocks]

/-- An instruction that stays after a rewrite stays in its block. -/
theorem RewriteStep.image_block {F G : Function} {I : Instruction} {S : Shape}
    {es : List Nat} (h : RewriteStep F G I S es) {K : Instruction} {b : Nat}
    (hK : K ∈ F.block b)
    (hG : K.replaceUsesOfWith I.id (S.inserted F I).2 ∈ G.insts) :
    K.replaceUsesOfWith I.id (S.inserted F I).2 ∈ G.block b := by
  rw [h.insts, mem_stepL] at hG
  rw [h.block, mem_stepL]
  exact ⟨hG.1, hG.2.1, K, Or.inl hK, rfl⟩

/-- One execution of the loop body keeps the candidates ahead of the scan. -/
theorem PeepholeOptimizationPass.visit_candidates {bis : List Nat} {bi : Nat}
    {H : Function} {O : List Instruction} {I : Instruction} {G : Function} {rest : List Nat}
    (hO : Ordered H O) (hI : I ∈ H.block bi)
    (hG : PeepholeOptimizationPass.visit H I = some G)
    (hQ : CandidatesAhead bis bi (I.id :: rest) H) : CandidatesAhead bis bi rest G := by
  have hIm : I ∈ H.insts := H.block_subset_insts bi I hI
  obtain ⟨ht, hc⟩ := hQ
  cases hm : matchShape H I with
  | none =>
    rw [PeepholeOptimizationPass.visit_noop hm] at hG
    cases hG
    refine ⟨ht, fun J hJ hS => ?_⟩
    rcases hc J hJ hS with ⟨hb, hp⟩ | hr
    · rcases List.mem_cons.1 hp with e | hp
      · have := eq_of_mem_of_id_eq hO.nodup hJ hIm e
        subst this
        obtain ⟨S, hS⟩ := hS
        rw [hm] at hS
        cases hS
      · exact Or.inl ⟨hb, hp⟩
    · exact Or.inr hr
  | some S =>
    obtain ⟨es, h⟩ := RewriteStep.of_visit hO hIm hm hG
    refine ⟨h.keeps_types ht, fun J' hJ' hS' => ?_⟩
    obtain ⟨S', hS'⟩ := hS'
    obtain ⟨K0, rfl, hK0 | hK0⟩ := h.mem_cases hJ'
    · obtain ⟨hK0m, hne⟩ := hK0
      obtain ⟨S0, hS0, -⟩ := h.matchShape_reflect hO ht hK0m hS'
      rcases hc K0 hK0m ⟨S0, hS0⟩ with ⟨hb, hp⟩ | ⟨b, hb, hKb⟩
      · rcases List.mem_cons.1 hp with e | hp
        · exact absurd e hne
        · exact Or.inl ⟨h.image_block hb hJ', hp⟩
      · exact Or.inr ⟨b, hb, h.image_block hKb hJ'⟩
    · rw [h.matchShape_new hK0] at hS'
      cases hS'

theorem Function.mem_block_of_mem {F : Function} {J : Instruction} (hJ : J ∈ F.insts) :
    ∃ b ∈ List.range F.blocks.length, J ∈ F.block b := by
  obtain ⟨BB, hBB, hJB⟩ := List.mem_flatten.1 hJ
  obtain ⟨b, hb, rfl⟩ := List.mem_iff_getElem.1 hBB
  refine ⟨b, List.mem_range.2 hb, ?_⟩
  unfold Function.block
  rw [List.getD_eq_getElem _ _ hb]
  exact hJB

/-- The loop over the blocks leaves no candidate when every candidate of the input is in one
of the blocks to scan. -/
theorem PeepholeOptimizationPass.runOnBlocks_candidates :
    ∀ (bis : List Nat) (F : Function), WellFormed F → WellTyped F →
      (∀ J ∈ F.insts, (∃ S, matchShape F J = some S) → ∃ b ∈ bis, J ∈ F.block b) →
      ∃ G, PeepholeOptimizationPass.runOnBlocks bis F = some G ∧ WellFormed G ∧
        WellTyped G ∧ (∀ J ∈ G.insts, matchShape G J = none) ∧
        G.blocks.length = F.blocks.length := by
  intro bis
  induction bis with
  | nil =>
    intro F hw ht hc
    refine ⟨F, rfl, hw, ht, fun J hJ => ?_, rfl⟩
    cases hm : matchShape F J with
    | none => rfl
    | some S =>
      obtain ⟨b, hb, -⟩ := hc J hJ ⟨S, hm⟩
      cases hb
  | cons bi rest ih =>
    intro F hw ht hc
    have hQ : CandidatesAhead rest bi ((F.block bi).map (fun I => I.id)) F := by
      refine ⟨ht, fun J hJ hS => ?_⟩
      obtain ⟨b, hb, hJb⟩ := hc J hJ hS
      rcases List.mem_cons.1 hb with rfl | hb
      · exact Or.inl ⟨hJb, List.mem_map.2 ⟨J, hJb, rfl⟩⟩
      · exact Or.inr ⟨b, hb, hJb⟩
    obtain ⟨G, hG, hwG, ⟨htG, hcG⟩, hlen⟩ := PeepholeOptimizationPass.scanBlock_pending
      (CandidatesAhead rest bi) bi
      (fun H O I G rest hO hI hG hQ => PeepholeOptimizationPass.visit_candidates hO hI hG hQ)
      ((F.block bi).map (fun I => I.id)) F hw ⟨[], (List.nil_append _).symm⟩ hQ
    obtain ⟨H, hH, hwH, htH, hnone, hlenH⟩ := ih G hwG htG (fun J hJ hS => by
      rcases hcG J hJ hS with ⟨-, hp⟩ | hr
      · cases hp
      · exact hr)
    refine ⟨H, ?_, hwH, htH, hnone, hlenH.trans hlen⟩
    rw [PeepholeOptimizationPass.runOnBlocks, hG]
    exact hH

/-- C19, with the condition on the input made strong enough.  Canonicalization reaches a
fixpoint in one run on every function whose instructions can be put in an order in which
definitions come before uses, across the blocks and not only inside each of them, and whose
`inttoptr` and `add` instructions have operands of the types the IR verifier asks for: the
pass returns a function in which no instruction satisfies the guard of shape A, B or C, in
particular no `inttoptr` whose source is directly a `ptrtoint` instruction is left, and a
second run returns this function unchanged. -/
theorem PeepholeOptimizationPass_fixpoint (F : Function) (hw : WellFormed F)
    (ht : WellTyped F) :
    ∃ G, PeepholeOptimizationPass.runOnFunction F = some G ∧
      (∀ I ∈ G.insts, matchShape G I = none ∧ ¬ GuardA G I ∧ ¬ GuardB G I ∧ ¬ GuardC G I) ∧
      PeepholeOptimizationPass.runOnFunction G = some G := by
  obtain ⟨G, hG, -, -, hnone, -⟩ := PeepholeOptimizationPass.runOnBlocks_candidates
    (List.range F.blocks.length) F hw ht (fun J hJ _ => Function.mem_block_of_mem hJ)
  refine ⟨G, hG, fun I hI => ⟨hnone I hI, ?_, ?_, ?_⟩,
    PeepholeOptimizationPass.runOnBlocks_noop hnone _⟩
  · intro hA
    obtain ⟨b, p, q, i, hm⟩ := matchShape_A_iff.1 hA
    rw [hnone I hI] at hm
    cases hm
  · intro hB
    obtain ⟨b, a, i, hm⟩ := matchShape_B_iff.1 hB
    rw [hnone I hI] at hm
    cases hm
  · intro hC
    obtain ⟨p, q, hm⟩ := matchShape_C_iff.1 hC
    rw [hnone I hI] at hm
    cases hm

/-- Witness for C19 on `sampleAllocaRoundTrip`, where the scan rewrites `%7` by shape A. -/
theorem PeepholeOptimizationPass_fixpoint_witness :
    WellFormed sampleAllocaRoundTrip ∧ WellTyped sampleAllocaRoundTrip ∧
    PeepholeOptimizationPass.runOnFunction sampleAllocaRoundTrip ≠ some sampleAllocaRoundTrip ∧
    ∃ G, PeepholeOptimizationPass.runOnFunction sampleAllocaRoundTrip = some G ∧
      (∀ I ∈ G.insts, matchShape G I = none ∧ ¬ GuardA G I ∧ ¬ GuardB G I ∧ ¬ GuardC G I) ∧
      PeepholeOptimizationPass.runOnFunction G = some G :=
  ⟨WellFormedInLayout.wellFormed (by decide), by decide, by decide,
    PeepholeOptimizationPass_fixpoint sampleAllocaRoundTrip
      (WellFormedInLayout.wellFormed (by decide)) (by decide)⟩


/-! ## The fence pass block by block -/

theorem forall₂_getD {R : BasicBlock → BasicBlock → Prop} {l1 l2 : List BasicBlock}
    (h : List.Forall₂ R l1 l2) (h0 : R [] []) : ∀ i, R (l1.getD i []) (l2.getD i []) := by
  induction h with
  | nil => intro i; simpa using h0
  | cons hab _ ih =>
    intro i
    cases i with
    | zero => simpa using hab
    | succ i => simpa using ih i

/-- The loop over the blocks of the fence pass, block by block: a block without load and
store comes out as it went in, up to `OptimizeFencesAway` when `OptimizeFences` is set,
whatever the blocks around it hold. -/
theorem FencesPass.runOnBlocks_clean (OptimizeFences : Bool) (fuel : Nat) :
    ∀ (todo done Bs : List BasicBlock),
      FencesPass.runOnBlocks OptimizeFences fuel done todo = some Bs →
      ∃ t2, Bs = done ++ t2 ∧
        List.Forall₂ (fun BB BB' => (∀ I ∈ BB, accessOf I = none) →
          BB' = if OptimizeFences then OptimizeFencesAway BB else BB) todo t2 := by
  intro todo
  induction todo with
  | nil =>
    intro done Bs h
    simp only [FencesPass.runOnBlocks, Option.some.injEq] at h
    exact ⟨[], by simp [h], List.Forall₂.nil⟩
  | cons BB rest ih =>
    intro done Bs h
    rw [FencesPass.runOnBlocks] at h
    simp only at h
    cases hp : PlaceFencesInBlock ⟨done ++ BB :: rest⟩ fuel
        (Function.mk (done ++ BB :: rest)).freshId BB with
    | none => rw [hp] at h; cases h
    | some r =>
      rw [hp] at h
      simp only at h
      obtain ⟨t2, rfl, hall⟩ := ih _ _ h
      refine ⟨(if OptimizeFences then OptimizeFencesAway r.1 else r.1) :: t2, by simp, ?_⟩
      refine List.Forall₂.cons ?_ hall
      intro hclean
      have := PlaceFencesInBlock.loop_no_access ⟨done ++ BB :: rest⟩ fuel
        (Function.mk (done ++ BB :: rest)).freshId BB 0 hclean
      unfold PlaceFencesInBlock at hp
      rw [this] at hp
      cases hp
      rfl

theorem nodup_ids_fencedFrom (F : Function) (fuel fresh : Nat) :
    ∀ (L : List Instruction) (c : Nat), (L.map (fun J => J.id)).Nodup →
      (∀ I ∈ L, I.id < fresh) →
      ((fencedFrom F fuel fresh L c).map (fun J => J.id)).Nodup ∧
        ∀ j ∈ (fencedFrom F fuel fresh L c).map (fun J => J.id),
          j ∈ L.map (fun J => J.id) ∨ fresh + c ≤ j := by
  intro L
  induction L with
  | nil => intro c _ _; simp [fencedFrom]
  | cons X rest ih =>
    intro c hnd hlt
    rw [List.map_cons, List.nodup_cons] at hnd
    obtain ⟨ih1, ih2⟩ := ih (c + if needsFence F fuel X then 1 else 0) hnd.2
      (fun I hI => hlt I (List.mem_cons_of_mem _ hI))
    have hX := hlt X (List.mem_cons_self _ _)
    have hrest : ∀ j ∈ (fencedFrom F fuel fresh rest
        (c + if needsFence F fuel X then 1 else 0)).map (fun J => J.id),
        j ≠ X.id ∧ (needsFence F fuel X = true → j ≠ fresh + c) := by
      intro j hj
      rcases ih2 j hj with h | h
      · refine ⟨fun e => hnd.1 (e ▸ h), fun _ e => ?_⟩
        obtain ⟨I, hI, rfl⟩ := List.mem_map.1 h
        have := hlt I (List.mem_cons_of_mem _ hI)
        omega
      · refine ⟨by omega, fun hn => ?_⟩
        rw [hn] at h
        simp only [if_true] at h
        omega
    have hsub : ∀ j ∈ (fencedFrom F fuel fresh rest
        (c + if needsFence F fuel X then 1 else 0)).map (fun J => J.id),
        j ∈ (X :: rest).map (fun J => J.id) ∨ fresh + c ≤ j := by
      intro j hj
      rcases ih2 j hj with h | h
      · exact Or.inl (List.mem_cons_of_mem _ h)
      · exact Or.inr (by omega)
    rw [fencedFrom, List.map_append]
    rcases fencedAccess_cases F fuel (fresh + c) X with ⟨hn, hfa⟩ | ⟨hn, -, hfa⟩ | ⟨hn, -, hfa⟩
    · rw [hfa]
      refine ⟨?_, ?_⟩
      · simp only [List.map_cons, List.map_nil, List.singleton_append, List.nodup_cons]
        exact ⟨fun h => (hrest _ h).1 rfl, ih1⟩
      · intro j hj
        simp only [List.map_cons, List.map_nil, List.singleton_append, List.mem_cons] at hj
        rcases hj with rfl | hj
        · exact Or.inl (List.mem_cons_self _ _)
        · exact hsub j hj
    · rw [hfa]
      refine ⟨?_, ?_⟩
      · simp only [List.map_cons, List.map_nil, List.cons_append, List.nil_append,
          List.nodup_cons, List.mem_cons, not_or]
        refine ⟨⟨?_, fun h => (hrest _ h).1 rfl⟩, fun h => (hrest _ h).2 hn rfl, ih1⟩
        simp only [seqCstFence]
        omega
      · intro j hj
        simp only [List.map_cons, List.map_nil, List.cons_append, List.nil_append,
          List.mem_cons] at hj
        rcases hj with rfl | rfl | hj
        · exact Or.inl (List.mem_cons_self _ _)
        · exact Or.inr (le_refl _)
        · exact hsub j hj
    · rw [hfa]
      refine ⟨?_, ?_⟩
      · simp only [List.map_cons, List.map_nil, List.cons_append, List.nil_append,
          List.nodup_cons, List.mem_cons, not_or]
        refine ⟨⟨?_, fun h => (hrest _ h).2 hn rfl⟩, fun h => (hrest _ h).1 rfl, ih1⟩
        simp only [seqCstFence]
        omega
      · intro j hj
        simp only [List.map_cons, List.map_nil, List.cons_append, List.nil_append,
          List.mem_cons] at hj
        rcases hj with rfl | rfl | hj
        · exact Or.inr (le_refl _)
        · exact Or.inl (List.mem_cons_self _ _)
        · exact hsub j hj

theorem nodup_replace_mid {A B B2 C : List Nat} {m : Nat} (h : (A ++ B ++ C).Nodup)
    (hB2 : B2.Nodup) (hsub : ∀ j ∈ B2, j ∈ B ∨ m ≤ j) (hlt : ∀ j ∈ A ++ B ++ C, j < m) :
    (A ++ B2 ++ C).Nodup := by
  rw [List.nodup_append, List.nodup_append] at h ⊢
  obtain ⟨⟨hA, hB, hAB⟩, hC, hABC⟩ := h
  refine ⟨⟨hA, hB2, ?_⟩, hC, ?_⟩
  · intro j hjA hjB
    rcases hsub j hjB with h | h
    · exact hAB hjA h
    · have := hlt j (by simp [hjA])
      omega
  · intro j hj hjC
    rcases List.mem_append.1 hj with hjA | hjB
    · exact hABC (List.mem_append_left _ hjA) hjC
    · rcases hsub j hjB with h | h
      · exact hABC (List.mem_append_right _ h) hjC
      · have := hlt j (by simp [hjC])
        omega

/-- The loop over the blocks of the fence pass returns when identities are distinct, every
block still to process ends with a terminator, and the walk from every access pointer
finishes within `fuel`. -/
theorem FencesPass.runOnBlocks_returns (OptimizeFences : Bool) (fuel : Nat) (F0 : Function)
    (hroot : ∀ I ∈ F0.insts, ∀ p ip, accessOf I = some (p, ip) →
      (provenanceRoot F0 fuel p).isSome = true) :
    ∀ (todo done : List BasicBlock), SameButFences F0 ⟨done ++ todo⟩ →
      (∀ BB ∈ todo, Terminated BB ∧ ∀ I ∈ BB, I ∈ F0.insts) →
      ∃ Bs, FencesPass.runOnBlocks OptimizeFences fuel done todo = some Bs := by
  intro todo
  induction todo with
  | nil => intro done _ _; exact ⟨done, rfl⟩
  | cons BB rest ih =>
    intro done hsame hall
    obtain ⟨hterm, hmem⟩ := hall BB (List.mem_cons_self _ _)
    have hloop := PlaceFencesInBlock.loop_eq ⟨done ++ BB :: rest⟩ fuel
      (Function.mk (done ++ BB :: rest)).freshId BB 0
      (fun I hI p ip ha => by
        rw [hsame.provenanceRoot_eq]
        exact hroot I (hmem I hI) p ip ha)
      (Terminated.no_fenced_load hterm)
    rw [FencesPass.runOnBlocks]
    simp only [PlaceFencesInBlock, hloop]
    apply ih
    · generalize hS : Function.mk (done ++ BB :: rest) = S at hsame hloop
      have hSi : ∀ I, I ∈ S.insts ↔ I ∈ done.flatten ∨ I ∈ BB ∨ I ∈ rest.flatten := by
        intro I
        subst hS
        simp [Function.insts]
      have hSids : S.ids = done.flatten.map (fun J => J.id) ++ BB.map (fun J => J.id) ++
          rest.flatten.map (fun J => J.id) := by
        subst hS
        simp [Function.ids, Function.insts]
      have hsubl : (if OptimizeFences then
            OptimizeFencesAway (fencedFrom S fuel S.freshId BB 0)
          else fencedFrom S fuel S.freshId BB 0).Sublist (fencedFrom S fuel S.freshId BB 0) := by
        split
        · exact OptimizeFencesAway.loop_sublist _ false
        · exact List.Sublist.refl _
      have hBBnd : (BB.map (fun J => J.id)).Nodup := by
        have := hsame.2.1
        rw [hSids, List.nodup_append, List.nodup_append] at this
        exact this.1.2.1
      have hBBlt : ∀ I ∈ BB, I.id < S.freshId := fun I hI =>
        Function.lt_freshId (Function.mem_ids_of_mem ((hSi I).2 (Or.inr (Or.inl hI))))
      obtain ⟨hf1, hf2⟩ := nodup_ids_fencedFrom S fuel S.freshId BB 0 hBBnd hBBlt
      refine ⟨hsame.1, ?_, fun I hf => ?_⟩
      · have : (Function.mk ((done ++ [if OptimizeFences then
              OptimizeFencesAway (fencedFrom S fuel S.freshId BB 0)
            else fencedFrom S fuel S.freshId BB 0]) ++ rest)).ids =
            done.flatten.map (fun J => J.id) ++
              (if OptimizeFences then OptimizeFencesAway (fencedFrom S fuel S.freshId BB 0)
                else fencedFrom S fuel S.freshId BB 0).map (fun J => J.id) ++
              rest.flatten.map (fun J => J.id) := by
          simp [Function.ids, Function.insts]
        rw [this]
        refine @nodup_replace_mid _ _ _ _ S.freshId (hSids ▸ hsame.2.1)
          ((hsubl.map _).nodup hf1) ?_ ?_
        · intro j hj
          rcases hf2 j ((hsubl.map _).subset hj) with h | h
          · exact Or.inl h
          · exact Or.inr (by simpa using h)
        · intro j hj
          rw [← hSids] at hj
          exact Function.lt_freshId hj
      · rw [← hsame.2.2 I hf, hSi]
        have : I ∈ (Function.mk ((done ++ [if OptimizeFences then
              OptimizeFencesAway (fencedFrom S fuel S.freshId BB 0)
            else fencedFrom S fuel S.freshId BB 0]) ++ rest)).insts ↔
            I ∈ done.flatten ∨ I ∈ (if OptimizeFences then
              OptimizeFencesAway (fencedFrom S fuel S.freshId BB 0)
            else fencedFrom S fuel S.freshId BB 0) ∨ I ∈ rest.flatten := by
          simp [Function.insts]
        rw [this]
        have hiff : I ∈ (if OptimizeFences then
              OptimizeFencesAway (fencedFrom S fuel S.freshId BB 0)
            else fencedFrom S fuel S.freshId BB 0) ↔ I ∈ BB := by
          constructor
          · intro h
            rcases mem_fencedFrom _ _ _ _ _ _ (hsubl.subset h) with h | ⟨k, rfl⟩
            · exact h
            · simp [isFence_seqCstFence] at hf
          · intro h
            have := mem_fencedFrom_of_mem S fuel S.freshId BB 0 I h
            split
            · exact mem_loop_of_not_fence this hf
            · exact this
        rw [hiff]
    · intro B hB
      exact hall B (List.mem_cons_of_mem _ hB)

theorem sampleCleanAndAccess_no_redundant :
    ∀ a f1 mid f2 rest, sampleCleanAndAccess.block 0 = a ++ f1 :: (mid ++ f2 :: rest) →
      f1.isSeqCstFence = true → f2.isSeqCstFence = true →
      ¬ ∀ x ∈ mid, x.isTransparent = true := by
  intro a f1 mid f2 rest h h1 h2
  have hc := congrArg (List.countP Instruction.isSeqCstFence) h
  have h0 : (sampleCleanAndAccess.block 0).countP Instruction.isSeqCstFence = 1 := by decide
  rw [h0] at hc
  simp only [List.countP_append, List.countP_cons, h1, h2, if_true] at hc
  omega

theorem walks_finish {F : Function} {L : List Instruction} (n : Nat)
    (h : ∀ I ∈ L,
      ((accessOf I).map (fun a => (provenanceRoot F n a.1).isSome)).getD true = true) :
    ∀ I ∈ L, ∀ p ip, accessOf I = some (p, ip) → (provenanceRoot F n p).isSome = true := by
  intro I hI p ip ha
  have := h I hI
  rw [ha] at this
  simpa using this

theorem sampleCleanAndAccess_terminated :
    ∀ BB ∈ sampleCleanAndAccess.blocks, Terminated BB := by
  intro BB hBB I h
  simp only [sampleCleanAndAccess, List.mem_cons, List.mem_singleton, List.not_mem_nil,
    or_false] at hBB
  rcases hBB with rfl | rfl <;> simp at h <;> subst h <;> rfl

/-! ## The frame of the canonicalization pass -/

theorem Shape.inserted_intToPtr_B (F : Function) (I : Instruction) (S : Shape) :
    ∀ N ∈ (S.inserted F I).1, N.isIntToPtr = true → ∃ b a i, S = .B b a i := by
  intro N hN hi
  cases S with
  | A b p q i =>
    have := ((shapeAInserted_facts _ _ _ _ _).1 N hN).2.2
    rw [hi] at this; cases this
  | B b a i => exact ⟨b, a, i, rfl⟩
  | C p q =>
    have := ((shapeCInserted_facts _ _ _ _).1 N hN).2.2
    rw [hi] at this; cases this

/-- What one execution of the loop body does when the instruction matches is a step of the
frame. -/
theorem RewriteStep.frameStep {F G : Function} {I : Instruction} {S : Shape} {es : List Nat}
    (h : RewriteStep F G I S es) : FrameStep F G := by
  refine ⟨I, S, es, h.nodupF, h.mem, h.shape, h.orphans, fun e he => h.orphan_mem he,
    fun N hN => ⟨((Shape.inserted_facts F I S).1 N hN).2, Shape.inserted_not_mem hN,
      Shape.inserted_intToPtr_B F I S N hN⟩, h.blocks, ?_⟩
  intro K hK j hj
  have hjG := h.defined K hK j hj
  obtain ⟨K2, hK2, rfl⟩ := List.mem_map.1 hjG
  rw [h.insts, mem_stepL] at hK2
  exact ⟨hK2.1, hK2.2.1⟩

theorem isFixed_false_of_isCast {N : Instruction} (h : N.isCast = true ∨ N.isGEP = true) :
    N.isFixed = false := by
  rcases h with h | h
  · unfold Instruction.isCast at h
    unfold Instruction.isFixed
    cases hkind : N.kind <;> rw [hkind] at h <;> simp at h ⊢
  · unfold Instruction.isGEP at h
    unfold Instruction.isFixed
    cases hkind : N.kind <;> rw [hkind] at h <;> simp at h ⊢

theorem isFixed_false_of_isIntToPtr {N : Instruction} (h : N.isIntToPtr = true) :
    N.isFixed = false := by
  unfold Instruction.isIntToPtr at h
  unfold Instruction.isFixed
  cases hkind : N.kind <;> rw [hkind] at h <;> simp at h ⊢

theorem isFixed_false_of_isAddOrPtrToInt {N : Instruction} (h : N.isAddOrPtrToInt = true) :
    N.isFixed = false := by
  unfold Instruction.isAddOrPtrToInt at h
  unfold Instruction.isFixed
  cases hkind : N.kind <;> rw [hkind] at h <;> simp at h ⊢

theorem isFixed_replaceUsesOfWith (old : Nat) (New : Value) (K : Instruction) :
    (K.replaceUsesOfWith old New).isFixed = K.isFixed :=
  (Instruction.SameButOperands.redirect (Instruction.SameButOperands.self K) old
    New).isFixed_eq

/-- One rewrite of a list of instructions leaves the instructions that are neither casts,
getelementptrs nor binary operators where they are, with their identity, result type and
opcode. -/
theorem stepL_fixed {ip : Nat} {news : List Instruction} (final : Value) {es : List Nat}
    (hnews : ∀ N ∈ news, N.isFixed = false) :
    ∀ (L : List Instruction), (∀ X ∈ L, X.id = ip → X.isFixed = false) →
      (∀ X ∈ L, X.id ∈ es → X.isFixed = false) →
      ((stepL ip news final es L).filter Instruction.isFixed).map
          (fun I => (I.id, I.ty, I.kind.opcode)) =
        (L.filter Instruction.isFixed).map (fun I => (I.id, I.ty, I.kind.opcode)) := by
  intro L
  induction L with
  | nil => intro _ _; rfl
  | cons X rest ih =>
    intro hip hes
    have ih' := ih (fun Y hY => hip Y (List.mem_cons_of_mem _ hY))
      (fun Y hY => hes Y (List.mem_cons_of_mem _ hY))
    rw [show X :: rest = [X] ++ rest from rfl, stepL_append, List.filter_append,
      List.map_append, ih', List.filter_append, List.map_append]
    congr 1
    by_cases hX : X.id = ip
    · have hXf := hip X (List.mem_cons_self _ _) hX
      have h1 : (stepL ip news final es [X]).filter Instruction.isFixed = [] := by
        rw [List.filter_eq_nil_iff]
        intro K hK
        rw [mem_stepL] at hK
        obtain ⟨-, -, K0, hK0, rfl⟩ := hK
        rw [isFixed_replaceUsesOfWith]
        rcases hK0 with hK0 | ⟨hK0, -⟩
        · rw [List.mem_singleton.1 hK0, hXf]; simp
        · rw [hnews K0 hK0]; simp
      rw [h1]
      simp [hXf]
    · by_cases hXe : X.id ∈ es
      · have hXf := hes X (List.mem_cons_self _ _) hXe
        have h1 : (stepL ip news final es [X]).filter Instruction.isFixed = [] := by
          rw [List.filter_eq_nil_iff]
          intro K hK
          rw [mem_stepL] at hK
          obtain ⟨-, hne, K0, hK0, rfl⟩ := hK
          rcases hK0 with hK0 | ⟨-, hip'⟩
          · rw [List.mem_singleton.1 hK0] at hne
            exact absurd hXe hne
          · simp at hip'
            exact absurd hip'.symm hX
        rw [h1]
        simp [hXf]
      · have h1 : stepL ip news final es [X] = [X.replaceUsesOfWith ip final] := by
          simp [stepL, insertAllL, rauwL, eraseAllL, hX, hXe, Instruction.replaceUsesOfWith]
        rw [h1]
        simp only [List.filter_cons, List.filter_nil, isFixed_replaceUsesOfWith]
        split
        · simp [Instruction.replaceUsesOfWith, InstKind.opcode_mapOperands]
        · rfl

/-- One execution of the loop body is no change or a step of the frame, and leaves the
instructions that are neither casts, getelementptrs nor binary operators in every block. -/
theorem PeepholeOptimizationPass.visit_frameStep {H : Function} {O : List Instruction}
    (hO : Ordered H O) {I : Instruction} (hI : I ∈ H.insts) {G : Function}
    (hG : PeepholeOptimizationPass.visit H I = some G) :
    (G = H ∨ FrameStep H G) ∧
      ∀ bi, ((G.block bi).filter Instruction.isFixed).map
          (fun I => (I.id, I.ty, I.kind.opcode)) =
        ((H.block bi).filter Instruction.isFixed).map
          (fun I => (I.id, I.ty, I.kind.opcode)) := by
  cases hm : matchShape H I with
  | none =>
    rw [PeepholeOptimizationPass.visit_noop hm] at hG
    cases hG
    exact ⟨Or.inl rfl, fun _ => rfl⟩
  | some S =>
    obtain ⟨es, h⟩ := RewriteStep.of_visit hO hI hm hG
    refine ⟨Or.inr h.frameStep, fun bi => ?_⟩
    rw [h.block bi]
    refine stepL_fixed _ (fun N hN =>
      isFixed_false_of_isCast ((Shape.inserted_facts H I S).1 N hN).2) _ ?_ ?_
    · intro X hX hid
      have := eq_of_mem_of_id_eq h.nodupF (H.block_subset_insts bi X hX) hI hid
      rw [this]
      obtain ⟨V, VI, hk, -, -⟩ := matchShape_eq_some hm
      exact isFixed_false_of_isIntToPtr (isIntToPtr_iff.2 ⟨V, hk⟩)
    · intro X hX hid
      obtain ⟨J, hJ, hJid, hJk⟩ := h.orphan_mem hid
      have := eq_of_mem_of_id_eq h.nodupF (H.block_subset_insts bi X hX) hJ hJid.symm
      rw [this]
      exact isFixed_false_of_isAddOrPtrToInt hJk

/-- The frame is tight: from a function in which no instruction matches a shape no step
leads anywhere, so the only function it reaches is itself. -/
theorem FrameStep.unmatched {F G : Function} (h : Relation.ReflTransGen FrameStep F G)
    (hno : ∀ I ∈ F.insts, matchShape F I = none) : G = F := by
  rcases Relation.ReflTransGen.cases_head h with h | ⟨H, ⟨I, S, es, -, hI, hm, -⟩, -⟩
  · exact h.symm
  · rw [hno I hI] at hm
    cases hm

/-- C14.  For a well-formed function the canonicalization pass returns a function that the
input reaches by steps of the frame: each step takes an `inttoptr` that matches a shape in
the function as it is then, removes it and, of the addition and the `ptrtoint` of the match,
those left without a use, puts the cast and getelementptr instructions of the rewrite (an
`inttoptr` among them only in shape B) immediately before its place, sends its uses to the
value that replaces it, and leaves every other instruction where it is.  The number of
blocks is the same, and in every block the instructions that are neither casts,
getelementptrs nor binary operators (loads, stores, fences, terminators, ...) are the same
sequence, by identity, result type and opcode. -/
theorem PeepholeOptimizationPass_frame (F : Function) (hw : WellFormed F) :
    ∃ G, PeepholeOptimizationPass.runOnFunction F = some G ∧
      Relation.ReflTransGen FrameStep F G ∧
      G.blocks.length = F.blocks.length ∧
      ∀ bi, ((F.block bi).filter Instruction.isFixed).map
          (fun I => (I.id, I.ty, I.kind.opcode)) =
        ((G.block bi).filter Instruction.isFixed).map
          (fun I => (I.id, I.ty, I.kind.opcode)) := by
  obtain ⟨G, hG, -, ⟨hQ1, hQ2⟩, hlen⟩ := PeepholeOptimizationPass.runOnBlocks_inv
    (fun H => Relation.ReflTransGen FrameStep F H ∧
      ∀ bi, ((F.block bi).filter Instruction.isFixed).map
          (fun I => (I.id, I.ty, I.kind.opcode)) =
        ((H.block bi).filter Instruction.isFixed).map
          (fun I => (I.id, I.ty, I.kind.opcode)))
    (fun H O I G hO hI hG hQ => by
      obtain ⟨h1, h2⟩ := PeepholeOptimizationPass.visit_frameStep hO hI hG
      refine ⟨?_, fun bi => (hQ.2 bi).trans (h2 bi).symm⟩
      rcases h1 with rfl | h1
      · exact hQ.1
      · exact Relation.ReflTransGen.tail hQ.1 h1)
    (List.range F.blocks.length) F hw ⟨Relation.ReflTransGen.refl, fun _ => rfl⟩
  exact ⟨G, hG, hQ1, hlen, hQ2⟩

/-- Witness for C14 on `sampleShapeA`. -/
theorem PeepholeOptimizationPass_frame_witness :
    WellFormed sampleShapeA ∧
    ∃ G, PeepholeOptimizationPass.runOnFunction sampleShapeA = some G ∧
      Relation.ReflTransGen FrameStep sampleShapeA G ∧
      G.blocks.length = sampleShapeA.blocks.length ∧
      ∀ bi, ((sampleShapeA.block bi).filter Instruction.isFixed).map
          (fun I => (I.id, I.ty, I.kind.opcode)) =
        ((G.block bi).filter Instruction.isFixed).map
          (fun I => (I.id, I.ty, I.kind.opcode)) :=
  ⟨WellFormedInLayout.wellFormed (by decide),
    PeepholeOptimizationPass_frame sampleShapeA (WellFormedInLayout.wellFormed (by decide))⟩


/-! ## Inputs outside the conditions of the fixpoint -/

/-- The statement of C19 as written fails: definitions before uses inside each block are
not enough.  In `sampleDeadCross` identities are distinct, every operand is defined, the
types are those the verifier asks for, and in every block each operand defined in the block
precedes its use; the scan rewrites `%4` by shape A, which leaves the addition `%3` and then
the `ptrtoint` `%2` without a use, and erases `%2`, the instruction the saved iterator rests
on: the pass has no defined result. -/
theorem PeepholeOptimizationPass_fixpoint_counterexample :
    (∀ BB ∈ sampleDeadCross.blocks, defsBeforeUses BB = true) ∧
    sampleDeadCross.ids.Nodup ∧
    (∀ I ∈ sampleDeadCross.insts, ∀ j ∈ I.opIds, j ∈ sampleDeadCross.ids) ∧
    WellTyped sampleDeadCross ∧
    matchShape sampleDeadCross ⟨4, I32PtrTy, .cast .IntToPtr (.inst 3)⟩ =
      some (.A ⟨3, .int 64, .binop .Add (.inst 2) (.const (.int (.int 64) 16))⟩
        ⟨2, .int 64, .cast .PtrToInt (.inst 1)⟩ (.inst 1) (.const (.int (.int 64) 16))) ∧
    PeepholeOptimizationPass.visit sampleDeadCross ⟨4, I32PtrTy, .cast .IntToPtr (.inst 3)⟩ =
      some ⟨[
        [ ⟨1, BytePtrTy, .cast .IntToPtr (.arg 0 (.int 64))⟩,
          ⟨8, .void, .terminator false []⟩ ],
        [ ⟨11, BytePtrTy, .gep (.inst 1) [.const (.int (.int 64) 16)]⟩,
          ⟨12, I32PtrTy, .cast .BitCast (.inst 11)⟩,
          ⟨9, .void, .terminator false []⟩ ],
        [ ⟨10, .void, .terminator false []⟩ ]]⟩ ∧
    PeepholeOptimizationPass.runOnFunction sampleDeadCross = none := by
  decide

/-- The typing cannot be left out of the fixpoint theorem in this model, which carries
types without enforcing them: `sampleIllTyped` has its definitions before its uses in the
order `%2, %3, %4, %5`, but the scan passes `%5` while its source `%4` is an `inttoptr`, then
replaces `%4` by `%2` (shape C, same type), and `%5 = inttoptr %2` is left matching shape
C. -/
theorem fixpoint_needs_types :
    Ordered sampleIllTyped
      [ ⟨2, .int 64, .cast .PtrToInt (.arg 0 BytePtrTy)⟩,
        ⟨3, .int 64, .cast .PtrToInt (.inst 2)⟩,
        ⟨4, .int 64, .cast .IntToPtr (.inst 3)⟩,
        ⟨5, BytePtrTy, .cast .IntToPtr (.inst 4)⟩,
        ⟨6, .void, .terminator false []⟩,
        ⟨7, .void, .terminator false []⟩ ] ∧
    ¬ WellTyped sampleIllTyped ∧
    (PeepholeOptimizationPass.runOnFunction sampleIllTyped).map
      (fun G => (G.find 5, (G.find 5).map (fun I => (matchShape G I).isSome))) =
      some (some ⟨5, BytePtrTy, .cast .IntToPtr (.inst 2)⟩, some true) := by
  refine ⟨?_, by decide, by decide⟩
  unfold Ordered
  decide


/-! ## Blocks beside the rewrites -/

theorem map_eq_self {f : Value → Value} :
    ∀ {l : List Value}, (∀ v ∈ l, f v = v) → l.map f = l := by
  intro l
  induction l with
  | nil => intro _; rfl
  | cons a t ih =>
    intro h
    rw [List.map_cons, h a (List.mem_cons_self _ _),
      ih (fun v hv => h v (List.mem_cons_of_mem _ hv))]

theorem mapOperands_eq_self {f : Value → Value} (k : InstKind)
    (h : ∀ v ∈ k.operands, f v = v) : k.mapOperands f = k := by
  cases k with
  | alloca n => simp [InstKind.mapOperands, h n (by simp [InstKind.operands])]
  | load p => simp [InstKind.mapOperands, h p (by simp [InstKind.operands])]
  | store v p =>
    simp [InstKind.mapOperands, h v (by simp [InstKind.operands]),
      h p (by simp [InstKind.operands])]
  | fence o => rfl
  | gep p idx =>
    have h1 : idx.map f = idx := map_eq_self (fun v hv => h v (by
      simp only [InstKind.operands, List.mem_cons]
      exact Or.inr hv))
    simp only [InstKind.mapOperands, h p (by simp [InstKind.operands]), h1]
  | cast op s => simp [InstKind.mapOperands, h s (by simp [InstKind.operands])]
  | binop op l r =>
    simp [InstKind.mapOperands, h l (by simp [InstKind.operands]),
      h r (by simp [InstKind.operands])]
  | phi vs =>
    simp only [InstKind.mapOperands, map_eq_self (fun v hv => h v (by
      simpa [InstKind.operands] using hv))]
  | terminator m vs =>
    simp only [InstKind.mapOperands, map_eq_self (fun v hv => h v (by
      simpa [InstKind.operands] using hv))]
  | other m vs =>
    simp only [InstKind.mapOperands, map_eq_self (fun v hv => h v (by
      simpa [InstKind.operands] using hv))]

theorem replaceUsesOfWith_of_not_mem {old : Nat} {New : Value} {X : Instruction}
    (h : old ∉ X.opIds) : X.replaceUsesOfWith old New = X := by
  have hv : ∀ v ∈ X.kind.operands, (if v = .inst old then New else v) = v := by
    intro v hv
    by_cases e : v = .inst old
    · subst e
      exact absurd (mem_opIds.2 hv) h
    · rw [if_neg e]
  unfold Instruction.replaceUsesOfWith
  rw [mapOperands_eq_self _ hv]

/-- A rewrite leaves a list of instructions as it is when the list holds neither the
rewritten instruction, nor a use of it, nor an erased instruction. -/
theorem stepL_id {ip : Nat} {news : List Instruction} {final : Value} {es : List Nat}
    {L : List Instruction} (hip : ∀ X ∈ L, X.id ≠ ip) (huse : ∀ X ∈ L, ip ∉ X.opIds)
    (hes : ∀ X ∈ L, X.id ∉ es) : stepL ip news final es L = L := by
  unfold stepL
  rw [insertAllL_of_not_mem ip news L (by
    intro h
    obtain ⟨X, hX, e⟩ := List.mem_map.1 h
    exact hip X hX e)]
  have h1 : rauwL ip final L = L := by
    unfold rauwL
    conv_rhs => rw [← List.map_id L]
    exact List.map_congr_left (fun X hX => replaceUsesOfWith_of_not_mem (huse X hX))
  rw [h1]
  unfold eraseAllL
  rw [List.filter_eq_self]
  intro X hX
  have : X.id ∉ ip :: es := by
    simp only [List.mem_cons, not_or]
    exact ⟨hip X hX, hes X hX⟩
  simpa using this

/-- One execution of the loop body leaves an untouched block of the input as it is; what
makes the step go through is that the candidates of the current function are candidates of
the input, with the same addition and `ptrtoint`. -/
theorem PeepholeOptimizationPass.visit_untouched {F : Function} {bi : Nat}
    (hu : F.Untouched bi) {H : Function} {O : List Instruction} (hO : Ordered H O)
    {I : Instruction} (hI : I ∈ H.insts) {G : Function}
    (hG : PeepholeOptimizationPass.visit H I = some G)
    (hQ : WellTyped H ∧
      (∀ J' ∈ H.insts, ∀ S' ∈ matchShape H J', ∃ J ∈ F.insts, ∃ S ∈ matchShape F J,
        J.id = J'.id ∧ S.orphans = S'.orphans) ∧
      H.block bi = F.block bi) :
    WellTyped G ∧
      (∀ J' ∈ G.insts, ∀ S' ∈ matchShape G J', ∃ J ∈ F.insts, ∃ S ∈ matchShape F J,
        J.id = J'.id ∧ S.orphans = S'.orphans) ∧
      G.block bi = F.block bi := by
  obtain ⟨ht, hc, hb⟩ := hQ
  cases hm : matchShape H I with
  | none =>
    rw [PeepholeOptimizationPass.visit_noop hm] at hG
    cases hG
    exact ⟨ht, hc, hb⟩
  | some S1 =>
    obtain ⟨es, h⟩ := RewriteStep.of_visit hO hI hm hG
    refine ⟨h.keeps_types ht, fun J2 hJ2 S2 hS2 => ?_, ?_⟩
    · obtain ⟨K0, rfl, hK0 | hK0⟩ := h.mem_cases hJ2
      · obtain ⟨S0, hS0, hor⟩ := h.matchShape_reflect hO ht hK0.1 (Option.mem_def.1 hS2)
        obtain ⟨J, hJ, S, hS, hid, hor2⟩ := hc K0 hK0.1 S0 (Option.mem_def.2 hS0)
        exact ⟨J, hJ, S, hS, hid, hor2.trans hor⟩
      · rw [Option.mem_def, h.matchShape_new hK0] at hS2
        cases hS2
    · obtain ⟨J, hJ, S, hS, hid, hor⟩ := hc I hI S1 (Option.mem_def.2 hm)
      rw [h.block bi, ← hb]
      refine stepL_id ?_ ?_ ?_
      · intro X hX
        rw [← hid]
        exact (hu X (hb ▸ hX) J hJ S hS).1
      · intro X hX
        rw [← hid]
        exact (hu X (hb ▸ hX) J hJ S hS).2.2
      · intro X hX he
        have := h.orphans he
        rw [← hor] at this
        exact (hu X (hb ▸ hX) J hJ S hS).2.1 this

/-- The canonicalization pass leaves an untouched block of a well-formed, well-typed
function as it is, whatever it does to the other blocks. -/
theorem PeepholeOptimizationPass.runOnFunction_untouched (F : Function) (hw : WellFormed F)
    (ht : WellTyped F) (bi : Nat) (hu : F.Untouched bi) :
    ∃ G, PeepholeOptimizationPass.runOnFunction F = some G ∧ G.block bi = F.block bi := by
  obtain ⟨G, hG, -, ⟨-, -, hb⟩, -⟩ := PeepholeOptimizationPass.runOnBlocks_inv
    (fun H => WellTyped H ∧
      (∀ J' ∈ H.insts, ∀ S' ∈ matchShape H J', ∃ J ∈ F.insts, ∃ S ∈ matchShape F J,
        J.id = J'.id ∧ S.orphans = S'.orphans) ∧
      H.block bi = F.block bi)
    (fun H O I G hO hI hG hQ => PeepholeOptimizationPass.visit_untouched hu hO hI hG hQ)
    (List.range F.blocks.length) F hw
    ⟨ht, fun J hJ S hS => ⟨J, hJ, S, hS, rfl, rfl⟩, rfl⟩
  exact ⟨G, hG, hb⟩


/-! ## No-op on unmatched input -/

/-- C10, block by block.  Fence pass: whenever it returns, the number of blocks is the same
and every block that holds no load and no store is, whatever the other blocks hold, the
block itself when `OptimizeFences` is disabled and the block with `OptimizeFencesAway`
applied when it is enabled, which is the block itself when the block has no two
sequentially-consistent fences separated only by instructions that are neither fences nor
may read or write memory.  The pass returns when identities are distinct, every block ends
with a terminator and the walk from every access pointer finishes within `fuel`; the
placement loop returns on a block without load and store in any function; and the pass
returns on a function all of whose blocks are of this sort.  Canonicalization pass: a
function none of whose instructions is an `inttoptr` matching shape A, B or C is returned
unchanged; and in a well-formed, well-typed function a block none of whose instructions is
such an `inttoptr`, the addition or `ptrtoint` of its match, or a user of it, is returned
unchanged, whatever the other blocks hold. -/
theorem passes_noop_on_unmatched :
    (∀ (OptimizeFences : Bool) (fuel : Nat) (F G : Function),
      FencesPass.runOnFunction OptimizeFences fuel F = some G →
      G.blocks.length = F.blocks.length ∧
      ∀ bi, (∀ I ∈ F.block bi, accessOf I = none) →
        G.block bi = (if OptimizeFences then OptimizeFencesAway (F.block bi) else F.block bi) ∧
        ((∀ a f1 mid f2 rest, F.block bi = a ++ f1 :: (mid ++ f2 :: rest) →
            f1.isSeqCstFence = true → f2.isSeqCstFence = true →
            ¬ ∀ x ∈ mid, x.isTransparent = true) →
          G.block bi = F.block bi)) ∧
    (∀ (OptimizeFences : Bool) (fuel : Nat) (F : Function), F.ids.Nodup →
      (∀ BB ∈ F.blocks, Terminated BB) →
      (∀ I ∈ F.insts, ∀ p ip, accessOf I = some (p, ip) →
        (provenanceRoot F fuel p).isSome = true) →
      ∃ G, FencesPass.runOnFunction OptimizeFences fuel F = some G) ∧
    (∀ (F : Function) (fuel fresh : Nat) (BB : BasicBlock),
      (∀ I ∈ BB, accessOf I = none) → PlaceFencesInBlock F fuel fresh BB = some (BB, 0)) ∧
    (∀ F : Function, (∀ BB ∈ F.blocks, ∀ I ∈ BB, accessOf I = none) →
      (∀ fuel, FencesPass.runOnFunction false fuel F = some F) ∧
      (∀ fuel, FencesPass.runOnFunction true fuel F =
        some ⟨F.blocks.map OptimizeFencesAway⟩) ∧
      ((∀ BB ∈ F.blocks, ∀ a f1 mid f2 rest, BB = a ++ f1 :: (mid ++ f2 :: rest) →
          f1.isSeqCstFence = true → f2.isSeqCstFence = true →
          ¬ ∀ x ∈ mid, x.isTransparent = true) →
        ∀ fuel, FencesPass.runOnFunction true fuel F = some F)) ∧
    (∀ F : Function, (∀ I ∈ F.insts, matchShape F I = none) →
      PeepholeOptimizationPass.runOnFunction F = some F) ∧
    (∀ (F : Function) (bi : Nat), WellFormed F → WellTyped F → F.Untouched bi →
      ∃ G, PeepholeOptimizationPass.runOnFunction F = some G ∧
        G.block bi = F.block bi) := by
  refine ⟨?_, ?_, ?_, ?_, ?_, ?_⟩
  · intro OptimizeFences fuel F G h
    have hblocks : List.Forall₂ (fun BB BB' => (∀ I ∈ BB, accessOf I = none) →
        BB' = if OptimizeFences then OptimizeFencesAway BB else BB) F.blocks G.blocks := by
      unfold FencesPass.runOnFunction at h
      split at h
      · rename_i hdecl
        simp only [Option.some.injEq] at h
        subst h
        have : F.blocks = [] := by simpa [Function.isDeclaration] using hdecl
        rw [this]
        exact List.Forall₂.nil
      · simp only [Option.map_eq_some'] at h
        obtain ⟨Bs, hBs, rfl⟩ := h
        obtain ⟨t2, ht2, hall⟩ := FencesPass.runOnBlocks_clean OptimizeFences fuel F.blocks [] Bs hBs
        simp only [List.nil_append] at ht2
        subst ht2
        exact hall
    refine ⟨hblocks.length_eq.symm, fun bi hclean => ?_⟩
    have hb : G.block bi =
        if OptimizeFences then OptimizeFencesAway (F.block bi) else F.block bi :=
      forall₂_getD hblocks (fun _ => by cases OptimizeFences <;> rfl) bi hclean
    refine ⟨hb, fun hno => ?_⟩
    rw [hb]
    split
    · exact OptimizeFencesAway.loop_eq_self_of_no_redundant _ false (fun hb => by cases hb) hno
    · rfl
  · intro OptimizeFences fuel F hnd hterm hroot
    unfold FencesPass.runOnFunction
    split
    · exact ⟨F, rfl⟩
    · obtain ⟨Bs, hBs⟩ := FencesPass.runOnBlocks_returns OptimizeFences fuel F hroot F.blocks []
        ⟨hnd, hnd, fun _ _ => Iff.rfl⟩
        (fun BB hBB => ⟨hterm BB hBB, fun I hI => List.mem_flatten.2 ⟨BB, hBB, hI⟩⟩)
      exact ⟨⟨Bs⟩, by rw [hBs]; rfl⟩
  · intro F fuel fresh BB h
    exact PlaceFencesInBlock.loop_no_access F fuel fresh BB 0 h
  · intro F hacc
    have htrue : ∀ fuel, FencesPass.runOnFunction true fuel F =
        some ⟨F.blocks.map OptimizeFencesAway⟩ := by
      intro fuel
      unfold FencesPass.runOnFunction
      split
      · rename_i hd
        have : F.blocks = [] := by simpa [Function.isDeclaration] using hd
        obtain ⟨blocks⟩ := F
        simp only at this
        subst this
        rfl
      · rw [FencesPass.runOnBlocks_no_access true fuel F.blocks [] hacc]
        simp
    refine ⟨?_, htrue, ?_⟩
    · intro fuel
      unfold FencesPass.runOnFunction
      split
      · rfl
      · rw [FencesPass.runOnBlocks_no_access false fuel F.blocks [] hacc]
        simp
    · intro hno fuel
      rw [htrue fuel]
      have : F.blocks.map OptimizeFencesAway = F.blocks := by
        conv_rhs => rw [← List.map_id F.blocks]
        apply List.map_congr_left
        intro BB hBB
        exact OptimizeFencesAway.loop_eq_self_of_no_redundant BB false (fun hb => by cases hb)
          (hno BB hBB)
      rw [this]
  · intro F hshape
    exact PeepholeOptimizationPass.runOnBlocks_noop hshape _
  · intro F bi hw ht hu
    exact PeepholeOptimizationPass.runOnFunction_untouched F hw ht bi hu

/-- Witness for C10: the fence pass on `sampleCleanAndAccess`, whose second block gets its
fences while the first is left as it is, the placement loop on `sampleWeakerBetween`, both
passes on the function made of `sampleWeakerBetween`, and the canonicalization pass on
`sampleUntouchedBeside`, whose first block is rewritten while the second is left as it
is. -/
theorem passes_noop_on_unmatched_witness :
    (FencesPass.runOnFunction true 1 sampleCleanAndAccess = some ⟨[
        [ seqCstFence 1,
          ⟨2, .int 64, .binop .Add (.arg 1 (.int 64)) (.const (.int (.int 64) 8))⟩,
          ⟨3, .void, .fence .Release⟩,
          ⟨4, .void, .terminator false []⟩ ],
        [ ⟨5, .int 32, .load (.arg 0 I32PtrTy)⟩,
          seqCstFence 8,
          ⟨6, .void, .store (.inst 5) (.arg 0 I32PtrTy)⟩,
          ⟨7, .void, .terminator false []⟩ ]]⟩ ∧
      (∀ I ∈ sampleCleanAndAccess.block 0, accessOf I = none) ∧
      ∀ G, FencesPass.runOnFunction true 1 sampleCleanAndAccess = some G →
        G.blocks.length = sampleCleanAndAccess.blocks.length ∧
          G.block 0 = sampleCleanAndAccess.block 0) ∧
    (sampleCleanAndAccess.ids.Nodup ∧
      ∃ G, FencesPass.runOnFunction true 1 sampleCleanAndAccess = some G) ∧
    PlaceFencesInBlock sampleCleanAndAccess 0 8 sampleWeakerBetween =
      some (sampleWeakerBetween, 0) ∧
    (∀ fuel, FencesPass.runOnFunction false fuel ⟨[sampleWeakerBetween]⟩ =
      some ⟨[sampleWeakerBetween]⟩) ∧
    PeepholeOptimizationPass.runOnFunction ⟨[sampleWeakerBetween]⟩ =
      some ⟨[sampleWeakerBetween]⟩ ∧
    (WellFormed sampleUntouchedBeside ∧ WellTyped sampleUntouchedBeside ∧
      sampleUntouchedBeside.Untouched 1 ∧
      PeepholeOptimizationPass.runOnFunction sampleUntouchedBeside = some ⟨[
        [ ⟨1, BytePtrTy, .cast .IntToPtr (.arg 0 (.int 64))⟩,
          ⟨9, I32PtrTy, .cast .BitCast (.inst 1)⟩,
          ⟨4, .int 32, .load (.inst 9)⟩,
          ⟨5, .void, .terminator false []⟩ ],
        [ ⟨6, BytePtrTy, .gep (.inst 1) [.const (.int (.int 64) 4)]⟩,
          ⟨7, .int 64, .binop .Add (.arg 1 (.int 64)) (.const (.int (.int 64) 8))⟩,
          ⟨8, .void, .terminator false [.inst 6]⟩ ]]⟩ ∧
      ∃ G, PeepholeOptimizationPass.runOnFunction sampleUntouchedBeside = some G ∧
        G.block 1 = sampleUntouchedBeside.block 1) :=
  ⟨⟨by decide, by decide, fun G hG =>
      ⟨(passes_noop_on_unmatched.1 true 1 sampleCleanAndAccess G hG).1,
        ((passes_noop_on_unmatched.1 true 1 sampleCleanAndAccess G hG).2 0 (by decide)).2
          sampleCleanAndAccess_no_redundant⟩⟩,
    ⟨by decide, passes_noop_on_unmatched.2.1 true 1 sampleCleanAndAccess (by decide)
      sampleCleanAndAccess_terminated (walks_finish 1 (by decide))⟩,
    passes_noop_on_unmatched.2.2.1 sampleCleanAndAccess 0 8 sampleWeakerBetween (by decide),
    (passes_noop_on_unmatched.2.2.2.1 ⟨[sampleWeakerBetween]⟩ (by decide)).1,
    passes_noop_on_unmatched.2.2.2.2.1 ⟨[sampleWeakerBetween]⟩ (by decide),
    ⟨WellFormedInLayout.wellFormed (by decide), by decide, by decide, by decide,
      passes_noop_on_unmatched.2.2.2.2.2 sampleUntouchedBeside 1
        (WellFormedInLayout.wellFormed (by decide)) (by decide) (by decide)⟩⟩

/-- Counterexamples to C10 as stated.  A block with no load, no store and no `inttoptr`, but
with two sequentially-consistent fences around an addition, loses the second fence in the
fence pass when `OptimizeFences` is enabled.  The first block of `sampleOrphanAcross` holds
no load, no store and no `inttoptr` matching a shape, but the canonicalization pass rewrites
the `inttoptr` `%3` of the second block by shape C and then erases its `ptrtoint` `%2`, left
without a use, from the first block.  The second block of `sampleUserAcross` holds no load,
no store and no `inttoptr`, but its getelementptr uses the `inttoptr` `%3` of the first
block, and the rewrite of `%3` sends this use to the new cast.  And the first block of
`sampleDeadCross` holds no load, no store and no `inttoptr` matching a shape, but the
canonicalization pass has no defined result on the function: the rewrite of `%4` erases the
instruction the saved iterator rests on. -/
theorem passes_noop_on_unmatched_counterexample :
    ((∀ BB ∈ (Function.mk [sampleTwoFences]).blocks, ∀ I ∈ BB,
        accessOf I = none ∧ matchShape ⟨[sampleTwoFences]⟩ I = none) ∧
      FencesPass.runOnFunction true 0 ⟨[sampleTwoFences]⟩ =
        some ⟨[[ seqCstFence 1,
                 ⟨2, .int 64, .binop .Add (.arg 0 (.int 64)) (.const (.int (.int 64) 8))⟩,
                 ⟨4, .void, .terminator false []⟩ ]]⟩ ∧
      FencesPass.runOnFunction true 0 ⟨[sampleTwoFences]⟩ ≠ some ⟨[sampleTwoFences]⟩) ∧
    (WellFormedInLayout sampleOrphanAcross ∧ WellTyped sampleOrphanAcross ∧
      (∀ I ∈ sampleOrphanAcross.block 0,
        accessOf I = none ∧ matchShape sampleOrphanAcross I = none) ∧
      PeepholeOptimizationPass.runOnFunction sampleOrphanAcross = some ⟨[
        [ ⟨1, BytePtrTy, .cast .IntToPtr (.arg 0 (.int 64))⟩,
          ⟨6, .void, .terminator false []⟩ ],
        [ ⟨7, I32PtrTy, .cast .BitCast (.inst 1)⟩,
          ⟨4, .int 32, .load (.inst 7)⟩,
          ⟨5, .void, .terminator false [.inst 4]⟩ ]]⟩) ∧
    (WellFormedInLayout sampleUserAcross ∧ WellTyped sampleUserAcross ∧
      (∀ I ∈ sampleUserAcross.block 1,
        accessOf I = none ∧ matchShape sampleUserAcross I = none) ∧
      PeepholeOptimizationPass.runOnFunction sampleUserAcross = some ⟨[
        [ ⟨1, BytePtrTy, .cast .IntToPtr (.arg 0 (.int 64))⟩,
          ⟨7, I32PtrTy, .cast .BitCast (.inst 1)⟩,
          ⟨5, .void, .terminator false []⟩ ],
        [ ⟨4, I32PtrTy, .gep (.inst 7) [.const (.int (.int 64) 4)]⟩,
          ⟨6, .void, .terminator false [.inst 4]⟩ ]]⟩) ∧
    ((∀ BB ∈ sampleDeadCross.blocks, defsBeforeUses BB = true) ∧
      WellTyped sampleDeadCross ∧
      (∀ I ∈ sampleDeadCross.block 0,
        accessOf I = none ∧ matchShape sampleDeadCross I = none) ∧
      sampleDeadCross.Untouched 0 ∧
      PeepholeOptimizationPass.runOnFunction sampleDeadCross = none) := by
  decide


/-- The typing cannot be left out of the block-by-block statement either, in this model:
in `sampleIllTypedBeside` the third block is untouched, but the rewrite of `%4` by shape C
puts the `ptrtoint` `%2` in its place, which makes `%5 = inttoptr %2` match shape C when the
scan reaches it, and the rewrite of `%5` sends the use in the third block to the
argument. -/
theorem untouched_needs_types :
    WellFormedInLayout sampleIllTypedBeside ∧ ¬ WellTyped sampleIllTypedBeside ∧
    sampleIllTypedBeside.Untouched 2 ∧
    PeepholeOptimizationPass.runOnFunction sampleIllTypedBeside = some ⟨[
      [ ⟨7, .void, .terminator false []⟩ ],
      [ ⟨8, .void, .terminator false []⟩ ],
      [ ⟨6, BytePtrTy, .gep (.arg 0 BytePtrTy) [.const (.int (.int 64) 4)]⟩,
        ⟨9, .void, .terminator false [.inst 6]⟩ ]]⟩ := by
  decide

end MCToll

